import Mathlib

/-!
Verification development for the highlightnow range-highlighting engine.

The DOM fragment manipulated by `src/highlighter.ts` and `src/storage.ts` is
embedded shallowly: a document is a forest of nodes (elements, text nodes and
comment nodes), each carrying a unique numeric identity so that node identity
survives mutation, exactly as live DOM node references do.  The document node
itself is not a `DNode`; it is the implicit root of the forest and is referred
to by the reserved id `0` and the empty position `[]`.

Positions (`List Nat`) are paths of child indices from the document node.
All mutation primitives (`range.extractContents`, `range.insertNode`,
`range.surroundContents`, `splitText`, `replaceChild`, `normalize`) follow the
WHATWG DOM algorithms that the source relies on; element attributes that the
source reads or writes (`className`, `style.backgroundColor`,
`data-highlight-id`) are carried on element nodes.  Element tags are stored in
their canonical lower-case form (`createElement` lower-cases, and `getXPath`
lower-cases `tagName` before emitting a step).
-/

namespace HLN

inductive DNode : Type where
  | elem (id : Nat) (tag : String) (cls : String) (bg : String)
      (dataId : Option String) (children : List DNode)
  | text (id : Nat) (data : String)
  | comment (id : Nat) (data : String)

abbrev Forest := List DNode

def DNode.nid : DNode → Nat
  | .elem i _ _ _ _ _ => i
  | .text i _ => i
  | .comment i _ => i

def DNode.childList : DNode → Forest
  | .elem _ _ _ _ _ cs => cs
  | _ => []

def DNode.withChildList : DNode → Forest → DNode
  | .elem i t c b d _, cs => .elem i t c b d cs
  | n, _ => n

def DNode.isText : DNode → Bool
  | .text _ _ => true
  | _ => false

def DNode.isElem : DNode → Bool
  | .elem _ _ _ _ _ _ => true
  | _ => false

def DNode.isCharData : DNode → Bool
  | .text _ _ => true
  | .comment _ _ => true
  | _ => false

def DNode.charData : DNode → String
  | .text _ d => d
  | .comment _ d => d
  | _ => ""

/-- The DOM length of a node: number of characters for character data,
number of children for an element. -/
def DNode.domLen : DNode → Nat
  | .text _ d => d.length
  | .comment _ d => d.length
  | .elem _ _ _ _ _ cs => cs.length

mutual

def sizeN : DNode → Nat
  | .elem _ _ _ _ _ cs => 1 + sizeF cs
  | .text _ _ => 1
  | .comment _ _ => 1

def sizeF : Forest → Nat
  | [] => 0
  | n :: rest => sizeN n + sizeF rest

end

mutual

/-- All node ids in a subtree, in document (pre)order. -/
def idsN : DNode → List Nat
  | .elem i _ _ _ _ cs => i :: idsF cs
  | .text i _ => [i]
  | .comment i _ => [i]

def idsF : Forest → List Nat
  | [] => []
  | n :: rest => idsN n ++ idsF rest

end

mutual

/-- Concatenated text content of a subtree (`Node.textContent` for elements and
text nodes; comment data is not part of an element's text content). -/
def textOfN : DNode → String
  | .elem _ _ _ _ _ cs => textOfF cs
  | .text _ d => d
  | .comment _ _ => ""

def textOfF : Forest → String
  | [] => ""
  | n :: rest => textOfN n ++ textOfF rest

end

/-- Update the `i`-th entry of a list in place. -/
def updIdx : List α → Nat → (α → α) → List α
  | [], _, _ => []
  | a :: l, 0, g => g a :: l
  | a :: l, n + 1, g => a :: updIdx l n g

/-- Node at a position (the document itself, position `[]`, is not a node). -/
def getAt : Forest → List Nat → Option DNode
  | _, [] => none
  | f, [i] => f[i]?
  | f, i :: j :: p =>
    match f[i]? with
    | none => none
    | some n => getAt n.childList (j :: p)

/-- Apply `g` to the node at a position (no-op on an invalid position). -/
def modifyAt : Forest → List Nat → (DNode → DNode) → Forest
  | f, [], _ => f
  | f, [i], g => updIdx f i g
  | f, i :: j :: p, g =>
    updIdx f i (fun n => n.withChildList (modifyAt n.childList (j :: p) g))

/-- Apply `g` to the child list of the container at a position
(position `[]` is the document node, whose child list is the forest). -/
def modifyChildrenAt : Forest → List Nat → (Forest → Forest) → Forest
  | f, [], g => g f
  | f, i :: p, g =>
    updIdx f i (fun n => n.withChildList (modifyChildrenAt n.childList p g))

def setAt (f : Forest) (p : List Nat) (n : DNode) : Forest :=
  modifyAt f p (fun _ => n)

/-- Child list of the container at a position. -/
def childrenAtPos (f : Forest) : List Nat → Forest
  | [] => f
  | p =>
    match getAt f p with
    | some n => n.childList
    | none => []

/-- Node at a position relative to a node (`[]` is the node itself). -/
def getSub (n : DNode) : List Nat → Option DNode
  | [] => some n
  | i :: p => getAt n.childList (i :: p)

mutual

/-- Position of the node with the given id inside a node
(`some []` is the node itself), first match in document order. -/
def findPathN (n : DNode) (i : Nat) : Option (List Nat) :=
  if n.nid = i then some [] else
    match n with
    | .elem _ _ _ _ _ cs => findPathIdx cs 0 i
    | _ => none

def findPathIdx (f : Forest) (k : Nat) (i : Nat) : Option (List Nat) :=
  match f with
  | [] => none
  | n :: rest =>
    match findPathN n i with
    | some p => some (k :: p)
    | none => findPathIdx rest (k + 1) i

end

/-- Position of the node with the given id in the document, document order. -/
def findPathF (f : Forest) (i : Nat) : Option (List Nat) := findPathIdx f 0 i

mutual

/-- All positions in a subtree rooted at a node, document (pre)order,
`[]` being the node itself. -/
def posN : DNode → List (List Nat)
  | .elem _ _ _ _ _ cs => [] :: posIdx cs 0
  | .text _ _ => [[]]
  | .comment _ _ => [[]]

def posIdx : Forest → Nat → List (List Nat)
  | [], _ => []
  | n :: rest, k => (posN n).map (fun p => k :: p) ++ posIdx rest (k + 1)

end

/-- All node positions of the forest in document order (the document node's
own position `[]` is not included). -/
def positionsF (f : Forest) : List (List Nat) := posIdx f 0

/-! ### `getXPath` (src/storage.ts)

The source walks from the node up through `parentNode`, emitting for an
element `tag.toLowerCase()[index]` and for a text node `text()[index]`, where
`index` is the node's 1-based position among all of its parent's child nodes;
other node kinds (comments) contribute no step; the document node renders as
`/`.  The accumulator formulation below computes the identical string for any
node attached under the document root, walking the same ancestor chain
root-first. -/

def xpathGo (f : Forest) (acc : String) : List Nat → String
  | [] => acc
  | i :: p =>
    match f[i]? with
    | none => acc
    | some n =>
      let acc2 :=
        match n with
        | .elem _ tag _ _ _ _ => acc ++ "/" ++ tag ++ "[" ++ toString (i + 1) ++ "]"
        | .text _ _ => acc ++ "/text()[" ++ toString (i + 1) ++ "]"
        | .comment _ _ => acc
      xpathGo n.childList acc2 p

/-- `getXPath` of the node with a given id (`0` is the document node).
A detached node yields `""`, the "unaddressable" result. -/
def getXPath (f : Forest) (nodeId : Nat) : String :=
  if nodeId = 0 then "/" else
    match findPathF f nodeId with
    | some p => xpathGo f "/" p
    | none => ""

/-! ### `findNodeByXPath` (src/storage.ts, src/highlighter.ts)

`document.evaluate(xpath, document, null, FIRST_ORDERED_NODE_TYPE, null)`
over the location-path grammar the system emits: an optional leading `/` or
`//` (descendant-or-self from the document) followed by child steps
`name[n]` or `text()[n]`, the position predicate being optional.  Name tests
match the (lower-case) element tag; positional predicates select the n-th
child *matching the node test*, per XPath 1.0.  A string outside this grammar
is a syntax error: `evaluate` throws and the enclosing `try` returns `null`.
The first ordered node is the minimum of the result set in document order. -/

inductive NodeTest : Type where
  | elemName (s : String)
  | textTest
deriving Repr, DecidableEq

structure PStep : Type where
  test : NodeTest
  pred : Option Nat
deriving Repr, DecidableEq

def isNameChar (c : Char) : Bool := c.isLower || c.isDigit

def digitsVal (l : List Char) : Nat :=
  l.foldl (fun a c => a * 10 + (c.toNat - 48)) 0

def parsePred : List Char → Option (Option Nat)
  | [] => some none
  | '[' :: rest =>
    let ds := rest.takeWhile Char.isDigit
    let rest2 := rest.dropWhile Char.isDigit
    if ds ≠ [] ∧ rest2 = [']'] then some (some (digitsVal ds)) else none
  | _ => none

def parseStepSeg (seg : List Char) : Option PStep :=
  match seg with
  | 't' :: 'e' :: 'x' :: 't' :: '(' :: ')' :: rest =>
    (parsePred rest).map (fun pr => ⟨NodeTest.textTest, pr⟩)
  | _ =>
    let nm := seg.takeWhile isNameChar
    let rest := seg.dropWhile isNameChar
    if nm = [] then none
    else (parsePred rest).map (fun pr => ⟨NodeTest.elemName (String.mk nm), pr⟩)

def splitSlash : List Char → List (List Char)
  | [] => [[]]
  | '/' :: rest => [] :: splitSlash rest
  | c :: rest =>
    match splitSlash rest with
    | seg :: segs => (c :: seg) :: segs
    | [] => [[c]]

/-- Parse an XPath string of the emitted grammar into
(descendant-or-self prefix?, steps); `none` models an evaluation exception. -/
def parseXPath (s : String) : Option (Bool × List PStep) :=
  match s.data with
  | [] => none
  | '/' :: rest =>
    if rest = [] then some (false, [])
    else
      match rest with
      | '/' :: rest2 =>
        if rest2 = [] then none
        else ((splitSlash rest2).mapM parseStepSeg).map (fun st => (true, st))
      | _ => ((splitSlash rest).mapM parseStepSeg).map (fun st => (false, st))
  | _ => ((splitSlash s.data).mapM parseStepSeg).map (fun st => (false, st))

def testMatch (t : NodeTest) (n : DNode) : Bool :=
  match t, n with
  | .elemName s, .elem _ tag _ _ _ _ => s = tag
  | .textTest, .text _ _ => true
  | _, _ => false

/-- One child step at one context node: children matching the node test,
narrowed by the 1-based position predicate when present. -/
def stepAtContext (f : Forest) (st : PStep) (c : List Nat) : List (List Nat) :=
  let cands := ((childrenAtPos f c).enum.filter (fun x => testMatch st.test x.2)).map
    (fun x => c ++ [x.1])
  match st.pred with
  | none => cands
  | some n => if n = 0 then [] else (cands[n - 1]?).toList

def evalSteps (f : Forest) (steps : List PStep) (ctxs : List (List Nat)) :
    List (List Nat) :=
  steps.foldl (fun cs st => cs.flatMap (stepAtContext f st)) ctxs

/-- Document order on positions: ancestors precede descendants,
siblings by index. -/
def posLtB : List Nat → List Nat → Bool
  | [], [] => false
  | [], _ :: _ => true
  | _ :: _, [] => false
  | a :: p, b :: q => a < b || (a = b && posLtB p q)

def minPos : List (List Nat) → Option (List Nat)
  | [] => none
  | x :: r => some (r.foldl (fun a b => if posLtB b a then b else a) x)

/-- `findNodeByXPath`: resolve a stored path to a position, `none` on a syntax
error or an empty result (`null`). Position `[]` is the document node. -/
def findNodeByXPath (f : Forest) (s : String) : Option (List Nat) :=
  match parseXPath s with
  | none => none
  | some (desc, steps) =>
    let ctxs := if desc then [] :: positionsF f else [[]]
    minPos (evalSteps f steps ctxs)

/-! ### Records and highlighter state -/

/-- `StoredHighlight` (src/storage.ts). -/
structure StoredHighlight : Type where
  text : String
  color : String
  xpath : String
  offset : Nat
  length : Nat
  timestamp : Nat
deriving Repr, DecidableEq

/-- The `Highlighter` instance state: the live document plus the fresh node-id
supply (modelling object identity of created DOM nodes) and the
`highlightIdCounter` field. -/
structure HState : Type where
  roots : Forest
  nextId : Nat
  counter : Nat

def isWsChar (c : Char) : Bool := c = ' ' || c = '\t' || c = '\n' || c = '\r'

/-- Whitespace-separated words of a character list (accumulator holds the
current word reversed). -/
def wordsAux : List Char → List Char → List (List Char)
  | [], acc => if acc = [] then [] else [acc.reverse]
  | c :: rest, acc =>
    if isWsChar c then
      if acc = [] then wordsAux rest [] else acc.reverse :: wordsAux rest []
    else wordsAux rest (c :: acc)

def wordsOf (l : List Char) : List (List Char) := wordsAux l []

/-- `classList.contains`: membership among whitespace-separated class names. -/
def classHas (cls : String) (c : String) : Bool :=
  (wordsOf cls.data).contains c.data

/-- The marker convention: an element with class `st-highlight`. -/
def isMarkerN : DNode → Bool
  | .elem _ _ cls _ _ _ => classHas cls "st-highlight"
  | _ => false

/-- `document.querySelectorAll(".st-highlight")`: positions of all live
markers in document order. -/
def markerPosList (f : Forest) : List (List Nat) :=
  (positionsF f).filter (fun p =>
    match getAt f p with
    | some n => isMarkerN n
    | none => false)

def DNode.bgOf : DNode → String
  | .elem _ _ _ bg _ _ => bg
  | _ => ""

mutual

/-- `getFirstTextNode` (src/highlighter.ts): the node itself when it is a text
node, otherwise the first text node among descendants in document order. -/
def getFirstTextNodeN : DNode → Option Nat
  | .text i _ => some i
  | .elem _ _ _ _ _ cs => getFirstTextNodeF cs
  | .comment _ _ => none

def getFirstTextNodeF : Forest → Option Nat
  | [] => none
  | n :: rest =>
    match getFirstTextNodeN n with
    | some i => some i
    | none => getFirstTextNodeF rest

end

/-! ### `rgbToHex` (src/highlighter.ts)

A string already starting with `#` is returned as is; otherwise the exact
pattern `rgb(<digits>, <digits>, <digits>)` (regex
`^rgb\((\d+),\s*(\d+),\s*(\d+)\)$`) is parsed and each decimal component is
re-encoded with `toString(16).padStart(2, "0")`; any other string is returned
unchanged. -/

/-- Match of `^rgb\((\d+),\s*(\d+),\s*(\d+)\)$` with `parseInt` applied to the
three capture groups. -/
def parseRgbTriple (l : List Char) : Option (Nat × Nat × Nat) :=
  match l with
  | 'r' :: 'g' :: 'b' :: '(' :: rest =>
    let d1 := rest.takeWhile Char.isDigit
    let r1 := rest.dropWhile Char.isDigit
    if d1 = [] then none else
    match r1 with
    | ',' :: r2 =>
      let r2b := r2.dropWhile isWsChar
      let d2 := r2b.takeWhile Char.isDigit
      let r3 := r2b.dropWhile Char.isDigit
      if d2 = [] then none else
      match r3 with
      | ',' :: r4 =>
        let r4b := r4.dropWhile isWsChar
        let d3 := r4b.takeWhile Char.isDigit
        let r5 := r4b.dropWhile Char.isDigit
        if d3 = [] then none else
        if r5 = [')'] then some (digitsVal d1, digitsVal d2, digitsVal d3) else none
      | _ => none
    | _ => none
  | _ => none

/-- `n.toString(16)`: lower-case hexadecimal digits, `"0"` for zero.
Structured with an (always sufficient) fuel so that it kernel-reduces. -/
def hexCharsAux : Nat → Nat → List Char
  | 0, _ => []
  | fuel + 1, n =>
    if n < 16 then [Nat.digitChar n]
    else hexCharsAux fuel (n / 16) ++ [Nat.digitChar (n % 16)]

def natToHex (n : Nat) : String := String.mk (hexCharsAux (n + 1) n)

/-- `padStart(2, "0")`. -/
def padStart2 (s : String) : String :=
  if s.length < 2 then String.mk (List.replicate (2 - s.length) '0') ++ s else s

/-- `startsWith("#")`: the first character is `#`. -/
def startsHash (s : String) : Bool :=
  match s.data with
  | '#' :: _ => true
  | _ => false

def rgbToHex (rgb : String) : String :=
  if startsHash rgb then rgb
  else
    match parseRgbTriple rgb.data with
    | none => rgb
    | some (r, g, b) =>
      "#" ++ padStart2 (natToHex r) ++ padStart2 (natToHex g) ++ padStart2 (natToHex b)

/-! ### Ranges and the WHATWG mutation algorithms the source invokes

A live `Range` is a pair of boundary points, each a container node (id, with
`0` for the document node) and an offset (characters into character data,
child index otherwise).  Boundary points are ordered by the document order of
their keys `path ++ [offset]`. -/

structure BRange : Type where
  sN : Nat
  sO : Nat
  eN : Nat
  eO : Nat
deriving Repr, DecidableEq

def collapsedB (r : BRange) : Bool := r.sN = r.eN && r.sO = r.eO

/-- Path of a container id (`0` is the document node, path `[]`). -/
def pathOfC (f : Forest) (c : Nat) : Option (List Nat) :=
  if c = 0 then some [] else findPathF f c

def containerLen (f : Forest) (p : List Nat) : Nat :=
  match p with
  | [] => f.length
  | _ =>
    match getAt f p with
    | some n => n.domLen
    | none => 0

def idAtPos (f : Forest) (p : List Nat) : Nat :=
  match p with
  | [] => 0
  | _ =>
    match getAt f p with
    | some n => n.nid
    | none => 0

def isTextPos (f : Forest) (p : List Nat) : Bool :=
  match getAt f p with
  | some (.text _ _) => true
  | _ => false

def isCharDataPos (f : Forest) (p : List Nat) : Bool :=
  match getAt f p with
  | some n => n.isCharData
  | none => false

def dataPos (f : Forest) (p : List Nat) : String :=
  match getAt f p with
  | some n => n.charData
  | none => ""

def posLeB (a b : List Nat) : Bool := a = b || posLtB a b

/-- A range is valid when both containers are attached (or the document) and
both offsets are within bounds, with the start boundary at or before the end
boundary — exactly the invariant live DOM ranges maintain. -/
def validRangeB (f : Forest) (r : BRange) : Bool :=
  match pathOfC f r.sN, pathOfC f r.eN with
  | some ps, some pe =>
    r.sO ≤ containerLen f ps && r.eO ≤ containerLen f pe &&
      posLeB (ps ++ [r.sO]) (pe ++ [r.eO])
  | _, _ => false

/-- Key of the boundary just after a node (parent path, index + 1). -/
def bumpLast : List Nat → List Nat
  | [] => []
  | [i] => [i + 1]
  | i :: rest => i :: bumpLast rest

/-- A node (at position `p`) is contained in the range: its start is after the
range's start boundary and its end is before the range's end boundary.  Per
the boundary-comparison algorithm, a node whose start coincides with the
range's start boundary (a child at index `sO` under the start container)
counts as after it, and symmetrically at the end, hence the non-strict
comparison; a boundary inside a node's subtree always compares strictly. -/
def containedPos (ps : List Nat) (sO : Nat) (pe : List Nat) (eO : Nat)
    (p : List Nat) : Bool :=
  posLeB (ps ++ [sO]) p && posLeB (bumpLast p) (pe ++ [eO])

def substringMk (s : String) (a b : Nat) : String := String.mk ((s.data.take b).drop a)

def strTake (s : String) (n : Nat) : String := String.mk (s.data.take n)

def strDrop (s : String) (n : Nat) : String := String.mk (s.data.drop n)

/-- Delete `[a, b)` from character data. -/
def delSlice (d : String) (a b : Nat) : String :=
  String.mk (d.data.take a ++ d.data.drop b)

/-- `range.toString()`: the start container's trailing slice when it is a text
node, the data of every contained text node in document order, and the end
container's leading slice when it is a text node. -/
def rangeToString (f : Forest) (r : BRange) : String :=
  match pathOfC f r.sN, pathOfC f r.eN with
  | some ps, some pe =>
    if r.sN = r.eN && isTextPos f ps then substringMk (dataPos f ps) r.sO r.eO
    else
      (if isTextPos f ps then strDrop (dataPos f ps) r.sO else "") ++
        ((positionsF f).filter (fun p =>
          isTextPos f p && containedPos ps r.sO pe r.eO p)).foldl
            (fun a p => a ++ dataPos f p) "" ++
        (if isTextPos f pe then strTake (dataPos f pe) r.eO else "")
  | _, _ => ""

def commonPrefix : List Nat → List Nat → List Nat
  | a :: p, b :: q => if a = b then a :: commonPrefix p q else []
  | _, _ => []

def setCharData : DNode → String → DNode
  | .text i _, d => .text i d
  | .comment i _, d => .comment i d
  | n, _ => n

/-- Clone of a character-data node carrying the given data (a fresh id models
the clone being a new DOM node). -/
def cloneCharLike (n : DNode) (newId : Nat) (d : String) : DNode :=
  match n with
  | .comment _ _ => .comment newId d
  | _ => .text newId d

/-- `cloneNode(false)`: same tag and attributes, no children, fresh identity. -/
def shallowClone (n : DNode) (newId : Nat) : DNode :=
  match n with
  | .elem _ t c b dd _ => .elem newId t c b dd []
  | .text _ d => .text newId d
  | .comment _ d => .comment newId d

structure ExtractRes : Type where
  frag : Forest
  roots : Forest
  nid : Nat
  rN : Nat
  rO : Nat

/-- Phase 1 of the extraction: process the first partially contained child
(at index `k` under the common ancestor `ca`), cloning its selected tail —
via the recursive sub-extraction when it is not character data.  Returns the
fragment part, the mutated tree and the id supply. -/
def extractPhase1 (recurse : Forest → Nat → BRange → Option ExtractRes)
    (f : Forest) (nid : Nat) (r : BRange) (ca : List Nat) :
    Option Nat → Option (Forest × Forest × Nat)
  | none => some ([], f, nid)
  | some k =>
    let cPos := ca ++ [k]
    match getAt f cPos with
    | none => some ([], f, nid)
    | some c =>
      if c.isCharData then
        let d := c.charData
        some ([cloneCharLike c nid (strDrop d r.sO)],
          modifyAt f cPos (fun n => setCharData n (strTake d r.sO)), nid + 1)
      else
        match recurse f (nid + 1) ⟨r.sN, r.sO, c.nid, c.childList.length⟩ with
        | none => none
        | some er => some ([(shallowClone c nid).withChildList er.frag], er.roots, er.nid)

/-- Phase 3 of the extraction: process the last partially contained child
(identified by id, since phase 2 shifted sibling indices), cloning its
selected head — via the recursive sub-extraction when it is not character
data. -/
def extractPhase3 (recurse : Forest → Nat → BRange → Option ExtractRes)
    (f2 : Forest) (nid1 : Nat) (r : BRange) :
    Option Nat → Option (Forest × Forest × Nat)
  | none => some ([], f2, nid1)
  | some lId =>
    match findPathF f2 lId with
    | none => some ([], f2, nid1)
    | some cPos =>
      match getAt f2 cPos with
      | none => some ([], f2, nid1)
      | some c =>
        if c.isCharData then
          let d := c.charData
          some ([cloneCharLike c nid1 (strTake d r.eO)],
            modifyAt f2 cPos (fun n => setCharData n (strDrop d r.eO)), nid1 + 1)
        else
          match recurse f2 (nid1 + 1) ⟨c.nid, 0, r.eN, r.eO⟩ with
          | none => none
          | some er => some ([(shallowClone c nid1).withChildList er.frag], er.roots, er.nid)

/-- `range.extractContents()` per the DOM extraction algorithm, with explicit
fuel for the recursion into the partially contained boundary children (the
top-level caller passes fuel exceeding any path length, which is proven
sufficient).  Returns the fragment, the mutated tree, the fresh-id supply and
the repositioned (collapsed) range. -/
def extractFuel : Nat → Forest → Nat → BRange → Option ExtractRes
  | 0, _, _, _ => none
  | fuel + 1, f, nid, r =>
    if collapsedB r then some ⟨[], f, nid, r.sN, r.sO⟩ else
    match pathOfC f r.sN, pathOfC f r.eN with
    | some ps, some pe =>
      if r.sN = r.eN && isCharDataPos f ps then
        let nOld := (getAt f ps).getD (.text 0 "")
        let d := nOld.charData
        let clone := cloneCharLike nOld nid (substringMk d r.sO r.eO)
        let f2 := modifyAt f ps (fun n => setCharData n (delSlice d r.sO r.eO))
        some ⟨[clone], f2, nid + 1, r.sN, r.sO⟩
      else
        let ca := commonPrefix ps pe
        let sInc : Bool := ca = ps
        let eInc : Bool := ca = pe
        let fIdx : Option Nat := if sInc then none else ps[ca.length]?
        let caKids := childrenAtPos f ca
        let lId? : Option Nat :=
          if eInc then none
          else
            match pe[ca.length]? with
            | none => none
            | some k0 =>
              match caKids[k0]? with
              | some n => some n.nid
              | none => none
        let containedIds : List Nat :=
          (caKids.enum.filter (fun x =>
            containedPos ps r.sO pe r.eO (ca ++ [x.1]))).map (fun x => x.2.nid)
        let newPt : Nat × Nat :=
          if sInc then (r.sN, r.sO) else (idAtPos f ca, ps.getD ca.length 0 + 1)
        match extractPhase1 (extractFuel fuel) f nid r ca fIdx with
        | none => none
        | some (frag1, f1, nid1) =>
          let caKids1 := childrenAtPos f1 ca
          let movedKids := caKids1.filter (fun n => containedIds.contains n.nid)
          let f2 := modifyChildrenAt f1 ca
            (fun cs => cs.filter (fun n => !(containedIds.contains n.nid)))
          match extractPhase3 (extractFuel fuel) f2 nid1 r lId? with
          | none => none
          | some (frag3, f3, nid3) =>
            some ⟨frag1 ++ movedKids ++ frag3, f3, nid3, newPt.1, newPt.2⟩
    | _, _ => some ⟨[], f, nid, r.sN, r.sO⟩

/-- Fuel that always suffices for `extractFuel`. -/
def extractTop (f : Forest) (nid : Nat) (r : BRange) : Option ExtractRes :=
  extractFuel (2 * sizeF f + 2) f nid r

/-- `range.insertNode(node)` at a collapsed point per the DOM insert
algorithm: throws when the start container is a comment (or a detached text
node), checks pre-insertion validity (a second element child of the document
is rejected), splits a text container at the offset, and inserts before the
reference node.  The validity check precedes every mutation.  The inserted
node is always freshly created and detached in the source. -/
def insertPoint (f : Forest) (nid : Nat) (pN pO : Nat) (node : DNode) :
    Except Unit (Forest × Nat) :=
  if pN = node.nid then .error () else
  if pN = 0 then
    if node.isElem then
      if f.any (fun n => n.isElem) then .error ()
      else .ok (f.take pO ++ [node] ++ f.drop pO, nid)
    else .error ()
  else
    match findPathF f pN with
    | none => .error ()
    | some p =>
      match getAt f p with
      | none => .error ()
      | some (.comment _ _) => .error ()
      | some (.text _ d) =>
        let pp := p.dropLast
        let i := p.getLast?.getD 0
        if pp = [] then
          if node.isElem && !(f.any (fun n => n.isElem)) then
            let f1 := modifyAt f p (fun n => setCharData n (strTake d pO))
            .ok (f1.take (i + 1) ++ [node, .text nid (strDrop d pO)] ++ f1.drop (i + 1),
              nid + 1)
          else .error ()
        else
          let f1 := modifyAt f p (fun n => setCharData n (strTake d pO))
          let f2 := modifyChildrenAt f1 pp
            (fun cs => cs.take (i + 1) ++ [node, .text nid (strDrop d pO)] ++ cs.drop (i + 1))
          .ok (f2, nid + 1)
      | some (.elem _ _ _ _ _ _) =>
        .ok (modifyChildrenAt f p (fun cs => cs.take pO ++ [node] ++ cs.drop pO), nid)

/-- Does the range partially contain a non-text node (the nodes partially
contained are exactly the inclusive ancestors of one boundary container but
not the other, i.e. the chains strictly below the common ancestor)? -/
def hasPartiallyContainedNonText (f : Forest) (ps pe : List Nat) : Bool :=
  let ca := commonPrefix ps pe
  let chain := fun (p : List Nat) =>
    (List.range (p.length - ca.length)).map (fun k => p.take (ca.length + k + 1))
  (chain ps ++ chain pe).any (fun q => !(isTextPos f q))

structure SurroundRes : Type where
  ok : Bool
  roots : Forest
  nid : Nat
  rng : BRange

/-- `range.surroundContents(newParent)`: throw `InvalidStateError` when a
non-text node is partially contained (before any mutation); otherwise extract
the contents (mutating!), insert `newParent` at the repositioned range (which
can throw after the extraction already mutated the tree), then append the
fragment to `newParent`.  The state and the live range are returned even on
failure, since the source's `catch` continues with both. -/
def surroundSteps (f : Forest) (nid : Nat) (r : BRange) (wrapper : DNode) : SurroundRes :=
  match pathOfC f r.sN, pathOfC f r.eN with
  | some ps, some pe =>
    if hasPartiallyContainedNonText f ps pe then ⟨false, f, nid, r⟩
    else
      match extractTop f nid r with
      | none => ⟨false, f, nid, r⟩
      | some er =>
        let rng2 : BRange := ⟨er.rN, er.rO, er.rN, er.rO⟩
        match insertPoint er.roots er.nid er.rN er.rO wrapper with
        | .error _ => ⟨false, er.roots, er.nid, rng2⟩
        | .ok (f2, nid2) =>
          let f3 :=
            match findPathF f2 wrapper.nid with
            | some wp => modifyAt f2 wp (fun n => n.withChildList er.frag)
            | none => f2
          ⟨true, f3, nid2, rng2⟩
  | _, _ => ⟨false, f, nid, r⟩

/-- The marker element the source creates:
`span.st-highlight` with the inline background color and the
`data-highlight-id` attribute. -/
def mkWrapper (nid : Nat) (counter : Nat) (color : String) : DNode :=
  .elem nid "span" "st-highlight" color (some (toString counter)) []

/-- `Highlighter.highlightRange` (src/highlighter.ts): reject a collapsed
range; capture text, start container and start offset before any mutation;
try `surroundContents`, then the extract-and-reinsert fallback; on success
build the record, computing `getXPath` on the (already mutated) document with
the captured start node. -/
def highlightRange (st : HState) (r : BRange) (color : String) (now : Nat) :
    Option StoredHighlight × HState :=
  if collapsedB r then (none, st) else
  let txt := rangeToString st.roots r
  let sC := r.sN
  let sO := r.sO
  let wrapper := mkWrapper st.nextId st.counter color
  let nid0 := st.nextId + 1
  let ctr := st.counter + 1
  let sr := surroundSteps st.roots nid0 r wrapper
  if sr.ok then
    (some ⟨txt, color, getXPath sr.roots sC, sO, txt.length, now⟩, ⟨sr.roots, sr.nid, ctr⟩)
  else
    match extractFuel (2 * sizeF sr.roots + 2) sr.roots sr.nid sr.rng with
    | none => (none, ⟨sr.roots, sr.nid, ctr⟩)
    | some er =>
      let wrapper2 := wrapper.withChildList er.frag
      match insertPoint er.roots er.nid er.rN er.rO wrapper2 with
      | .error _ => (none, ⟨er.roots, er.nid, ctr⟩)
      | .ok (f2, nid2) =>
        (some ⟨txt, color, getXPath f2 sC, sO, txt.length, now⟩, ⟨f2, nid2, ctr⟩)

/-- `Highlighter.restoreHighlight` (src/highlighter.ts): resolve the stored
path, require a text node, bounds-check `offset + length` against the node's
length, then build the range and `surroundContents` it; every failure (and
any exception, caught by the enclosing `try`) yields `false`. -/
def restoreHighlight (st : HState) (s : StoredHighlight) : Bool × HState :=
  match findNodeByXPath st.roots s.xpath with
  | none => (false, st)
  | some p =>
    match getAt st.roots p with
    | some (.text tid d) =>
      if s.offset + s.length > d.length then (false, st)
      else
        let wrapper := mkWrapper st.nextId st.counter s.color
        let r : BRange := ⟨tid, s.offset, tid, s.offset + s.length⟩
        let sr := surroundSteps st.roots (st.nextId + 1) r wrapper
        if sr.ok then (true, ⟨sr.roots, sr.nid, st.counter + 1⟩)
        else (false, ⟨sr.roots, sr.nid, st.counter + 1⟩)
    | _ => (false, st)

/-! ### Marker removal -/

/-- Merge contiguous text nodes (data into the first) and drop empty ones. -/
def mergeTexts : Forest → Forest
  | [] => []
  | .text i d :: rest =>
    if d = "" then mergeTexts rest
    else
      match mergeTexts rest with
      | .text _ d2 :: r2 => .text i (d ++ d2) :: r2
      | r2 => .text i d :: r2
  | n :: rest => n :: mergeTexts rest

mutual

/-- `Node.normalize()`: remove empty text descendants and merge contiguous
text descendants, throughout the subtree. -/
def normalizeN : DNode → DNode
  | .elem i t c b d cs => .elem i t c b d (mergeTexts (normalizeF cs))
  | n => n

def normalizeF : Forest → Forest
  | [] => []
  | n :: rest => normalizeN n :: normalizeF rest

end

/-- `Highlighter.removeHighlightElement` (src/highlighter.ts): no-op unless
the element carries the marker class and has a parent; otherwise replace it
with a text node holding its text content and normalize the parent's subtree.
`replaceChild` with a text node throws when the parent is the document node
(a node detached from the document leaves the document state unchanged). -/
def removeHighlightElement (st : HState) (elId : Nat) : Except Unit HState :=
  match findPathF st.roots elId with
  | none => .ok st
  | some p =>
    match getAt st.roots p with
    | some el =>
      if !(isMarkerN el) then .ok st
      else if p.length = 1 then .error ()
      else
        let tn : DNode := .text st.nextId (textOfN el)
        let f1 := setAt st.roots p tn
        let f2 := modifyAt f1 p.dropLast normalizeN
        .ok ⟨f2, st.nextId + 1, st.counter⟩
    | none => .ok st

def markerIds (f : Forest) : List Nat :=
  (markerPosList f).map (fun p => idAtPos f p)

def clearAllGo : List Nat → HState → Except Unit HState
  | [], st => .ok st
  | i :: rest, st =>
    match removeHighlightElement st i with
    | .error e => .error e
    | .ok st2 => clearAllGo rest st2

/-- `Highlighter.clearAll` (src/highlighter.ts): snapshot all live markers,
then remove each in order; an exception from a removal propagates. -/
def clearAll (st : HState) : Except Unit HState := clearAllGo (markerIds st.roots) st

/-- Well-formedness of a highlighter state: distinct positive node ids, all
below the fresh-id supply, and no text node directly under the document (an
invariant of every constructible DOM document). -/
def WF (st : HState) : Prop :=
  (idsF st.roots).Nodup ∧ (∀ i ∈ idsF st.roots, 0 < i ∧ i < st.nextId) ∧
    (∀ n ∈ st.roots, n.isText = false)

instance (st : HState) : Decidable (WF st) := by
  unfold WF; infer_instance

/-- `getAllHighlights` (src/highlighter.ts): one record per live marker in
document order; `Date.now()` is passed in as `now`. -/
def getAllHighlights (st : HState) (now : Nat) : List StoredHighlight :=
  (markerPosList st.roots).map (fun p =>
    match getAt st.roots p with
    | some el =>
      let t := textOfN el
      { text := t
        color := rgbToHex el.bgOf
        xpath :=
          match getFirstTextNodeN el with
          | some tid => getXPath st.roots tid
          | none => ""
        offset := 0
        length := t.length
        timestamp := now }
    | none =>
      { text := "", color := "", xpath := "", offset := 0, length := 0, timestamp := now })

/-! ### Path-stability infrastructure

`highlightRange` computes the stored path on the *already mutated* document;
the stability development below shows that the start container's rendered
path is unchanged by every mutation a successful call performs.  `laterOnly
f f' p` states that `f'` agrees with `f` on everything at or before the path
`p`: at each level along `p` the strict sibling prefix is unchanged as raw
subtrees, and the node on the path keeps its identity, kind and tag (its
character data and its children may change). -/

/-- Identity, kind and tag of a node: everything `findPathF` and `xpathGo`
inspect about a node on the path, apart from its child list. -/
def shellOf : DNode → Nat × Nat × String
  | .elem i t _ _ _ _ => (i, 0, t)
  | .text i _ => (i, 1, "")
  | .comment i _ => (i, 2, "")

def laterOnly : Forest → Forest → List Nat → Prop
  | _, _, [] => True
  | f, f', i :: p =>
    f'.take i = f.take i ∧
    ∃ n n', f[i]? = some n ∧ f'[i]? = some n' ∧ shellOf n = shellOf n' ∧
      laterOnly n.childList n'.childList p

/-- `a` is a (not necessarily proper) initial segment of `b`. -/
def isPref (a b : List Nat) : Prop := ∃ t, a ++ t = b

/-- The invariant a live DOM range satisfies, relative to the container
paths: distinct positive ids, attached containers, in-bounds offsets, start
boundary at or before the end boundary. -/
def extractHyps (f : Forest) (r : BRange) (ps pe : List Nat) : Prop :=
  (idsF f).Nodup ∧ (∀ i ∈ idsF f, 0 < i) ∧
  pathOfC f r.sN = some ps ∧ pathOfC f r.eN = some pe ∧
  posLeB (ps ++ [r.sO]) (pe ++ [r.eO]) = true ∧
  r.sO ≤ containerLen f ps ∧ r.eO ≤ containerLen f pe

/-- What a successful extraction guarantees: the tree is unchanged at and
before the start path, no id is introduced, the mutation is confined to the
subtree at the common ancestor, and the repositioned point is either the
original start or the slot just after the start chain under the common
ancestor. -/
def extractConc (f : Forest) (r : BRange) (ps pe : List Nat) (er : ExtractRes) : Prop :=
  laterOnly f er.roots ps ∧
  (idsF er.roots).Sublist (idsF f) ∧
  (commonPrefix ps pe ≠ [] →
    ∃ X m, getAt f (commonPrefix ps pe) = some m ∧
      er.roots = setAt f (commonPrefix ps pe) X ∧ shellOf X = shellOf m) ∧
  ((er.rN = r.sN ∧ er.rO = r.sO) ∨
   (commonPrefix ps pe ≠ ps ∧ er.rN = idAtPos f (commonPrefix ps pe) ∧
     er.rO = ps.getD (commonPrefix ps pe).length 0 + 1))

/-- Text content of a node on each side of an in-node boundary offset: a
character split for a text node, a child split for an element, nothing for a
comment (whose data is not text content). -/
def tSplitNode : DNode → Nat → String × String
  | .text _ d, off => (strTake d off, strDrop d off)
  | .elem _ _ _ _ _ cs, off => (textOfF (cs.take off), textOfF (cs.drop off))
  | .comment _ _, _ => ("", "")

/-- Document text content split at a boundary point (container path, offset):
the concatenated text strictly before the boundary and the concatenated text
from the boundary on. -/
def tSplitF : Forest → List Nat → Nat → String × String
  | f, [], off => (textOfF (f.take off), textOfF (f.drop off))
  | f, [i], off =>
    match f[i]? with
    | none => ("", "")
    | some n =>
      (textOfF (f.take i) ++ (tSplitNode n off).1,
       (tSplitNode n off).2 ++ textOfF (f.drop (i + 1)))
  | f, i :: j :: rest, off =>
    match f[i]? with
    | none => ("", "")
    | some n =>
      (textOfF (f.take i) ++ (tSplitF n.childList (j :: rest) off).1,
       (tSplitF n.childList (j :: rest) off).2 ++ textOfF (f.drop (i + 1)))

/-- The text split contributed by a boundary that passes through a node: the
node-local part of `tSplitF` below a fixed child. -/
def tSplitInner (n : DNode) : List Nat → Nat → String × String
  | [], off => tSplitNode n off
  | j :: tail, off => tSplitF n.childList (j :: tail) off

/-- Document text content on each side of (outside) the subtree at a
position. -/
def tAroundF : Forest → List Nat → String × String
  | _, [] => ("", "")
  | f, [i] => (textOfF (f.take i), textOfF (f.drop (i + 1)))
  | f, i :: j :: rest =>
    match f[i]? with
    | none => ("", "")
    | some n =>
      (textOfF (f.take i) ++ (tAroundF n.childList (j :: rest)).1,
       (tAroundF n.childList (j :: rest)).2 ++ textOfF (f.drop (i + 1)))

/-- Text-content bookkeeping of the extraction: the document text splits as
`A ++ M ++ C` at the two boundaries, the fragment carries exactly `M`, and
the mutated document splits as `A`/`C` at the repositioned point. -/
def textExtractConc (f : Forest) (r : BRange) (ps pe : List Nat)
    (er : ExtractRes) : Prop :=
  ∃ A M C, tSplitF f ps r.sO = (A, M ++ C) ∧
    tSplitF f pe r.eO = (A ++ M, C) ∧
    textOfF er.frag = M ∧
    (if commonPrefix ps pe = ps
      then tSplitF er.roots ps r.sO = (A, C)
      else tSplitF er.roots (commonPrefix ps pe)
        (ps.getD (commonPrefix ps pe).length 0 + 1) = (A, C))

/-! ### Concrete documents used as witnesses and counterexamples -/

/-- `<html><body><span>a</span>b</body></html>`: a text node whose parent has
mixed element/text children. -/
def mixedForest : Forest :=
  [.elem 1 "html" "" "" none
    [.elem 2 "body" "" "" none
      [.elem 3 "span" "" "" none [.text 4 "a"], .text 5 "b"]]]

/-- A document whose body is a single text node. -/
def bodyForest : Forest :=
  [.elem 1 "html" "" "" none
    [.elem 2 "body" "" "" none
      [.text 3 "The art of writing is the art of discovering what you believe."]]]

def bodyState : HState := ⟨bodyForest, 10, 0⟩

/-- The selection of characters 4–18 (the substring `art of writing`). -/
def bodyRange : BRange := ⟨3, 4, 3, 18⟩

/-- A document whose body contains a comment node. -/
def commentForest : Forest :=
  [.elem 1 "html" "" "" none
    [.elem 2 "body" "" "" none [.comment 3 "abcd"]]]

def commentState : HState := ⟨commentForest, 10, 0⟩

/-- A (non-collapsed) range inside the comment's character data. -/
def commentRange : BRange := ⟨3, 1, 3, 3⟩

/-- A pathological but constructible document whose root element is itself a
marker (`document.documentElement.remove()` followed by appending the span
produces it). -/
def rootMarkerState : HState :=
  ⟨[.elem 1 "span" "st-highlight" "#fff7a5" none [.text 2 "x"]], 10, 0⟩

/-- Two live markers, one with a component-triplet color, one with an
`rgba(...)` color that the canonicalizer does not recognize. -/
def colorForest : Forest :=
  [.elem 1 "html" "" "" none
    [.elem 2 "body" "" "" none
      [.elem 3 "span" "st-highlight" "rgb(255, 247, 165)" (some "0") [.text 4 "hi"],
       .elem 5 "span" "st-highlight" "rgba(1, 2, 3, 0.5)" (some "1") [.text 6 "yo"]]]]

def colorState : HState := ⟨colorForest, 10, 2⟩

/-- A stored record whose length overruns the resolved text node. -/
def overrunRecord : StoredHighlight :=
  ⟨"x", "#fff7a5", "//html[1]/body[1]/text()[1]", 0, 100, 99⟩

/-- A stored record with malformed path syntax. -/
def malformedRecord : StoredHighlight :=
  ⟨"x", "#fff7a5", "###not-an-xpath", 0, 1, 99⟩

/-- A stored record whose path resolves to an element, not a text node. -/
def elemPathRecord : StoredHighlight :=
  ⟨"x", "#fff7a5", "//html[1]/body[1]", 0, 1, 99⟩

/-- The browser-reported component-triplet form of a color. -/
def rgbRender (r g b : Nat) : String :=
  "rgb(" ++ toString r ++ ", " ++ toString g ++ ", " ++ toString b ++ ")"

/-- The canonical two-digit zero-padded lower-case hexadecimal encoding of a
byte, as the specification describes it. -/
def hex2 (n : Nat) : String := String.mk [Nat.digitChar (n / 16), Nat.digitChar (n % 16)]

mutual

/-- Ids of the marker elements inside a subtree, document order. -/
def markersN : DNode → List Nat
  | .elem i t c b d cs =>
    (if isMarkerN (.elem i t c b d cs) then [i] else []) ++ markersF cs
  | _ => []

def markersF : Forest → List Nat
  | [] => []
  | n :: rest => markersN n ++ markersF rest

end

/-- No marker element sits directly under the document node. -/
def noRootMarkersF (f : Forest) : Prop := ∀ n ∈ f, isMarkerN n = false

instance (f : Forest) : Decidable (noRootMarkersF f) := by
  unfold noRootMarkersF; infer_instance

/-- Text content of the attached node with the given id. -/
def textAtId (f : Forest) (i : Nat) : String :=
  match findPathF f i with
  | some p =>
    match getAt f p with
    | some n => textOfN n
    | none => ""
  | none => ""

end HLN

namespace HLN

/-! ## Claim theorems and supporting lemmas -/

/-- C1: the addressor round-trip `findNodeByXPath (getXPath node)` fails on a
reachable text node whose parent mixes element and text children: `getXPath`
indexes the node among all child nodes (`text()[2]`), while the XPath
positional predicate counts only text-node children, so resolution returns
`null` instead of the node.  This evaluates the code at the failing input. -/
theorem C1_addressor_roundtrip_fails :
    findPathF mixedForest 5 = some [0, 0, 1] ∧
    getXPath mixedForest 5 = "//html[1]/body[1]/text()[2]" ∧
    findNodeByXPath mixedForest (getXPath mixedForest 5) = none :=
  ⟨by decide, by decide, by decide⟩

/-- C3: a collapsed range is rejected: `highlightRange` returns the failure
result and leaves the whole highlighter state (document, id supply, counter)
unchanged, without throwing. -/
theorem C3_collapsed_range_rejected (st : HState) (r : BRange) (color : String)
    (now : Nat) (h : collapsedB r = true) :
    highlightRange st r color now = (none, st) := by
  unfold highlightRange
  simp [h]

theorem C3_collapsed_range_rejected_witness :
    collapsedB ⟨3, 2, 3, 2⟩ = true ∧
    highlightRange bodyState ⟨3, 2, 3, 2⟩ "#fff7a5" 0 = (none, bodyState) :=
  ⟨by decide, C3_collapsed_range_rejected bodyState ⟨3, 2, 3, 2⟩ "#fff7a5" 0 (by decide)⟩

/-- C4: a stored record whose path resolves to a text node but whose
`offset + length` exceeds that node's length makes `restoreHighlight` return
`false` with the document (and the whole state) unchanged. -/
theorem C4_restore_bounds_failure (st : HState) (s : StoredHighlight)
    (p : List Nat) (tid : Nat) (d : String)
    (h1 : findNodeByXPath st.roots s.xpath = some p)
    (h2 : getAt st.roots p = some (.text tid d))
    (h3 : s.offset + s.length > d.length) :
    restoreHighlight st s = (false, st) := by
  simp only [restoreHighlight, h1, h2]
  simp [h3]

theorem C4_restore_bounds_failure_witness :
    findNodeByXPath bodyState.roots overrunRecord.xpath = some [0, 0, 0] ∧
    overrunRecord.offset + overrunRecord.length > 63 ∧
    restoreHighlight bodyState overrunRecord = (false, bodyState) :=
  ⟨by decide, by decide,
    C4_restore_bounds_failure bodyState overrunRecord [0, 0, 0] 3
      "The art of writing is the art of discovering what you believe."
      (by decide) rfl (by decide)⟩

/-- C5: every resolution-side failure mode of `restoreHighlight` — a path
that resolves to nothing (including malformed path syntax, which the model's
`findNodeByXPath` already converts to `none`, as the source's inner `catch`
does) or a path that resolves to a non-text node — yields the failure result
`false` with the state unchanged, and no exception escapes: the function is
total by construction, mirroring the source's outer `try`/`catch`. -/
theorem C5_restore_failure_modes (st : HState) (s : StoredHighlight)
    (h : findNodeByXPath st.roots s.xpath = none ∨
      ∃ p, findNodeByXPath st.roots s.xpath = some p ∧ isTextPos st.roots p = false) :
    restoreHighlight st s = (false, st) := by
  rcases h with h | ⟨p, h1, h2⟩
  · simp only [restoreHighlight, h]
  · simp only [restoreHighlight, h1]
    unfold isTextPos at h2
    cases hg : getAt st.roots p with
    | none => simp only [hg]
    | some n =>
      cases n with
      | elem i t c b d cs => simp only [hg]
      | text i d => rw [hg] at h2; simp at h2
      | comment i d => simp only [hg]

theorem C5_restore_failure_modes_witness :
    findNodeByXPath bodyState.roots malformedRecord.xpath = none ∧
    restoreHighlight bodyState malformedRecord = (false, bodyState) ∧
    restoreHighlight bodyState elemPathRecord = (false, bodyState) :=
  ⟨by decide,
    C5_restore_failure_modes bodyState malformedRecord (Or.inl (by decide)),
    C5_restore_failure_modes bodyState elemPathRecord
      (Or.inr ⟨[0, 0], by decide, by decide⟩)⟩

/-- C6 counterexample: a non-collapsed range inside a comment node makes both
wrap attempts throw; `highlightRange` returns the failure result, yet the
document *was* partially mutated — the extraction inside `surroundContents`
already deleted the selected comment data before the insertion step threw. -/
theorem C6_cex_partial_mutation_on_failure :
    (highlightRange commentState commentRange "#fff7a5" 0).1 = none ∧
    dataPos commentState.roots [0, 0, 0] = "abcd" ∧
    dataPos (highlightRange commentState commentRange "#fff7a5" 0).2.roots [0, 0, 0]
      = "ad" :=
  ⟨by decide, by decide, by decide⟩

/-- C8 counterexample: on a document whose root element is itself a marker,
`clearAll` throws (`replaceChild` rejects inserting a text node as a child of
the document node), so it is not total over every document state. -/
theorem C8_cex_clearAll_throws_on_root_marker :
    clearAll rootMarkerState = .error () := rfl

end HLN

namespace HLN

/-! ### Color canonicalization lemmas (C9, C10) -/

set_option maxRecDepth 100000 in
theorem all_digits_repr : ∀ n < 256, ((Nat.repr n).data.all Char.isDigit) = true := by decide

set_option maxRecDepth 100000 in
theorem digitsVal_repr : ∀ n < 256, digitsVal ((Nat.repr n).data) = n := by decide

set_option maxRecDepth 100000 in
theorem repr_ne_nil : ∀ n < 256, (Nat.repr n).data ≠ [] := by decide

set_option maxRecDepth 100000 in
theorem pad_natToHex_eq_hex2 : ∀ n < 256, padStart2 (natToHex n) = hex2 n := by decide

theorem digit_not_ws (c : Char) (h : c.isDigit = true) : isWsChar c = false := by
  by_contra hne
  have hw : isWsChar c = true := by revert hne; cases isWsChar c <;> simp
  unfold isWsChar at hw
  have : ((c = ' ' ∨ c = '\t') ∨ c = '\n') ∨ c = '\r' := by
    simpa [decide_eq_true_eq] using hw
  rcases this with ((h1 | h1) | h1) | h1 <;> (subst h1; exact absurd h (by decide))

theorem takeWhile_append_stop (p : Char → Bool) :
    ∀ (l r : List Char), l.all p = true → (∀ c, r.head? = some c → p c = false) →
      (l ++ r).takeWhile p = l
  | [], r, _, hr => by
    cases r with
    | nil => rfl
    | cons c cs => simp [List.takeWhile_cons, hr c rfl]
  | a :: l, r, hl, hr => by
    simp only [List.all_cons, Bool.and_eq_true] at hl
    simp [List.takeWhile_cons, hl.1, takeWhile_append_stop p l r hl.2 hr]

theorem dropWhile_append_stop (p : Char → Bool) :
    ∀ (l r : List Char), l.all p = true → (∀ c, r.head? = some c → p c = false) →
      (l ++ r).dropWhile p = r
  | [], r, _, hr => by
    cases r with
    | nil => rfl
    | cons c cs => simp [List.dropWhile_cons, hr c rfl]
  | a :: l, r, hl, hr => by
    simp only [List.all_cons, Bool.and_eq_true] at hl
    simp [List.dropWhile_cons, hl.1, dropWhile_append_stop p l r hl.2 hr]

theorem dropWhile_of_head_false (p : Char → Bool) (l : List Char)
    (h : ∀ c, l.head? = some c → p c = false) : l.dropWhile p = l := by
  cases l with
  | nil => rfl
  | cons a l => simp [List.dropWhile_cons, h a rfl]

theorem head_append_of_ne_nil {l : List Char} (r : List Char) (h : l ≠ []) :
    (l ++ r).head? = l.head? := by
  cases l with
  | nil => exact absurd rfl h
  | cons a l => rfl

theorem all_head_not {p q : Char → Bool} {l : List Char} (hall : l.all p = true)
    (himp : ∀ c, p c = true → q c = false) :
    ∀ c, l.head? = some c → q c = false := by
  intro c hc
  cases l with
  | nil => cases hc
  | cons a l =>
    simp only [List.head?_cons, Option.some.injEq] at hc
    simp only [List.all_cons, Bool.and_eq_true] at hall
    exact hc ▸ himp a hall.1

/-- Definitional reduction of the rgb matcher at an explicit `rgb(` prefix. -/
theorem parseRgbTriple_cons (rest : List Char) :
    parseRgbTriple ('r' :: 'g' :: 'b' :: '(' :: rest) =
      (let d1 := rest.takeWhile Char.isDigit
       let r1 := rest.dropWhile Char.isDigit
       if d1 = [] then none else
       match r1 with
       | ',' :: r2 =>
         let r2b := r2.dropWhile isWsChar
         let d2 := r2b.takeWhile Char.isDigit
         let r3 := r2b.dropWhile Char.isDigit
         if d2 = [] then none else
         match r3 with
         | ',' :: r4 =>
           let r4b := r4.dropWhile isWsChar
           let d3 := r4b.takeWhile Char.isDigit
           let r5 := r4b.dropWhile Char.isDigit
           if d3 = [] then none else
           if r5 = [')'] then some (digitsVal d1, digitsVal d2, digitsVal d3) else none
         | _ => none
       | _ => none) := rfl

theorem comma_head_not_digit :
    ∀ (xs : List Char) c, ((',' :: xs).head? = some c) → Char.isDigit c = false := by
  intro xs c hc
  simp only [List.head?_cons, Option.some.injEq] at hc
  subst hc; decide

theorem parse_rgbRender (r g b : Nat) (hr : r < 256) (hg : g < 256) (hb : b < 256) :
    parseRgbTriple (rgbRender r g b).data = some (r, g, b) := by
  have hdata : (rgbRender r g b).data =
      'r' :: 'g' :: 'b' :: '(' ::
        ((Nat.repr r).data ++ (',' :: ' ' ::
          ((Nat.repr g).data ++ (',' :: ' ' ::
            ((Nat.repr b).data ++ [')']))))) := by
    show ('r' :: 'g' :: 'b' :: '(' :: []) ++ (Nat.repr r).data ++ (',' :: ' ' :: []) ++
        (Nat.repr g).data ++ (',' :: ' ' :: []) ++ (Nat.repr b).data ++ (')' :: []) = _
    simp
  rw [hdata, parseRgbTriple_cons]
  simp only [takeWhile_append_stop Char.isDigit _ _ (all_digits_repr r hr) (comma_head_not_digit _),
    dropWhile_append_stop Char.isDigit _ _ (all_digits_repr r hr) (comma_head_not_digit _),
    if_neg (repr_ne_nil r hr)]
  have hws2 : ((' ' :: ((Nat.repr g).data ++ (',' :: ' ' :: ((Nat.repr b).data ++ [')'])))).dropWhile isWsChar)
      = (Nat.repr g).data ++ (',' :: ' ' :: ((Nat.repr b).data ++ [')'])) := by
    rw [List.dropWhile_cons]
    simp only [show isWsChar ' ' = true from rfl, if_true]
    exact dropWhile_of_head_false isWsChar _ (by
      intro c hc
      rw [head_append_of_ne_nil _ (repr_ne_nil g hg)] at hc
      exact all_head_not (all_digits_repr g hg) digit_not_ws c hc)
  simp only [hws2]
  simp only [takeWhile_append_stop Char.isDigit _ _ (all_digits_repr g hg) (comma_head_not_digit _),
    dropWhile_append_stop Char.isDigit _ _ (all_digits_repr g hg) (comma_head_not_digit _),
    if_neg (repr_ne_nil g hg)]
  have hws3 : ((' ' :: ((Nat.repr b).data ++ [')'])).dropWhile isWsChar)
      = (Nat.repr b).data ++ [')'] := by
    rw [List.dropWhile_cons]
    simp only [show isWsChar ' ' = true from rfl, if_true]
    exact dropWhile_of_head_false isWsChar _ (by
      intro c hc
      rw [head_append_of_ne_nil _ (repr_ne_nil b hb)] at hc
      exact all_head_not (all_digits_repr b hb) digit_not_ws c hc)
  simp only [hws3]
  have hparen : ∀ (xs : List Char) c, ((')' :: xs).head? = some c) → Char.isDigit c = false := by
    intro xs c hc
    simp only [List.head?_cons, Option.some.injEq] at hc
    subst hc; decide
  simp only [takeWhile_append_stop Char.isDigit _ _ (all_digits_repr b hb) (hparen _),
    dropWhile_append_stop Char.isDigit _ _ (all_digits_repr b hb) (hparen _),
    if_neg (repr_ne_nil b hb)]
  simp [digitsVal_repr r hr, digitsVal_repr g hg, digitsVal_repr b hb]

end HLN

namespace HLN

theorem startsHash_rgbRender (r g b : Nat) : startsHash (rgbRender r g b) = false := rfl

theorem rgbToHex_rgbRender (r g b : Nat) (hr : r < 256) (hg : g < 256) (hb : b < 256) :
    rgbToHex (rgbRender r g b) = "#" ++ hex2 r ++ hex2 g ++ hex2 b := by
  unfold rgbToHex
  rw [startsHash_rgbRender]
  simp only [Bool.false_eq_true, if_false, parse_rgbRender r g b hr hg hb]
  rw [pad_natToHex_eq_hex2 r hr, pad_natToHex_eq_hex2 g hg, pad_natToHex_eq_hex2 b hb]

/-- C9: a live marker whose inline background color is reported in the
component-triplet form `rgb(r, g, b)` (three decimal byte components) has its
color re-encoded by `getAllHighlights` into the canonical hex form: `#`
followed by each component as two-digit zero-padded lower-case hexadecimal. -/
theorem C9_color_canonicalized (st : HState) (now i : Nat) (p : List Nat)
    (el : DNode) (r g b : Nat)
    (h1 : (markerPosList st.roots)[i]? = some p)
    (h2 : getAt st.roots p = some el)
    (h3 : el.bgOf = rgbRender r g b)
    (hr : r < 256) (hg : g < 256) (hb : b < 256) :
    ((getAllHighlights st now)[i]?).map StoredHighlight.color =
      some ("#" ++ hex2 r ++ hex2 g ++ hex2 b) := by
  unfold getAllHighlights
  rw [List.getElem?_map, h1]
  simp only [Option.map_some', h2]
  rw [← rgbToHex_rgbRender r g b hr hg hb, ← h3]

theorem C9_color_canonicalized_witness :
    (markerPosList colorState.roots)[0]? = some [0, 0, 0] ∧
    rgbToHex "rgb(255, 247, 165)" = "#fff7a5" ∧
    ((getAllHighlights colorState 7)[0]?).map StoredHighlight.color = some "#fff7a5" := by
  refine ⟨by decide, by decide, ?_⟩
  have h := C9_color_canonicalized colorState 7 0 [0, 0, 0]
    (.elem 3 "span" "st-highlight" "rgb(255, 247, 165)" (some "0") [.text 4 "hi"])
    255 247 165 (by decide) rfl (by decide) (by decide) (by decide) (by decide)
  have he : ("#" ++ hex2 255 ++ hex2 247 ++ hex2 165 : String) = "#fff7a5" := by decide
  exact he ▸ h

/-- C10: a live marker whose inline background color neither begins with `#`
nor matches the exact `rgb(<digits>, <digits>, <digits>)` pattern (e.g. an
`rgba(...)` form or a named color) has that string returned unchanged as the
record's color by `getAllHighlights`. -/
theorem C10_unrecognized_color_passthrough (st : HState) (now i : Nat)
    (p : List Nat) (el : DNode)
    (h1 : (markerPosList st.roots)[i]? = some p)
    (h2 : getAt st.roots p = some el)
    (h3 : startsHash el.bgOf = false)
    (h4 : parseRgbTriple el.bgOf.data = none) :
    ((getAllHighlights st now)[i]?).map StoredHighlight.color = some el.bgOf := by
  unfold getAllHighlights
  rw [List.getElem?_map, h1]
  simp only [Option.map_some', h2]
  have : rgbToHex el.bgOf = el.bgOf := by
    unfold rgbToHex
    rw [h3, h4]
    simp
  rw [this]

theorem C10_unrecognized_color_passthrough_witness :
    (markerPosList colorState.roots)[1]? = some [0, 0, 1] ∧
    ((getAllHighlights colorState 7)[1]?).map StoredHighlight.color =
      some "rgba(1, 2, 3, 0.5)" :=
  ⟨by decide,
    C10_unrecognized_color_passthrough colorState 7 1 [0, 0, 1]
      (.elem 5 "span" "st-highlight" "rgba(1, 2, 3, 0.5)" (some "1") [.text 6 "yo"])
      (by decide) rfl (by decide) (by decide)⟩

end HLN

namespace HLN

/-! ### Structural lemma library -/

theorem getAt_one (f : Forest) (i : Nat) : getAt f [i] = f[i]? := rfl

theorem getAt_cons_bind (f : Forest) (i : Nat) (p : List Nat) :
    getAt f (i :: p) = (f[i]?).bind (fun n => getSub n p) := by
  cases p with
  | nil => cases h : f[i]? <;> simp [getAt, getSub, h]
  | cons j q => cases h : f[i]? <;> simp [getAt, getSub, h]

theorem updIdx_get_eq : ∀ (l : List α) (i : Nat) (g : α → α),
    (updIdx l i g)[i]? = (l[i]?).map g
  | [], i, g => by simp [updIdx]
  | a :: l, 0, g => by simp [updIdx]
  | a :: l, i + 1, g => by simpa [updIdx] using updIdx_get_eq l i g

theorem updIdx_get_ne : ∀ (l : List α) (i j : Nat) (g : α → α), i ≠ j →
    (updIdx l i g)[j]? = l[j]?
  | [], _, _, _, _ => by simp [updIdx]
  | a :: l, 0, 0, g, h => absurd rfl h
  | a :: l, 0, j + 1, g, h => by simp [updIdx]
  | a :: l, i + 1, 0, g, h => by simp [updIdx]
  | a :: l, i + 1, j + 1, g, h => by
    simpa [updIdx] using updIdx_get_ne l i j g (fun hh => h (by omega))

theorem idsF_append (a b : Forest) : idsF (a ++ b) = idsF a ++ idsF b := by
  induction a with
  | nil => rfl
  | cons n rest ih => simp [idsF, ih]

theorem mem_idsN_withChildList {n : DNode} {cs : Forest} {j : Nat}
    (h : j ∈ idsN (n.withChildList cs)) : j = n.nid ∨ j ∈ idsF cs := by
  cases n with
  | elem i t c b d cs0 => simpa [DNode.withChildList, idsN, DNode.nid] using h
  | text i d =>
    left; simpa [DNode.withChildList, idsN, DNode.nid] using h
  | comment i d =>
    left; simpa [DNode.withChildList, idsN, DNode.nid] using h

theorem nid_mem_idsN (n : DNode) : n.nid ∈ idsN n := by
  cases n <;> simp [idsN, DNode.nid]

theorem mem_idsF_updIdx {g : DNode → DNode}
    (hg : ∀ n j, j ∈ idsN (g n) → j ∈ idsN n) :
    ∀ (f : Forest) (i : Nat) (j : Nat), j ∈ idsF (updIdx f i g) → j ∈ idsF f
  | [], i, j, h => h
  | n :: rest, 0, j, h => by
    simp only [updIdx, idsF, List.mem_append] at h ⊢
    exact h.imp (hg n j) id
  | n :: rest, i + 1, j, h => by
    simp only [updIdx, idsF, List.mem_append] at h ⊢
    exact h.imp id (mem_idsF_updIdx hg rest i j)

theorem mem_idsF_modifyAt (g : DNode → DNode)
    (hg : ∀ n j, j ∈ idsN (g n) → j ∈ idsN n) :
    ∀ (p : List Nat) (f : Forest) (j : Nat), j ∈ idsF (modifyAt f p g) → j ∈ idsF f
  | [], _, _, h => h
  | [i], f, j, h => mem_idsF_updIdx hg f i j h
  | i :: jj :: p, f, j, h => by
    refine mem_idsF_updIdx
      (g := fun n => n.withChildList (modifyAt n.childList (jj :: p) g)) ?_ f i j h
    intro n j2 h2
    rcases mem_idsN_withChildList h2 with h3 | h3
    · exact h3 ▸ nid_mem_idsN n
    · have h4 := mem_idsF_modifyAt g hg (jj :: p) n.childList j2 h3
      cases n with
      | elem i2 t c b d cs =>
        simp only [DNode.childList] at h4
        simp [idsN, h4]
      | text i2 d => simp [DNode.childList, idsF] at h4
      | comment i2 d => simp [DNode.childList, idsF] at h4

theorem mem_idsF_modifyChildrenAt (g : Forest → Forest)
    (hg : ∀ cs j, j ∈ idsF (g cs) → j ∈ idsF cs) :
    ∀ (p : List Nat) (f : Forest) (j : Nat), j ∈ idsF (modifyChildrenAt f p g) → j ∈ idsF f
  | [], f, j, h => hg f j h
  | i :: p, f, j, h => by
    refine mem_idsF_updIdx
      (g := fun n => n.withChildList (modifyChildrenAt n.childList p g)) ?_ f i j h
    intro n j2 h2
    rcases mem_idsN_withChildList h2 with h3 | h3
    · exact h3 ▸ nid_mem_idsN n
    · have h4 := mem_idsF_modifyChildrenAt g hg p n.childList j2 h3
      cases n with
      | elem i2 t c b d cs =>
        simp only [DNode.childList] at h4
        simp [idsN, h4]
      | text i2 d => simp [DNode.childList, idsF] at h4
      | comment i2 d => simp [DNode.childList, idsF] at h4

theorem mem_idsF_filter (q : DNode → Bool) :
    ∀ (f : Forest) (j : Nat), j ∈ idsF (f.filter q) → j ∈ idsF f
  | [], j, h => h
  | n :: rest, j, h => by
    simp only [List.filter] at h
    cases hq : q n with
    | true =>
      rw [hq] at h
      simp only [idsF, List.mem_append] at h ⊢
      exact h.imp id (mem_idsF_filter q rest j)
    | false =>
      rw [hq] at h
      simp only [idsF, List.mem_append]
      exact Or.inr (mem_idsF_filter q rest j h)

end HLN

namespace HLN

theorem idsN_setCharData (n : DNode) (s : String) : idsN (setCharData n s) = idsN n := by
  cases n <;> rfl

theorem extractPhase1_ids {recurse : Forest → Nat → BRange → Option ExtractRes}
    (hrec : ∀ f n r er, recurse f n r = some er → ∀ j, j ∈ idsF er.roots → j ∈ idsF f)
    (f : Forest) (nid : Nat) (r : BRange) (ca : List Nat) (fi : Option Nat)
    (frag1 f1 : Forest) (nid1 : Nat)
    (h : extractPhase1 recurse f nid r ca fi = some (frag1, f1, nid1)) :
    ∀ j, j ∈ idsF f1 → j ∈ idsF f := by
  intro j hj
  cases fi with
  | none =>
    simp only [extractPhase1] at h
    cases h
    exact hj
  | some k =>
    simp only [extractPhase1] at h
    split at h
    · cases h; exact hj
    · split at h
      · cases h
        exact mem_idsF_modifyAt _ (fun n j2 h2 => by rwa [idsN_setCharData] at h2) _ f j hj
      · split at h
        · cases h
        · cases h
          exact hrec _ _ _ _ (by assumption) j hj

theorem extractPhase3_ids {recurse : Forest → Nat → BRange → Option ExtractRes}
    (hrec : ∀ f n r er, recurse f n r = some er → ∀ j, j ∈ idsF er.roots → j ∈ idsF f)
    (f2 : Forest) (nid1 : Nat) (r : BRange) (li : Option Nat)
    (frag3 f3 : Forest) (nid3 : Nat)
    (h : extractPhase3 recurse f2 nid1 r li = some (frag3, f3, nid3)) :
    ∀ j, j ∈ idsF f3 → j ∈ idsF f2 := by
  intro j hj
  cases li with
  | none =>
    simp only [extractPhase3] at h
    cases h
    exact hj
  | some lId =>
    simp only [extractPhase3] at h
    split at h
    · cases h; exact hj
    · split at h
      · cases h; exact hj
      · split at h
        · cases h
          exact mem_idsF_modifyAt _ (fun n j2 h2 => by rwa [idsN_setCharData] at h2) _ f2 j hj
        · split at h
          · cases h
          · cases h
            exact hrec _ _ _ _ (by assumption) j hj

theorem extract_ids : ∀ (fuel : Nat) (f : Forest) (nid : Nat) (r : BRange) (er : ExtractRes),
    extractFuel fuel f nid r = some er → ∀ j, j ∈ idsF er.roots → j ∈ idsF f := by
  intro fuel
  induction fuel with
  | zero => intro f nid r er h; cases h
  | succ fuel ih =>
    intro f nid r er h j hj
    simp only [extractFuel] at h
    split at h
    · cases h; exact hj
    · split at h
      case _ ps pe _ _ =>
        split at h
        · cases h
          exact mem_idsF_modifyAt _ (fun n j2 h2 => by rwa [idsN_setCharData] at h2) _ f j hj
        · split at h
          · cases h
          case _ frag1 f1 nid1 heq1 =>
            split at h
            · cases h
            case _ frag3 f3 nid3 heq3 =>
              cases h
              have h3 := extractPhase3_ids ih _ _ _ _ _ _ _ heq3 j hj
              have h2 := mem_idsF_modifyChildrenAt _
                (fun cs j2 hc => mem_idsF_filter _ cs j2 hc) _ f1 j h3
              exact extractPhase1_ids ih f nid r _ _ _ _ _ heq1 j h2
      · cases h; exact hj

end HLN

namespace HLN

theorem surround_ids_cases (f : Forest) (nid : Nat) (r : BRange) (w : DNode) :
    (surroundSteps f nid r w).ok = true ∨
    (∀ j, j ∈ idsF (surroundSteps f nid r w).roots → j ∈ idsF f) := by
  simp only [surroundSteps]
  split
  case _ ps pe _ _ =>
    split
    · exact Or.inr (fun j hj => hj)
    · split
      · exact Or.inr (fun j hj => hj)
      case _ er heq =>
        split
        · exact Or.inr (fun j hj => extract_ids _ _ _ _ _ heq j hj)
        · exact Or.inl rfl
  · exact Or.inr (fun j hj => hj)

end HLN

namespace HLN

/-- C6 (amended): whenever `highlightRange` returns the failure result, the
marker element it created (id `st.nextId`, the next fresh node) is not
attached anywhere in the resulting document.  (The original claim's
"no partial mutation" conjunct is refuted by
`C6_cex_partial_mutation_on_failure`.) -/
theorem C6_amended_no_marker_attached (st : HState) (r : BRange) (color : String)
    (now : Nat) (st' : HState) (hWF : WF st)
    (h : highlightRange st r color now = (none, st')) :
    st.nextId ∉ idsF st'.roots := by
  have hfresh : st.nextId ∉ idsF st.roots := fun hm =>
    absurd (hWF.2.1 _ hm).2 (lt_irrefl _)
  intro hmem
  apply hfresh
  simp only [highlightRange] at h
  split at h
  · cases h; exact hmem
  · split at h
    · simp at h
    case _ hnok =>
      rcases surround_ids_cases st.roots (st.nextId + 1) r
        (mkWrapper st.nextId st.counter color) with hok | hsub
      · exact absurd hok (by simpa using hnok)
      · split at h
        · cases h
          exact hsub _ hmem
        case _ er2 heq2 =>
          split at h
          · cases h
            exact hsub _ (extract_ids _ _ _ _ _ heq2 _ hmem)
          · simp at h

theorem C6_amended_no_marker_attached_witness :
    WF commentState ∧
    commentState.nextId ∉
      idsF (highlightRange commentState commentRange "#fff7a5" 0).2.roots :=
  ⟨by decide,
    C6_amended_no_marker_attached commentState commentRange "#fff7a5" 0
      (highlightRange commentState commentRange "#fff7a5" 0).2 (by decide) rfl⟩

end HLN

namespace HLN

theorem getAt_cons_zero (n : DNode) (rest : Forest) (p : List Nat) :
    getAt (n :: rest) (0 :: p) = getSub n p := by
  cases p <;> simp [getAt, getSub]

theorem getAt_cons_succ (n : DNode) (rest : Forest) (i : Nat) (p : List Nat) :
    getAt (n :: rest) ((i + 1) :: p) = getAt rest (i :: p) := by
  cases p <;> simp [getAt]

theorem getSub_elem (i : Nat) (t c b : String) (d : Option String) (cs : Forest)
    (j : Nat) (p : List Nat) :
    getSub (.elem i t c b d cs) (j :: p) = getAt cs (j :: p) := rfl

theorem getSub_charlike {n : DNode} (hn : n.childList = []) (j : Nat) (p : List Nat) :
    getSub n (j :: p) = none := by
  show getAt n.childList (j :: p) = none
  rw [hn]
  cases p <;> simp [getAt]

/-- Splitting the id list at an updated index. -/
theorem idsF_updIdx_split (g : DNode → DNode) :
    ∀ (f : Forest) (i : Nat) (old : DNode), f[i]? = some old →
      idsF f = idsF (f.take i) ++ idsN old ++ idsF (f.drop (i + 1)) ∧
      idsF (updIdx f i g) =
        idsF (f.take i) ++ idsN (g old) ++ idsF (f.drop (i + 1))
  | [], i, old, h => by simp at h
  | n :: rest, 0, old, h => by
    simp only [List.getElem?_cons_zero, Option.some.injEq] at h
    subst h
    simp [updIdx, idsF]
  | n :: rest, i + 1, old, h => by
    simp only [List.getElem?_cons_succ] at h
    have := idsF_updIdx_split g rest i old h
    simp only [List.take_succ_cons, List.drop_succ_cons, updIdx, idsF]
    constructor
    · rw [this.1]; simp [List.append_assoc]
    · rw [this.2]; simp [List.append_assoc]

/-- Splitting the id list at a modified path: the ids of the document are the
ids outside the replaced subtree (in order) around the subtree's ids. -/
theorem idsF_modifyAt_split (g : DNode → DNode) :
    ∀ (p : List Nat) (f : Forest) (old : DNode), getAt f p = some old →
      ∃ A B, idsF f = A ++ idsN old ++ B ∧
        idsF (modifyAt f p g) = A ++ idsN (g old) ++ B
  | [], f, old, h => by simp [getAt] at h
  | [i], f, old, h => by
    have := idsF_updIdx_split g f i old h
    exact ⟨idsF (f.take i), idsF (f.drop (i + 1)), this.1, this.2⟩
  | i :: jj :: p, f, old, h => by
    rw [show (i :: jj :: p) = i :: (jj :: p) from rfl, getAt_cons_bind] at h
    cases hn : f[i]? with
    | none => rw [hn] at h; cases h
    | some n =>
      rw [hn] at h
      simp only [Option.some_bind] at h
      cases n with
      | elem i2 t c b d cs =>
        rw [getSub_elem] at h
        obtain ⟨A', B', h1, h2⟩ := idsF_modifyAt_split g (jj :: p) cs old h
        have hsplit := idsF_updIdx_split
          (fun n => n.withChildList (modifyAt n.childList (jj :: p) g)) f i _ hn
        refine ⟨idsF (f.take i) ++ i2 :: A', B' ++ idsF (f.drop (i + 1)), ?_, ?_⟩
        · rw [hsplit.1]
          simp [idsN, h1]
        · show idsF (updIdx f i _) = _
          rw [hsplit.2]
          simp [DNode.withChildList, DNode.childList, idsN, h2]
      | text i2 d =>
        rw [getSub_charlike (by rfl)] at h
        cases h
      | comment i2 d =>
        rw [getSub_charlike (by rfl)] at h
        cases h

end HLN

namespace HLN

theorem nil_mem_posN (n : DNode) : [] ∈ posN n := by
  cases n <;> simp [posN]

mutual

theorem getSub_nid_mem : ∀ (n : DNode) (p : List Nat) (m : DNode),
    getSub n p = some m → m.nid ∈ idsN n
  | n, [], m, h => by
    cases h
    exact nid_mem_idsN n
  | n, j :: p, m, h => by
    cases n with
    | elem i t c b d cs =>
      rw [getSub_elem] at h
      have := getAt_nid_mem cs (j :: p) m h
      simp [idsN, this]
    | text i d => rw [getSub_charlike (by rfl)] at h; cases h
    | comment i d => rw [getSub_charlike (by rfl)] at h; cases h

theorem getAt_nid_mem : ∀ (f : Forest) (p : List Nat) (m : DNode),
    getAt f p = some m → m.nid ∈ idsF f
  | [], p, m, h => by cases p with
    | nil => cases h
    | cons i p0 => cases p0 <;> simp [getAt] at h
  | n :: rest, [], m, h => by cases h
  | n :: rest, 0 :: p, m, h => by
    rw [getAt_cons_zero] at h
    have := getSub_nid_mem n p m h
    simp [idsF, this]
  | n :: rest, (i + 1) :: p, m, h => by
    rw [getAt_cons_succ] at h
    have := getAt_nid_mem rest (i :: p) m h
    simp [idsF, this]

end

mutual

theorem getSub_marker_mem : ∀ (n : DNode) (p : List Nat) (el : DNode),
    getSub n p = some el → isMarkerN el = true → el.nid ∈ markersN n
  | n, [], el, h, hm => by
    cases h
    cases n with
    | elem i t c b d cs => simp [markersN, hm, DNode.nid]
    | text i d => simp [isMarkerN] at hm
    | comment i d => simp [isMarkerN] at hm
  | n, j :: p, el, h, hm => by
    cases n with
    | elem i t c b d cs =>
      rw [getSub_elem] at h
      have := getAt_marker_mem cs (j :: p) el h hm
      simp [markersN, this]
    | text i d => rw [getSub_charlike (by rfl)] at h; cases h
    | comment i d => rw [getSub_charlike (by rfl)] at h; cases h

theorem getAt_marker_mem : ∀ (f : Forest) (p : List Nat) (el : DNode),
    getAt f p = some el → isMarkerN el = true → el.nid ∈ markersF f
  | [], p, el, h, hm => by cases p with
    | nil => cases h
    | cons i p0 => cases p0 <;> simp [getAt] at h
  | n :: rest, [], el, h, hm => by cases h
  | n :: rest, 0 :: p, el, h, hm => by
    rw [getAt_cons_zero] at h
    have := getSub_marker_mem n p el h hm
    simp [markersF, this]
  | n :: rest, (i + 1) :: p, el, h, hm => by
    rw [getAt_cons_succ] at h
    have := getAt_marker_mem rest (i :: p) el h hm
    simp [markersF, this]

end

mutual

theorem mem_markersN_attached : ∀ (n : DNode) (j : Nat), j ∈ markersN n →
    ∃ p el, getSub n p = some el ∧ isMarkerN el = true ∧ el.nid = j
  | .elem i t c b d cs, j, h => by
    simp only [markersN] at h
    rcases List.mem_append.1 h with h1 | h1
    · by_cases hm : isMarkerN (.elem i t c b d cs)
      · rw [if_pos hm] at h1
        simp only [List.mem_singleton] at h1
        exact ⟨[], .elem i t c b d cs, rfl, hm, h1.symm⟩
      · rw [if_neg hm] at h1
        cases h1
    · obtain ⟨p, el, h2, h3, h4⟩ := mem_markersF_attached cs j h1
      cases p with
      | nil => cases h2
      | cons j0 p0 =>
        exact ⟨j0 :: p0, el, by rw [getSub_elem]; exact h2, h3, h4⟩
  | .text i d, j, h => by simp [markersN] at h
  | .comment i d, j, h => by simp [markersN] at h

theorem mem_markersF_attached : ∀ (f : Forest) (j : Nat), j ∈ markersF f →
    ∃ p el, getAt f p = some el ∧ isMarkerN el = true ∧ el.nid = j
  | [], j, h => by simp [markersF] at h
  | n :: rest, j, h => by
    simp only [markersF, List.mem_append] at h
    rcases h with h1 | h1
    · obtain ⟨p, el, h2, h3, h4⟩ := mem_markersN_attached n j h1
      exact ⟨0 :: p, el, by rw [getAt_cons_zero]; exact h2, h3, h4⟩
    · obtain ⟨p, el, h2, h3, h4⟩ := mem_markersF_attached rest j h1
      cases p with
      | nil => cases h2
      | cons i p0 =>
        exact ⟨(i + 1) :: p0, el, by rw [getAt_cons_succ]; exact h2, h3, h4⟩

end

mutual

theorem getSub_mem_posN : ∀ (n : DNode) (p : List Nat) (m : DNode),
    getSub n p = some m → p ∈ posN n
  | n, [], m, h => nil_mem_posN n
  | n, j :: p, m, h => by
    cases n with
    | elem i t c b d cs =>
      rw [getSub_elem] at h
      have := getAt_mem_posIdx cs j p m 0 h
      simp only [Nat.zero_add] at this
      simp [posN, this]
    | text i d => rw [getSub_charlike (by rfl)] at h; cases h
    | comment i d => rw [getSub_charlike (by rfl)] at h; cases h

theorem getAt_mem_posIdx : ∀ (f : Forest) (i : Nat) (p : List Nat) (m : DNode) (k : Nat),
    getAt f (i :: p) = some m → (k + i) :: p ∈ posIdx f k
  | [], i, p, m, k, h => by cases p <;> simp [getAt] at h
  | n :: rest, 0, p, m, k, h => by
    rw [getAt_cons_zero] at h
    have := getSub_mem_posN n p m h
    simp only [posIdx, List.mem_append, Nat.add_zero]
    exact Or.inl (List.mem_map.2 ⟨p, this, rfl⟩)
  | n :: rest, i + 1, p, m, k, h => by
    rw [getAt_cons_succ] at h
    have := getAt_mem_posIdx rest i p m (k + 1) h
    simp only [posIdx, List.mem_append]
    right
    have harith : k + 1 + i = k + (i + 1) := by omega
    rwa [harith] at this

end

theorem getAt_mem_positionsF (f : Forest) (p : List Nat) (m : DNode)
    (h : getAt f p = some m) : p ∈ positionsF f := by
  cases p with
  | nil => cases h
  | cons i p0 =>
    have := getAt_mem_posIdx f i p0 m 0 h
    simpa [positionsF] using this

end HLN

namespace HLN

mutual

theorem findPathN_none : ∀ (n : DNode) (j : Nat), findPathN n j = none → j ∉ idsN n
  | .elem i t c b d cs, j, h => by
    simp only [findPathN, DNode.nid] at h
    split at h
    · cases h
    case _ hne =>
      have hrec := findPathIdx_none cs 0 j h
      intro hm
      rcases List.mem_cons.1 (by simpa [idsN] using hm) with hm | hm
      · exact hne (by simp [DNode.nid, hm])
      · exact hrec hm
  | .text i d, j, h => by
    simp only [findPathN, DNode.nid] at h
    split at h
    · cases h
    case _ hne =>
      intro hm
      simp only [idsN, List.mem_singleton] at hm
      exact hne hm.symm
  | .comment i d, j, h => by
    simp only [findPathN, DNode.nid] at h
    split at h
    · cases h
    case _ hne =>
      intro hm
      simp only [idsN, List.mem_singleton] at hm
      exact hne hm.symm

theorem findPathIdx_none : ∀ (f : Forest) (k : Nat) (j : Nat),
    findPathIdx f k j = none → j ∉ idsF f
  | [], k, j, h => by simp [idsF]
  | n :: rest, k, j, h => by
    rw [findPathIdx] at h
    split at h
    · cases h
    case _ hfp =>
      have h1 := findPathN_none n j hfp
      have h2 := findPathIdx_none rest (k + 1) j h
      intro hm
      rcases List.mem_append.1 (by simpa [idsF] using hm) with hm | hm
      · exact h1 hm
      · exact h2 hm

end

theorem findPathF_none (f : Forest) (j : Nat) (h : findPathF f j = none) :
    j ∉ idsF f :=
  findPathIdx_none f 0 j h

mutual

theorem getSub_unique : ∀ (n : DNode), (idsN n).Nodup → ∀ (p q : List Nat) (m m' : DNode),
    getSub n p = some m → getSub n q = some m' → m.nid = m'.nid → p = q
  | n, hnd, [], [], m, m', h1, h2, he => rfl
  | n, hnd, [], j :: q, m, m', h1, h2, he => by
    cases h1
    cases n with
    | elem i t c b d cs =>
      rw [getSub_elem] at h2
      have hmem := getAt_nid_mem cs (j :: q) m' h2
      rw [← he] at hmem
      simp only [idsN, List.nodup_cons] at hnd
      simp only [DNode.nid] at hmem
      exact absurd hmem hnd.1
    | text i d => rw [getSub_charlike (by rfl)] at h2; cases h2
    | comment i d => rw [getSub_charlike (by rfl)] at h2; cases h2
  | n, hnd, j :: p, [], m, m', h1, h2, he => by
    cases h2
    cases n with
    | elem i t c b d cs =>
      rw [getSub_elem] at h1
      have hmem := getAt_nid_mem cs (j :: p) m h1
      rw [he] at hmem
      simp only [idsN, List.nodup_cons] at hnd
      simp only [DNode.nid] at hmem
      exact absurd hmem hnd.1
    | text i d => rw [getSub_charlike (by rfl)] at h1; cases h1
    | comment i d => rw [getSub_charlike (by rfl)] at h1; cases h1
  | n, hnd, j :: p, j2 :: q, m, m', h1, h2, he => by
    cases n with
    | elem i t c b d cs =>
      rw [getSub_elem] at h1 h2
      simp only [idsN, List.nodup_cons] at hnd
      exact getAt_unique cs hnd.2 (j :: p) (j2 :: q) m m' h1 h2 he
    | text i d => rw [getSub_charlike (by rfl)] at h1; cases h1
    | comment i d => rw [getSub_charlike (by rfl)] at h1; cases h1

theorem getAt_unique : ∀ (f : Forest), (idsF f).Nodup → ∀ (p q : List Nat) (m m' : DNode),
    getAt f p = some m → getAt f q = some m' → m.nid = m'.nid → p = q
  | [], _, p, q, m, m', h1, h2, he => by
    cases p with
    | nil => cases h1
    | cons i p0 => cases p0 <;> simp [getAt] at h1
  | n :: rest, hnd, p, q, m, m', h1, h2, he => by
    have hnd' := List.nodup_append.1 (by simpa [idsF] using hnd)
    cases p with
    | nil => cases h1
    | cons i p0 =>
      cases q with
      | nil => cases h2
      | cons i2 q0 =>
        cases i with
        | zero =>
          cases i2 with
          | zero =>
            rw [getAt_cons_zero] at h1 h2
            rw [getSub_unique n hnd'.1 p0 q0 m m' h1 h2 he]
          | succ i2 =>
            rw [getAt_cons_zero] at h1
            rw [getAt_cons_succ] at h2
            have ha := getSub_nid_mem n p0 m h1
            have hb := getAt_nid_mem rest (i2 :: q0) m' h2
            rw [he] at ha
            exact absurd hb (hnd'.2.2 ha)
        | succ i =>
          cases i2 with
          | zero =>
            rw [getAt_cons_succ] at h1
            rw [getAt_cons_zero] at h2
            have ha := getAt_nid_mem rest (i :: p0) m h1
            have hb := getSub_nid_mem n q0 m' h2
            rw [← he] at hb
            exact absurd ha (hnd'.2.2 hb)
          | succ i2 =>
            rw [getAt_cons_succ] at h1 h2
            have := getAt_unique rest hnd'.2.1 (i :: p0) (i2 :: q0) m m' h1 h2 he
            injection this with ha hb
            rw [ha, hb]

end

end HLN

namespace HLN

mutual

theorem mem_markersN_ids : ∀ (n : DNode) (j : Nat), j ∈ markersN n → j ∈ idsN n
  | .elem i t c b d cs, j, h => by
    simp only [markersN] at h
    rcases List.mem_append.1 h with h1 | h1
    · split at h1
      · simp only [List.mem_singleton] at h1
        simp [idsN, h1]
      · cases h1
    · have := mem_markersF_ids cs j h1
      simp [idsN, this]
  | .text i d, j, h => by simp [markersN] at h
  | .comment i d, j, h => by simp [markersN] at h

theorem mem_markersF_ids : ∀ (f : Forest) (j : Nat), j ∈ markersF f → j ∈ idsF f
  | [], j, h => by simp [markersF] at h
  | n :: rest, j, h => by
    rcases List.mem_append.1 (by simpa [markersF] using h) with h1 | h1
    · have := mem_markersN_ids n j h1
      simp [idsF, this]
    · have := mem_markersF_ids rest j h1
      simp [idsF, this]

end

theorem mergeTexts_ids_sublist : ∀ (f : Forest), (idsF (mergeTexts f)).Sublist (idsF f)
  | [] => List.Sublist.refl _
  | .text i d :: rest => by
    show (idsF (if d = "" then mergeTexts rest else
      match mergeTexts rest with
      | .text _ d2 :: r2 => .text i (d ++ d2) :: r2
      | r2 => .text i d :: r2)).Sublist (idsF (DNode.text i d :: rest))
    split
    case isTrue =>
      exact (mergeTexts_ids_sublist rest).trans (List.sublist_cons_self _ _)
    case isFalse =>
      have hrec := mergeTexts_ids_sublist rest
      split
      case _ j d2 r2 heq =>
        show (i :: idsF r2).Sublist (i :: idsF rest)
        refine List.Sublist.cons₂ i ?_
        have h2 : idsF (mergeTexts rest) = j :: idsF r2 := by rw [heq]; rfl
        rw [h2] at hrec
        exact (List.sublist_cons_self j (idsF r2)).trans hrec
      case _ hne =>
        show (i :: idsF (mergeTexts rest)).Sublist (i :: idsF rest)
        exact List.Sublist.cons₂ i hrec
  | .elem i t c b d cs :: rest => by
    show (idsN (DNode.elem i t c b d cs) ++ idsF (mergeTexts rest)).Sublist
      (idsN (DNode.elem i t c b d cs) ++ idsF rest)
    exact (List.append_sublist_append_left _).mpr (mergeTexts_ids_sublist rest)
  | .comment i d :: rest => by
    show (idsN (DNode.comment i d) ++ idsF (mergeTexts rest)).Sublist
      (idsN (DNode.comment i d) ++ idsF rest)
    exact (List.append_sublist_append_left _).mpr (mergeTexts_ids_sublist rest)

mutual

theorem normalizeN_ids_sublist : ∀ (n : DNode), (idsN (normalizeN n)).Sublist (idsN n)
  | .elem i t c b d cs => by
    show (i :: idsF (mergeTexts (normalizeF cs))).Sublist (i :: idsF cs)
    refine List.Sublist.cons₂ i ?_
    exact (mergeTexts_ids_sublist (normalizeF cs)).trans (normalizeF_ids_sublist cs)
  | .text i d => List.Sublist.refl _
  | .comment i d => List.Sublist.refl _

theorem normalizeF_ids_sublist : ∀ (f : Forest), (idsF (normalizeF f)).Sublist (idsF f)
  | [] => List.Sublist.refl _
  | n :: rest => by
    show (idsN (normalizeN n) ++ idsF (normalizeF rest)).Sublist (idsN n ++ idsF rest)
    exact List.Sublist.append (normalizeN_ids_sublist n) (normalizeF_ids_sublist rest)

end

theorem mergeTexts_markers_sub : ∀ (f : Forest) (j : Nat),
    j ∈ markersF (mergeTexts f) → j ∈ markersF f
  | [], j, h => h
  | .text i d :: rest, j, h => by
    rw [show mergeTexts (DNode.text i d :: rest) = (if d = "" then mergeTexts rest else
      match mergeTexts rest with
      | .text _ d2 :: r2 => .text i (d ++ d2) :: r2
      | r2 => .text i d :: r2) from rfl] at h
    split at h
    case isTrue =>
      have := mergeTexts_markers_sub rest j h
      simp [markersF, markersN, this]
    case isFalse =>
      split at h
      case _ j2 d2 r2 heq =>
        have h1 : j ∈ markersF (mergeTexts rest) := by
          rw [heq]
          simpa [markersF, markersN] using h
        have := mergeTexts_markers_sub rest j h1
        simp [markersF, markersN, this]
      case _ =>
        have h1 : j ∈ markersF (mergeTexts rest) := by
          simpa [markersF, markersN] using h
        have := mergeTexts_markers_sub rest j h1
        simp [markersF, markersN, this]
  | .elem i t c b d cs :: rest, j, h => by
    rw [show mergeTexts (DNode.elem i t c b d cs :: rest)
      = DNode.elem i t c b d cs :: mergeTexts rest from rfl] at h
    rcases List.mem_append.1 (by simpa [markersF] using h) with h1 | h1
    · simp [markersF, List.mem_append, h1]
    · have := mergeTexts_markers_sub rest j h1
      simp [markersF, this]
  | .comment i d :: rest, j, h => by
    rw [show mergeTexts (DNode.comment i d :: rest)
      = DNode.comment i d :: mergeTexts rest from rfl] at h
    have h1 : j ∈ markersF (mergeTexts rest) := by simpa [markersF, markersN] using h
    have := mergeTexts_markers_sub rest j h1
    simp [markersF, markersN, this]

theorem normalizeN_isMarker (n : DNode) : isMarkerN (normalizeN n) = isMarkerN n := by
  cases n <;> rfl

theorem normalizeN_isText (n : DNode) : (normalizeN n).isText = n.isText := by
  cases n <;> rfl

theorem withChildList_isMarker (n : DNode) (cs : Forest) :
    isMarkerN (n.withChildList cs) = isMarkerN n := by
  cases n <;> rfl

theorem withChildList_isText (n : DNode) (cs : Forest) :
    (n.withChildList cs).isText = n.isText := by
  cases n <;> rfl

mutual

theorem normalizeN_markers_sub : ∀ (n : DNode) (j : Nat),
    j ∈ markersN (normalizeN n) → j ∈ markersN n
  | .elem i t c b d cs, j, h => by
    simp only [normalizeN, markersN] at h ⊢
    rcases List.mem_append.1 h with h1 | h1
    · exact List.mem_append.2 (Or.inl (by simpa [isMarkerN] using h1))
    · have h2 := mergeTexts_markers_sub (normalizeF cs) j h1
      exact List.mem_append.2 (Or.inr (normalizeF_markers_sub cs j h2))
  | .text i d, j, h => h
  | .comment i d, j, h => h

theorem normalizeF_markers_sub : ∀ (f : Forest) (j : Nat),
    j ∈ markersF (normalizeF f) → j ∈ markersF f
  | [], j, h => h
  | n :: rest, j, h => by
    rcases List.mem_append.1 (by simpa [normalizeF, markersF] using h) with h1 | h1
    · exact List.mem_append.2 (Or.inl (normalizeN_markers_sub n j h1))
    · exact List.mem_append.2 (Or.inr (normalizeF_markers_sub rest j h1))

end

theorem mem_updIdx_cases : ∀ (f : List α) (i : Nat) (g : α → α) (m : α),
    m ∈ updIdx f i g → m ∈ f ∨ ∃ n ∈ f, m = g n
  | [], i, g, m, h => Or.inl h
  | a :: l, 0, g, m, h => by
    rcases List.mem_cons.1 h with h1 | h1
    · exact Or.inr ⟨a, List.mem_cons_self a l, h1⟩
    · exact Or.inl (List.mem_cons_of_mem a h1)
  | a :: l, i + 1, g, m, h => by
    rcases List.mem_cons.1 h with h1 | h1
    · exact Or.inl (h1 ▸ List.mem_cons_self a l)
    · rcases mem_updIdx_cases l i g m h1 with h2 | ⟨n, hn, he⟩
      · exact Or.inl (List.mem_cons_of_mem a h2)
      · exact Or.inr ⟨n, List.mem_cons_of_mem a hn, he⟩

end HLN

namespace HLN

mutual

theorem findPathN_some : ∀ (n : DNode) (j : Nat) (p : List Nat), findPathN n j = some p →
    ∃ m, getSub n p = some m ∧ m.nid = j
  | .elem i t c b d cs, j, p, h => by
    rw [findPathN] at h
    split at h
    case _ he =>
      cases h
      exact ⟨.elem i t c b d cs, rfl, he⟩
    case _ hne =>
      obtain ⟨i0, p0, rfl, m, hm, hnid⟩ := findPathIdx_some cs 0 j p h
      exact ⟨m, by rw [Nat.zero_add, getSub_elem]; exact hm, hnid⟩
  | .text i d, j, p, h => by
    simp only [findPathN, DNode.nid] at h
    split at h
    case _ he =>
      cases h
      exact ⟨.text i d, rfl, he⟩
    case _ hne => cases h
  | .comment i d, j, p, h => by
    simp only [findPathN, DNode.nid] at h
    split at h
    case _ he =>
      cases h
      exact ⟨.comment i d, rfl, he⟩
    case _ hne => cases h

theorem findPathIdx_some : ∀ (f : Forest) (k : Nat) (j : Nat) (p : List Nat),
    findPathIdx f k j = some p →
    ∃ i p0, p = (k + i) :: p0 ∧ ∃ m, getAt f (i :: p0) = some m ∧ m.nid = j
  | [], k, j, p, h => by rw [findPathIdx] at h; cases h
  | n :: rest, k, j, p, h => by
    rw [findPathIdx] at h
    split at h
    case _ p0 hfp =>
      cases h
      obtain ⟨m, hm, hnid⟩ := findPathN_some n j p0 hfp
      exact ⟨0, p0, by rw [Nat.add_zero], m, by rw [getAt_cons_zero]; exact hm, hnid⟩
    case _ hfp =>
      obtain ⟨i, p0, hp, m, hm, hnid⟩ := findPathIdx_some rest (k + 1) j p h
      refine ⟨i + 1, p0, ?_, m, ?_, hnid⟩
      · rw [hp]
        congr 1
        omega
      · rw [getAt_cons_succ]
        exact hm

end

theorem findPathF_some (f : Forest) (j : Nat) (p : List Nat)
    (h : findPathF f j = some p) : ∃ m, getAt f p = some m ∧ m.nid = j := by
  obtain ⟨i, p0, rfl, m, hm, hnid⟩ := findPathIdx_some f 0 j p h
  exact ⟨m, by rwa [Nat.zero_add], hnid⟩

end HLN

namespace HLN

theorem idsN_withChildList_elem (i : Nat) (t c b : String) (d : Option String)
    (cs0 cs : Forest) :
    idsN ((DNode.elem i t c b d cs0).withChildList cs) = i :: idsF cs := rfl

theorem subl_idsF_updIdx {g : DNode → DNode}
    (hg : ∀ n, (idsN (g n)).Sublist (idsN n)) :
    ∀ (f : Forest) (i : Nat), (idsF (updIdx f i g)).Sublist (idsF f)
  | [], i => List.Sublist.refl _
  | n :: rest, 0 => by
    show (idsN (g n) ++ idsF rest).Sublist (idsN n ++ idsF rest)
    exact List.Sublist.append (hg n) (List.Sublist.refl _)
  | n :: rest, i + 1 => by
    show (idsN n ++ idsF (updIdx rest i g)).Sublist (idsN n ++ idsF rest)
    exact (List.append_sublist_append_left _).mpr (subl_idsF_updIdx hg rest i)

theorem subl_idsF_modifyAt (g : DNode → DNode)
    (hg : ∀ n, (idsN (g n)).Sublist (idsN n)) :
    ∀ (p : List Nat) (f : Forest), (idsF (modifyAt f p g)).Sublist (idsF f)
  | [], f => List.Sublist.refl _
  | [i], f => subl_idsF_updIdx hg f i
  | i :: jj :: p, f => by
    refine subl_idsF_updIdx (g := fun n => n.withChildList (modifyAt n.childList (jj :: p) g))
      ?_ f i
    intro n
    cases n with
    | elem i2 t c b d cs =>
      rw [idsN_withChildList_elem]
      show (i2 :: idsF (modifyAt cs (jj :: p) g)).Sublist (i2 :: idsF cs)
      exact List.Sublist.cons₂ i2 (subl_idsF_modifyAt g hg (jj :: p) cs)
    | text i2 d => exact List.Sublist.refl _
    | comment i2 d => exact List.Sublist.refl _

theorem mem_markersN_withChildList {n : DNode} {cs : Forest} {j : Nat}
    (h : j ∈ markersN (n.withChildList cs)) :
    (isMarkerN n = true ∧ j = n.nid) ∨ j ∈ markersF cs := by
  cases n with
  | elem i t c b d cs0 =>
    simp only [DNode.withChildList, markersN] at h
    rcases List.mem_append.1 h with h1 | h1
    · split at h1
      case isTrue hm =>
        simp only [List.mem_singleton] at h1
        exact Or.inl ⟨by simpa [isMarkerN] using hm, by simp [DNode.nid, h1]⟩
      case isFalse => cases h1
    · exact Or.inr h1
  | text i d => simp [DNode.withChildList, markersN] at h
  | comment i d => simp [DNode.withChildList, markersN] at h

theorem mem_markersF_updIdx {g : DNode → DNode}
    (hg : ∀ n j, j ∈ markersN (g n) → j ∈ markersN n) :
    ∀ (f : Forest) (i : Nat) (j : Nat), j ∈ markersF (updIdx f i g) → j ∈ markersF f
  | [], i, j, h => h
  | n :: rest, 0, j, h => by
    simp only [updIdx, markersF, List.mem_append] at h ⊢
    exact h.imp (hg n j) id
  | n :: rest, i + 1, j, h => by
    simp only [updIdx, markersF, List.mem_append] at h ⊢
    exact h.imp id (mem_markersF_updIdx hg rest i j)

theorem markerN_nid_mem {n : DNode} (hm : isMarkerN n = true) : n.nid ∈ markersN n := by
  cases n with
  | elem i t c b d cs => simp [markersN, hm, DNode.nid]
  | text i d => simp [isMarkerN] at hm
  | comment i d => simp [isMarkerN] at hm

theorem mem_markersF_modifyAt (g : DNode → DNode)
    (hg : ∀ n j, j ∈ markersN (g n) → j ∈ markersN n) :
    ∀ (p : List Nat) (f : Forest) (j : Nat), j ∈ markersF (modifyAt f p g) → j ∈ markersF f
  | [], _, _, h => h
  | [i], f, j, h => mem_markersF_updIdx hg f i j h
  | i :: jj :: p, f, j, h => by
    refine mem_markersF_updIdx
      (g := fun n => n.withChildList (modifyAt n.childList (jj :: p) g)) ?_ f i j h
    intro n j2 h2
    rcases mem_markersN_withChildList h2 with ⟨hm, h3⟩ | h3
    · exact h3 ▸ markerN_nid_mem hm
    · have h4 := mem_markersF_modifyAt g hg (jj :: p) n.childList j2 h3
      cases n with
      | elem i2 t c b d cs =>
        simp only [DNode.childList] at h4
        simp [markersN, h4]
      | text i2 d => simp [DNode.childList, markersF] at h4
      | comment i2 d => simp [DNode.childList, markersF] at h4

theorem roots_pred_updIdx (P : DNode → Bool) {g : DNode → DNode}
    (hg : ∀ n, P (g n) = P n) (f : Forest) (i : Nat)
    (hf : ∀ m ∈ f, P m = false) : ∀ m ∈ updIdx f i g, P m = false := by
  intro m hm
  rcases mem_updIdx_cases f i g m hm with h1 | ⟨n, hn, he⟩
  · exact hf m h1
  · rw [he, hg]
    exact hf n hn

theorem roots_pred_modifyAt_deep (P : DNode → Bool)
    (hP : ∀ n cs, P (n.withChildList cs) = P n) (f : Forest)
    (i jj : Nat) (p : List Nat) (g : DNode → DNode)
    (hf : ∀ m ∈ f, P m = false) : ∀ m ∈ modifyAt f (i :: jj :: p) g, P m = false :=
  roots_pred_updIdx P (fun n => hP n _) f i hf

theorem roots_pred_modifyAt_one (P : DNode → Bool) {g : DNode → DNode}
    (hg : ∀ n, P (g n) = P n) (f : Forest) (i : Nat)
    (hf : ∀ m ∈ f, P m = false) : ∀ m ∈ modifyAt f [i] g, P m = false :=
  roots_pred_updIdx P hg f i hf

end HLN

namespace HLN

theorem nodup_middle_replace {A B mid : List Nat} {c : Nat}
    (hnd : (A ++ mid ++ B).Nodup) (hcA : c ∉ A) (hcB : c ∉ B) :
    (A ++ [c] ++ B).Nodup := by
  rw [List.append_assoc] at hnd
  obtain ⟨hA, hmidB, hdisj⟩ := List.nodup_append.1 hnd
  obtain ⟨hmid, hB, hdisj2⟩ := List.nodup_append.1 hmidB
  rw [List.append_assoc]
  refine List.nodup_append.2 ⟨hA, ?_, ?_⟩
  · show (c :: B).Nodup
    exact List.nodup_cons.2 ⟨hcB, hB⟩
  · intro a haA
    simp only [List.singleton_append, List.mem_cons]
    rintro (rfl | haB)
    · exact hcA haA
    · exact hdisj haA (List.mem_append.2 (Or.inr haB))

theorem mem_mid_not_side {A B mid : List Nat} {i : Nat}
    (hnd : (A ++ mid ++ B).Nodup) (hi : i ∈ mid) : i ∉ A ∧ i ∉ B := by
  rw [List.append_assoc] at hnd
  obtain ⟨hA, hmidB, hdisj⟩ := List.nodup_append.1 hnd
  obtain ⟨hmid, hB, hdisj2⟩ := List.nodup_append.1 hmidB
  constructor
  · intro hiA
    exact hdisj hiA (List.mem_append.2 (Or.inl hi))
  · intro hiB
    exact hdisj2 hi hiB

theorem remove_step (st : HState) (i : Nat)
    (hWF : WF st) (hroot : noRootMarkersF st.roots) :
    ∃ st2, removeHighlightElement st i = .ok st2 ∧
      WF st2 ∧ noRootMarkersF st2.roots ∧
      (∀ j, j ∈ markersF st2.roots → j ∈ markersF st.roots ∧ j ≠ i) := by
  cases hfp : findPathF st.roots i with
  | none =>
    refine ⟨st, by simp only [removeHighlightElement, hfp], hWF, hroot, fun j hj => ⟨hj, ?_⟩⟩
    rintro rfl
    exact findPathF_none _ _ hfp (mem_markersF_ids _ _ hj)
  | some p =>
    obtain ⟨el0, hga0, hnid0⟩ := findPathF_some st.roots i p hfp
    by_cases hm : isMarkerN el0 = true
    · -- a live marker: the element is replaced by a text node, parent normalized
      have hplen : ¬ p.length = 1 := by
        intro hl
        obtain ⟨i0, rfl⟩ := List.length_eq_one.1 hl
        have hmem : el0 ∈ st.roots := List.getElem?_mem hga0
        rw [hroot el0 hmem] at hm
        cases hm
      have hpne : p ≠ [] := by
        intro hl
        rw [hl] at hga0
        cases hga0
      refine ⟨⟨modifyAt (setAt st.roots p (DNode.text st.nextId (textOfN el0)))
          p.dropLast normalizeN, st.nextId + 1, st.counter⟩,
        by simp only [removeHighlightElement, hfp, hga0, hm, Bool.not_true,
          Bool.false_eq_true, if_false, if_neg hplen], ?_, ?_, ?_⟩
      · -- WF
        obtain ⟨A, B, hsplit1, hsplit2⟩ :=
          idsF_modifyAt_split (fun _ => DNode.text st.nextId (textOfN el0)) p st.roots el0 hga0
        have hnd' : (A ++ idsN el0 ++ B).Nodup := by rw [← hsplit1]; exact hWF.1
        have hAmem : ∀ j ∈ A, j ∈ idsF st.roots := by
          intro j hj; rw [hsplit1]; simp [hj]
        have hBmem : ∀ j ∈ B, j ∈ idsF st.roots := by
          intro j hj; rw [hsplit1]; simp [hj]
        have hcA : st.nextId ∉ A := fun hc =>
          absurd (hWF.2.1 _ (hAmem _ hc)).2 (lt_irrefl _)
        have hcB : st.nextId ∉ B := fun hc =>
          absurd (hWF.2.1 _ (hBmem _ hc)).2 (lt_irrefl _)
        have hndf1 : (idsF (setAt st.roots p (DNode.text st.nextId (textOfN el0)))).Nodup := by
          show (idsF (modifyAt st.roots p _)).Nodup
          rw [hsplit2]
          exact nodup_middle_replace hnd' hcA hcB
        have hsubl := subl_idsF_modifyAt normalizeN normalizeN_ids_sublist p.dropLast
          (setAt st.roots p (DNode.text st.nextId (textOfN el0)))
        have hipos : 0 < st.nextId := by
          have hib := hWF.2.1 i (by rw [hsplit1]; simp [hnid0 ▸ nid_mem_idsN el0])
          omega
        refine ⟨hsubl.nodup hndf1, ?_, ?_⟩
        · intro j hj
          show 0 < j ∧ j < st.nextId + 1
          have hj1 : j ∈ idsF (setAt st.roots p (DNode.text st.nextId (textOfN el0))) :=
            hsubl.subset hj
          rw [show setAt st.roots p (DNode.text st.nextId (textOfN el0))
            = modifyAt st.roots p _ from rfl, hsplit2] at hj1
          simp only [idsN, List.append_assoc, List.mem_append, List.singleton_append,
            List.mem_cons] at hj1
          rcases hj1 with hj1 | hj1 | hj1
          · have := hWF.2.1 _ (hAmem _ hj1); omega
          · omega
          · have := hWF.2.1 _ (hBmem _ hj1); omega
        · -- no text roots
          obtain ⟨i0, p1⟩ : ∃ i0 p1, p = i0 :: p1 := by
            cases p with
            | nil => exact absurd rfl hpne
            | cons a b => exact ⟨a, b, rfl⟩
          obtain ⟨p1, rfl⟩ := p1
          cases p1 with
          | nil => exact absurd rfl hplen
          | cons jj p2 =>
            have hf1 := roots_pred_modifyAt_deep DNode.isText withChildList_isText
              st.roots i0 jj p2 (fun _ => DNode.text st.nextId (textOfN el0)) hWF.2.2
            have hpp : (i0 :: jj :: p2).dropLast = i0 :: (jj :: p2).dropLast := rfl
            rw [hpp]
            cases hdl : (jj :: p2).dropLast with
            | nil =>
              exact roots_pred_modifyAt_one DNode.isText normalizeN_isText _ i0 hf1
            | cons x y =>
              exact roots_pred_modifyAt_deep DNode.isText withChildList_isText _ i0 x y
                normalizeN hf1
      · -- no root markers
        obtain ⟨i0, p1, rfl⟩ : ∃ i0 p1, p = i0 :: p1 := by
          cases p with
          | nil => exact absurd rfl hpne
          | cons a b => exact ⟨a, b, rfl⟩
        cases p1 with
        | nil => exact absurd rfl hplen
        | cons jj p2 =>
          intro m hmem
          have hf1 := roots_pred_modifyAt_deep isMarkerN withChildList_isMarker
            st.roots i0 jj p2 (fun _ => DNode.text st.nextId (textOfN el0)) hroot
          have hpp : (i0 :: jj :: p2).dropLast = i0 :: (jj :: p2).dropLast := rfl
          rw [hpp] at hmem
          cases hdl : (jj :: p2).dropLast with
          | nil =>
            rw [hdl] at hmem
            exact roots_pred_modifyAt_one isMarkerN normalizeN_isMarker _ i0 hf1 m hmem
          | cons x y =>
            rw [hdl] at hmem
            exact roots_pred_modifyAt_deep isMarkerN withChildList_isMarker _ i0 x y
              normalizeN hf1 m hmem
      · -- markers strictly decrease
        intro j hj
        have hj1 : j ∈ markersF (setAt st.roots p (DNode.text st.nextId (textOfN el0))) :=
          mem_markersF_modifyAt normalizeN normalizeN_markers_sub p.dropLast _ j hj
        have hj2 : j ∈ markersF st.roots :=
          mem_markersF_modifyAt (fun _ => DNode.text st.nextId (textOfN el0))
            (fun n j2 h2 => by simp [markersN] at h2) p st.roots j hj1
        refine ⟨hj2, ?_⟩
        rintro rfl
        obtain ⟨A, B, hsplit1, hsplit2⟩ :=
          idsF_modifyAt_split (fun _ => DNode.text st.nextId (textOfN el0)) p st.roots el0 hga0
        have hnd' : (A ++ idsN el0 ++ B).Nodup := by rw [← hsplit1]; exact hWF.1
        have hmid : j ∈ idsN el0 := hnid0 ▸ nid_mem_idsN el0
        have hsides := mem_mid_not_side hnd' hmid
        have hji : j ∈ idsF (setAt st.roots p (DNode.text st.nextId (textOfN el0))) :=
          (subl_idsF_modifyAt normalizeN normalizeN_ids_sublist p.dropLast _).subset
            (mem_markersF_ids _ _ hj)
        rw [show setAt st.roots p (DNode.text st.nextId (textOfN el0))
          = modifyAt st.roots p _ from rfl, hsplit2] at hji
        simp only [idsN, List.append_assoc, List.mem_append, List.singleton_append,
          List.mem_cons] at hji
        have hjlt : j < st.nextId := by
          have : j ∈ idsF st.roots := by
            rw [hsplit1]; simp [hmid]
          exact (hWF.2.1 _ this).2
        rcases hji with hji | hji | hji
        · exact hsides.1 hji
        · omega
        · exact hsides.2 hji
    · -- not a marker: nothing happens
      refine ⟨st, by
        simp only [removeHighlightElement, hfp, hga0]
        rw [if_pos (by simp [hm])], hWF, hroot, fun j hj => ⟨hj, ?_⟩⟩
      intro hji
      obtain ⟨q, el', hga', hm', hnid'⟩ := mem_markersF_attached st.roots i (hji ▸ hj)
      have hpq := getAt_unique st.roots hWF.1 p q el0 el' hga0 hga' (by rw [hnid0, hnid'])
      rw [← hpq, hga0] at hga'
      cases hga'
      exact hm hm'

end HLN

namespace HLN

theorem markerPosList_eq_nil {f : Forest} (h : markersF f = []) :
    markerPosList f = [] := by
  rw [markerPosList, List.filter_eq_nil_iff]
  intro p hp
  intro hpred
  cases hga : getAt f p with
  | none => rw [hga] at hpred; cases hpred
  | some n =>
    rw [hga] at hpred
    have := getAt_marker_mem f p n hga hpred
    rw [h] at this
    cases this

theorem mem_markers_mem_markerIds (f : Forest) (j : Nat) (hj : j ∈ markersF f) :
    j ∈ markerIds f := by
  obtain ⟨p, el, hga, hm, hnid⟩ := mem_markersF_attached f j hj
  have hpos := getAt_mem_positionsF f p el hga
  have hmem : p ∈ markerPosList f := by
    rw [markerPosList, List.mem_filter]
    exact ⟨hpos, by rw [hga]; exact hm⟩
  rw [markerIds]
  refine List.mem_map.2 ⟨p, hmem, ?_⟩
  cases p with
  | nil => cases hga
  | cons i0 p0 =>
    show idAtPos f (i0 :: p0) = j
    have hred : idAtPos f (i0 :: p0) =
        (match getAt f (i0 :: p0) with
          | some n => n.nid
          | none => 0) := rfl
    rw [hred, hga]
    exact hnid

theorem clearAllGo_ok : ∀ (todo : List Nat) (st : HState), WF st →
    noRootMarkersF st.roots → (∀ j, j ∈ markersF st.roots → j ∈ todo) →
    ∃ st1, clearAllGo todo st = .ok st1 ∧ markersF st1.roots = []
  | [], st, hWF, hroot, hinv =>
    ⟨st, rfl, by
      cases hm : markersF st.roots with
      | nil => rfl
      | cons a l => exact absurd (hinv a (by rw [hm]; simp)) (List.not_mem_nil a)⟩
  | i :: rest, st, hWF, hroot, hinv => by
    obtain ⟨st2, hok, hWF2, hroot2, hdec⟩ := remove_step st i hWF hroot
    obtain ⟨st1, hgo, hnil⟩ := clearAllGo_ok rest st2 hWF2 hroot2 (fun j hj => by
      obtain ⟨hmem, hne⟩ := hdec j hj
      rcases List.mem_cons.1 (hinv j hmem) with h | h
      · exact absurd h hne
      · exact h)
    refine ⟨st1, ?_, hnil⟩
    rw [clearAllGo, hok]
    exact hgo

/-- C8 (amended): on every well-formed document in which no marker sits
directly under the document node, `clearAll` succeeds without throwing,
removes every marker, and a second call leaves the state exactly as the first
one did.  (The unrestricted claim is refuted by
`C8_cex_clearAll_throws_on_root_marker`.) -/
theorem C8_amended_clearAll_idempotent (st : HState) (hWF : WF st)
    (hroot : noRootMarkersF st.roots) :
    ∃ st1, clearAll st = .ok st1 ∧ clearAll st1 = .ok st1 := by
  obtain ⟨st1, hgo, hnil⟩ := clearAllGo_ok (markerIds st.roots) st hWF hroot
    (fun j hj => mem_markers_mem_markerIds st.roots j hj)
  refine ⟨st1, hgo, ?_⟩
  show clearAllGo (markerIds st1.roots) st1 = .ok st1
  rw [show markerIds st1.roots = [] by
    rw [markerIds, markerPosList_eq_nil hnil]; rfl]
  rfl

theorem C8_amended_clearAll_idempotent_witness :
    WF colorState ∧ noRootMarkersF colorState.roots ∧
    ∃ st1, clearAll colorState = .ok st1 ∧ clearAll st1 = .ok st1 :=
  ⟨by decide, by decide,
    C8_amended_clearAll_idempotent colorState (by decide) (by decide)⟩

end HLN

namespace HLN

/-! ### List surgery algebra for the path-stability development -/

theorem length_updIdx : ∀ (l : List α) (i : Nat) (g : α → α),
    (updIdx l i g).length = l.length
  | [], _, _ => rfl
  | _ :: _, 0, _ => rfl
  | a :: l, i + 1, g => by simp [updIdx, length_updIdx l i g]

theorem take_updIdx_le : ∀ (l : List α) (i k : Nat) (g : α → α), k ≤ i →
    (updIdx l i g).take k = l.take k
  | [], _, _, _, _ => by simp [updIdx]
  | a :: l, i, 0, g, h => by simp
  | a :: l, 0, k + 1, g, h => by omega
  | a :: l, i + 1, k + 1, g, h => by
    simp [updIdx, take_updIdx_le l i k g (by omega)]

theorem updIdx_self : ∀ (l : List α) (i : Nat) (a : α), l[i]? = some a →
    updIdx l i (fun _ => a) = l
  | [], i, a, h => by simp at h
  | b :: l, 0, a, h => by
    simp only [List.getElem?_cons_zero, Option.some.injEq] at h
    simp [updIdx, h]
  | b :: l, i + 1, a, h => by
    simp only [List.getElem?_cons_succ] at h
    simp [updIdx, updIdx_self l i a h]

theorem updIdx_ge_len : ∀ (l : List α) (i : Nat) (g : α → α), l.length ≤ i →
    updIdx l i g = l
  | [], _, _, _ => rfl
  | a :: l, 0, g, h => by simp at h
  | a :: l, i + 1, g, h => by
    simp only [List.length_cons] at h
    simp [updIdx, updIdx_ge_len l i g (by omega)]

theorem withChildList_self : ∀ (n : DNode), n.withChildList n.childList = n
  | .elem _ _ _ _ _ _ => rfl
  | .text _ _ => rfl
  | .comment _ _ => rfl

theorem shellOf_withChildList : ∀ (n : DNode) (cs : Forest),
    shellOf (n.withChildList cs) = shellOf n
  | .elem _ _ _ _ _ _, _ => rfl
  | .text _ _, _ => rfl
  | .comment _ _, _ => rfl

theorem childrenAtPos_nil (f : Forest) : childrenAtPos f [] = f := rfl

theorem childrenAtPos_ne_nil (f : Forest) (i : Nat) (q : List Nat) :
    childrenAtPos f (i :: q) =
      match getAt f (i :: q) with
      | some n => n.childList
      | none => [] := rfl

theorem childrenAtPos_cons (f : Forest) (i : Nat) (q : List Nat) :
    childrenAtPos f (i :: q) =
      match f[i]? with
      | some n => childrenAtPos n.childList q
      | none => [] := by
  cases q with
  | nil =>
    rw [childrenAtPos_ne_nil, getAt_one]
    cases f[i]? with
    | none => rfl
    | some n => rfl
  | cons j q2 =>
    rw [childrenAtPos_ne_nil]
    show (match getAt f (i :: j :: q2) with
      | some n => n.childList
      | none => []) = _
    rw [show getAt f (i :: j :: q2) =
      (match f[i]? with
        | none => none
        | some n => getAt n.childList (j :: q2)) from rfl]
    cases f[i]? with
    | none => rfl
    | some n => exact (childrenAtPos_ne_nil n.childList j q2).symm

theorem getAt_append_cons : ∀ (q : List Nat) (f : Forest) (x : Nat) (xs : List Nat),
    getAt f (q ++ x :: xs) = getAt (childrenAtPos f q) (x :: xs)
  | [], f, x, xs => rfl
  | i :: q', f, x, xs => by
    rw [List.cons_append, getAt_cons_bind, childrenAtPos_cons]
    cases hfi : f[i]? with
    | none => cases xs <;> rfl
    | some n =>
      cases q' with
      | nil => rfl
      | cons j q2 => exact getAt_append_cons (j :: q2) n.childList x xs

theorem getAt_append_one (q : List Nat) (f : Forest) (j : Nat) :
    getAt f (q ++ [j]) = (childrenAtPos f q)[j]? := by
  rw [getAt_append_cons q f j [], getAt_one]

theorem modifyChildrenAt_append : ∀ (q r : List Nat) (f : Forest) (φ : Forest → Forest),
    modifyChildrenAt f (q ++ r) φ = modifyChildrenAt f q (fun cs => modifyChildrenAt cs r φ)
  | [], r, f, φ => rfl
  | i :: q', r, f, φ => by
    rw [List.cons_append]
    show updIdx f i _ = updIdx f i _
    congr 1
    funext n
    rw [modifyChildrenAt_append q' r n.childList φ]

theorem modifyAt_append_cons : ∀ (q : List Nat) (x : Nat) (xs : List Nat) (f : Forest)
    (g : DNode → DNode),
    modifyAt f (q ++ x :: xs) g = modifyChildrenAt f q (fun cs => modifyAt cs (x :: xs) g)
  | [], x, xs, f, g => rfl
  | i :: q', x, xs, f, g => by
    rw [List.cons_append]
    cases hq : q' ++ x :: xs with
    | nil => cases q' <;> simp at hq
    | cons y ys =>
      rw [show modifyAt f (i :: y :: ys) g =
        updIdx f i (fun n => n.withChildList (modifyAt n.childList (y :: ys) g)) from rfl]
      show _ = updIdx f i _
      congr 1
      funext n
      rw [← hq, modifyAt_append_cons q' x xs n.childList g]

theorem modifyAt_append_one (q : List Nat) (j : Nat) (f : Forest) (g : DNode → DNode) :
    modifyAt f (q ++ [j]) g = modifyChildrenAt f q (fun cs => updIdx cs j g) :=
  modifyAt_append_cons q j [] f g

end HLN

namespace HLN

/-! ### Basic properties of `laterOnly` -/

theorem getAt_nil_forest (x : Nat) (xs : List Nat) : getAt ([] : Forest) (x :: xs) = none := by
  cases xs <;> rfl

theorem laterOnly_refl : ∀ (p : List Nat) (f : Forest),
    (p = [] ∨ (getAt f p).isSome) → laterOnly f f p
  | [], _, _ => trivial
  | i :: p', f, h => by
    rcases h with h | h
    · cases h
    · rw [getAt_cons_bind] at h
      cases hfi : f[i]? with
      | none => rw [hfi] at h; simp at h
      | some n =>
        rw [hfi] at h
        simp only [Option.some_bind] at h
        simp only [laterOnly]
        refine ⟨trivial, n, n, hfi, hfi, rfl, laterOnly_refl p' n.childList ?_⟩
        cases p' with
        | nil => exact Or.inl rfl
        | cons x xs => exact Or.inr h

theorem laterOnly_trans : ∀ (p : List Nat) (f g h : Forest),
    laterOnly f g p → laterOnly g h p → laterOnly f h p
  | [], _, _, _, _, _ => trivial
  | i :: p', f, g, h, h1, h2 => by
    simp only [laterOnly] at h1 h2 ⊢
    obtain ⟨ht1, n, n1, hfn, hgn1, hs1, hr1⟩ := h1
    obtain ⟨ht2, n1', n2, hgn1', hhn2, hs2, hr2⟩ := h2
    rw [hgn1] at hgn1'
    injection hgn1' with he
    subst he
    exact ⟨ht2.trans ht1, n, n2, hfn, hhn2, hs1.trans hs2,
      laterOnly_trans p' _ _ _ hr1 hr2⟩

theorem laterOnly_view : ∀ (q : List Nat) (f f' : Forest) (p' : List Nat),
    laterOnly f f' (q ++ p') → laterOnly (childrenAtPos f q) (childrenAtPos f' q) p'
  | [], f, f', p', h => h
  | i :: q', f, f', p', h => by
    rw [List.cons_append] at h
    simp only [laterOnly] at h
    obtain ⟨ht, n, n', hfn, hfn', hs, hr⟩ := h
    rw [childrenAtPos_cons, childrenAtPos_cons, hfn, hfn']
    exact laterOnly_view q' n.childList n'.childList p' hr

theorem laterOnly_getAt : ∀ (p : List Nat) (f f' : Forest) (m : DNode),
    laterOnly f f' p → getAt f p = some m →
    ∃ m', getAt f' p = some m' ∧ shellOf m = shellOf m'
  | [], _, _, _, _, hm => by cases hm
  | i :: p', f, f', m, h, hm => by
    simp only [laterOnly] at h
    obtain ⟨ht, n, n', hfn, hfn', hs, hr⟩ := h
    cases p' with
    | nil =>
      rw [getAt_one, hfn] at hm
      injection hm with he
      subst he
      exact ⟨n', by rw [getAt_one, hfn'], hs⟩
    | cons x xs =>
      rw [getAt_cons_bind, hfn] at hm
      simp only [Option.some_bind] at hm
      obtain ⟨m', hm', hs'⟩ := laterOnly_getAt (x :: xs) n.childList n'.childList m hr hm
      refine ⟨m', ?_, hs'⟩
      rw [getAt_cons_bind, hfn']
      simpa only [Option.some_bind] using hm'

/-! ### Builders: a mutation at or after the path preserves `laterOnly` -/

theorem laterOnly_lift : ∀ (q : List Nat) (f : Forest) (φ : Forest → Forest) (p' : List Nat),
    (q = [] ∨ (getAt f q).isSome) →
    laterOnly (childrenAtPos f q) (φ (childrenAtPos f q)) p' →
    laterOnly f (modifyChildrenAt f q φ) (q ++ p')
  | [], f, φ, p', _, h => h
  | i :: q', f, φ, p', hv, h => by
    rcases hv with hv | hv
    · cases hv
    rw [getAt_cons_bind] at hv
    cases hfi : f[i]? with
    | none => rw [hfi] at hv; simp at hv
    | some n =>
      rw [hfi] at hv
      simp only [Option.some_bind] at hv
      rw [childrenAtPos_cons, hfi] at h
      rw [List.cons_append]
      simp only [laterOnly]
      refine ⟨take_updIdx_le f i i _ (Nat.le_refl i), n,
        n.withChildList (modifyChildrenAt n.childList q' φ), hfi,
        by rw [show modifyChildrenAt f (i :: q') φ =
            updIdx f i (fun m => m.withChildList (modifyChildrenAt m.childList q' φ)) from rfl,
          updIdx_get_eq, hfi]; rfl,
        (shellOf_withChildList ..).symm, ?_⟩
      cases n with
      | elem a t c b d cs =>
        have hv2 : q' = [] ∨ (getAt cs q').isSome := by
          cases q' with
          | nil => exact Or.inl rfl
          | cons x xs => exact Or.inr hv
        exact laterOnly_lift q' cs φ p' hv2 h
      | text a d =>
        cases q' with
        | cons x xs => rw [show getSub (.text a d) (x :: xs) = getAt ([] : Forest) (x :: xs) from rfl,
            getAt_nil_forest] at hv; cases hv
        | nil =>
          cases p' with
          | nil => trivial
          | cons k rest =>
            simp only [laterOnly] at h
            obtain ⟨_, nn, _, hnn, _⟩ := h
            cases show (none : Option DNode) = some nn from hnn
      | comment a d =>
        cases q' with
        | cons x xs => rw [show getSub (.comment a d) (x :: xs) = getAt ([] : Forest) (x :: xs) from rfl,
            getAt_nil_forest] at hv; cases hv
        | nil =>
          cases p' with
          | nil => trivial
          | cons k rest =>
            simp only [laterOnly] at h
            obtain ⟨_, nn, _, hnn, _⟩ := h
            cases show (none : Option DNode) = some nn from hnn

theorem laterOnly_inside : ∀ (p q : List Nat) (f : Forest) (φ : Forest → Forest),
    isPref p q → (p = [] ∨ (getAt f p).isSome) →
    laterOnly f (modifyChildrenAt f q φ) p
  | [], _, _, _, _, _ => trivial
  | i :: p', q, f, φ, hpq, hv => by
    obtain ⟨t, rfl⟩ := hpq
    rcases hv with hv | hv
    · cases hv
    rw [getAt_cons_bind] at hv
    cases hfi : f[i]? with
    | none => rw [hfi] at hv; simp at hv
    | some n =>
      rw [hfi] at hv
      simp only [Option.some_bind] at hv
      rw [List.cons_append]
      simp only [laterOnly]
      refine ⟨take_updIdx_le f i i _ (Nat.le_refl i), n,
        n.withChildList (modifyChildrenAt n.childList (p' ++ t) φ), hfi,
        by rw [show modifyChildrenAt f (i :: (p' ++ t)) φ =
            updIdx f i (fun m => m.withChildList (modifyChildrenAt m.childList (p' ++ t) φ)) from rfl,
          updIdx_get_eq, hfi]; rfl,
        (shellOf_withChildList ..).symm, ?_⟩
      cases n with
      | elem a t2 c b d cs =>
        have hv2 : p' = [] ∨ (getAt cs p').isSome := by
          cases p' with
          | nil => exact Or.inl rfl
          | cons x xs => exact Or.inr hv
        exact laterOnly_inside p' (p' ++ t) cs φ ⟨t, rfl⟩ hv2
      | text a d =>
        cases p' with
        | cons x xs => rw [show getSub (.text a d) (x :: xs) = getAt ([] : Forest) (x :: xs) from rfl,
            getAt_nil_forest] at hv; cases hv
        | nil => trivial
      | comment a d =>
        cases p' with
        | cons x xs => rw [show getSub (.comment a d) (x :: xs) = getAt ([] : Forest) (x :: xs) from rfl,
            getAt_nil_forest] at hv; cases hv
        | nil => trivial

end HLN

namespace HLN

/-! ### Sibling-level mutation lemmas -/

theorem getElem?_some_lt {l : List α} {i : Nat} {a : α} (h : l[i]? = some a) :
    i < l.length := by
  by_contra hh
  rw [List.getElem?_eq_none (by omega)] at h
  cases h

theorem take_getElem?_lt : ∀ (l : List α) (j k : Nat), k < j → (l.take j)[k]? = l[k]?
  | [], _, _, _ => by simp
  | a :: l, j + 1, 0, _ => by simp
  | a :: l, j + 1, k + 1, h => by
    simp only [List.take_succ_cons, List.getElem?_cons_succ]
    exact take_getElem?_lt l j k (by omega)

theorem laterOnly_updIdx_after (cs : Forest) (j k : Nat) (g : DNode → DNode)
    (rest : List Nat) (hk : k < j) (hv : (getAt cs (k :: rest)).isSome) :
    laterOnly cs (updIdx cs j g) (k :: rest) := by
  rw [getAt_cons_bind] at hv
  cases hck : cs[k]? with
  | none => rw [hck] at hv; simp at hv
  | some n =>
    rw [hck] at hv
    simp only [Option.some_bind] at hv
    simp only [laterOnly]
    refine ⟨take_updIdx_le cs j k g (by omega), n, n, hck,
      by rw [updIdx_get_ne cs j k g (by omega)]; exact hck, rfl,
      laterOnly_refl rest n.childList ?_⟩
    cases rest with
    | nil => exact Or.inl rfl
    | cons x xs => exact Or.inr hv

theorem laterOnly_updIdx_at (cs : Forest) (k : Nat) (g : DNode → DNode)
    (rest : List Nat) (n : DNode) (hck : cs[k]? = some n)
    (hs : shellOf (g n) = shellOf n)
    (hr : laterOnly n.childList (g n).childList rest) :
    laterOnly cs (updIdx cs k g) (k :: rest) := by
  simp only [laterOnly]
  exact ⟨take_updIdx_le cs k k g (Nat.le_refl k), n, g n, hck,
    by rw [updIdx_get_eq, hck]; rfl, hs.symm, hr⟩

theorem laterOnly_insert_after (cs xs : Forest) (j k : Nat) (rest : List Nat)
    (hk : k < j) (hv : (getAt cs (k :: rest)).isSome) :
    laterOnly cs (cs.take j ++ xs ++ cs.drop j) (k :: rest) := by
  rw [getAt_cons_bind] at hv
  cases hck : cs[k]? with
  | none => rw [hck] at hv; simp at hv
  | some n =>
    rw [hck] at hv
    simp only [Option.some_bind] at hv
    have hkl : k < cs.length := getElem?_some_lt hck
    have hkt : k < (cs.take j).length := by
      rw [List.length_take]; omega
    simp only [laterOnly]
    refine ⟨?_, n, n, hck, ?_, rfl, laterOnly_refl rest n.childList ?_⟩
    · rw [List.take_append_of_le_length (by rw [List.length_append]; omega),
        List.take_append_of_le_length (by omega), List.take_take,
        Nat.min_eq_left (by omega)]
    · rw [List.getElem?_append,
        if_pos (show k < (List.take j cs ++ xs).length by rw [List.length_append]; omega),
        List.getElem?_append, if_pos hkt, take_getElem?_lt cs j k hk]
      exact hck
    · cases rest with
      | nil => exact Or.inl rfl
      | cons x xs2 => exact Or.inr hv

theorem laterOnly_filter_keep (cs : Forest) (pred : DNode → Bool) (k : Nat)
    (rest : List Nat) (hkeep : ∀ m ∈ cs.take (k + 1), pred m = true)
    (hv : (getAt cs (k :: rest)).isSome) :
    laterOnly cs (cs.filter pred) (k :: rest) := by
  rw [getAt_cons_bind] at hv
  cases hck : cs[k]? with
  | none => rw [hck] at hv; simp at hv
  | some n =>
    rw [hck] at hv
    simp only [Option.some_bind] at hv
    have hkl : k < cs.length := getElem?_some_lt hck
    have hsplit : cs.filter pred = cs.take (k + 1) ++ (cs.drop (k + 1)).filter pred := by
      conv_lhs => rw [← List.take_append_drop (k + 1) cs]
      rw [List.filter_append, List.filter_eq_self.mpr hkeep]
    have hlt : k < (cs.take (k + 1)).length := by
      rw [List.length_take]; omega
    simp only [laterOnly]
    refine ⟨?_, n, n, hck, ?_, rfl, laterOnly_refl rest n.childList ?_⟩
    · rw [hsplit, List.take_append_of_le_length (by omega), List.take_take,
        Nat.min_eq_left (by omega)]
    · rw [hsplit, List.getElem?_append, if_pos hlt, take_getElem?_lt cs (k + 1) k (by omega)]
      exact hck
    · cases rest with
      | nil => exact Or.inl rfl
      | cons x xs2 => exact Or.inr hv

end HLN

namespace HLN

/-! ### Stability of `findPathF` and `xpathGo` under `laterOnly` -/

theorem shellOf_nid (n n' : DNode) (h : shellOf n = shellOf n') : n.nid = n'.nid := by
  cases n <;> cases n' <;> simp [shellOf, DNode.nid] at h ⊢ <;> tauto

theorem shellOf_elem {a : Nat} {t c b : String} {d : Option String} {cs : Forest}
    {n' : DNode} (h : shellOf (.elem a t c b d cs) = shellOf n') :
    ∃ c' b' d' cs', n' = .elem a t c' b' d' cs' := by
  cases n' with
  | elem a2 t2 c2 b2 d2 cs2 =>
    simp only [shellOf, Prod.mk.injEq] at h
    obtain ⟨h1, _, h3⟩ := h
    exact ⟨c2, b2, d2, cs2, by rw [h1, h3]⟩
  | text a2 d2 => simp [shellOf] at h
  | comment a2 d2 => simp [shellOf] at h

theorem findPathIdx_ge : ∀ (f : Forest) (k j m : Nat) (p : List Nat),
    findPathIdx f k j = some (m :: p) → k ≤ m
  | [], _, _, _, _, h => by simp [findPathIdx] at h
  | n :: rest, k, j, m, p, h => by
    simp only [findPathIdx] at h
    cases hfn : findPathN n j with
    | some q => rw [hfn] at h; injection h with h2; injection h2 with h3 _; omega
    | none =>
      rw [hfn] at h
      have := findPathIdx_ge rest (k + 1) j m p h
      omega

theorem findPathIdx_stable_of (p : List Nat)
    (hN : ∀ (n n' : DNode) (j : Nat), shellOf n = shellOf n' →
      laterOnly n.childList n'.childList p → findPathN n j = some p →
      findPathN n' j = some p) :
    ∀ (i : Nat) (f f' : Forest) (k j : Nat), laterOnly f f' (i :: p) →
    findPathIdx f k j = some ((k + i) :: p) →
    findPathIdx f' k j = some ((k + i) :: p) := by
  intro i
  induction i with
  | zero =>
    intro f f' k j hlo h
    simp only [laterOnly] at hlo
    obtain ⟨ht, n, n', hfn, hfn', hs, hr⟩ := hlo
    cases f with
    | nil => cases hfn
    | cons m rest =>
      cases f' with
      | nil => cases hfn'
      | cons m' rest' =>
        simp only [List.getElem?_cons_zero, Option.some.injEq] at hfn hfn'
        simp only [findPathIdx] at h ⊢
        cases hm : findPathN m j with
        | some q =>
          rw [hm] at h
          injection h with h2
          injection h2 with _ h3
          subst h3
          rw [hN m m' j (by rw [hfn, hfn']; exact hs) (by rw [hfn, hfn']; exact hr) hm]
          rfl
        | none =>
          rw [hm] at h
          have := findPathIdx_ge rest (k + 1) j (k + 0) p h
          omega
  | succ i2 ih =>
    intro f f' k j hlo h
    have hlo2 := hlo
    simp only [laterOnly] at hlo2
    obtain ⟨ht, n, n', hfn, hfn', hs, hr⟩ := hlo2
    cases f with
    | nil => cases hfn
    | cons m rest =>
      cases f' with
      | nil => cases hfn'
      | cons m' rest' =>
        simp only [List.take_succ_cons, List.cons.injEq] at ht
        simp only [findPathIdx] at h ⊢
        cases hm : findPathN m j with
        | some q =>
          rw [hm] at h
          injection h with h2
          injection h2 with h3 _
          omega
        | none =>
          rw [hm] at h
          have hm' : findPathN m' j = none := by rw [ht.1]; exact hm
          rw [hm']
          have hlo3 : laterOnly rest rest' (i2 :: p) := by
            simp only [laterOnly]
            refine ⟨ht.2, n, n', ?_, ?_, hs, hr⟩
            · simpa only [List.getElem?_cons_succ] using hfn
            · simpa only [List.getElem?_cons_succ] using hfn'
          have h4 : findPathIdx rest (k + 1) j = some (((k + 1) + i2) :: p) := by
            rw [show (k + 1) + i2 = k + (i2 + 1) by omega]
            exact h
          have h5 := ih rest rest' (k + 1) j hlo3 h4
          rw [show k + (i2 + 1) = (k + 1) + i2 by omega]
          exact h5

theorem findPathN_stable : ∀ (p : List Nat) (n n' : DNode) (j : Nat),
    shellOf n = shellOf n' → laterOnly n.childList n'.childList p →
    findPathN n j = some p → findPathN n' j = some p
  | [], n, n', j, hs, _, h => by
    by_cases he : n.nid = j
    · have he' : n'.nid = j := by rw [← shellOf_nid n n' hs]; exact he
      cases n' <;>
        (simp only [DNode.nid] at he'
         simp only [findPathN, DNode.nid]
         rw [if_pos he'])
    · exfalso
      cases n with
      | elem a t c b d cs =>
        simp only [findPathN, DNode.nid] at h he
        rw [if_neg he] at h
        obtain ⟨i0, p0, hp, _⟩ := findPathIdx_some cs 0 j [] h
        cases hp
      | text a d =>
        simp only [findPathN, DNode.nid] at h he
        rw [if_neg he] at h
        cases h
      | comment a d =>
        simp only [findPathN, DNode.nid] at h he
        rw [if_neg he] at h
        cases h
  | i :: p', n, n', j, hs, hlo, h => by
    cases n with
    | elem a t c b d cs =>
      simp only [findPathN, DNode.nid] at h
      by_cases haj : a = j
      · rw [if_pos haj] at h; simp at h
      · rw [if_neg haj] at h
        obtain ⟨c', b', d', cs', rfl⟩ := shellOf_elem hs
        simp only [findPathN, DNode.nid]
        rw [if_neg haj]
        have hcl : laterOnly cs cs' (i :: p') := hlo
        have h2 : findPathIdx cs 0 j = some ((0 + i) :: p') := by
          rw [Nat.zero_add]; exact h
        have h3 := findPathIdx_stable_of p' (findPathN_stable p') i cs cs' 0 j hcl h2
        rw [Nat.zero_add] at h3
        exact h3
    | text a d =>
      simp only [findPathN, DNode.nid] at h
      by_cases haj : a = j
      · rw [if_pos haj] at h; simp at h
      · rw [if_neg haj] at h; cases h
    | comment a d =>
      simp only [findPathN, DNode.nid] at h
      by_cases haj : a = j
      · rw [if_pos haj] at h; simp at h
      · rw [if_neg haj] at h; cases h

theorem findPathF_stable (f f' : Forest) (j : Nat) (p : List Nat)
    (hlo : laterOnly f f' p) (h : findPathF f j = some p) :
    findPathF f' j = some p := by
  obtain ⟨i0, p0, hp, _⟩ := findPathIdx_some f 0 j p h
  subst hp
  rw [Nat.zero_add] at hlo h ⊢
  have h2 : findPathIdx f 0 j = some ((0 + i0) :: p0) := by
    rw [Nat.zero_add]; exact h
  have h5 := findPathIdx_stable_of p0 (findPathN_stable p0) i0 f f' 0 j hlo h2
  rw [Nat.zero_add] at h5
  exact h5

theorem xpathGo_stable : ∀ (p : List Nat) (f f' : Forest) (acc : String),
    laterOnly f f' p → xpathGo f' acc p = xpathGo f acc p
  | [], _, _, _, _ => rfl
  | i :: p', f, f', acc, hlo => by
    simp only [laterOnly] at hlo
    obtain ⟨ht, n, n', hfn, hfn', hs, hr⟩ := hlo
    rw [xpathGo, xpathGo, hfn, hfn']
    cases n with
    | elem a t c b d cs =>
      obtain ⟨c', b', d', cs', rfl⟩ := shellOf_elem hs
      exact xpathGo_stable p' cs cs' _ hr
    | text a d =>
      cases n' with
      | elem a2 t2 c2 b2 d2 cs2 => simp [shellOf] at hs
      | text a2 d2 =>
        simp only [shellOf, Prod.mk.injEq] at hs
        obtain ⟨rfl, _⟩ := hs
        exact xpathGo_stable p' _ _ _ hr
      | comment a2 d2 => simp [shellOf] at hs
    | comment a d =>
      cases n' with
      | elem a2 t2 c2 b2 d2 cs2 => simp [shellOf] at hs
      | text a2 d2 => simp [shellOf] at hs
      | comment a2 d2 => exact xpathGo_stable p' _ _ _ hr

theorem getXPath_stable (f f' : Forest) (j : Nat) (p : List Nat)
    (hlo : laterOnly f f' p) (h : findPathF f j = some p) :
    getXPath f' j = getXPath f j := by
  unfold getXPath
  split
  · rfl
  · rw [h, findPathF_stable f f' j p hlo h]
    exact xpathGo_stable p f f' "/" hlo

end HLN

namespace HLN

/-! ### Document-order geometry and path uniqueness -/

theorem posLtB_append_common : ∀ (c x y : List Nat),
    posLtB (c ++ x) (c ++ y) = posLtB x y
  | [], _, _ => rfl
  | a :: c, x, y => by
    simp only [List.cons_append, posLtB]
    simp
    exact posLtB_append_common c x y

theorem posLtB_nil_right : ∀ (x : List Nat), posLtB x [] = false
  | [] => rfl
  | _ :: _ => rfl

theorem posLeB_append_common (c x y : List Nat) :
    posLeB (c ++ x) (c ++ y) = posLeB x y := by
  simp only [posLeB, posLtB_append_common, List.append_cancel_left_eq]

theorem posLeB_single (a b : Nat) (h : a ≤ b) : posLeB [a] [b] = true := by
  rcases Nat.lt_or_ge a b with h2 | h2
  · simp [posLeB, posLtB, h2]
  · have : a = b := by omega
    simp [this, posLeB]

theorem posLtB_cons_single (j len : Nat) (x : List Nat) (h : j < len) :
    posLtB (j :: x) [len] = true := by
  simp [posLtB, h]

theorem posLeB_zero_cons (x : Nat) (xs : List Nat) : posLeB [0] (x :: xs) = true := by
  cases xs with
  | nil =>
    rcases Nat.eq_zero_or_pos x with rfl | h
    · simp [posLeB]
    · simp [posLeB, posLtB, h]
  | cons y ys =>
    rcases Nat.eq_zero_or_pos x with rfl | h
    · simp [posLeB, posLtB]
    · simp [posLeB, posLtB, h]

theorem posLeB_cons_ne {a b : Nat} {x y : List Nat}
    (h : posLeB (a :: x) (b :: y) = true) (hne : a ≠ b) : a < b := by
  simp only [posLeB, Bool.or_eq_true, decide_eq_true_eq, posLtB,
    Bool.and_eq_true, List.cons.injEq] at h
  rcases h with ⟨h1, _⟩ | h1
  · exact absurd h1 hne
  · rcases h1 with h1 | ⟨h1, _⟩
    · exact h1
    · exact absurd h1 hne

theorem bumpLast_append : ∀ (c : List Nat) (b : Nat),
    bumpLast (c ++ [b]) = c ++ [b + 1]
  | [], b => rfl
  | [a], b => rfl
  | a :: a2 :: c, b => by
    have := bumpLast_append (a2 :: c) b
    simp only [List.cons_append, bumpLast, List.append_eq] at this ⊢
    rw [this]

theorem isPref_refl (a : List Nat) : isPref a a := ⟨[], List.append_nil a⟩

theorem commonPrefix_pref_left : ∀ (a b : List Nat), isPref (commonPrefix a b) a
  | [], b => ⟨[], rfl⟩
  | a :: p, [] => ⟨a :: p, rfl⟩
  | a :: p, b :: q => by
    by_cases h : a = b
    · simp only [commonPrefix, if_pos h]
      obtain ⟨t, ht⟩ := commonPrefix_pref_left p q
      exact ⟨t, by rw [List.cons_append, ht]⟩
    · simp only [commonPrefix, if_neg h]
      exact ⟨a :: p, rfl⟩

theorem commonPrefix_pref_right : ∀ (a b : List Nat), isPref (commonPrefix a b) b
  | [], b => ⟨b, rfl⟩
  | a :: p, [] => ⟨[], rfl⟩
  | a :: p, b :: q => by
    by_cases h : a = b
    · simp only [commonPrefix, if_pos h]
      obtain ⟨t, ht⟩ := commonPrefix_pref_right p q
      exact ⟨t, by rw [List.cons_append, ht, h]⟩
    · simp only [commonPrefix, if_neg h]
      exact ⟨b :: q, rfl⟩

theorem commonPrefix_of_pref : ∀ (a b : List Nat), isPref a b → commonPrefix a b = a
  | [], b, _ => by cases b <;> rfl
  | a :: p, b, ⟨t, ht⟩ => by
    cases b with
    | nil => cases ht
    | cons b0 q =>
      rw [List.cons_append] at ht
      injection ht with h1 h2
      simp only [commonPrefix, if_pos h1]
      rw [commonPrefix_of_pref p q ⟨t, h2⟩]

theorem commonPrefix_head_ne : ∀ (ps pe : List Nat) (x y : Nat) (p' q' : List Nat),
    ps = commonPrefix ps pe ++ x :: p' → pe = commonPrefix ps pe ++ y :: q' → x ≠ y
  | [], pe, x, y, p', q', h1, _ => by
    cases pe <;> simp [commonPrefix] at h1
  | a :: p, [], x, y, p', q', _, h2 => by
    simp [commonPrefix] at h2
  | a :: p, b :: q, x, y, p', q', h1, h2 => by
    by_cases h : a = b
    · simp only [commonPrefix, if_pos h, List.cons_append, List.cons.injEq] at h1 h2
      exact commonPrefix_head_ne p q x y p' q' h1.2 h2.2
    · simp only [commonPrefix, if_neg h, List.nil_append, List.cons.injEq] at h1 h2
      rw [h1.1, h2.1] at h
      exact h

theorem getAt_idx_lt (f : Forest) (a : List Nat) (j : Nat) (b : List Nat) (m : DNode)
    (h : getAt f (a ++ j :: b) = some m) : j < (childrenAtPos f a).length := by
  rw [getAt_append_cons, getAt_cons_bind] at h
  cases hj : (childrenAtPos f a)[j]? with
  | none => rw [hj] at h; cases h
  | some n => exact getElem?_some_lt hj

theorem findPathF_of_getAt (f : Forest) (q : List Nat) (m : DNode)
    (hnd : (idsF f).Nodup) (hget : getAt f q = some m) :
    findPathF f m.nid = some q := by
  have hmem : m.nid ∈ idsF f := getAt_nid_mem f q m hget
  cases hfp : findPathF f m.nid with
  | none => exact absurd hmem (findPathF_none f m.nid hfp)
  | some q' =>
    obtain ⟨m', hm', hnid⟩ := findPathF_some f m.nid q' hfp
    exact congrArg some (getAt_unique f hnd q' q m' m hm' hget (by rw [hnid]))

end HLN

namespace HLN

/-! ### Subtree replacement (`setAt`) algebra -/

theorem updIdx_congr : ∀ (l : List α) (i : Nat) (g h : α → α) (a : α),
    l[i]? = some a → g a = h a → updIdx l i g = updIdx l i h
  | [], _, _, _, _, hget, _ => by cases hget
  | b :: l, 0, g, h, a, hget, he => by
    simp only [List.getElem?_cons_zero, Option.some.injEq] at hget
    subst hget
    show g b :: l = h b :: l
    rw [he]
  | b :: l, i + 1, g, h, a, hget, he => by
    simp only [List.getElem?_cons_succ] at hget
    show b :: updIdx l i g = b :: updIdx l i h
    rw [updIdx_congr l i g h a hget he]

theorem withChildList_withChildList : ∀ (n : DNode) (a b : Forest),
    (n.withChildList a).withChildList b = n.withChildList b
  | .elem _ _ _ _ _ _, _, _ => rfl
  | .text _ _, _, _ => rfl
  | .comment _ _, _, _ => rfl

theorem updIdx_comp : ∀ (l : List α) (i : Nat) (g h : α → α),
    updIdx (updIdx l i g) i h = updIdx l i (fun x => h (g x))
  | [], _, _, _ => rfl
  | a :: l, 0, g, h => rfl
  | a :: l, i + 1, g, h => by
    show a :: updIdx (updIdx l i g) i h = a :: updIdx l i (fun x => h (g x))
    rw [updIdx_comp l i g h]

theorem getAt_modifyAt_self : ∀ (q : List Nat) (f : Forest) (m : DNode) (g : DNode → DNode),
    getAt f q = some m → getAt (modifyAt f q g) q = some (g m)
  | [], _, _, _, h => by cases h
  | [i], f, m, g, h => by
    rw [getAt_one] at h
    rw [show modifyAt f [i] g = updIdx f i g from rfl, getAt_one, updIdx_get_eq, h]
    rfl
  | i :: j :: p, f, m, g, h => by
    rw [getAt_cons_bind] at h
    cases hfi : f[i]? with
    | none => rw [hfi] at h; cases h
    | some n =>
      rw [hfi] at h
      simp only [Option.some_bind] at h
      rw [show modifyAt f (i :: j :: p) g =
        updIdx f i (fun n => n.withChildList (modifyAt n.childList (j :: p) g)) from rfl,
        getAt_cons_bind, updIdx_get_eq, hfi]
      cases n with
      | elem a t c b d cs =>
        have h2 : getAt cs (j :: p) = some m := h
        have := getAt_modifyAt_self (j :: p) cs m g h2
        exact this
      | text a d =>
        rw [show getSub (.text a d) (j :: p) = getAt ([] : Forest) (j :: p) from rfl,
          getAt_nil_forest] at h
        cases h
      | comment a d =>
        rw [show getSub (.comment a d) (j :: p) = getAt ([] : Forest) (j :: p) from rfl,
          getAt_nil_forest] at h
        cases h

theorem setAt_setAt : ∀ (q : List Nat) (f : Forest) (a b : DNode),
    setAt (setAt f q a) q b = setAt f q b
  | [], _, _, _ => rfl
  | [i], f, a, b => by
    show updIdx (updIdx f i _) i _ = updIdx f i _
    rw [updIdx_comp]
  | i :: j :: p, f, a, b => by
    show updIdx (updIdx f i _) i _ = updIdx f i _
    rw [updIdx_comp]
    congr 1
    funext n
    cases n with
    | elem a2 t c b2 d cs =>
      show DNode.elem a2 t c b2 d
          (modifyAt (modifyAt cs (j :: p) fun _ => a) (j :: p) fun _ => b) =
        DNode.elem a2 t c b2 d (modifyAt cs (j :: p) fun _ => b)
      exact congrArg (DNode.elem a2 t c b2 d) (setAt_setAt (j :: p) cs a b)
    | text a2 d => rfl
    | comment a2 d => rfl

theorem modifyAt_as_setAt : ∀ (q : List Nat) (f : Forest) (m : DNode) (g : DNode → DNode),
    getAt f q = some m → modifyAt f q g = setAt f q (g m)
  | [], _, _, _, h => by cases h
  | [i], f, m, g, h => by
    rw [getAt_one] at h
    exact updIdx_congr f i g (fun _ => g m) m h rfl
  | i :: j :: p, f, m, g, h => by
    rw [getAt_cons_bind] at h
    cases hfi : f[i]? with
    | none => rw [hfi] at h; cases h
    | some n =>
      rw [hfi] at h
      simp only [Option.some_bind] at h
      show updIdx f i _ = updIdx f i _
      refine updIdx_congr f i _ _ n hfi ?_
      cases n with
      | elem a t c b d cs =>
        have h2 : getAt cs (j :: p) = some m := h
        show (DNode.elem a t c b d cs).withChildList (modifyAt cs (j :: p) g) =
          (DNode.elem a t c b d cs).withChildList (modifyAt cs (j :: p) (fun _ => g m))
        rw [modifyAt_as_setAt (j :: p) cs m g h2]
        rfl
      | text a d =>
        rw [show getSub (.text a d) (j :: p) = getAt ([] : Forest) (j :: p) from rfl,
          getAt_nil_forest] at h
        cases h
      | comment a d =>
        rw [show getSub (.comment a d) (j :: p) = getAt ([] : Forest) (j :: p) from rfl,
          getAt_nil_forest] at h
        cases h

theorem modifyChildrenAt_as_setAt : ∀ (q : List Nat) (f : Forest) (m : DNode)
    (φ : Forest → Forest), q ≠ [] → getAt f q = some m →
    modifyChildrenAt f q φ = setAt f q (m.withChildList (φ m.childList))
  | [], _, _, _, hq, _ => absurd rfl hq
  | [i], f, m, φ, _, h => by
    rw [getAt_one] at h
    exact updIdx_congr f i _ _ m h rfl
  | i :: j :: p, f, m, φ, _, h => by
    rw [getAt_cons_bind] at h
    cases hfi : f[i]? with
    | none => rw [hfi] at h; cases h
    | some n =>
      rw [hfi] at h
      simp only [Option.some_bind] at h
      show updIdx f i _ = updIdx f i _
      refine updIdx_congr f i _ _ n hfi ?_
      cases n with
      | elem a t c b d cs =>
        have h2 : getAt cs (j :: p) = some m := h
        show (DNode.elem a t c b d cs).withChildList (modifyChildrenAt cs (j :: p) φ) =
          (DNode.elem a t c b d cs).withChildList
            (modifyAt cs (j :: p) (fun _ => m.withChildList (φ m.childList)))
        rw [modifyChildrenAt_as_setAt (j :: p) cs m φ (by simp) h2]
        rfl
      | text a d =>
        rw [show getSub (.text a d) (j :: p) = getAt ([] : Forest) (j :: p) from rfl,
          getAt_nil_forest] at h
        cases h
      | comment a d =>
        rw [show getSub (.comment a d) (j :: p) = getAt ([] : Forest) (j :: p) from rfl,
          getAt_nil_forest] at h
        cases h

theorem childrenAt_modifyChildren_self : ∀ (q : List Nat) (f : Forest) (φ : Forest → Forest),
    (q = [] ∨ ∃ m, getAt f q = some m ∧ m.isElem = true) →
    childrenAtPos (modifyChildrenAt f q φ) q = φ (childrenAtPos f q)
  | [], _, _, _ => rfl
  | i :: q', f, φ, h => by
    rcases h with h | ⟨m, hm, hel⟩
    · cases h
    cases m with
    | text a d => simp [DNode.isElem] at hel
    | comment a d => simp [DNode.isElem] at hel
    | elem a t c b d cs =>
      have h2 := modifyChildrenAt_as_setAt (i :: q') f (.elem a t c b d cs) φ (by simp) hm
      rw [h2, show setAt f (i :: q') ((DNode.elem a t c b d cs).withChildList
        (φ (DNode.elem a t c b d cs).childList)) =
        modifyAt f (i :: q') (fun _ => (DNode.elem a t c b d cs).withChildList
          (φ (DNode.elem a t c b d cs).childList)) from rfl]
      have h3 := getAt_modifyAt_self (i :: q') f (.elem a t c b d cs)
        (fun _ => (DNode.elem a t c b d cs).withChildList
          (φ (DNode.elem a t c b d cs).childList)) hm
      rw [childrenAtPos_ne_nil, h3, childrenAtPos_ne_nil, hm]
      rfl

end HLN

namespace HLN

/-! ### Id-list sublists through the extraction phases, and path prefixes -/

theorem idsN_withCL_sublist {cs' : Forest} (n : DNode)
    (h : (idsF cs').Sublist (idsF n.childList)) :
    (idsN (n.withChildList cs')).Sublist (idsN n) := by
  cases n with
  | elem a t c b d cs0 => exact List.Sublist.cons₂ a h
  | text a d => exact List.Sublist.refl _
  | comment a d => exact List.Sublist.refl _

theorem subl_idsF_filter (pred : DNode → Bool) :
    ∀ (l : Forest), (idsF (l.filter pred)).Sublist (idsF l)
  | [] => List.Sublist.refl _
  | n :: rest => by
    rw [List.filter_cons]
    by_cases h : pred n
    · rw [if_pos h]
      show (idsN n ++ idsF (rest.filter pred)).Sublist (idsN n ++ idsF rest)
      exact (List.append_sublist_append_left _).mpr (subl_idsF_filter pred rest)
    · rw [if_neg h]
      show (idsF (rest.filter pred)).Sublist (idsN n ++ idsF rest)
      exact (subl_idsF_filter pred rest).trans (List.sublist_append_right _ _)

theorem subl_idsF_modifyChildrenAt (φ : Forest → Forest)
    (hφ : ∀ cs, (idsF (φ cs)).Sublist (idsF cs)) :
    ∀ (q : List Nat) (f : Forest),
    (idsF (modifyChildrenAt f q φ)).Sublist (idsF f)
  | [], f => hφ f
  | i :: q', f => by
    refine subl_idsF_updIdx (g := fun n => n.withChildList (modifyChildrenAt n.childList q' φ))
      ?_ f i
    intro n
    exact idsN_withCL_sublist n (subl_idsF_modifyChildrenAt φ hφ q' n.childList)

theorem idsF_modifyAt_data_eq (g : DNode → DNode) (hg : ∀ n, idsN (g n) = idsN n)
    (q : List Nat) (f : Forest) (m : DNode) (h : getAt f q = some m) :
    idsF (modifyAt f q g) = idsF f := by
  obtain ⟨A, B, h1, h2⟩ := idsF_modifyAt_split g q f m h
  rw [h1, h2, hg m]

theorem laterOnly_pref : ∀ (q t : List Nat) (f f' : Forest),
    laterOnly f f' (q ++ t) → laterOnly f f' q
  | [], _, _, _, _ => trivial
  | i :: q', t, f, f', h => by
    rw [List.cons_append] at h
    simp only [laterOnly] at h ⊢
    obtain ⟨ht, n, n', hfn, hfn', hs, hr⟩ := h
    exact ⟨ht, n, n', hfn, hfn', hs, laterOnly_pref q' t n.childList n'.childList hr⟩

theorem getElem?_append_len : ∀ (a : List Nat) (k : Nat) (b : List Nat),
    (a ++ k :: b)[a.length]? = some k
  | [], k, b => by simp
  | x :: a, k, b => by
    simp only [List.cons_append, List.length_cons, List.getElem?_cons_succ]
    exact getElem?_append_len a k b

theorem getD_append_len (a : List Nat) (k : Nat) (b : List Nat) :
    (a ++ k :: b).getD a.length 0 = k := by
  rw [List.getD_eq_getElem?_getD, getElem?_append_len]
  rfl

theorem getAt_pref_some (f : Forest) (q : List Nat) (x : Nat) (xs : List Nat) (m : DNode)
    (hq : q ≠ []) (h : getAt f (q ++ x :: xs) = some m) :
    ∃ mq, getAt f q = some mq := by
  rw [getAt_append_cons] at h
  cases hgq : getAt f q with
  | some mq => exact ⟨mq, rfl⟩
  | none =>
    exfalso
    cases q with
    | nil => exact hq rfl
    | cons i q' =>
      rw [childrenAtPos_ne_nil, hgq, getAt_nil_forest] at h
      cases h

theorem setCharData_shell (n : DNode) (s : String) : shellOf (setCharData n s) = shellOf n := by
  cases n <;> rfl

theorem setCharData_childList (n : DNode) (s : String) :
    (setCharData n s).childList = n.childList := by
  cases n <;> rfl

theorem commonPrefix_self (a : List Nat) : commonPrefix a a = a :=
  commonPrefix_of_pref a a (isPref_refl a)

theorem commonPrefix_of_pref_right : ∀ (a b : List Nat), isPref b a → commonPrefix a b = b
  | a, [], _ => by cases a <;> rfl
  | a, b0 :: q, ⟨t, ht⟩ => by
    cases a with
    | nil => cases ht
    | cons a0 p =>
      rw [List.cons_append] at ht
      injection ht with h1 h2
      simp only [commonPrefix, if_pos h1.symm]
      rw [commonPrefix_of_pref_right p q ⟨t, h2⟩, h1]

end HLN

namespace HLN

/-! ### Sibling id bookkeeping -/

theorem getElem?_of_mem_own {l : List α} {a : α} (h : a ∈ l) :
    ∃ i : Nat, l[i]? = some a := by
  induction l with
  | nil => cases h
  | cons b l ih =>
    rcases List.mem_cons.mp h with rfl | h2
    · exact ⟨0, by rw [List.getElem?_cons_zero]⟩
    · obtain ⟨i, hi⟩ := ih h2
      exact ⟨i + 1, by rw [List.getElem?_cons_succ]; exact hi⟩

theorem mem_nid_idsF : ∀ (f : Forest) (n : DNode), n ∈ f → n.nid ∈ idsF f
  | m :: rest, n, h => by
    rcases List.mem_cons.mp h with rfl | h2
    · exact List.mem_append.mpr (Or.inl (nid_mem_idsN n))
    · exact List.mem_append.mpr (Or.inr (mem_nid_idsF rest n h2))

theorem sibling_nid_ne : ∀ (cs : Forest) (j i : Nat) (a b : DNode),
    (idsF cs).Nodup → cs[j]? = some a → cs[i]? = some b → j < i → a.nid ≠ b.nid
  | [], _, _, _, _, _, ha, _, _ => by cases ha
  | c :: rest, 0, 0, a, b, _, _, _, hlt => by omega
  | c :: rest, 0, i + 1, a, b, hnd, ha, hb, _ => by
    simp only [List.getElem?_cons_zero, Option.some.injEq] at ha
    simp only [List.getElem?_cons_succ] at hb
    have hbm : b.nid ∈ idsF rest := mem_nid_idsF rest b (List.getElem?_mem hb)
    have ham : a.nid ∈ idsN c := by rw [← ha]; exact nid_mem_idsN c
    intro he
    have hdis := (List.nodup_append.mp hnd).2.2
    exact hdis ham (he ▸ hbm)
  | c :: rest, j + 1, 0, a, b, _, _, _, hlt => by omega
  | c :: rest, j + 1, i + 1, a, b, hnd, ha, hb, hlt => by
    simp only [List.getElem?_cons_succ] at ha hb
    exact sibling_nid_ne rest j i a b (List.Nodup.of_append_right hnd) ha hb (by omega)

theorem nodup_children_at (f : Forest) (ca : List Nat) (hnd : (idsF f).Nodup) :
    (ca = [] ∨ (getAt f ca).isSome) → (idsF (childrenAtPos f ca)).Nodup := by
  intro h
  rcases h with rfl | h
  · exact hnd
  cases hget : getAt f ca with
  | none => rw [hget] at h; cases h
  | some caN =>
    cases ca with
    | nil => exact hnd
    | cons i q =>
      rw [childrenAtPos_ne_nil, hget]
      cases caN with
      | elem a t c b d cs =>
        obtain ⟨A, B, h1, _⟩ := idsF_modifyAt_split id (i :: q) f _ hget
        rw [h1, List.append_assoc] at hnd
        have h2 := List.Nodup.of_append_left (List.Nodup.of_append_right hnd)
        simp only [idsN, List.nodup_cons] at h2
        exact h2.2
      | text a d => simp [idsF]
      | comment a d => simp [idsF]

theorem shell_isElem (a b : DNode) (h : shellOf a = shellOf b) : a.isElem = b.isElem := by
  cases a <;> cases b <;> simp [shellOf, DNode.isElem] at h ⊢

theorem shell_isCharData (a b : DNode) (h : shellOf a = shellOf b) :
    a.isCharData = b.isCharData := by
  cases a <;> cases b <;> simp [shellOf, DNode.isCharData] at h ⊢

theorem list_concat_cases : ∀ (l : List Nat), l = [] ∨ ∃ l0 x, l = l0 ++ [x]
  | [] => Or.inl rfl
  | a :: l => by
    rcases list_concat_cases l with rfl | ⟨l0, x, rfl⟩
    · exact Or.inr ⟨[], a, rfl⟩
    · exact Or.inr ⟨a :: l0, x, rfl⟩

theorem isPref_decompose (q p : List Nat) (hpref : isPref q p) (hne : q ≠ p) :
    ∃ k rest, p = q ++ k :: rest := by
  obtain ⟨t, ht⟩ := hpref
  cases t with
  | nil => exact absurd (by rw [← ht, List.append_nil]) hne
  | cons k rest => exact ⟨k, rest, ht.symm⟩

end HLN

namespace HLN

/-! ### Containment geometry at the common-ancestor level -/

theorem contained_le_chain (ca : List Nat) (k : Nat) (rest : List Nat)
    (sO : Nat) (pe : List Nat) (eO : Nat) (m2 : Nat) (hm : m2 ≤ k) :
    containedPos (ca ++ k :: rest) sO pe eO (ca ++ [m2]) = false := by
  unfold containedPos
  have hlt : posLtB ((ca ++ k :: rest) ++ [sO]) (ca ++ [m2]) = false := by
    rw [List.append_assoc, List.cons_append, posLtB_append_common]
    simp only [posLtB]
    rcases Nat.lt_or_ge k m2 with h | h
    · omega
    · have hk : decide (k < m2) = false := by simp; omega
      rw [hk, posLtB_nil_right]
      simp
  have hne : ((ca ++ k :: rest) ++ [sO]) ≠ (ca ++ [m2]) := by
    intro hcon
    have h2 := congrArg List.length hcon
    simp only [List.length_append, List.length_cons] at h2
    omega
  have h1 : posLeB ((ca ++ k :: rest) ++ [sO]) (ca ++ [m2]) = false := by
    unfold posLeB
    rw [hlt]
    simp [hne]
  rw [h1]
  rfl

theorem contained_end_chain (ca : List Nat) (b : Nat) (q' : List Nat)
    (ps : List Nat) (sO eO : Nat) :
    containedPos ps sO (ca ++ b :: q') eO (ca ++ [b]) = false := by
  unfold containedPos
  have hlt : posLtB (bumpLast (ca ++ [b])) ((ca ++ b :: q') ++ [eO]) = false := by
    rw [bumpLast_append, List.append_assoc, List.cons_append, posLtB_append_common]
    simp [posLtB]
  have hne : bumpLast (ca ++ [b]) ≠ ((ca ++ b :: q') ++ [eO]) := by
    rw [bumpLast_append, List.append_assoc, List.cons_append]
    intro hcon
    have h3 := List.append_cancel_left hcon
    injection h3 with h4
    omega
  have h2 : posLeB (bumpLast (ca ++ [b])) ((ca ++ b :: q') ++ [eO]) = false := by
    unfold posLeB
    rw [hlt]
    rw [List.append_assoc, List.cons_append] at hne
    simp [hne]
  rw [h2]
  rw [Bool.and_false]

theorem take_getElem?_inv {l : List α} {u j : Nat} {m : α}
    (h : (l.take u)[j]? = some m) : j < u ∧ l[j]? = some m := by
  have h1 : j < (l.take u).length := getElem?_some_lt h
  rw [List.length_take] at h1
  have h2 : j < u := by omega
  exact ⟨h2, by rw [← take_getElem?_lt l u j h2]; exact h⟩

theorem keep_take_chain (caKids : Forest) (ca : List Nat) (k : Nat) (rest : List Nat)
    (sO eO : Nat) (pe : List Nat) (X1 c : DNode)
    (hnd : (idsF caKids).Nodup)
    (hck : caKids[k]? = some c)
    (hshell : shellOf X1 = shellOf c) :
    ∀ m ∈ (updIdx caKids k (fun _ => X1)).take (k + 1),
      (!((caKids.enum.filter (fun x =>
        containedPos (ca ++ k :: rest) sO pe eO (ca ++ [x.1]))).map
          (fun x => x.2.nid)).contains m.nid) = true := by
  intro m hm
  obtain ⟨j, hj⟩ := getElem?_of_mem_own hm
  obtain ⟨hjk, hj2⟩ := take_getElem?_inv hj
  have hmn : ∃ mj, caKids[j]? = some mj ∧ m.nid = mj.nid := by
    by_cases hjeq : j = k
    · subst hjeq
      rw [updIdx_get_eq, hck] at hj2
      injection hj2 with he
      exact ⟨c, hck, by rw [← he]; exact shellOf_nid X1 c hshell⟩
    · rw [updIdx_get_ne caKids k j _ (fun hh => hjeq hh.symm)] at hj2
      exact ⟨m, hj2, rfl⟩
  obtain ⟨mj, hmj, hnid⟩ := hmn
  rw [Bool.not_eq_true']
  rw [← Bool.not_eq_true]
  intro hcon
  rw [List.elem_iff] at hcon
  obtain ⟨x, hxf, hxnid⟩ := List.mem_map.mp hcon
  obtain ⟨hxe, hxp⟩ := List.mem_filter.mp hxf
  have hxg : caKids[x.1]? = some x.2 := List.mem_enum_iff_getElem?.mp hxe
  have hxk : k < x.1 := by
    rcases Nat.lt_or_ge k x.1 with h | h
    · exact h
    · rw [contained_le_chain ca k rest sO pe eO x.1 h] at hxp
      cases hxp
  have hne := sibling_nid_ne caKids j x.1 mj x.2 hnd hmj hxg (by omega)
  exact hne (by rw [← hnid, hxnid])

theorem filter_keep_pos (cs : Forest) (keep : DNode → Bool) (k b : Nat) (lNode : DNode)
    (hkb : k < b) (hb : cs[b]? = some lNode) (hkeepl : keep lNode = true)
    (hpre : ∀ m ∈ cs.take (k + 1), keep m = true) :
    ∃ j2 : Nat, (cs.filter keep)[k + 1 + j2]? = some lNode := by
  have hbl : b < cs.length := getElem?_some_lt hb
  have hsplit : cs.filter keep = cs.take (k + 1) ++ (cs.drop (k + 1)).filter keep := by
    conv_lhs => rw [← List.take_append_drop (k + 1) cs]
    rw [List.filter_append, List.filter_eq_self.mpr hpre]
  have hdrop : (cs.drop (k + 1))[b - (k + 1)]? = some lNode := by
    rw [List.getElem?_drop]
    rw [show k + 1 + (b - (k + 1)) = b by omega]
    exact hb
  have hmem : lNode ∈ (cs.drop (k + 1)).filter keep :=
    List.mem_filter.mpr ⟨List.getElem?_mem hdrop, hkeepl⟩
  obtain ⟨j2, hj2⟩ := getElem?_of_mem_own hmem
  refine ⟨j2, ?_⟩
  rw [hsplit, List.getElem?_append]
  have hlt : (cs.take (k + 1)).length = k + 1 := by
    rw [List.length_take]; omega
  rw [if_neg (by omega), hlt]
  rw [show k + 1 + j2 - (k + 1) = j2 by omega]
  exact hj2

theorem pathOfC_cases (f : Forest) (x : Nat) (p : List Nat)
    (h : pathOfC f x = some p) :
    (x = 0 ∧ p = []) ∨ (x ≠ 0 ∧ ∃ m, getAt f p = some m ∧ m.nid = x) := by
  unfold pathOfC at h
  split at h
  case _ hx =>
    injection h with he
    exact Or.inl ⟨hx, he.symm⟩
  case _ hx =>
    exact Or.inr ⟨hx, findPathF_some f x p h⟩

theorem containerLen_at (f : Forest) (p : List Nat) (m : DNode)
    (hp : p ≠ []) (h : getAt f p = some m) : containerLen f p = m.domLen := by
  unfold containerLen
  cases p with
  | nil => exact absurd rfl hp
  | cons i q => rw [h]

theorem idAtPos_at (f : Forest) (p : List Nat) (m : DNode)
    (hp : p ≠ []) (h : getAt f p = some m) : idAtPos f p = m.nid := by
  unfold idAtPos
  cases p with
  | nil => exact absurd rfl hp
  | cons i q => rw [h]

end HLN

namespace HLN

theorem setAt_self : ∀ (q : List Nat) (f : Forest) (m : DNode),
    getAt f q = some m → setAt f q m = f
  | [], _, _, h => by cases h
  | [i], f, m, h => by
    rw [getAt_one] at h
    exact updIdx_self f i m h
  | i :: j :: p, f, m, h => by
    rw [getAt_cons_bind] at h
    cases hfi : f[i]? with
    | none => rw [hfi] at h; cases h
    | some n =>
      rw [hfi] at h
      simp only [Option.some_bind] at h
      show updIdx f i _ = f
      have hfix : (fun x => x.withChildList (modifyAt x.childList (j :: p) (fun _ => m))) n
          = n := by
        cases n with
        | elem a t c b d cs =>
          have h2 : getAt cs (j :: p) = some m := h
          show (DNode.elem a t c b d cs).withChildList (modifyAt cs (j :: p) fun _ => m) =
            DNode.elem a t c b d cs
          rw [show modifyAt cs (j :: p) (fun _ => m) = setAt cs (j :: p) m from rfl,
            setAt_self (j :: p) cs m h2]
          rfl
        | text a d =>
          rw [show getSub (.text a d) (j :: p) = getAt ([] : Forest) (j :: p) from rfl,
            getAt_nil_forest] at h
          cases h
        | comment a d =>
          rw [show getSub (.comment a d) (j :: p) = getAt ([] : Forest) (j :: p) from rfl,
            getAt_nil_forest] at h
          cases h
      rw [updIdx_congr f i _ (fun _ => n) n hfi hfix]
      exact updIdx_self f i n hfi

end HLN

namespace HLN

theorem childrenAtPos_of_getAt (f : Forest) (q : List Nat) (m : DNode)
    (hq : q ≠ []) (h : getAt f q = some m) : childrenAtPos f q = m.childList := by
  cases q with
  | nil => exact absurd rfl hq
  | cons i q' => rw [childrenAtPos_ne_nil, h]

theorem posLeB_of_lt {a b : List Nat} (h : posLtB a b = true) : posLeB a b = true := by
  unfold posLeB
  rw [h, Bool.or_true]

theorem keep_not_contained (caKids : Forest) (ps : List Nat) (sO : Nat) (pe : List Nat)
    (eO : Nat) (ca : List Nat) (b : Nat) (lNode : DNode)
    (hnd : (idsF caKids).Nodup) (hb : caKids[b]? = some lNode)
    (hfalse : containedPos ps sO pe eO (ca ++ [b]) = false) :
    (!((caKids.enum.filter (fun x =>
      containedPos ps sO pe eO (ca ++ [x.1]))).map
        (fun x => x.2.nid)).contains lNode.nid) = true := by
  rw [Bool.not_eq_true']
  rw [← Bool.not_eq_true]
  intro hcon
  rw [List.elem_iff] at hcon
  obtain ⟨x, hxf, hxnid⟩ := List.mem_map.mp hcon
  obtain ⟨hxe, hxp⟩ := List.mem_filter.mp hxf
  have hxg : caKids[x.1]? = some x.2 := List.mem_enum_iff_getElem?.mp hxe
  have hxb : x.1 ≠ b := by
    intro he
    rw [he, hfalse] at hxp
    cases hxp
  rcases Nat.lt_or_ge x.1 b with hlt | hge
  · exact (sibling_nid_ne caKids x.1 b x.2 lNode hnd hxg hb hlt) hxnid
  · exact (sibling_nid_ne caKids b x.1 lNode x.2 hnd hb hxg (by omega)) (by rw [hxnid])

theorem phase3_out (fuel : Nat)
    (IH : ∀ (f : Forest) (nid : Nat) (r : BRange) (er : ExtractRes) (ps pe : List Nat),
      extractHyps f r ps pe → extractFuel fuel f nid r = some er → extractConc f r ps pe er)
    (f2 : Forest) (nid1 : Nat) (r : BRange) (ca : List Nat) (k2 : Nat) (q' : List Nat)
    (lNode eNode : DNode) (frag3 f3 : Forest) (nid3 : Nat)
    (hnd2 : (idsF f2).Nodup) (hpos2 : ∀ i ∈ idsF f2, 0 < i)
    (hgAt : getAt f2 (ca ++ [k2]) = some lNode)
    (hsub : getSub lNode q' = some eNode)
    (heN : eNode.nid = r.eN) (heN0 : r.eN ≠ 0)
    (heb2 : r.eO ≤ eNode.domLen)
    (heq3 : extractPhase3 (extractFuel fuel) f2 nid1 r (some lNode.nid) =
      some (frag3, f3, nid3)) :
    ∃ X3, f3 = setAt f2 (ca ++ [k2]) X3 ∧ shellOf X3 = shellOf lNode ∧
      (idsF f3).Sublist (idsF f2) := by
  have hfp : findPathF f2 lNode.nid = some (ca ++ [k2]) :=
    findPathF_of_getAt f2 _ lNode hnd2 hgAt
  simp only [extractPhase3, hfp, hgAt] at heq3
  split at heq3
  case isTrue hlc =>
    injection heq3 with heq3
    simp only [Prod.mk.injEq] at heq3
    obtain ⟨hfr, hf3, hn3⟩ := heq3
    subst hf3
    refine ⟨setCharData lNode (strDrop lNode.charData r.eO), ?_, setCharData_shell lNode _, ?_⟩
    · exact modifyAt_as_setAt (ca ++ [k2]) f2 lNode _ hgAt
    · rw [idsF_modifyAt_data_eq _ (fun n => idsN_setCharData n _) (ca ++ [k2]) f2 lNode hgAt]
  case isFalse hlc =>
    split at heq3
    case h_1 heqr => cases heq3
    case h_2 er3 heqr =>
      injection heq3 with heq3
      simp only [Prod.mk.injEq] at heq3
      obtain ⟨hfr, hf3, hn3⟩ := heq3
      subst hf3
      have hl0 : lNode.nid ≠ 0 := by
        have := hpos2 lNode.nid (getAt_nid_mem f2 (ca ++ [k2]) lNode hgAt)
        omega
      have hcane : ca ++ [k2] ≠ [] := by cases ca <;> simp
      have hgetE : getAt f2 ((ca ++ [k2]) ++ q') = some eNode := by
        cases q' with
        | nil =>
          rw [List.append_nil]
          cases hsub
          exact hgAt
        | cons x xs =>
          rw [getAt_append_cons, childrenAtPos_of_getAt f2 (ca ++ [k2]) lNode hcane hgAt]
          exact hsub
      have hyps3 : extractHyps f2 ⟨lNode.nid, 0, r.eN, r.eO⟩ (ca ++ [k2]) ((ca ++ [k2]) ++ q') := by
        refine ⟨hnd2, hpos2, ?_, ?_, ?_, ?_, ?_⟩
        · show pathOfC f2 lNode.nid = some (ca ++ [k2])
          unfold pathOfC
          rw [if_neg hl0]
          exact hfp
        · show pathOfC f2 r.eN = some ((ca ++ [k2]) ++ q')
          unfold pathOfC
          rw [if_neg heN0]
          rw [← heN]
          exact findPathF_of_getAt f2 _ eNode hnd2 hgetE
        · show posLeB ((ca ++ [k2]) ++ [0]) (((ca ++ [k2]) ++ q') ++ [r.eO]) = true
          rw [List.append_assoc (ca ++ [k2]) q' [r.eO], posLeB_append_common]
          cases q' with
          | nil => exact posLeB_single 0 r.eO (Nat.zero_le _)
          | cons x xs => rw [List.cons_append]; exact posLeB_zero_cons x (xs ++ [r.eO])
        · exact Nat.zero_le _
        · show r.eO ≤ containerLen f2 ((ca ++ [k2]) ++ q')
          rw [containerLen_at f2 _ eNode (by cases ca <;> simp) hgetE]
          exact heb2
      have hconc := IH f2 (nid1 + 1) _ er3 (ca ++ [k2]) ((ca ++ [k2]) ++ q') hyps3 heqr
      obtain ⟨_, subl3, sA3, _⟩ := hconc
      have hcp3 : commonPrefix (ca ++ [k2]) ((ca ++ [k2]) ++ q') = ca ++ [k2] :=
        commonPrefix_of_pref _ _ ⟨q', rfl⟩
      rw [hcp3] at sA3
      obtain ⟨X3, m3, hm3, hroots3, hshell3⟩ := sA3 hcane
      rw [hgAt] at hm3
      injection hm3 with hm3
      subst hm3
      exact ⟨X3, hroots3, hshell3, subl3⟩

theorem phase1_out (fuel : Nat)
    (IH : ∀ (f : Forest) (nid : Nat) (r : BRange) (er : ExtractRes) (ps pe : List Nat),
      extractHyps f r ps pe → extractFuel fuel f nid r = some er → extractConc f r ps pe er)
    (f : Forest) (nid : Nat) (r : BRange) (ca : List Nat) (k : Nat) (rest ps : List Nat)
    (c sNode : DNode) (frag1 f1 : Forest) (nid1 : Nat)
    (hnd : (idsF f).Nodup) (hpos : ∀ i ∈ idsF f, 0 < i)
    (hdec : ps = ca ++ k :: rest)
    (hgc : getAt f (ca ++ [k]) = some c)
    (hgs : getAt f ps = some sNode)
    (hps : pathOfC f r.sN = some ps)
    (hsb : r.sO ≤ containerLen f ps)
    (heq1 : extractPhase1 (extractFuel fuel) f nid r ca (some k) = some (frag1, f1, nid1)) :
    ∃ X1, f1 = setAt f (ca ++ [k]) X1 ∧ shellOf X1 = shellOf c ∧
      (idsF f1).Sublist (idsF f) ∧ laterOnly f f1 ps := by
  have hcane : ca ++ [k] ≠ [] := by cases ca <;> simp
  have hpsne : ps ≠ [] := by rw [hdec]; cases ca <;> simp
  simp only [extractPhase1, hgc] at heq1
  split at heq1
  case isTrue hcdc =>
    -- the first partially contained child is character data: the start chain
    -- ends right below the common ancestor
    have hccl : c.childList = [] := by
      cases c with
      | elem a t c2 b d cs => simp [DNode.isCharData] at hcdc
      | text a d => rfl
      | comment a d => rfl
    have hrest : rest = [] := by
      cases rest with
      | nil => rfl
      | cons x xs =>
        exfalso
        rw [hdec, show ca ++ k :: x :: xs = (ca ++ [k]) ++ x :: xs by simp,
          getAt_append_cons, childrenAtPos_of_getAt f (ca ++ [k]) c hcane hgc, hccl,
          getAt_nil_forest] at hgs
        cases hgs
    subst hrest
    injection heq1 with heq1
    simp only [Prod.mk.injEq] at heq1
    obtain ⟨hfr, hf1, hn1⟩ := heq1
    subst hf1
    refine ⟨setCharData c (strTake c.charData r.sO), ?_, setCharData_shell c _, ?_, ?_⟩
    · exact modifyAt_as_setAt (ca ++ [k]) f c _ hgc
    · rw [idsF_modifyAt_data_eq _ (fun n => idsN_setCharData n _) (ca ++ [k]) f c hgc]
    · -- laterOnly via the children-level lift
      have hval : ca = [] ∨ (getAt f ca).isSome := by
        cases hca : ca with
        | nil => exact Or.inl rfl
        | cons a b =>
          have hgc2 : getAt f ((a :: b) ++ [k]) = some c := by rw [← hca]; exact hgc
          obtain ⟨mq, hmq⟩ := getAt_pref_some f (a :: b) k [] c (by simp) hgc2
          exact Or.inr (by rw [hmq]; rfl)
      rw [hdec]
      rw [show ca ++ [k] = ca ++ k :: [] from rfl] at hgc ⊢
      rw [show modifyAt f (ca ++ k :: []) (fun n => setCharData n (strTake c.charData r.sO)) =
        modifyChildrenAt f ca (fun cs => updIdx cs k
          (fun n => setCharData n (strTake c.charData r.sO))) from
        modifyAt_append_one ca k f _]
      refine laterOnly_lift ca f _ [k] hval ?_
      refine laterOnly_updIdx_at _ k _ [] c ?_ (setCharData_shell c _) trivial
      rw [← getAt_append_one]
      exact hgc
  case isFalse hcdc =>
    split at heq1
    case h_1 heqr => cases heq1
    case h_2 er1 heqr =>
      injection heq1 with heq1
      simp only [Prod.mk.injEq] at heq1
      obtain ⟨hfr, hf1, hn1⟩ := heq1
      subst hf1
      have hcnid : c.nid ≠ 0 := by
        have := hpos c.nid (getAt_nid_mem f (ca ++ [k]) c hgc)
        omega
      have hcelem : c.isElem = true := by
        cases c with
        | elem a t c2 b d cs => rfl
        | text a d => simp [DNode.isCharData] at hcdc
        | comment a d => simp [DNode.isCharData] at hcdc
      have hdomc : c.domLen = c.childList.length := by
        cases c with
        | elem a t c2 b d cs => rfl
        | text a d => simp [DNode.isElem] at hcelem
        | comment a d => simp [DNode.isElem] at hcelem
      have hyps1 : extractHyps f ⟨r.sN, r.sO, c.nid, c.childList.length⟩ ps (ca ++ [k]) := by
        refine ⟨hnd, hpos, hps, ?_, ?_, hsb, ?_⟩
        · show pathOfC f c.nid = some (ca ++ [k])
          unfold pathOfC
          rw [if_neg hcnid]
          exact findPathF_of_getAt f _ c hnd hgc
        · show posLeB (ps ++ [r.sO]) ((ca ++ [k]) ++ [c.childList.length]) = true
          cases rest with
          | nil =>
            rw [hdec]
            rw [show (ca ++ k :: []) ++ [r.sO] = (ca ++ [k]) ++ [r.sO] from rfl,
              posLeB_append_common]
            refine posLeB_single r.sO c.childList.length ?_
            rw [hdec] at hsb
            rw [containerLen_at f (ca ++ [k]) c hcane hgc, hdomc] at hsb
            exact hsb
          | cons x xs =>
            rw [hdec]
            rw [show (ca ++ k :: x :: xs) ++ [r.sO] = (ca ++ [k]) ++ ((x :: xs) ++ [r.sO])
              by simp, posLeB_append_common]
            refine posLeB_of_lt ?_
            rw [List.cons_append]
            refine posLtB_cons_single x c.childList.length (xs ++ [r.sO]) ?_
            rw [hdec, show ca ++ k :: x :: xs = (ca ++ [k]) ++ x :: xs by simp,
              getAt_append_cons, childrenAtPos_of_getAt f (ca ++ [k]) c hcane hgc,
              getAt_cons_bind] at hgs
            cases hcx : c.childList[x]? with
            | none => rw [hcx] at hgs; cases hgs
            | some mm => exact getElem?_some_lt hcx
        · show c.childList.length ≤ containerLen f (ca ++ [k])
          rw [containerLen_at f (ca ++ [k]) c hcane hgc, hdomc]
      have hconc := IH f (nid + 1) _ er1 ps (ca ++ [k]) hyps1 heqr
      obtain ⟨lo1, subl1, sA1, _⟩ := hconc
      have hcp1 : commonPrefix ps (ca ++ [k]) = ca ++ [k] :=
        commonPrefix_of_pref_right ps (ca ++ [k]) ⟨rest, by rw [hdec]; simp⟩
      rw [hcp1] at sA1
      obtain ⟨X1, m1, hm1, hroots1, hshell1⟩ := sA1 hcane
      rw [hgc] at hm1
      injection hm1 with hm1
      subst hm1
      exact ⟨X1, hroots1, hshell1, subl1, lo1⟩

theorem elem_of_child (f : Forest) (q : List Nat) (m : DNode) (b : Nat) (lNode : DNode)
    (hq : q ≠ []) (hm : getAt f q = some m)
    (hb : (childrenAtPos f q)[b]? = some lNode) : m.isElem = true := by
  cases m with
  | elem a t c2 b2 d cs => rfl
  | text a d =>
    rw [childrenAtPos_of_getAt f q _ hq hm] at hb
    simp [DNode.childList] at hb
  | comment a d =>
    rw [childrenAtPos_of_getAt f q _ hq hm] at hb
    simp [DNode.childList] at hb

theorem isElem_withChildList (n : DNode) (cs : Forest) :
    (n.withChildList cs).isElem = n.isElem := by
  cases n <;> rfl

theorem laterOnly_setAt_end (f : Forest) (p : List Nat) (m Y : DNode)
    (hm : getAt f p = some m) (hsh : shellOf Y = shellOf m) :
    laterOnly f (setAt f p Y) p := by
  have hpne : p ≠ [] := by
    intro h
    subst h
    cases hm
  rcases list_concat_cases p with hp | ⟨q0, last, hdec⟩
  · exact absurd hp hpne
  subst hdec
  rw [show setAt f (q0 ++ [last]) Y =
    modifyChildrenAt f q0 (fun cs => updIdx cs last (fun _ => Y)) from
    modifyAt_append_one q0 last f _]
  have hval : q0 = [] ∨ (getAt f q0).isSome := by
    cases hq0 : q0 with
    | nil => exact Or.inl rfl
    | cons a bb =>
      subst hq0
      obtain ⟨mq, hmq⟩ := getAt_pref_some f (a :: bb) last [] m (by simp) hm
      exact Or.inr (by rw [hmq]; rfl)
  refine laterOnly_lift q0 f _ [last] hval ?_
  refine laterOnly_updIdx_at _ last _ [] m ?_ hsh trivial
  rw [← getAt_append_one]
  exact hm

set_option maxHeartbeats 1000000 in
theorem extract_struct : ∀ (fuel : Nat) (f : Forest) (nid : Nat) (r : BRange)
    (er : ExtractRes) (ps pe : List Nat),
    extractHyps f r ps pe →
    extractFuel fuel f nid r = some er →
    extractConc f r ps pe er := by
  intro fuel
  induction fuel with
  | zero => intro f nid r er ps pe _ h; cases h
  | succ fuel IH =>
    intro f nid r er ps pe hyps h
    obtain ⟨hnd, hpos, hps, hpe, hord, hsb, heb⟩ := hyps
    simp only [extractFuel] at h
    -- validity facts for the two container paths
    have hpsv : ps = [] ∨ ∃ sNode, getAt f ps = some sNode ∧ sNode.nid = r.sN := by
      rcases pathOfC_cases f r.sN ps hps with ⟨_, hp⟩ | ⟨_, m, hm, hnid⟩
      · exact Or.inl hp
      · exact Or.inr ⟨m, hm, hnid⟩
    have hpev : pe = [] ∨ ∃ eNode, getAt f pe = some eNode ∧ eNode.nid = r.eN := by
      rcases pathOfC_cases f r.eN pe hpe with ⟨_, hp⟩ | ⟨_, m, hm, hnid⟩
      · exact Or.inl hp
      · exact Or.inr ⟨m, hm, hnid⟩
    have hpsvalid : ps = [] ∨ (getAt f ps).isSome := by
      rcases hpsv with hp | ⟨m, hm, _⟩
      · exact Or.inl hp
      · exact Or.inr (by rw [hm]; rfl)
    split at h
    -- collapsed
    case isTrue hcol =>
      injection h with h
      subst h
      refine ⟨laterOnly_refl ps f hpsvalid, List.Sublist.refl _, ?_, Or.inl ⟨rfl, rfl⟩⟩
      intro hcane
      have hpsne : ps ≠ [] := by
        intro hpsnil
        subst hpsnil
        apply hcane
        cases pe <;> rfl
      obtain ⟨sNode, hsget, _⟩ := hpsv.resolve_left hpsne
      have : ∃ m, getAt f (commonPrefix ps pe) = some m := by
        by_cases hceq : commonPrefix ps pe = ps
        · exact ⟨sNode, by rw [hceq]; exact hsget⟩
        · obtain ⟨k, rest, hd⟩ :=
            isPref_decompose _ ps (commonPrefix_pref_left ps pe) hceq
          rw [hd] at hsget
          obtain ⟨mq, hmq⟩ := getAt_pref_some f _ k rest sNode hcane hsget
          exact ⟨mq, hmq⟩
      obtain ⟨m, hm⟩ := this
      exact ⟨m, m, hm, (setAt_self _ _ _ hm).symm, rfl⟩
    case isFalse hncol =>
      -- attached-container match
      rw [hps, hpe] at h
      split at h
      case h_2 o1 o2 hfalse => exact (hfalse ps pe rfl rfl).elim
      case h_1 o1 o2 ps2 pe2 heqp1 heqp2 =>
        injection heqp1 with heqp1
        injection heqp2 with heqp2
        subst heqp1
        subst heqp2
        split at h
        case isTrue hcd =>
          rw [Bool.and_eq_true, decide_eq_true_eq] at hcd
          obtain ⟨hse, hic⟩ := hcd
          rw [← hse] at hpe
          rw [hps] at hpe
          injection hpe with hpe2
          subst hpe2
          unfold isCharDataPos at hic
          cases hget : getAt f ps with
          | none => rw [hget] at hic; cases hic
          | some m =>
            rw [hget] at hic
            have hpsne : ps ≠ [] := by
              intro hnil
              subst hnil
              cases hget
            injection h with h
            subst h
            rw [hget]
            refine ⟨?_, ?_, ?_, Or.inl ⟨rfl, rfl⟩⟩
            · -- laterOnly
              rcases list_concat_cases ps with rfl | ⟨q0, last, hdec⟩
              · exact absurd rfl hpsne
              · rw [hdec]
                rw [show (Option.getD (some m) (DNode.text 0 "")) = m from rfl]
                rw [modifyAt_append_one]
                have hval : q0 = [] ∨ (getAt f q0).isSome := by
                  cases hq0 : q0 with
                  | nil => exact Or.inl rfl
                  | cons a b =>
                    rw [hq0, List.cons_append] at hdec
                    rw [hdec] at hget
                    obtain ⟨mq, hmq⟩ := getAt_pref_some f (a :: b) last [] m (by simp)
                      (by rw [List.cons_append]; exact hget)
                    exact Or.inr (by rw [hmq]; rfl)
                refine laterOnly_lift q0 f _ [last] hval ?_
                refine laterOnly_updIdx_at _ last _ [] m ?_ (setCharData_shell m _) trivial
                rw [← getAt_append_one, ← hdec]
                exact hget
            · -- ids
              rw [idsF_modifyAt_data_eq _ (fun n => idsN_setCharData n _) ps f m hget]
            · -- setAt form
              intro hcane
              rw [commonPrefix_self]
              rw [show (Option.getD (some m) (DNode.text 0 "")) = m from rfl]
              refine ⟨setCharData m (delSlice m.charData r.sO r.eO), m, hget, ?_,
                setCharData_shell m _⟩
              exact modifyAt_as_setAt ps f m _ hget
        case isFalse hcd =>
          split at h
          case h_1 o3 heq1 => cases h
          case h_2 o3 frag1 f1 nid1 heq1 =>
            split at h
            case h_1 o4 heq3 => cases h
            case h_2 o4 frag3 f3 nid3 heq3 =>
              injection h with h
              subst h
              split at heq1
              case isTrue hsd =>
                have hsInc : commonPrefix ps pe = ps := of_decide_eq_true hsd
                rw [show extractPhase1 (extractFuel fuel) f nid r (commonPrefix ps pe) none =
                  some ([], f, nid) from rfl] at heq1
                injection heq1 with heq1
                simp only [Prod.mk.injEq] at heq1
                obtain ⟨hfr1, hf1, hn1⟩ := heq1
                subst hf1
                split at heq3
                case isTrue hed =>
                  simp only [extractPhase3] at heq3
                  injection heq3 with heq3
                  simp only [Prod.mk.injEq] at heq3
                  obtain ⟨hfr3, hf3, hn3⟩ := heq3
                  subst hf3
                  refine ⟨?_, ?_, ?_, Or.inl ⟨by rw [if_pos hsd], by rw [if_pos hsd]⟩⟩
                  · rw [hsInc]
                    exact laterOnly_inside ps ps f _ (isPref_refl ps) hpsvalid
                  · exact subl_idsF_modifyChildrenAt _ (fun cs => subl_idsF_filter _ cs) _ f
                  · intro hcane
                    rw [hsInc] at hcane ⊢
                    obtain ⟨sNode, hgs, _⟩ := hpsv.resolve_left hcane
                    exact ⟨_, sNode, hgs,
                      modifyChildrenAt_as_setAt ps f sNode _ hcane hgs,
                      shellOf_withChildList sNode _⟩
                case isFalse hed =>
                  set kp : DNode → Bool := fun n =>
                    !((List.map (fun x => x.2.nid)
                        (List.filter (fun x => containedPos ps r.sO pe r.eO
                          (commonPrefix ps pe ++ [x.1]))
                          (List.enum (childrenAtPos f (commonPrefix ps pe))))).contains n.nid)
                    with hkp
                  set F2 : Forest := modifyChildrenAt f (commonPrefix ps pe)
                    (fun cs => List.filter kp cs) with hF2
                  have heNot : commonPrefix ps pe ≠ pe := fun hh => hed (decide_eq_true hh)
                  obtain ⟨b, q', hdecE⟩ :=
                    isPref_decompose _ pe (commonPrefix_pref_right ps pe) heNot
                  have hpene : pe ≠ [] := by
                    rw [hdecE]; cases commonPrefix ps pe <;> simp
                  obtain ⟨eNode, hge, heNid⟩ := hpev.resolve_left hpene
                  have hpeidx : pe[(commonPrefix ps pe).length]? = some b := by
                    have h0 := getElem?_append_len (commonPrefix ps pe) b q'
                    rw [← hdecE] at h0
                    exact h0
                  have hgeE : getAt f ((commonPrefix ps pe) ++ b :: q') = some eNode := by
                    rw [← hdecE]; exact hge
                  rw [getAt_append_cons, getAt_cons_bind] at hgeE
                  cases hlb : (childrenAtPos f (commonPrefix ps pe))[b]? with
                  | none => rw [hlb] at hgeE; cases hgeE
                  | some lNode =>
                    rw [hlb] at hgeE
                    simp only [Option.some_bind] at hgeE
                    simp only [hpeidx, hlb] at heq3
                    have hndK : (idsF (childrenAtPos f (commonPrefix ps pe))).Nodup := by
                      refine nodup_children_at f _ hnd ?_
                      rw [hsInc]
                      exact hpsvalid
                    have hcf : containedPos ps r.sO pe r.eO ((commonPrefix ps pe) ++ [b]) = false := by
                      have h0 := contained_end_chain (commonPrefix ps pe) b q' ps r.sO r.eO
                      rw [← hdecE] at h0
                      exact h0
                    have hkeepl : kp lNode = true := by
                      rw [hkp]
                      exact keep_not_contained (childrenAtPos f (commonPrefix ps pe))
                        ps r.sO pe r.eO (commonPrefix ps pe) b lNode hndK hlb hcf
                    have hmemf : lNode ∈ (childrenAtPos f (commonPrefix ps pe)).filter kp :=
                      List.mem_filter.mpr ⟨List.getElem?_mem hlb, hkeepl⟩
                    obtain ⟨k2, hk2⟩ := getElem?_of_mem_own hmemf
                    have hvalE : (commonPrefix ps pe) = [] ∨
                        ∃ m, getAt f (commonPrefix ps pe) = some m ∧ m.isElem = true := by
                      rcases hpsv with hpnil | ⟨sNode, hgs, _⟩
                      · exact Or.inl (by rw [hsInc, hpnil])
                      · refine Or.inr ⟨sNode, by rw [hsInc]; exact hgs, ?_⟩
                        refine elem_of_child f (commonPrefix ps pe) sNode b lNode ?_ ?_ hlb
                        · rw [hsInc]
                          intro hh
                          rw [hh] at hgs
                          cases hgs
                        · rw [hsInc]; exact hgs
                    have hch2 : childrenAtPos F2 (commonPrefix ps pe) =
                        (childrenAtPos f (commonPrefix ps pe)).filter kp := by
                      rw [hF2]
                      exact childrenAt_modifyChildren_self (commonPrefix ps pe) f _ hvalE
                    have hgAt2 : getAt F2 ((commonPrefix ps pe) ++ [k2]) = some lNode := by
                      rw [getAt_append_one, hch2]
                      exact hk2
                    have hsubF2 : (idsF F2).Sublist (idsF f) := by
                      rw [hF2]
                      exact subl_idsF_modifyChildrenAt _ (fun cs => subl_idsF_filter _ cs) _ f
                    have hnd2 : (idsF F2).Nodup := List.Nodup.sublist hsubF2 hnd
                    have hpos2 : ∀ i ∈ idsF F2, 0 < i := fun i hi =>
                      hpos i (hsubF2.subset hi)
                    have heN0 : r.eN ≠ 0 := by
                      have := hpos eNode.nid (getAt_nid_mem f pe eNode hge)
                      rw [heNid] at this
                      omega
                    have heb2 : r.eO ≤ eNode.domLen := by
                      rw [← containerLen_at f pe eNode hpene hge]
                      exact heb
                    obtain ⟨X3, hf3s, hsh3, hsub3⟩ := phase3_out fuel IH F2 nid1 r
                      (commonPrefix ps pe) k2 q' lNode eNode frag3 f3 nid3
                      hnd2 hpos2 hgAt2 hgeE heNid heN0 heb2 heq3
                    rcases hpsv with hpnil | ⟨sNode, hgs, _⟩
                    · refine ⟨?_, ?_, ?_, Or.inl ⟨by rw [if_pos hsd], by rw [if_pos hsd]⟩⟩
                      · rw [hpnil]; trivial
                      · exact hsub3.trans hsubF2
                      · intro hcane
                        rw [hsInc, hpnil] at hcane
                        exact absurd rfl hcane
                    · have hpsne2 : ps ≠ [] := by
                        intro hh
                        rw [hh] at hgs
                        cases hgs
                      have hF2s : F2 = setAt f ps
                          (sNode.withChildList (List.filter kp sNode.childList)) := by
                        rw [hF2, hsInc]
                        exact modifyChildrenAt_as_setAt ps f sNode _ hpsne2 hgs
                      have hgF2ps : getAt F2 ps =
                          some (sNode.withChildList (List.filter kp sNode.childList)) := by
                        rw [hF2s]
                        exact getAt_modifyAt_self ps f sNode _ hgs
                      have hf3comp : f3 = setAt f ps
                          ((sNode.withChildList (List.filter kp sNode.childList)).withChildList
                            (updIdx (sNode.withChildList
                              (List.filter kp sNode.childList)).childList k2 (fun _ => X3))) := by
                        rw [hf3s, hsInc]
                        rw [show setAt F2 (ps ++ [k2]) X3 =
                          modifyChildrenAt F2 ps (fun cs => updIdx cs k2 (fun _ => X3)) from
                          modifyAt_append_one ps k2 F2 _]
                        rw [modifyChildrenAt_as_setAt ps F2 _ _ hpsne2 hgF2ps]
                        rw [hF2s, setAt_setAt]
                      refine ⟨?_, ?_, ?_, Or.inl ⟨by rw [if_pos hsd], by rw [if_pos hsd]⟩⟩
                      · rw [hf3comp]
                        refine laterOnly_setAt_end f ps sNode _ hgs ?_
                        rw [shellOf_withChildList, shellOf_withChildList]
                      · exact hsub3.trans hsubF2
                      · intro hcane
                        rw [hsInc] at hcane ⊢
                        exact ⟨_, sNode, hgs, hf3comp,
                          by rw [shellOf_withChildList, shellOf_withChildList]⟩
              case isFalse hsd =>
                set CA : List Nat := commonPrefix ps pe with hCA
                set kp : DNode → Bool := fun n =>
                  !((List.map (fun x => x.2.nid)
                      (List.filter (fun x => containedPos ps r.sO pe r.eO (CA ++ [x.1]))
                        (List.enum (childrenAtPos f CA)))).contains n.nid)
                  with hkp
                set F2 : Forest := modifyChildrenAt f1 CA
                  (fun cs => List.filter kp cs) with hF2
                have hsNot : CA ≠ ps := fun hh => hsd (decide_eq_true (hCA ▸ hh))
                obtain ⟨k, rest, hdecS⟩ :=
                  isPref_decompose CA ps (hCA ▸ commonPrefix_pref_left ps pe) hsNot
                have hpsne : ps ≠ [] := by rw [hdecS]; cases CA <;> simp
                obtain ⟨sNode, hgs, hsNid⟩ := hpsv.resolve_left hpsne
                have hpsidx : ps[CA.length]? = some k := by
                  have h0 := getElem?_append_len CA k rest
                  rw [← hdecS] at h0
                  exact h0
                rw [hpsidx] at heq1
                have hgsS : getAt f (CA ++ k :: rest) = some sNode := by
                  rw [← hdecS]; exact hgs
                have hgc : ∃ c, getAt f (CA ++ [k]) = some c := by
                  cases rest with
                  | nil => exact ⟨sNode, hgsS⟩
                  | cons x xs =>
                    rw [show CA ++ k :: x :: xs = (CA ++ [k]) ++ x :: xs by simp] at hgsS
                    exact getAt_pref_some f (CA ++ [k]) x xs sNode (by cases CA <;> simp) hgsS
                obtain ⟨c, hgc⟩ := hgc
                obtain ⟨X1, hf1s, hsh1, hsub1, hlo1⟩ := phase1_out fuel IH f nid r
                  CA k rest ps c sNode frag1 f1 nid1
                  hnd hpos hdecS hgc hgs hps hsb heq1
                have hbK : (childrenAtPos f CA)[k]? = some c := by
                  rw [← getAt_append_one]
                  exact hgc
                have hvalCA : CA = [] ∨
                    ∃ m, getAt f CA = some m ∧ m.isElem = true := by
                  cases hq : CA with
                  | nil => exact Or.inl rfl
                  | cons a bq =>
                    rw [hq] at hgsS hbK
                    obtain ⟨caN, hcaN⟩ :=
                      getAt_pref_some f (a :: bq) k rest sNode (by simp) hgsS
                    exact Or.inr ⟨caN, hcaN,
                      elem_of_child f (a :: bq) caN k c (by simp) hcaN hbK⟩
                have hvalCAw : CA = [] ∨ (getAt f CA).isSome := by
                  rcases hvalCA with hh | ⟨m, hm, _⟩
                  · exact Or.inl hh
                  · exact Or.inr (by rw [hm]; rfl)
                have hchF1 : childrenAtPos f1 CA =
                    updIdx (childrenAtPos f CA) k (fun _ => X1) := by
                  rw [hf1s]
                  rw [show setAt f (CA ++ [k]) X1 =
                    modifyChildrenAt f CA (fun cs => updIdx cs k (fun _ => X1))
                    from modifyAt_append_one CA k f _]
                  exact childrenAt_modifyChildren_self CA f _ hvalCA
                have hndK : (idsF (childrenAtPos f CA)).Nodup :=
                  nodup_children_at f CA hnd hvalCAw
                have hkeep1 : ∀ m ∈ (childrenAtPos f1 CA).take (k + 1), kp m = true := by
                  rw [hchF1, hkp]
                  intro m hm
                  have h0 := keep_take_chain (childrenAtPos f CA) CA k rest r.sO r.eO pe
                    X1 c hndK hbK hsh1 m hm
                  rw [← hdecS] at h0
                  exact h0
                have hgs1 : ∃ s1, getAt f1 ps = some s1 := by
                  obtain ⟨s1, hs1, _⟩ := laterOnly_getAt ps f f1 sNode hlo1 hgs
                  exact ⟨s1, hs1⟩
                obtain ⟨s1, hgs1⟩ := hgs1
                have hlo2 : laterOnly f1 F2 ps := by
                  rw [hF2, hdecS]
                  refine laterOnly_lift CA f1 _ (k :: rest) ?_ ?_
                  · rcases hvalCA with hh | ⟨caN, hcaN, _⟩
                    · exact Or.inl hh
                    · have hloCA : laterOnly f f1 CA := by
                        have h0 : laterOnly f f1 (CA ++ k :: rest) := by
                          rw [← hdecS]; exact hlo1
                        exact laterOnly_pref CA (k :: rest) f f1 h0
                      obtain ⟨caN1, hcaN1, _⟩ := laterOnly_getAt CA f f1 caN hloCA hcaN
                      exact Or.inr (by rw [hcaN1]; rfl)
                  · refine laterOnly_filter_keep (childrenAtPos f1 CA) kp k rest hkeep1 ?_
                    have h0 : getAt f1 (CA ++ k :: rest) = some s1 := by
                      rw [← hdecS]; exact hgs1
                    rw [getAt_append_cons] at h0
                    rw [h0]
                    rfl
                have hsubF2 : (idsF F2).Sublist (idsF f) := by
                  rw [hF2]
                  exact (subl_idsF_modifyChildrenAt _
                    (fun cs => subl_idsF_filter _ cs) CA f1).trans hsub1
                -- the composed replacement at the common ancestor, when it is a real node
                have hcomp : ∀ caN, getAt f CA = some caN → CA ≠ [] →
                    ∃ Y1 Y2, getAt f1 CA = some Y1 ∧ Y1.isElem = caN.isElem ∧
                      F2 = setAt f CA Y2 ∧ shellOf Y2 = shellOf caN ∧
                      getAt F2 CA = some Y2 ∧ Y2.isElem = caN.isElem := by
                  intro caN hcaN hcane
                  have hf1comp : f1 = setAt f CA
                      (caN.withChildList (updIdx caN.childList k (fun _ => X1))) := by
                    rw [hf1s]
                    rw [show setAt f (CA ++ [k]) X1 =
                      modifyChildrenAt f CA (fun cs => updIdx cs k (fun _ => X1))
                      from modifyAt_append_one CA k f _]
                    rw [modifyChildrenAt_as_setAt CA f caN _ hcane hcaN]
                  have hgf1CA : getAt f1 CA =
                      some (caN.withChildList (updIdx caN.childList k (fun _ => X1))) := by
                    rw [hf1comp]
                    exact getAt_modifyAt_self CA f caN _ hcaN
                  refine ⟨caN.withChildList (updIdx caN.childList k (fun _ => X1)),
                    (caN.withChildList (updIdx caN.childList k (fun _ => X1))).withChildList
                    (List.filter kp (caN.withChildList
                      (updIdx caN.childList k (fun _ => X1))).childList),
                    hgf1CA, isElem_withChildList .., ?_, ?_, ?_, ?_⟩
                  · rw [hF2]
                    rw [modifyChildrenAt_as_setAt CA f1 _ _ hcane hgf1CA]
                    rw [hf1comp, setAt_setAt]
                  · rw [shellOf_withChildList, shellOf_withChildList]
                  · rw [hF2]
                    rw [modifyChildrenAt_as_setAt CA f1 _ _ hcane hgf1CA]
                    rw [hf1comp, setAt_setAt]
                    exact getAt_modifyAt_self CA f caN _ hcaN
                  · rw [isElem_withChildList, isElem_withChildList]
                split at heq3
                case isTrue hed =>
                  simp only [extractPhase3] at heq3
                  injection heq3 with heq3
                  simp only [Prod.mk.injEq] at heq3
                  obtain ⟨hfr3, hf3, hn3⟩ := heq3
                  subst hf3
                  refine ⟨laterOnly_trans ps f f1 F2 hlo1 hlo2, hsubF2, ?_,
                    Or.inr ⟨hCA ▸ hsNot, by rw [if_neg hsd], by rw [if_neg hsd]⟩⟩
                  intro hcane
                  rcases hvalCA with hh | ⟨caN, hcaN, _⟩
                  · exact absurd hh hcane
                  · obtain ⟨Y1, Y2, _, _, hY2, hshY2, _, _⟩ := hcomp caN hcaN hcane
                    exact ⟨Y2, caN, hcaN, hY2, hshY2⟩
                case isFalse hed =>
                  have heNot : CA ≠ pe := fun hh => hed (decide_eq_true (hCA ▸ hh))
                  obtain ⟨b, q', hdecE⟩ :=
                    isPref_decompose CA pe (hCA ▸ commonPrefix_pref_right ps pe) heNot
                  have hpene : pe ≠ [] := by rw [hdecE]; cases CA <;> simp
                  obtain ⟨eNode, hge, heNid⟩ := hpev.resolve_left hpene
                  have hpeidx : pe[CA.length]? = some b := by
                    have h0 := getElem?_append_len CA b q'
                    rw [← hdecE] at h0
                    exact h0
                  have hgeE : getAt f (CA ++ b :: q') = some eNode := by
                    rw [← hdecE]; exact hge
                  rw [getAt_append_cons, getAt_cons_bind] at hgeE
                  cases hlb : (childrenAtPos f CA)[b]? with
                  | none => rw [hlb] at hgeE; cases hgeE
                  | some lNode =>
                    rw [hlb] at hgeE
                    simp only [Option.some_bind] at hgeE
                    simp only [hpeidx, hlb] at heq3
                    have hkb : k < b := by
                      have hne : k ≠ b := commonPrefix_head_ne ps pe k b rest q'
                        (by rw [← hCA]; exact hdecS) (by rw [← hCA]; exact hdecE)
                      have h0 : posLeB (k :: (rest ++ [r.sO])) (b :: (q' ++ [r.eO])) = true := by
                        have h1 := hord
                        rw [hdecS, hdecE] at h1
                        rw [show (CA ++ k :: rest) ++ [r.sO] = CA ++ (k :: (rest ++ [r.sO]))
                            by simp,
                          show (CA ++ b :: q') ++ [r.eO] = CA ++ (b :: (q' ++ [r.eO]))
                            by simp,
                          posLeB_append_common] at h1
                        exact h1
                      exact posLeB_cons_ne h0 hne
                    have hb1 : (childrenAtPos f1 CA)[b]? = some lNode := by
                      rw [hchF1, updIdx_get_ne _ k b _ (by omega)]
                      exact hlb
                    have hcf : containedPos ps r.sO pe r.eO (CA ++ [b]) = false := by
                      have h0 := contained_end_chain CA b q' ps r.sO r.eO
                      rw [← hdecE] at h0
                      exact h0
                    have hkeepl : kp lNode = true := by
                      rw [hkp]
                      exact keep_not_contained (childrenAtPos f CA)
                        ps r.sO pe r.eO CA b lNode hndK hlb hcf
                    obtain ⟨j2, hk2⟩ := filter_keep_pos (childrenAtPos f1 CA) kp k b lNode
                      hkb hb1 hkeepl hkeep1
                    have hvalCA1 : CA = [] ∨
                        ∃ m, getAt f1 CA = some m ∧ m.isElem = true := by
                      rcases hvalCA with hh | ⟨caN, hcaN, helm⟩
                      · exact Or.inl hh
                      · by_cases hcane : CA = []
                        · exact Or.inl hcane
                        · obtain ⟨Y1, Y2, hY1, helm1, _, _, _, _⟩ := hcomp caN hcaN hcane
                          exact Or.inr ⟨Y1, hY1, by rw [helm1]; exact helm⟩
                    have hchF2 : childrenAtPos F2 CA =
                        List.filter kp (childrenAtPos f1 CA) := by
                      rw [hF2]
                      exact childrenAt_modifyChildren_self CA f1 _ hvalCA1
                    have hgAt2 : getAt F2 (CA ++ [k + 1 + j2]) = some lNode := by
                      rw [getAt_append_one, hchF2]
                      exact hk2
                    have hnd2 : (idsF F2).Nodup := List.Nodup.sublist hsubF2 hnd
                    have hpos2 : ∀ i ∈ idsF F2, 0 < i := fun i hi => hpos i (hsubF2.subset hi)
                    have heN0 : r.eN ≠ 0 := by
                      have := hpos eNode.nid (getAt_nid_mem f pe eNode hge)
                      rw [heNid] at this
                      omega
                    have heb2 : r.eO ≤ eNode.domLen := by
                      rw [← containerLen_at f pe eNode hpene hge]
                      exact heb
                    obtain ⟨X3, hf3s, hsh3, hsub3⟩ := phase3_out fuel IH F2 nid1 r
                      CA (k + 1 + j2) q' lNode eNode frag3 f3 nid3
                      hnd2 hpos2 hgAt2 hgeE heNid heN0 heb2 heq3
                    have hloF2 : laterOnly f F2 ps := laterOnly_trans ps f f1 F2 hlo1 hlo2
                    obtain ⟨s2, hgsF2, _⟩ := laterOnly_getAt ps f F2 sNode hloF2 hgs
                    have hlo3 : laterOnly F2 f3 ps := by
                      rw [hf3s]
                      rw [show setAt F2 (CA ++ [k + 1 + j2]) X3 =
                        modifyChildrenAt F2 CA
                          (fun cs => updIdx cs (k + 1 + j2) (fun _ => X3))
                        from modifyAt_append_one CA (k + 1 + j2) F2 _]
                      rw [hdecS]
                      refine laterOnly_lift CA F2 _ (k :: rest) ?_ ?_
                      · rcases hvalCA with hh | ⟨caN, hcaN, _⟩
                        · exact Or.inl hh
                        · by_cases hcane : CA = []
                          · exact Or.inl hcane
                          · obtain ⟨_, Y2, _, _, _, _, hgF2CA, _⟩ := hcomp caN hcaN hcane
                            exact Or.inr (by rw [hgF2CA]; rfl)
                      · refine laterOnly_updIdx_after (childrenAtPos F2 CA) (k + 1 + j2) k _
                          rest (by omega) ?_
                        have h0 : getAt F2 (CA ++ k :: rest) = some s2 := by
                          rw [← hdecS]; exact hgsF2
                        rw [getAt_append_cons] at h0
                        rw [h0]
                        rfl
                    refine ⟨laterOnly_trans ps f F2 f3 hloF2 hlo3, hsub3.trans hsubF2, ?_,
                      Or.inr ⟨hCA ▸ hsNot, by rw [if_neg hsd], by rw [if_neg hsd]⟩⟩
                    intro hcane
                    rcases hvalCA with hh | ⟨caN, hcaN, _⟩
                    · exact absurd hh hcane
                    · obtain ⟨Y1, Y2, hY1, _, hY2, hshY2, hgF2CA, _⟩ := hcomp caN hcaN hcane
                      have hf3comp : f3 = setAt f CA
                          (Y2.withChildList
                            (updIdx Y2.childList (k + 1 + j2) (fun _ => X3))) := by
                        rw [hf3s]
                        rw [show setAt F2 (CA ++ [k + 1 + j2]) X3 =
                          modifyChildrenAt F2 CA
                            (fun cs => updIdx cs (k + 1 + j2) (fun _ => X3))
                          from modifyAt_append_one CA (k + 1 + j2) F2 _]
                        rw [modifyChildrenAt_as_setAt CA F2 Y2 _ hcane hgF2CA]
                        rw [hY2, setAt_setAt]
                      exact ⟨_, caN, hcaN, hf3comp,
                        by rw [shellOf_withChildList]; exact hshY2⟩

end HLN
namespace HLN

/-! ### Insertion-side bookkeeping -/

theorem modifyChildrenAt_eq_modifyAt : ∀ (q : List Nat) (i : Nat) (f : Forest)
    (φ : Forest → Forest),
    modifyChildrenAt f (i :: q) φ =
      modifyAt f (i :: q) (fun n => n.withChildList (φ n.childList))
  | [], _, _, _ => rfl
  | j :: q', i, f, φ => by
    show updIdx f i _ = updIdx f i _
    congr 1
    funext n
    rw [modifyChildrenAt_eq_modifyAt q' j n.childList φ]

theorem getElem?_append_len' : ∀ (a : List α) (x : α) (b : List α),
    (a ++ x :: b)[a.length]? = some x
  | [], _, _ => by simp
  | y :: a, x, b => by
    simp only [List.cons_append, List.length_cons, List.getElem?_cons_succ]
    exact getElem?_append_len' a x b

theorem idsF_modifyChildrenAt_split (φ : Forest → Forest) (q : List Nat) (f : Forest)
    (hv : q = [] ∨ ∃ m, getAt f q = some m ∧ m.isElem = true) :
    ∃ A B, idsF f = A ++ idsF (childrenAtPos f q) ++ B ∧
      idsF (modifyChildrenAt f q φ) = A ++ idsF (φ (childrenAtPos f q)) ++ B := by
  rcases hv with rfl | ⟨m, hm, hel⟩
  · exact ⟨[], [], by simp [childrenAtPos], by simp [childrenAtPos, modifyChildrenAt]⟩
  · cases q with
    | nil => cases hm
    | cons i q' =>
      rw [modifyChildrenAt_eq_modifyAt]
      obtain ⟨A, B, h1, h2⟩ :=
        idsF_modifyAt_split (fun n => n.withChildList (φ n.childList)) (i :: q') f m hm
      cases m with
      | text a d => simp [DNode.isElem] at hel
      | comment a d => simp [DNode.isElem] at hel
      | elem a t c b d cs =>
        have hcp : childrenAtPos f (i :: q') = cs :=
          childrenAtPos_of_getAt f (i :: q') _ (by simp) hm
        refine ⟨A ++ [a], B, ?_, ?_⟩
        · rw [h1, hcp]
          simp [idsN, List.append_assoc]
        · rw [h2, hcp]
          simp [idsN, DNode.withChildList, DNode.childList, List.append_assoc]

theorem nodup_insert_block (A T W D B : List Nat)
    (hnd : (A ++ (T ++ D) ++ B).Nodup) (hW : W.Nodup)
    (hdisj : ∀ j ∈ W, j ∉ A ++ (T ++ D) ++ B) :
    (A ++ (T ++ (W ++ D)) ++ B).Nodup := by
  have hperm : (W ++ (A ++ (T ++ D) ++ B)).Perm (A ++ (T ++ (W ++ D)) ++ B) := by
    rw [List.perm_iff_count]
    intro a
    simp only [List.count_append]
    omega
  refine hperm.nodup ?_
  rw [List.nodup_append]
  exact ⟨hW, hnd, List.disjoint_left.mpr hdisj⟩

theorem phase1_nid_mono {recurse : Forest → Nat → BRange → Option ExtractRes}
    (hrec : ∀ f n r er, recurse f n r = some er → n ≤ er.nid)
    (f : Forest) (nid : Nat) (r : BRange) (ca : List Nat) (fi : Option Nat)
    (frag1 f1 : Forest) (nid1 : Nat)
    (h : extractPhase1 recurse f nid r ca fi = some (frag1, f1, nid1)) :
    nid ≤ nid1 := by
  cases fi with
  | none =>
    simp only [extractPhase1] at h
    cases h
    exact Nat.le_refl _
  | some k =>
    simp only [extractPhase1] at h
    split at h
    · cases h; exact Nat.le_refl _
    · split at h
      · cases h; exact Nat.le_succ _
      · split at h
        · cases h
        · cases h
          exact Nat.le_trans (Nat.le_succ _) (hrec _ _ _ _ (by assumption))

theorem phase3_nid_mono {recurse : Forest → Nat → BRange → Option ExtractRes}
    (hrec : ∀ f n r er, recurse f n r = some er → n ≤ er.nid)
    (f2 : Forest) (nid1 : Nat) (r : BRange) (li : Option Nat)
    (frag3 f3 : Forest) (nid3 : Nat)
    (h : extractPhase3 recurse f2 nid1 r li = some (frag3, f3, nid3)) :
    nid1 ≤ nid3 := by
  cases li with
  | none =>
    simp only [extractPhase3] at h
    cases h
    exact Nat.le_refl _
  | some lId =>
    simp only [extractPhase3] at h
    split at h
    · cases h; exact Nat.le_refl _
    · split at h
      · cases h; exact Nat.le_refl _
      · split at h
        · cases h; exact Nat.le_succ _
        · split at h
          · cases h
          · cases h
            exact Nat.le_trans (Nat.le_succ _) (hrec _ _ _ _ (by assumption))

theorem extract_nid_mono : ∀ (fuel : Nat) (f : Forest) (nid : Nat) (r : BRange)
    (er : ExtractRes), extractFuel fuel f nid r = some er → nid ≤ er.nid := by
  intro fuel
  induction fuel with
  | zero => intro f nid r er h; cases h
  | succ fuel ih =>
    intro f nid r er h
    simp only [extractFuel] at h
    split at h
    · cases h; exact Nat.le_refl _
    · split at h
      case _ ps pe _ _ =>
        split at h
        · cases h; exact Nat.le_succ _
        · split at h
          · cases h
          case _ frag1 f1 nid1 heq1 =>
            split at h
            · cases h
            case _ frag3 f3 nid3 heq3 =>
              cases h
              exact Nat.le_trans (phase1_nid_mono ih f nid r _ _ _ _ _ heq1)
                (phase3_nid_mono ih _ nid1 r _ _ _ _ heq3)
      · cases h; exact Nat.le_refl _

end HLN

namespace HLN

theorem dropLast_concat2 (l : List α) (a : α) : (l ++ [a]).dropLast = l := by simp

theorem getLast?_concat2 (l : List α) (a : α) : (l ++ [a]).getLast? = some a := by simp

/-- `insertNode` at a point related to the path `p` (the point is the node at
`p` itself, or a parent-and-offset just past the child chain at `p`) keeps
everything at or left of `p` in place, and the inserted node lands strictly
after `p` in document order (inside `p`'s subtree or at a later sibling
slot). -/
theorem insertPoint_later (g : Forest) (nid pN pO : Nat) (w : DNode) (f2 : Forest) (nid2 : Nat)
    (p : List Nat)
    (hok : insertPoint g nid pN pO w = Except.ok (f2, nid2))
    (hval : p = [] ∨ (getAt g p).isSome = true)
    (hrel :
      (pN ≠ 0 ∧ findPathF g pN = some p) ∨
      (pN = 0 ∧ ∃ k rest, p = k :: rest ∧ pO = k + 1) ∨
      (pN ≠ 0 ∧ ∃ q k rest, findPathF g pN = some q ∧ p = q ++ k :: rest ∧ pO = k + 1) ∨
      (pN = 0 ∧ p = [])) :
    laterOnly g f2 p ∧
    ∃ wq, getAt f2 wq = some w ∧
      ((∃ t, wq = p ++ t ∧ t ≠ []) ∨
       (∃ q0 j k rest, wq = q0 ++ [j] ∧ p = q0 ++ k :: rest ∧ k < j)) := by
  unfold insertPoint at hok
  by_cases h1 : pN = w.nid
  · rw [if_pos h1] at hok; cases hok
  rw [if_neg h1] at hok
  by_cases h2 : pN = 0
  · rw [if_pos h2] at hok
    rcases hrel with ⟨hne, -⟩ | ⟨-, k, rest, hp, hpO⟩ | ⟨hne, -⟩ | ⟨-, hp⟩
    · exact absurd h2 hne
    · subst hp hpO
      have hv : (getAt g (k :: rest)).isSome = true := by
        rcases hval with h | h
        · cases h
        · exact h
      have hkl : k < g.length := by
        rw [getAt_cons_bind] at hv
        cases hck : g[k]? with
        | none => rw [hck] at hv; simp at hv
        | some n => exact getElem?_some_lt hck
      split at hok
      · split at hok
        · cases hok
        · injection hok with hpair
          injection hpair with hf hn
          subst hf
          refine ⟨laterOnly_insert_after g [w] (k + 1) k rest (Nat.lt_succ_self k) hv,
            [(g.take (k + 1)).length], ?_,
            Or.inr ⟨[], (g.take (k + 1)).length, k, rest, rfl, rfl,
              by rw [List.length_take]; omega⟩⟩
          rw [getAt_one, List.append_assoc, List.singleton_append]
          exact getElem?_append_len' _ _ _
      · cases hok
    · exact absurd h2 hne
    · subst hp
      split at hok
      · split at hok
        · cases hok
        · injection hok with hpair
          injection hpair with hf hn
          subst hf
          refine ⟨trivial, [(g.take pO).length], ?_,
            Or.inl ⟨[(g.take pO).length], rfl, by simp⟩⟩
          rw [getAt_one, List.append_assoc, List.singleton_append]
          exact getElem?_append_len' _ _ _
      · cases hok
  · rw [if_neg h2] at hok
    rcases hrel with ⟨-, hfind⟩ | ⟨hz, -⟩ | ⟨-, q, k, rest, hfind, hp, hpO⟩ | ⟨hz, -⟩
    · -- the point is (node at p, offset pO)
      simp only [hfind] at hok
      obtain ⟨m, hgp, hmid⟩ := findPathF_some g pN p hfind
      have hpne : p ≠ [] := by
        intro hh
        subst hh
        cases hgp
      rw [hgp] at hok
      cases m with
      | comment a d => cases hok
      | elem a t cc bb dd cs =>
        injection hok with hpair
        injection hpair with hf hn
        subst hf
        refine ⟨laterOnly_inside p p g _ (isPref_refl p) (Or.inr (by rw [hgp]; rfl)),
          p ++ [((childrenAtPos g p).take pO).length], ?_,
          Or.inl ⟨[((childrenAtPos g p).take pO).length], rfl, by simp⟩⟩
        rw [getAt_append_one,
          childrenAt_modifyChildren_self p g _ (Or.inr ⟨_, hgp, rfl⟩)]
        simp only [List.append_assoc, List.singleton_append]
        exact getElem?_append_len' _ _ _
      | text a d =>
        rcases list_concat_cases p with hp0 | ⟨q0, last, hdec⟩
        · exact absurd hp0 hpne
        subst hdec
        simp only [dropLast_concat2, getLast?_concat2, Option.getD_some] at hok
        split at hok
        next hq0 =>
          subst hq0
          simp only [List.nil_append] at hok hgp ⊢
          split at hok
          next hcond =>
            injection hok with hpair
            injection hpair with hf hn
            subst hf
            have hf1get : getAt (modifyAt g [last] (fun n => setCharData n (strTake d pO)))
                [last] = some (setCharData (.text a d) (strTake d pO)) :=
              getAt_modifyAt_self [last] g _ _ hgp
            have hlast_lt : last < g.length := getElem?_some_lt (by rw [← getAt_one]; exact hgp)
            have hlen1 : (modifyAt g [last] (fun n => setCharData n (strTake d pO))).length
                = g.length := length_updIdx g last _
            have hlo1 : laterOnly g
                (modifyAt g [last] (fun n => setCharData n (strTake d pO))) [last] := by
              rw [modifyAt_as_setAt [last] g (.text a d) _ hgp]
              exact laterOnly_setAt_end g [last] (.text a d) _ hgp (setCharData_shell _ _)
            have hlo2 := laterOnly_insert_after
              (modifyAt g [last] (fun n => setCharData n (strTake d pO)))
              [w, .text nid (strDrop d pO)] (last + 1) last []
              (Nat.lt_succ_self last) (by rw [show getAt (modifyAt g [last] (fun n => setCharData n (strTake d pO))) [last] = some (setCharData (.text a d) (strTake d pO)) from hf1get]; rfl)
            refine ⟨laterOnly_trans [last] _ _ _ hlo1 hlo2, [last + 1], ?_,
              Or.inr ⟨[], last + 1, last, [], rfl, rfl, Nat.lt_succ_self last⟩⟩
            have h5 : ((modifyAt g [last]
                (fun n => setCharData n (strTake d pO))).take (last + 1)).length
                = last + 1 := by
              rw [List.length_take]
              omega
            have h6 := getElem?_append_len'
              ((modifyAt g [last] (fun n => setCharData n (strTake d pO))).take (last + 1)) w
              (DNode.text nid (strDrop d pO) ::
                (modifyAt g [last] (fun n => setCharData n (strTake d pO))).drop (last + 1))
            rw [h5] at h6
            rw [getAt_one]
            simp only [List.append_assoc, List.cons_append, List.nil_append]
            exact h6
          next hcond => cases hok
        next hq0 =>
          injection hok with hpair
          injection hpair with hf hn
          subst hf
          obtain ⟨par, hpar⟩ := getAt_pref_some g q0 last [] _ hq0 hgp
          have hparel : par.isElem = true :=
            elem_of_child g q0 par last (.text a d) hq0 hpar
              (by rw [← getAt_append_one]; exact hgp)
          have hf1eq : modifyAt g (q0 ++ [last]) (fun n => setCharData n (strTake d pO))
              = modifyChildrenAt g q0
                (fun cs => updIdx cs last (fun n => setCharData n (strTake d pO))) :=
            modifyAt_append_one q0 last g _
          have hcs0k : (childrenAtPos g q0)[last]? = some (.text a d) := by
            rw [← getAt_append_one]
            exact hgp
          have hcf1 : childrenAtPos
              (modifyAt g (q0 ++ [last]) (fun n => setCharData n (strTake d pO))) q0
              = updIdx (childrenAtPos g q0) last (fun n => setCharData n (strTake d pO)) := by
            rw [hf1eq]
            exact childrenAt_modifyChildren_self q0 g _ (Or.inr ⟨par, hpar, hparel⟩)
          have hlo1 : laterOnly g
              (modifyAt g (q0 ++ [last]) (fun n => setCharData n (strTake d pO)))
              (q0 ++ [last]) := by
            rw [modifyAt_as_setAt (q0 ++ [last]) g (.text a d) _ hgp]
            exact laterOnly_setAt_end g (q0 ++ [last]) (.text a d) _ hgp (setCharData_shell _ _)
          obtain ⟨par1, hpar1, hshpar⟩ := laterOnly_getAt q0 g _ par
            (laterOnly_pref q0 [last] g _ hlo1) hpar
          have hcs1k : (updIdx (childrenAtPos g q0) last
              (fun n => setCharData n (strTake d pO)))[last]?
              = some (setCharData (.text a d) (strTake d pO)) := by
            rw [updIdx_get_eq, hcs0k]
            rfl
          have hlast_lt : last < (updIdx (childrenAtPos g q0) last
              (fun n => setCharData n (strTake d pO))).length := getElem?_some_lt hcs1k
          have hlo2 : laterOnly
              (modifyAt g (q0 ++ [last]) (fun n => setCharData n (strTake d pO)))
              (modifyChildrenAt
                (modifyAt g (q0 ++ [last]) (fun n => setCharData n (strTake d pO))) q0
                (fun cs => cs.take (last + 1) ++
                  [w, .text nid (strDrop d pO)] ++ cs.drop (last + 1)))
              (q0 ++ [last]) := by
            refine laterOnly_lift q0 _ _ [last] (Or.inr (by rw [hpar1]; rfl)) ?_
            rw [hcf1]
            exact laterOnly_insert_after _ [w, .text nid (strDrop d pO)] (last + 1) last []
              (Nat.lt_succ_self last) (by rw [getAt_one, hcs1k]; rfl)
          refine ⟨laterOnly_trans (q0 ++ [last]) _ _ _ hlo1 hlo2, q0 ++ [last + 1], ?_,
            Or.inr ⟨q0, last + 1, last, [], rfl, rfl, Nat.lt_succ_self last⟩⟩
          rw [getAt_append_one,
            childrenAt_modifyChildren_self q0 _ _
              (Or.inr ⟨par1, hpar1, by rw [shell_isElem par par1 hshpar] at hparel; exact hparel⟩),
            hcf1]
          have h5 : ((updIdx (childrenAtPos g q0) last
              (fun n => setCharData n (strTake d pO))).take (last + 1)).length = last + 1 := by
            rw [List.length_take]
            omega
          have h6 := getElem?_append_len'
            ((updIdx (childrenAtPos g q0) last
              (fun n => setCharData n (strTake d pO))).take (last + 1)) w
            (DNode.text nid (strDrop d pO) ::
              (updIdx (childrenAtPos g q0) last
                (fun n => setCharData n (strTake d pO))).drop (last + 1))
          rw [h5] at h6
          simp only [List.append_assoc, List.cons_append, List.nil_append]
          exact h6
    · exact absurd hz h2
    · -- the point is (parent at q, offset k + 1) with p = q ++ k :: rest
      subst hp hpO
      simp only [hfind] at hok
      obtain ⟨mq, hgq, hmqid⟩ := findPathF_some g pN q hfind
      have hqne : q ≠ [] := by
        intro hh
        subst hh
        cases hgq
      have hv : (getAt g (q ++ k :: rest)).isSome = true := by
        rcases hval with h | h
        · cases q <;> simp at h
        · exact h
      rw [hgq] at hok
      cases mq with
      | comment a d => cases hok
      | text a d =>
        rw [getAt_append_cons, childrenAtPos_of_getAt g q _ hqne hgq] at hv
        rw [show (DNode.text a d).childList = ([] : Forest) from rfl, getAt_nil_forest] at hv
        cases hv
      | elem a t cc bb dd cs =>
        injection hok with hpair
        injection hpair with hf hn
        subst hf
        have hvk : (getAt (childrenAtPos g q) (k :: rest)).isSome = true := by
          rw [← getAt_append_cons]
          exact hv
        have hklt : k < (childrenAtPos g q).length := by
          rw [getAt_cons_bind] at hvk
          cases hck : (childrenAtPos g q)[k]? with
          | none => rw [hck] at hvk; simp at hvk
          | some n => exact getElem?_some_lt hck
        refine ⟨?_, q ++ [((childrenAtPos g q).take (k + 1)).length], ?_,
          Or.inr ⟨q, ((childrenAtPos g q).take (k + 1)).length, k, rest, rfl, rfl,
            by rw [List.length_take]; omega⟩⟩
        · refine laterOnly_lift q g _ (k :: rest) (Or.inr (by rw [hgq]; rfl)) ?_
          exact laterOnly_insert_after _ [w] (k + 1) k rest (Nat.lt_succ_self k) hvk
        · rw [getAt_append_one,
            childrenAt_modifyChildren_self q g _ (Or.inr ⟨_, hgq, rfl⟩)]
          simp only [List.append_assoc, List.singleton_append]
          exact getElem?_append_len' _ _ _
    · exact absurd hz h2

end HLN

namespace HLN

theorem nodup_perm_ins {W G l : List Nat}
    (hcnt : ∀ a, l.count a = (W ++ G).count a)
    (hndG : G.Nodup) (hW : W.Nodup) (hdisjWG : ∀ j ∈ W, j ∉ G) :
    l.Nodup := by
  have hperm : l.Perm (W ++ G) := List.perm_iff_count.mpr hcnt
  refine hperm.symm.nodup ?_
  rw [List.nodup_append]
  exact ⟨hW, hndG, List.disjoint_left.mpr hdisjWG⟩

/-- Inserting a fresh node (with fresh split-text id supply) keeps the
document's id list duplicate-free. -/
theorem insertPoint_ids (g : Forest) (nid pN pO : Nat) (w : DNode) (f2 : Forest) (nid2 : Nat)
    (hok : insertPoint g nid pN pO w = Except.ok (f2, nid2))
    (hnd : (idsF g).Nodup) (hwnd : (idsN w).Nodup)
    (hdisj : ∀ j ∈ idsN w, j ∉ idsF g)
    (hfresh : nid ∉ idsF g) (hfreshw : nid ∉ idsN w) :
    (idsF f2).Nodup := by
  have hWnd : (idsN w ++ [nid]).Nodup := by
    rw [List.nodup_append]
    refine ⟨hwnd, List.nodup_singleton nid, List.disjoint_left.mpr ?_⟩
    intro j hj hcon
    simp only [List.mem_singleton] at hcon
    subst hcon
    exact hfreshw hj
  have hWdisj : ∀ j ∈ idsN w ++ [nid], j ∉ idsF g := by
    intro j hj
    rcases List.mem_append.mp hj with h | h
    · exact hdisj j h
    · simp only [List.mem_singleton] at h
      subst h
      exact hfresh
  unfold insertPoint at hok
  by_cases h1 : pN = w.nid
  · rw [if_pos h1] at hok; cases hok
  rw [if_neg h1] at hok
  by_cases h2 : pN = 0
  · rw [if_pos h2] at hok
    split at hok
    · split at hok
      · cases hok
      · injection hok with hpair
        injection hpair with hf hn
        subst hf
        have e2 := idsF_append (g.take pO) (g.drop pO)
        rw [List.take_append_drop] at e2
        refine nodup_perm_ins (W := idsN w) (G := idsF g) ?_ hnd hwnd hdisj
        intro x
        rw [idsF_append, idsF_append, e2]
        simp only [List.count_append, idsF, List.count_nil]
        omega
    · cases hok
  · rw [if_neg h2] at hok
    cases hfp : findPathF g pN with
    | none => rw [hfp] at hok; cases hok
    | some pc =>
      simp only [hfp] at hok
      cases hgp : getAt g pc with
      | none => rw [hgp] at hok; cases hok
      | some m =>
        rw [hgp] at hok
        cases m with
        | comment a d => cases hok
        | elem a t cc bb dd cs =>
          injection hok with hpair
          injection hpair with hf hn
          subst hf
          obtain ⟨A, B, hA1, hA2⟩ := idsF_modifyChildrenAt_split
            (fun cs2 => cs2.take pO ++ [w] ++ cs2.drop pO) pc g (Or.inr ⟨_, hgp, rfl⟩)
          have e2 := idsF_append ((childrenAtPos g pc).take pO) ((childrenAtPos g pc).drop pO)
          rw [List.take_append_drop] at e2
          refine nodup_perm_ins (W := idsN w) (G := idsF g) ?_ hnd hwnd hdisj
          intro x
          rw [hA1, hA2]
          simp only [e2, idsF_append, idsF, List.count_append, List.count_nil]
          omega
        | text a d =>
          have hpcne : pc ≠ [] := by
            intro hh
            subst hh
            cases hgp
          rcases list_concat_cases pc with hp0 | ⟨q0, last, hdec⟩
          · exact absurd hp0 hpcne
          subst hdec
          simp only [dropLast_concat2, getLast?_concat2, Option.getD_some] at hok
          split at hok
          next hq0 =>
            subst hq0
            simp only [List.nil_append] at hok hgp
            split at hok
            next hcond =>
              injection hok with hpair
              injection hpair with hf hn
              subst hf
              have hids1 : idsF (modifyAt g [last] (fun n => setCharData n (strTake d pO)))
                  = idsF g :=
                idsF_modifyAt_data_eq _ (fun n => idsN_setCharData n _) [last] g _ hgp
              have e2 := idsF_append
                ((modifyAt g [last] (fun n => setCharData n (strTake d pO))).take (last + 1))
                ((modifyAt g [last] (fun n => setCharData n (strTake d pO))).drop (last + 1))
              rw [List.take_append_drop] at e2
              have e3 : idsF g = idsF
                  ((modifyAt g [last] (fun n => setCharData n (strTake d pO))).take (last + 1))
                ++ idsF
                  ((modifyAt g [last] (fun n => setCharData n (strTake d pO))).drop (last + 1)) := by
                rw [← hids1]
                exact e2
              refine nodup_perm_ins (W := idsN w ++ [nid]) (G := idsF g) ?_ hnd hWnd hWdisj
              intro x
              rw [idsF_append, idsF_append]
              simp only [e3, idsF_append, idsF, idsN, List.count_append, List.count_nil]
              omega
            next hcond => cases hok
          next hq0 =>
            injection hok with hpair
            injection hpair with hf hn
            subst hf
            obtain ⟨par, hpar⟩ := getAt_pref_some g q0 last [] _ hq0 hgp
            have hparel : par.isElem = true :=
              elem_of_child g q0 par last (.text a d) hq0 hpar
                (by rw [← getAt_append_one]; exact hgp)
            have hf1eq : modifyAt g (q0 ++ [last]) (fun n => setCharData n (strTake d pO))
                = modifyChildrenAt g q0
                  (fun cs => updIdx cs last (fun n => setCharData n (strTake d pO))) :=
              modifyAt_append_one q0 last g _
            have hf1set : modifyChildrenAt g q0
                  (fun cs => updIdx cs last (fun n => setCharData n (strTake d pO)))
                = setAt g q0 (par.withChildList
                    (updIdx par.childList last (fun n => setCharData n (strTake d pO)))) := by
              rw [modifyChildrenAt_as_setAt q0 g par _ hq0 hpar]
            have hXget : getAt (modifyAt g (q0 ++ [last])
                  (fun n => setCharData n (strTake d pO))) q0
                = some (par.withChildList
                    (updIdx par.childList last (fun n => setCharData n (strTake d pO)))) := by
              rw [hf1eq, hf1set]
              exact getAt_modifyAt_self q0 g par _ hpar
            have hXel : (par.withChildList
                (updIdx par.childList last (fun n => setCharData n (strTake d pO)))).isElem
                  = true := by
              rw [isElem_withChildList]
              exact hparel
            obtain ⟨A, B, hA1, hA2⟩ := idsF_modifyChildrenAt_split
              (fun cs => cs.take (last + 1) ++
                [w, .text nid (strDrop d pO)] ++ cs.drop (last + 1))
              q0 (modifyAt g (q0 ++ [last]) (fun n => setCharData n (strTake d pO)))
              (Or.inr ⟨_, hXget, hXel⟩)
            have hids1 : idsF (modifyAt g (q0 ++ [last])
                (fun n => setCharData n (strTake d pO))) = idsF g :=
              idsF_modifyAt_data_eq _ (fun n => idsN_setCharData n _) (q0 ++ [last]) g _ hgp
            have e2 := idsF_append
              ((childrenAtPos (modifyAt g (q0 ++ [last])
                (fun n => setCharData n (strTake d pO))) q0).take (last + 1))
              ((childrenAtPos (modifyAt g (q0 ++ [last])
                (fun n => setCharData n (strTake d pO))) q0).drop (last + 1))
            rw [List.take_append_drop] at e2
            have e3 : idsF g = A ++ idsF (childrenAtPos (modifyAt g (q0 ++ [last])
                (fun n => setCharData n (strTake d pO))) q0) ++ B := by
              rw [← hids1]
              exact hA1
            refine nodup_perm_ins (W := idsN w ++ [nid]) (G := idsF g) ?_ hnd hWnd hWdisj
            intro x
            rw [hA2]
            simp only [e3, e2, idsF_append, idsF, idsN, List.count_append, List.count_nil]
            omega

end HLN

namespace HLN

/-- The repositioned point returned by the extraction, expressed in the form
the insertion lemma consumes: it is the original start container (when that
container kept the boundary), or the common ancestor with the offset one past
the start child chain. -/
theorem extract_point_rel (f : Forest) (r : BRange) (ps pe : List Nat) (er : ExtractRes)
    (hh : extractHyps f r ps pe) (hconc : extractConc f r ps pe er) :
    (ps = [] ∨ (getAt er.roots ps).isSome = true) ∧
    ((er.rN ≠ 0 ∧ findPathF er.roots er.rN = some ps) ∨
     (er.rN = 0 ∧ ∃ k rest, ps = k :: rest ∧ er.rO = k + 1) ∨
     (er.rN ≠ 0 ∧ ∃ q k rest, findPathF er.roots er.rN = some q ∧
       ps = q ++ k :: rest ∧ er.rO = k + 1) ∨
     (er.rN = 0 ∧ ps = [])) := by
  obtain ⟨hnd, hpos, hps, hpe, hord, hsb, heb⟩ := hh
  obtain ⟨hlo, hsub, hca, hpoint⟩ := hconc
  have hval : ps = [] ∨ (getAt er.roots ps).isSome = true := by
    rcases pathOfC_cases f r.sN ps hps with ⟨h0, rfl⟩ | ⟨hne0, m, hgm, hmid⟩
    · exact Or.inl rfl
    · obtain ⟨m', hm', -⟩ := laterOnly_getAt ps f er.roots m hlo hgm
      exact Or.inr (by rw [hm']; rfl)
  refine ⟨hval, ?_⟩
  rcases hpoint with ⟨hrN, hrO⟩ | ⟨hnep, hrN, hrO⟩
  · rcases pathOfC_cases f r.sN ps hps with ⟨h0, rfl⟩ | ⟨hne0, m, hgm, hmid⟩
    · exact Or.inr (Or.inr (Or.inr ⟨by rw [hrN]; exact h0, rfl⟩))
    · refine Or.inl ⟨by rw [hrN]; exact hne0, ?_⟩
      rw [hrN]
      have hfps : findPathF f r.sN = some ps := by
        unfold pathOfC at hps
        rw [if_neg hne0] at hps
        exact hps
      exact findPathF_stable f er.roots r.sN ps hlo hfps
  · have hpref : isPref (commonPrefix ps pe) ps := commonPrefix_pref_left ps pe
    obtain ⟨k, rest, hdec⟩ := isPref_decompose _ ps hpref hnep
    cases hca0 : commonPrefix ps pe with
    | nil =>
      rw [hca0] at hdec hrO
      refine Or.inr (Or.inl ⟨?_, k, rest, ?_, ?_⟩)
      · rw [hrN, hca0]
        rfl
      · rw [hdec]
        rfl
      · rw [hrO, hdec]
        rfl
    | cons c0 ctl =>
      rw [hca0] at hdec hrO hpref
      obtain ⟨X, mca, hgca, hroots, hshX⟩ := hca (by rw [hca0]; simp)
      rw [hca0] at hgca
      have hrO2 : er.rO = k + 1 := by
        rw [hrO]
        have h9 : ps.getD (c0 :: ctl).length 0 = k := by
          rw [hdec]
          exact getD_append_len (c0 :: ctl) k rest
        rw [h9]
      refine Or.inr (Or.inr (Or.inl ⟨?_, c0 :: ctl, k, rest, ?_, hdec, hrO2⟩))
      · rw [hrN, hca0, idAtPos_at f _ mca (by simp) hgca]
        have := hpos mca.nid (getAt_nid_mem f _ mca hgca)
        omega
      · rw [hrN, hca0, idAtPos_at f _ mca (by simp) hgca]
        have hfca : findPathF f mca.nid = some (c0 :: ctl) :=
          findPathF_of_getAt f _ mca hnd hgca
        refine findPathF_stable f er.roots mca.nid _ ?_ hfca
        exact laterOnly_pref (c0 :: ctl) (k :: rest) f er.roots (by rw [← hdec]; exact hlo)

/-- How `surroundContents` fails: either before any mutation (invalid paths,
partial containment, extraction failure), or at the insertion step, after the
extraction already ran. -/
theorem surround_fail_cases (f : Forest) (nid : Nat) (r : BRange) (w : DNode) :
    (surroundSteps f nid r w).ok = true ∨
    surroundSteps f nid r w = ⟨false, f, nid, r⟩ ∨
    (∃ er, extractTop f nid r = some er ∧
      insertPoint er.roots er.nid er.rN er.rO w = Except.error () ∧
      surroundSteps f nid r w = ⟨false, er.roots, er.nid, ⟨er.rN, er.rO, er.rN, er.rO⟩⟩) := by
  unfold surroundSteps
  split
  case _ ps pe =>
    split
    · exact Or.inr (Or.inl rfl)
    · split
      · exact Or.inr (Or.inl rfl)
      case _ er hext =>
        split
        case _ e he =>
          cases e
          exact Or.inr (Or.inr ⟨er, hext, he, rfl⟩)
        case _ p2 hi => exact Or.inl rfl
  · exact Or.inr (Or.inl rfl)

/-- A successful `surroundContents` never disturbs the start container's
position: everything at or left of the start path keeps its place and its
node identity (shell), so the path — and hence the XPath — of the start
container is unchanged. -/
theorem surround_later (f : Forest) (nid0 : Nat) (r : BRange) (w : DNode) (ps pe : List Nat)
    (hh : extractHyps f r ps pe)
    (hwnd : (idsN w).Nodup) (hwdisj : ∀ j ∈ idsN w, j ∉ idsF f)
    (hlt : ∀ j ∈ idsF f, j < nid0) (hwlt : ∀ j ∈ idsN w, j < nid0)
    (hok : (surroundSteps f nid0 r w).ok = true) :
    laterOnly f (surroundSteps f nid0 r w).roots ps := by
  rcases heq : surroundSteps f nid0 r w with ⟨ok1, roots1, nid1, rng1⟩
  rw [heq] at hok
  simp only at hok ⊢
  subst hok
  obtain ⟨hnd, hpos, hps, hpe, hord, hsb, heb⟩ := hh
  unfold surroundSteps at heq
  rw [hps, hpe] at heq
  simp only at heq
  split at heq
  · cases heq
  · split at heq
    · cases heq
    case _ er hext =>
      have hconc : extractConc f r ps pe er :=
        extract_struct (2 * sizeF f + 2) f nid0 r er ps pe
          ⟨hnd, hpos, hps, hpe, hord, hsb, heb⟩ hext
      obtain ⟨hval, hrel⟩ := extract_point_rel f r ps pe er
        ⟨hnd, hpos, hps, hpe, hord, hsb, heb⟩ hconc
      obtain ⟨hlo1, hsub, hca, hpoint⟩ := hconc
      split at heq
      · cases heq
      case _ f2' nid2' hins =>
        obtain ⟨hloI, wq, hwq, hwrel⟩ :=
          insertPoint_later er.roots er.nid er.rN er.rO w f2' nid2' ps hins hval hrel
        have hnd2 : (idsF f2').Nodup := by
          refine insertPoint_ids er.roots er.nid er.rN er.rO w f2' nid2' hins
            (hsub.nodup hnd) hwnd (fun j hj hcon => hwdisj j hj (hsub.mem hcon)) ?_ ?_
          · intro hcon
            have h8 := hlt er.nid (hsub.mem hcon)
            have h9 := extract_nid_mono (2 * sizeF f + 2) f nid0 r er hext
            omega
          · intro hcon
            have h8 := hwlt er.nid hcon
            have h9 := extract_nid_mono (2 * sizeF f + 2) f nid0 r er hext
            omega
        have hfw : findPathF f2' w.nid = some wq :=
          findPathF_of_getAt f2' wq w hnd2 hwq
        rw [hfw] at heq
        simp only at heq
        injection heq with he1 he2 he3 he4
        subst he2
        have hvps : ps = [] ∨ (getAt f2' ps).isSome = true := by
          rcases hval with h | h
          · exact Or.inl h
          · cases hg2 : getAt er.roots ps with
            | none => rw [hg2] at h; cases h
            | some m2 =>
              obtain ⟨m3, hm3, -⟩ := laterOnly_getAt ps er.roots f2' m2 hloI hg2
              exact Or.inr (by rw [hm3]; rfl)
        have hlo3 : laterOnly f2'
            (modifyAt f2' wq (fun n => n.withChildList er.frag)) ps := by
          rcases hwrel with ⟨t, hwq2, htne⟩ | ⟨q0, j, k2, rest2, hwq2, hps2, hkj⟩
          · cases t with
            | nil => exact absurd rfl htne
            | cons t0 t1 =>
              rw [hwq2, modifyAt_append_cons]
              exact laterOnly_inside ps ps f2' _ (isPref_refl ps) hvps
          · rw [hwq2, modifyAt_append_one]
            have hvk : (getAt (childrenAtPos f2' q0) (k2 :: rest2)).isSome = true := by
              rcases hvps with h | h
              · rw [hps2] at h
                cases q0 <;> simp at h
              · rw [hps2, getAt_append_cons] at h
                exact h
            have hvq0 : q0 = [] ∨ (getAt f2' q0).isSome = true := by
              cases hq00 : q0 with
              | nil => exact Or.inl rfl
              | cons a b =>
                rcases hvps with h | h
                · rw [hps2, hq00] at h
                  simp at h
                · rw [hps2] at h
                  cases hgg : getAt f2' ps with
                  | some mm =>
                    rw [hps2] at hgg
                    obtain ⟨mq, hmq⟩ := getAt_pref_some f2' q0 k2 rest2 mm
                      (by rw [hq00]; simp) hgg
                    rw [hq00] at hmq
                    exact Or.inr (by rw [hmq]; rfl)
                  | none =>
                    rw [hps2] at hgg
                    rw [hgg] at h
                    cases h
            rw [hps2]
            refine laterOnly_lift q0 f2' _ (k2 :: rest2) hvq0 ?_
            exact laterOnly_updIdx_after _ j k2 _ rest2 hkj hvk
        exact laterOnly_trans ps f er.roots _ hlo1
          (laterOnly_trans ps er.roots f2' _ hloI hlo3)
/-- C2: for every non-collapsed range highlighted successfully, the returned
`HighlightRecord` contains the selection's plain text, the chosen color, the
start offset captured before any mutation, the captured text's character
length, the timestamp, and a structural path (`xpath`) equal to the
Addressor's address of the range's start node as positioned in the document
before the wrap mutated it. -/
theorem C2_record_fields (st : HState) (r : BRange) (color : String) (now : Nat)
    (rec : StoredHighlight)
    (hWF : WF st) (hvr : validRangeB st.roots r = true)
    (hrec : (highlightRange st r color now).1 = some rec) :
    rec.text = rangeToString st.roots r ∧
    rec.color = color ∧
    rec.xpath = getXPath st.roots r.sN ∧
    rec.offset = r.sO ∧
    rec.length = (rangeToString st.roots r).length ∧
    rec.timestamp = now := by
  obtain ⟨hnd, hbnd, hnotext⟩ := hWF
  unfold validRangeB at hvr
  cases hps0 : pathOfC st.roots r.sN with
  | none => rw [hps0] at hvr; cases hvr
  | some ps =>
  cases hpe0 : pathOfC st.roots r.eN with
  | none => rw [hps0, hpe0] at hvr; cases hvr
  | some pe =>
  rw [hps0, hpe0] at hvr
  simp only [Bool.and_eq_true, decide_eq_true_eq] at hvr
  obtain ⟨⟨hsb, heb⟩, hord⟩ := hvr
  have hh : extractHyps st.roots r ps pe :=
    ⟨hnd, fun i hi => (hbnd i hi).1, hps0, hpe0, hord, hsb, heb⟩
  have hwnd : (idsN (mkWrapper st.nextId st.counter color)).Nodup := by
    simp [mkWrapper, idsN, idsF]
  have hwdisj : ∀ j ∈ idsN (mkWrapper st.nextId st.counter color), j ∉ idsF st.roots := by
    intro j hj
    simp only [mkWrapper, idsN, idsF, List.append_nil, List.mem_singleton] at hj
    subst hj
    intro hcon
    have := (hbnd _ hcon).2
    omega
  have hlt : ∀ j ∈ idsF st.roots, j < st.nextId + 1 := by
    intro j hj
    have := (hbnd j hj).2
    omega
  have hwlt : ∀ j ∈ idsN (mkWrapper st.nextId st.counter color), j < st.nextId + 1 := by
    intro j hj
    simp only [mkWrapper, idsN, idsF, List.append_nil, List.mem_singleton] at hj
    omega
  have hxp : ∀ F : Forest, laterOnly st.roots F ps → getXPath F r.sN = getXPath st.roots r.sN := by
    intro F hlo
    by_cases hs0 : r.sN = 0
    · simp [getXPath, hs0]
    · have hfps : findPathF st.roots r.sN = some ps := by
        unfold pathOfC at hps0
        rw [if_neg hs0] at hps0
        exact hps0
      exact getXPath_stable st.roots F r.sN ps hlo hfps
  simp only [highlightRange] at hrec
  by_cases hcol : collapsedB r = true
  · rw [if_pos hcol] at hrec
    cases hrec
  rw [if_neg hcol] at hrec
  cases hok : (surroundSteps st.roots (st.nextId + 1) r
      (mkWrapper st.nextId st.counter color)).ok with
  | true =>
    rw [hok, if_pos rfl] at hrec
    injection hrec with hre
    subst hre
    refine ⟨rfl, rfl, ?_, rfl, rfl, rfl⟩
    exact hxp _ (surround_later st.roots (st.nextId + 1) r
      (mkWrapper st.nextId st.counter color) ps pe hh hwnd hwdisj hlt hwlt hok)
  | false =>
    rw [hok, if_neg (by simp)] at hrec
    rcases surround_fail_cases st.roots (st.nextId + 1) r
        (mkWrapper st.nextId st.counter color) with hT | hP | ⟨er, hext, hinsE, hS⟩
    · rw [hok] at hT
      cases hT
    · simp only [hP] at hrec
      cases hext2 : extractFuel (2 * sizeF st.roots + 2) st.roots (st.nextId + 1) r with
      | none => rw [hext2] at hrec; cases hrec
      | some er =>
        simp only [hext2] at hrec
        have hconc := extract_struct (2 * sizeF st.roots + 2) st.roots (st.nextId + 1) r
          er ps pe hh hext2
        obtain ⟨hvalI, hrelI⟩ := extract_point_rel st.roots r ps pe er hh hconc
        cases hins2 : insertPoint er.roots er.nid er.rN er.rO
            ((mkWrapper st.nextId st.counter color).withChildList er.frag) with
        | error e => rw [hins2] at hrec; cases hrec
        | ok fp =>
          rcases fp with ⟨F, nidF⟩
          rw [hins2] at hrec
          injection hrec with hre
          subst hre
          refine ⟨rfl, rfl, ?_, rfl, rfl, rfl⟩
          obtain ⟨hloI2, -⟩ := insertPoint_later er.roots er.nid er.rN er.rO _ F nidF ps
            hins2 hvalI hrelI
          exact hxp F (laterOnly_trans ps _ _ _ hconc.1 hloI2)
    · simp only [hS] at hrec
      have h22 : ∀ (fl : Nat) (f0 : Forest) (n0 : Nat),
          extractFuel (fl + 1) f0 n0 ⟨er.rN, er.rO, er.rN, er.rO⟩
            = some ⟨[], f0, n0, er.rN, er.rO⟩ := by
        intro fl f0 n0
        rw [extractFuel]
        rw [if_pos (by simp [collapsedB])]
      rw [show extractFuel (2 * sizeF er.roots + 2) er.roots er.nid
          ⟨er.rN, er.rO, er.rN, er.rO⟩ = some ⟨[], er.roots, er.nid, er.rN, er.rO⟩ from
          h22 (2 * sizeF er.roots + 1) er.roots er.nid] at hrec
      simp only [show ((mkWrapper st.nextId st.counter color).withChildList ([] : Forest))
          = mkWrapper st.nextId st.counter color from rfl, hinsE] at hrec
      cases hrec

theorem C2_record_fields_witness :
    (StoredHighlight.mk "art of writing" "yellow" "//html[1]/body[1]/text()[1]" 4 14 5).text
        = rangeToString bodyState.roots bodyRange ∧
    (StoredHighlight.mk "art of writing" "yellow" "//html[1]/body[1]/text()[1]" 4 14 5).color
        = "yellow" ∧
    (StoredHighlight.mk "art of writing" "yellow" "//html[1]/body[1]/text()[1]" 4 14 5).xpath
        = getXPath bodyState.roots bodyRange.sN ∧
    (StoredHighlight.mk "art of writing" "yellow" "//html[1]/body[1]/text()[1]" 4 14 5).offset
        = bodyRange.sO ∧
    (StoredHighlight.mk "art of writing" "yellow" "//html[1]/body[1]/text()[1]" 4 14 5).length
        = (rangeToString bodyState.roots bodyRange).length ∧
    (StoredHighlight.mk "art of writing" "yellow" "//html[1]/body[1]/text()[1]" 4 14 5).timestamp
        = 5 :=
  C2_record_fields bodyState bodyRange "yellow" 5
    (StoredHighlight.mk "art of writing" "yellow" "//html[1]/body[1]/text()[1]" 4 14 5)
    (by decide) (by decide) (by decide)

end HLN
namespace HLN

/-! ### String and text-content algebra -/

theorem str_ext {a b : String} (h : a.data = b.data) : a = b := by
  cases a
  cases b
  exact congrArg String.mk h

theorem str_data_append (a b : String) : (a ++ b).data = a.data ++ b.data := rfl

theorem str_append_assoc (a b c : String) : (a ++ b) ++ c = a ++ (b ++ c) := by
  apply str_ext
  simp [str_data_append]

theorem str_append_empty (a : String) : a ++ "" = a := by
  apply str_ext
  simp [str_data_append]

theorem str_empty_append (a : String) : "" ++ a = a := by
  apply str_ext
  simp [str_data_append]

theorem str_cancel_left {a b c : String} (h : a ++ b = a ++ c) : b = c := by
  apply str_ext
  have h2 := congrArg String.data h
  simpa [str_data_append] using h2

theorem str_cancel_right {a b c : String} (h : a ++ c = b ++ c) : a = b := by
  apply str_ext
  have h2 := congrArg String.data h
  simpa [str_data_append] using h2

theorem strTake_append_drop (s : String) (n : Nat) : strTake s n ++ strDrop s n = s := by
  apply str_ext
  simp [strTake, strDrop, str_data_append]

theorem strTake_delSlice (d : String) (a b : Nat) (ha : a ≤ d.data.length) :
    strTake (delSlice d a b) a = strTake d a := by
  apply str_ext
  show ((d.data.take a ++ d.data.drop b)).take a = d.data.take a
  rw [List.take_append_of_le_length (by rw [List.length_take]; omega), List.take_take,
    Nat.min_self]

theorem strDrop_delSlice (d : String) (a b : Nat) (hab : a ≤ b) (hb : b ≤ d.data.length) :
    strDrop (delSlice d a b) a = strDrop d b := by
  apply str_ext
  show ((d.data.take a ++ d.data.drop b)).drop a = d.data.drop b
  have h1 := List.drop_left (d.data.take a) (d.data.drop b)
  rw [List.length_take, Nat.min_eq_left (by omega)] at h1
  exact h1

theorem strDrop_split (d : String) (a b : Nat) (hab : a ≤ b) (ha : a ≤ d.data.length) :
    strDrop d a = substringMk d a b ++ strDrop d b := by
  apply str_ext
  show d.data.drop a = (d.data.take b).drop a ++ d.data.drop b
  conv_lhs => rw [show d.data = d.data.take b ++ d.data.drop b from (List.take_append_drop b d.data).symm]
  rw [List.drop_append_of_le_length (by rw [List.length_take]; omega)]

theorem strTake_split (d : String) (a b : Nat) (hab : a ≤ b) :
    strTake d b = strTake d a ++ substringMk d a b := by
  apply str_ext
  show d.data.take b = d.data.take a ++ (d.data.take b).drop a
  conv_lhs => rw [← List.take_append_drop a (d.data.take b)]
  rw [List.take_take, Nat.min_eq_left hab]

theorem textOfF_append (a b : Forest) : textOfF (a ++ b) = textOfF a ++ textOfF b := by
  induction a with
  | nil => exact (str_empty_append _).symm
  | cons n rest ih =>
    show textOfN n ++ textOfF (rest ++ b) = (textOfN n ++ textOfF rest) ++ textOfF b
    rw [ih, str_append_assoc]

theorem textOfF_take_drop (f : Forest) (i : Nat) :
    textOfF f = textOfF (f.take i) ++ textOfF (f.drop i) := by
  conv_lhs => rw [← List.take_append_drop i f]
  rw [textOfF_append]

theorem updIdx_eq_append : ∀ (f : Forest) (k : Nat) (g : DNode → DNode) (c : DNode),
    f[k]? = some c → updIdx f k g = f.take k ++ g c :: f.drop (k + 1)
  | [], _, _, _, h => by cases h
  | n :: rest, 0, g, c, h => by
    simp only [List.getElem?_cons_zero, Option.some.injEq] at h
    subst h
    rfl
  | n :: rest, k + 1, g, c, h => by
    simp only [List.getElem?_cons_succ] at h
    show n :: updIdx rest k g = n :: (rest.take k ++ g c :: rest.drop (k + 1))
    rw [updIdx_eq_append rest k g c h]

theorem drop_eq_cons_of_getElem? {f : Forest} {k : Nat} {c : DNode} (h : f[k]? = some c) :
    f.drop k = c :: f.drop (k + 1) := by
  have hlt : k < f.length := getElem?_some_lt h
  rw [List.drop_eq_getElem_cons hlt]
  rw [List.getElem?_eq_getElem hlt] at h
  injection h with h2
  rw [h2]

theorem textOfF_split_at (f : Forest) (k : Nat) (c : DNode) (h : f[k]? = some c) :
    textOfF f = textOfF (f.take k) ++ (textOfN c ++ textOfF (f.drop (k + 1))) := by
  rw [textOfF_take_drop f k, drop_eq_cons_of_getElem? h]
  rfl

theorem textOfF_updIdx (f : Forest) (k : Nat) (g : DNode → DNode) (c : DNode)
    (h : f[k]? = some c) :
    textOfF (updIdx f k g) =
      textOfF (f.take k) ++ (textOfN (g c) ++ textOfF (f.drop (k + 1))) := by
  rw [updIdx_eq_append f k g c h, textOfF_append]
  rfl

theorem take_updIdx_eq (f : Forest) (k : Nat) (g : DNode → DNode) :
    (updIdx f k g).take k = f.take k := take_updIdx_le f k k g (Nat.le_refl k)

theorem drop_updIdx_eq : ∀ (f : Forest) (k : Nat) (g : DNode → DNode),
    (updIdx f k g).drop (k + 1) = f.drop (k + 1)
  | [], _, _ => rfl
  | n :: rest, 0, g => rfl
  | n :: rest, k + 1, g => by
    show (updIdx rest k g).drop (k + 1) = rest.drop (k + 1)
    exact drop_updIdx_eq rest k g

theorem textOfN_setCharData (n : DNode) (s : String) :
    textOfN (setCharData n s) = (if n.isText then s else textOfN n) := by
  cases n <;> rfl

theorem textOfN_withChildList (n : DNode) (cs : Forest) (hel : n.isElem = true) :
    textOfN (n.withChildList cs) = textOfF cs := by
  cases n with
  | elem a t c b d cs0 => rfl
  | text a d => simp [DNode.isElem] at hel
  | comment a d => simp [DNode.isElem] at hel

theorem tSplitNode_conserve (n : DNode) (off : Nat) :
    (tSplitNode n off).1 ++ (tSplitNode n off).2 = textOfN n := by
  cases n with
  | text a d => exact strTake_append_drop d off
  | elem a t c b dd cs =>
    show textOfF (cs.take off) ++ textOfF (cs.drop off) = textOfF cs
    exact (textOfF_take_drop cs off).symm
  | comment a d => rfl

theorem mergeTexts_text : ∀ (l : Forest), textOfF (mergeTexts l) = textOfF l
  | [] => rfl
  | .text i d :: rest => by
    rw [show mergeTexts (DNode.text i d :: rest) = (if d = "" then mergeTexts rest else
      match mergeTexts rest with
      | .text _ d2 :: r2 => .text i (d ++ d2) :: r2
      | r2 => .text i d :: r2) from rfl]
    by_cases hd : d = ""
    · rw [if_pos hd, mergeTexts_text rest]
      show textOfF rest = textOfN (DNode.text i d) ++ textOfF rest
      rw [show textOfN (DNode.text i d) = d from rfl, hd, str_empty_append]
    · rw [if_neg hd]
      have ih := mergeTexts_text rest
      cases hm : mergeTexts rest with
      | nil =>
        rw [hm] at ih
        show textOfN (DNode.text i d) ++ textOfF [] = textOfN (DNode.text i d) ++ textOfF rest
        rw [← ih]
      | cons m r2 =>
        cases m with
        | text i2 d2 =>
          rw [hm] at ih
          show (d ++ d2) ++ textOfF r2 = d ++ textOfF rest
          rw [← ih, str_append_assoc]
          rfl
        | elem i2 t2 c2 b2 dd2 cs2 =>
          rw [hm] at ih
          show textOfN (DNode.text i d) ++ textOfF (DNode.elem i2 t2 c2 b2 dd2 cs2 :: r2)
            = textOfN (DNode.text i d) ++ textOfF rest
          rw [← ih]
        | comment i2 d2 =>
          rw [hm] at ih
          show textOfN (DNode.text i d) ++ textOfF (DNode.comment i2 d2 :: r2)
            = textOfN (DNode.text i d) ++ textOfF rest
          rw [← ih]
  | .elem i t c b dd cs :: rest => by
    show textOfN (DNode.elem i t c b dd cs) ++ textOfF (mergeTexts rest)
      = textOfN (DNode.elem i t c b dd cs) ++ textOfF rest
    rw [mergeTexts_text rest]
  | .comment i d :: rest => by
    show textOfN (DNode.comment i d) ++ textOfF (mergeTexts rest)
      = textOfN (DNode.comment i d) ++ textOfF rest
    rw [mergeTexts_text rest]

end HLN

namespace HLN

mutual

theorem normalizeN_text : ∀ (n : DNode), textOfN (normalizeN n) = textOfN n
  | .elem i t c b d cs => by
    show textOfF (mergeTexts (normalizeF cs)) = textOfF cs
    rw [mergeTexts_text, normalizeF_text cs]
  | .text i d => rfl
  | .comment i d => rfl

theorem normalizeF_text : ∀ (f : Forest), textOfF (normalizeF f) = textOfF f
  | [] => rfl
  | n :: rest => by
    show textOfN (normalizeN n) ++ textOfF (normalizeF rest) = textOfN n ++ textOfF rest
    rw [normalizeN_text n, normalizeF_text rest]

end

theorem tSplitF_one (f : Forest) (i : Nat) (off : Nat) :
    tSplitF f [i] off = (match f[i]? with
      | none => ("", "")
      | some n => (textOfF (f.take i) ++ (tSplitNode n off).1,
          (tSplitNode n off).2 ++ textOfF (f.drop (i + 1)))) := rfl

theorem tSplitF_cons2 (f : Forest) (i j : Nat) (rest : List Nat) (off : Nat) :
    tSplitF f (i :: j :: rest) off = (match f[i]? with
      | none => ("", "")
      | some n => (textOfF (f.take i) ++ (tSplitF n.childList (j :: rest) off).1,
          (tSplitF n.childList (j :: rest) off).2 ++ textOfF (f.drop (i + 1)))) := rfl

theorem tAroundF_one (f : Forest) (i : Nat) :
    tAroundF f [i] = (textOfF (f.take i), textOfF (f.drop (i + 1))) := rfl

theorem tAroundF_cons2 (f : Forest) (i j : Nat) (rest : List Nat) :
    tAroundF f (i :: j :: rest) = (match f[i]? with
      | none => ("", "")
      | some n => (textOfF (f.take i) ++ (tAroundF n.childList (j :: rest)).1,
          (tAroundF n.childList (j :: rest)).2 ++ textOfF (f.drop (i + 1)))) := rfl

theorem tSplit_at_node : ∀ (p : List Nat) (f : Forest) (m : DNode) (off : Nat),
    getAt f p = some m →
    tSplitF f p off = ((tAroundF f p).1 ++ (tSplitNode m off).1,
      (tSplitNode m off).2 ++ (tAroundF f p).2)
  | [], _, _, _, h => by cases h
  | [i], f, m, off, h => by
    rw [getAt_one] at h
    rw [tSplitF_one, tAroundF_one, h]
  | i :: j :: rest, f, m, off, h => by
    rw [getAt_cons_bind] at h
    cases hfi : f[i]? with
    | none => rw [hfi] at h; cases h
    | some n =>
      rw [hfi] at h
      simp only [Option.some_bind] at h
      have h2 : getAt n.childList (j :: rest) = some m := by
        cases n with
        | elem a t c b d cs => exact h
        | text a d =>
          rw [show getSub (.text a d) (j :: rest) = getAt ([] : Forest) (j :: rest) from rfl,
            getAt_nil_forest] at h
          cases h
        | comment a d =>
          rw [show getSub (.comment a d) (j :: rest) = getAt ([] : Forest) (j :: rest) from rfl,
            getAt_nil_forest] at h
          cases h
      simp only [tSplitF_cons2, tAroundF_cons2, hfi]
      rw [tSplit_at_node (j :: rest) n.childList m off h2]
      simp only [Prod.mk.injEq]
      constructor
      · apply str_ext
        simp [str_data_append, List.append_assoc]
      · apply str_ext
        simp [str_data_append, List.append_assoc]

theorem tAround_at : ∀ (p : List Nat) (f : Forest) (m : DNode),
    getAt f p = some m →
    textOfF f = (tAroundF f p).1 ++ (textOfN m ++ (tAroundF f p).2)
  | [], _, _, h => by cases h
  | [i], f, m, h => by
    rw [getAt_one] at h
    rw [tAroundF_one]
    exact textOfF_split_at f i m h
  | i :: j :: rest, f, m, h => by
    rw [getAt_cons_bind] at h
    cases hfi : f[i]? with
    | none => rw [hfi] at h; cases h
    | some n =>
      rw [hfi] at h
      simp only [Option.some_bind] at h
      cases n with
      | text a d =>
        rw [show getSub (.text a d) (j :: rest) = getAt ([] : Forest) (j :: rest) from rfl,
          getAt_nil_forest] at h
        cases h
      | comment a d =>
        rw [show getSub (.comment a d) (j :: rest) = getAt ([] : Forest) (j :: rest) from rfl,
          getAt_nil_forest] at h
        cases h
      | elem a t c b d cs =>
        have h2 : getAt cs (j :: rest) = some m := h
        simp only [tAroundF_cons2, hfi]
        rw [textOfF_split_at f i _ hfi,
          show textOfN (DNode.elem a t c b d cs) = textOfF cs from rfl,
          tAround_at (j :: rest) cs m h2]
        apply str_ext
        simp [str_data_append, List.append_assoc, DNode.childList]

theorem textOf_modifyAt_around : ∀ (p : List Nat) (f : Forest) (m : DNode)
    (g : DNode → DNode), getAt f p = some m →
    textOfF (modifyAt f p g) = (tAroundF f p).1 ++ (textOfN (g m) ++ (tAroundF f p).2)
  | [], _, _, _, h => by cases h
  | [i], f, m, g, h => by
    rw [getAt_one] at h
    rw [tAroundF_one]
    exact textOfF_updIdx f i g m h
  | i :: j :: rest, f, m, g, h => by
    rw [getAt_cons_bind] at h
    cases hfi : f[i]? with
    | none => rw [hfi] at h; cases h
    | some n =>
      rw [hfi] at h
      simp only [Option.some_bind] at h
      cases n with
      | text a d =>
        rw [show getSub (.text a d) (j :: rest) = getAt ([] : Forest) (j :: rest) from rfl,
          getAt_nil_forest] at h
        cases h
      | comment a d =>
        rw [show getSub (.comment a d) (j :: rest) = getAt ([] : Forest) (j :: rest) from rfl,
          getAt_nil_forest] at h
        cases h
      | elem a t c b d cs =>
        have h2 : getAt cs (j :: rest) = some m := h
        simp only [tAroundF_cons2, hfi]
        rw [show modifyAt f (i :: j :: rest) g =
          updIdx f i (fun x => x.withChildList (modifyAt x.childList (j :: rest) g)) from rfl,
          textOfF_updIdx f i _ _ hfi,
          show textOfN ((DNode.elem a t c b d cs).withChildList
            (modifyAt (DNode.elem a t c b d cs).childList (j :: rest) g))
            = textOfF (modifyAt cs (j :: rest) g) from rfl,
          textOf_modifyAt_around (j :: rest) cs m g h2]
        apply str_ext
        simp [str_data_append, List.append_assoc, DNode.childList]

theorem tAround_modifyAt_self : ∀ (p : List Nat) (f : Forest) (m : DNode)
    (g : DNode → DNode), getAt f p = some m →
    tAroundF (modifyAt f p g) p = tAroundF f p
  | [], _, _, _, h => by cases h
  | [i], f, m, g, h => by
    rw [tAroundF_one, tAroundF_one,
      show modifyAt f [i] g = updIdx f i g from rfl,
      take_updIdx_eq, drop_updIdx_eq]
  | i :: j :: rest, f, m, g, h => by
    rw [getAt_cons_bind] at h
    cases hfi : f[i]? with
    | none => rw [hfi] at h; cases h
    | some n =>
      rw [hfi] at h
      simp only [Option.some_bind] at h
      cases n with
      | text a d =>
        rw [show getSub (.text a d) (j :: rest) = getAt ([] : Forest) (j :: rest) from rfl,
          getAt_nil_forest] at h
        cases h
      | comment a d =>
        rw [show getSub (.comment a d) (j :: rest) = getAt ([] : Forest) (j :: rest) from rfl,
          getAt_nil_forest] at h
        cases h
      | elem a t c b d cs =>
        have h2 : getAt cs (j :: rest) = some m := h
        have hup : (modifyAt f (i :: j :: rest) g)[i]?
            = some ((DNode.elem a t c b d cs).withChildList (modifyAt cs (j :: rest) g)) := by
          rw [show modifyAt f (i :: j :: rest) g =
            updIdx f i (fun x => x.withChildList (modifyAt x.childList (j :: rest) g)) from rfl,
            updIdx_get_eq, hfi]
          rfl
        simp only [tAroundF_cons2, hfi, hup]
        rw [show modifyAt f (i :: j :: rest) g =
          updIdx f i (fun x => x.withChildList (modifyAt x.childList (j :: rest) g)) from rfl,
          take_updIdx_eq, drop_updIdx_eq,
          show ((DNode.elem a t c b d cs).withChildList (modifyAt cs (j :: rest) g)).childList
            = modifyAt cs (j :: rest) g from rfl,
          tAround_modifyAt_self (j :: rest) cs m g h2]
        rfl

theorem tSplitF_append_cons : ∀ (q : List Nat) (f : Forest) (x : Nat) (xs : List Nat)
    (off : Nat), (q = [] ∨ (getAt f q).isSome = true) →
    tSplitF f (q ++ x :: xs) off =
      ((tAroundF f q).1 ++ (tSplitF (childrenAtPos f q) (x :: xs) off).1,
       (tSplitF (childrenAtPos f q) (x :: xs) off).2 ++ (tAroundF f q).2)
  | [], f, x, xs, off, _ => by
    show tSplitF f (x :: xs) off = (("" : String) ++ (tSplitF f (x :: xs) off).1,
      (tSplitF f (x :: xs) off).2 ++ ("" : String))
    rw [str_empty_append, str_append_empty]
  | i :: q', f, x, xs, off, hv => by
    rcases hv with hv | hv
    · cases hv
    rw [getAt_cons_bind] at hv
    cases hfi : f[i]? with
    | none => rw [hfi] at hv; simp at hv
    | some n =>
      rw [hfi] at hv
      simp only [Option.some_bind] at hv
      cases q' with
      | nil =>
        rw [List.cons_append, List.nil_append]
        simp only [tSplitF_cons2, tAroundF_one, hfi]
        rw [childrenAtPos_of_getAt f [i] n (by simp) (by rw [getAt_one]; exact hfi)]
      | cons j q'' =>
        have hv2 : getAt n.childList (j :: q'') ≠ none := by
          cases n with
          | elem a t c b d cs =>
            intro hcon
            rw [show getSub (DNode.elem a t c b d cs) (j :: q'') = getAt cs (j :: q'') from rfl] at hv
            rw [show DNode.childList (DNode.elem a t c b d cs) = cs from rfl] at hcon
            rw [hcon] at hv
            simp at hv
          | text a d =>
            rw [show getSub (.text a d) (j :: q'') = getAt ([] : Forest) (j :: q'') from rfl,
              getAt_nil_forest] at hv
            simp at hv
          | comment a d =>
            rw [show getSub (.comment a d) (j :: q'') = getAt ([] : Forest) (j :: q'') from rfl,
              getAt_nil_forest] at hv
            simp at hv
        have hv3 : (getAt n.childList (j :: q'')).isSome = true := by
          cases hgc : getAt n.childList (j :: q'') with
          | none => exact absurd hgc hv2
          | some _ => rfl
        simp only [List.cons_append, tSplitF_cons2, tAroundF_cons2, hfi]
        rw [show childrenAtPos f (i :: j :: q'') = childrenAtPos n.childList (j :: q'') by
          rw [childrenAtPos_cons, hfi]]
        rw [show j :: (q'' ++ x :: xs) = (j :: q'') ++ x :: xs from rfl,
          tSplitF_append_cons (j :: q'') n.childList x xs off (Or.inr hv3)]
        simp only [Prod.mk.injEq]
        constructor
        · apply str_ext
          simp [str_data_append, List.append_assoc]
        · apply str_ext
          simp [str_data_append, List.append_assoc]

theorem tAroundF_append_cons : ∀ (q : List Nat) (f : Forest) (x : Nat) (xs : List Nat),
    (q = [] ∨ (getAt f q).isSome = true) →
    tAroundF f (q ++ x :: xs) =
      ((tAroundF f q).1 ++ (tAroundF (childrenAtPos f q) (x :: xs)).1,
       (tAroundF (childrenAtPos f q) (x :: xs)).2 ++ (tAroundF f q).2)
  | [], f, x, xs, _ => by
    show tAroundF f (x :: xs) = (("" : String) ++ (tAroundF f (x :: xs)).1,
      (tAroundF f (x :: xs)).2 ++ ("" : String))
    rw [str_empty_append, str_append_empty]
  | i :: q', f, x, xs, hv => by
    rcases hv with hv | hv
    · cases hv
    rw [getAt_cons_bind] at hv
    cases hfi : f[i]? with
    | none => rw [hfi] at hv; simp at hv
    | some n =>
      rw [hfi] at hv
      simp only [Option.some_bind] at hv
      cases q' with
      | nil =>
        rw [List.cons_append, List.nil_append]
        simp only [tAroundF_cons2, tAroundF_one, hfi]
        rw [childrenAtPos_of_getAt f [i] n (by simp) (by rw [getAt_one]; exact hfi)]
      | cons j q'' =>
        have hv2 : getAt n.childList (j :: q'') ≠ none := by
          cases n with
          | elem a t c b d cs =>
            intro hcon
            rw [show getSub (DNode.elem a t c b d cs) (j :: q'') = getAt cs (j :: q'') from rfl] at hv
            rw [show DNode.childList (DNode.elem a t c b d cs) = cs from rfl] at hcon
            rw [hcon] at hv
            simp at hv
          | text a d =>
            rw [show getSub (.text a d) (j :: q'') = getAt ([] : Forest) (j :: q'') from rfl,
              getAt_nil_forest] at hv
            simp at hv
          | comment a d =>
            rw [show getSub (.comment a d) (j :: q'') = getAt ([] : Forest) (j :: q'') from rfl,
              getAt_nil_forest] at hv
            simp at hv
        have hv3 : (getAt n.childList (j :: q'')).isSome = true := by
          cases hgc : getAt n.childList (j :: q'') with
          | none => exact absurd hgc hv2
          | some _ => rfl
        simp only [List.cons_append, tAroundF_cons2, hfi]
        rw [show childrenAtPos f (i :: j :: q'') = childrenAtPos n.childList (j :: q'') by
          rw [childrenAtPos_cons, hfi]]
        rw [show j :: (q'' ++ x :: xs) = (j :: q'') ++ x :: xs from rfl,
          tAroundF_append_cons (j :: q'') n.childList x xs (Or.inr hv3)]
        simp only [Prod.mk.injEq]
        constructor
        · apply str_ext
          simp [str_data_append, List.append_assoc]
        · apply str_ext
          simp [str_data_append, List.append_assoc]

end HLN
namespace HLN

/-! ### The contained children form a contiguous index interval -/

theorem posLeB_single_iff (a b : Nat) : posLeB [a] [b] = true ↔ a ≤ b := by
  simp [posLeB, posLtB]
  omega

theorem posLeB_consz_single_iff (k : Nat) (z : List Nat) (m : Nat) (hz : z ≠ []) :
    posLeB (k :: z) [m] = true ↔ k < m := by
  cases z with
  | nil => exact absurd rfl hz
  | cons w z' =>
    simp [posLeB, posLtB, posLtB_nil_right]

theorem posLeB_single_consz_iff (a b : Nat) (z : List Nat) (hz : z ≠ []) :
    posLeB [a] (b :: z) = true ↔ a ≤ b := by
  cases z with
  | nil => exact absurd rfl hz
  | cons w z' =>
    simp [posLeB, posLtB]
    omega

theorem contained_iff_interval (ca ps pe : List Nat) (sO eO : Nat) (lo hi : Nat)
    (hlo : (ps = ca ∧ lo = sO) ∨ (∃ k rest, ps = ca ++ k :: rest ∧ lo = k + 1))
    (hhi : (pe = ca ∧ hi = eO) ∨ (∃ b q', pe = ca ++ b :: q' ∧ hi = b)) :
    ∀ m, containedPos ps sO pe eO (ca ++ [m]) = true ↔ lo ≤ m ∧ m < hi := by
  intro m
  unfold containedPos
  rw [Bool.and_eq_true]
  have hlow : posLeB (ps ++ [sO]) (ca ++ [m]) = true ↔ lo ≤ m := by
    rcases hlo with ⟨hpse, hloe⟩ | ⟨k, rest, hpse, hloe⟩
    · rw [hpse, posLeB_append_common, posLeB_single_iff, hloe]
    · rw [hpse, List.append_assoc, List.cons_append, posLeB_append_common,
        posLeB_consz_single_iff k (rest ++ [sO]) m (by cases rest <;> simp), hloe]
      omega
  have hupp : posLeB (bumpLast (ca ++ [m])) (pe ++ [eO]) = true ↔ m < hi := by
    rw [bumpLast_append]
    rcases hhi with ⟨hpee, hhie⟩ | ⟨b, q', hpee, hhie⟩
    · rw [hpee, posLeB_append_common, posLeB_single_iff, hhie]
      omega
    · rw [hpee, List.append_assoc, List.cons_append, posLeB_append_common,
        posLeB_single_consz_iff (m + 1) b (q' ++ [eO]) (by cases q' <;> simp), hhie]
      omega
  rw [hlow, hupp]

theorem filter_interval (cs : Forest) (p : DNode → Bool) (lo hi : Nat) (hlohi : lo ≤ hi)
    (hp : ∀ (m : Nat) (x : DNode), cs[m]? = some x → (p x = true ↔ lo ≤ m ∧ m < hi)) :
    cs.filter (fun x => !(p x)) = cs.take lo ++ cs.drop hi ∧
    cs.filter p = (cs.drop lo).take (hi - lo) := by
  have hA : ∀ x ∈ cs.take lo, p x = false := by
    intro x hx
    obtain ⟨m, hm⟩ := getElem?_of_mem_own hx
    obtain ⟨hmlo, hm2⟩ := take_getElem?_inv hm
    rcases hpx : p x with _ | _
    · rfl
    · have h3 := (hp m x hm2).mp hpx
      omega
  have hB : ∀ x ∈ (cs.drop lo).take (hi - lo), p x = true := by
    intro x hx
    obtain ⟨m, hm⟩ := getElem?_of_mem_own hx
    obtain ⟨hmlt, hm2⟩ := take_getElem?_inv hm
    rw [List.getElem?_drop] at hm2
    exact (hp (lo + m) x hm2).mpr ⟨by omega, by omega⟩
  have hC : ∀ x ∈ cs.drop hi, p x = false := by
    intro x hx
    obtain ⟨m, hm⟩ := getElem?_of_mem_own hx
    rw [List.getElem?_drop] at hm
    rcases hpx : p x with _ | _
    · rfl
    · have h3 := (hp (hi + m) x hm).mp hpx
      omega
  have hdd : (cs.drop lo).drop (hi - lo) = cs.drop hi := by
    rw [List.drop_drop]
    congr 1
    omega
  have hsplit : cs = cs.take lo ++ ((cs.drop lo).take (hi - lo) ++ cs.drop hi) := by
    rw [← hdd, List.take_append_drop, List.take_append_drop]
  constructor
  · conv_lhs => rw [hsplit]
    rw [List.filter_append, List.filter_append]
    rw [List.filter_eq_self.mpr (fun a ha => by rw [hA a ha]; rfl),
      List.filter_eq_nil_iff.mpr (fun a ha => by rw [hB a ha]; simp),
      List.filter_eq_self.mpr (fun a ha => by rw [hC a ha]; rfl)]
    rw [List.nil_append]
  · conv_lhs => rw [hsplit]
    rw [List.filter_append, List.filter_append]
    rw [List.filter_eq_nil_iff.mpr (fun a ha => by rw [hA a ha]; simp),
      List.filter_eq_self.mpr (fun a ha => hB a ha),
      List.filter_eq_nil_iff.mpr (fun a ha => by rw [hC a ha]; simp)]
    rw [List.nil_append, List.append_nil]

theorem keep_pred_iff (caKids kids1 : Forest) (ca ps pe : List Nat) (sO eO lo hi : Nat)
    (hnd : (idsF caKids).Nodup)
    (hnid : ∀ (m : Nat) (x : DNode), kids1[m]? = some x →
      ∃ y, caKids[m]? = some y ∧ x.nid = y.nid)
    (hchar : ∀ m, containedPos ps sO pe eO (ca ++ [m]) = true ↔ lo ≤ m ∧ m < hi) :
    ∀ (m : Nat) (x : DNode), kids1[m]? = some x →
      ((((caKids.enum.filter (fun e => containedPos ps sO pe eO (ca ++ [e.1]))).map
        (fun e => e.2.nid)).contains x.nid) = true ↔ lo ≤ m ∧ m < hi) := by
  intro m x hx
  obtain ⟨y, hy, hxy⟩ := hnid m x hx
  constructor
  · intro hc
    rw [List.elem_iff] at hc
    obtain ⟨e, hef, henid⟩ := List.mem_map.mp hc
    obtain ⟨hee, hep⟩ := List.mem_filter.mp hef
    have heg : caKids[e.1]? = some e.2 := List.mem_enum_iff_getElem?.mp hee
    have hem : e.1 = m := by
      by_contra hne
      rcases Nat.lt_or_ge e.1 m with hlt | hge
      · exact (sibling_nid_ne caKids e.1 m e.2 y hnd heg hy hlt) (by rw [henid, hxy])
      · exact (sibling_nid_ne caKids m e.1 y e.2 hnd hy heg (by omega))
          (by rw [← hxy, henid])
    rw [← hem]
    exact (hchar e.1).mp hep
  · intro hint
    rw [List.elem_iff]
    refine List.mem_map.mpr ⟨(m, y), List.mem_filter.mpr
      ⟨List.mem_enum_iff_getElem?.mpr hy, (hchar m).mpr hint⟩, hxy.symm⟩

end HLN
namespace HLN

theorem tSplit_cons_node (cs : Forest) (j : Nat) (tail : List Nat) (off : Nat) (n : DNode)
    (h : cs[j]? = some n) :
    tSplitF cs (j :: tail) off =
      (textOfF (cs.take j) ++ (tSplitInner n tail off).1,
       (tSplitInner n tail off).2 ++ textOfF (cs.drop (j + 1))) := by
  cases tail with
  | nil => simp only [tSplitF_one, h, tSplitInner]
  | cons x xs => simp only [tSplitF_cons2, h, tSplitInner]

theorem tSplit_container (f : Forest) (ca : List Nat) (off : Nat)
    (hv : ca = [] ∨ ∃ m, getAt f ca = some m ∧ m.isElem = true) :
    tSplitF f ca off = ((tAroundF f ca).1 ++ textOfF ((childrenAtPos f ca).take off),
      textOfF ((childrenAtPos f ca).drop off) ++ (tAroundF f ca).2) := by
  rcases hv with rfl | ⟨m, hm, hel⟩
  · show tSplitF f [] off = (("" : String) ++ textOfF (f.take off),
      textOfF (f.drop off) ++ ("" : String))
    rw [str_empty_append, str_append_empty]
    rfl
  · have hcane : ca ≠ [] := by
      intro hh
      subst hh
      cases hm
    rw [tSplit_at_node ca f m off hm, childrenAtPos_of_getAt f ca m hcane hm]
    cases m with
    | elem a t c b d cs => rfl
    | text a d => simp [DNode.isElem] at hel
    | comment a d => simp [DNode.isElem] at hel

theorem tAround_modifyChildren_self (q : List Nat) (f : Forest) (φ : Forest → Forest)
    (hv : q = [] ∨ ∃ m, getAt f q = some m) :
    tAroundF (modifyChildrenAt f q φ) q = tAroundF f q := by
  rcases hv with rfl | ⟨m, hm⟩
  · rfl
  · have hcane : q ≠ [] := by
      intro hh
      subst hh
      cases hm
    rw [modifyChildrenAt_as_setAt q f m φ hcane hm]
    exact tAround_modifyAt_self q f m _ hm

theorem tSplit_conserveF (p : List Nat) (f : Forest) (off : Nat)
    (hv : p = [] ∨ (getAt f p).isSome = true) :
    (tSplitF f p off).1 ++ (tSplitF f p off).2 = textOfF f := by
  rcases hv with rfl | hv
  · show textOfF (f.take off) ++ textOfF (f.drop off) = textOfF f
    exact (textOfF_take_drop f off).symm
  · cases hm : getAt f p with
    | none => rw [hm] at hv; cases hv
    | some m =>
      rw [tSplit_at_node p f m off hm, tAround_at p f m hm, ← tSplitNode_conserve m off]
      apply str_ext
      simp [str_data_append, List.append_assoc]

theorem tSplitInner_conserve (n : DNode) (tail : List Nat) (off : Nat)
    (hv : tail = [] ∨ (n.isElem = true ∧ (getAt n.childList tail).isSome = true)) :
    (tSplitInner n tail off).1 ++ (tSplitInner n tail off).2 = textOfN n := by
  rcases hv with rfl | ⟨hel, hv⟩
  · exact tSplitNode_conserve n off
  · cases tail with
    | nil => exact tSplitNode_conserve n off
    | cons j rest =>
      show (tSplitF n.childList (j :: rest) off).1 ++ (tSplitF n.childList (j :: rest) off).2
        = textOfN n
      rw [tSplit_conserveF (j :: rest) n.childList off (Or.inr hv)]
      cases n with
      | elem a t c b d cs => rfl
      | text a d => simp [DNode.isElem] at hel
      | comment a d => simp [DNode.isElem] at hel

end HLN
namespace HLN

theorem str_data_empty : ("" : String).data = [] := rfl

theorem shallowClone_isElem (c : DNode) (nid : Nat) :
    (shallowClone c nid).isElem = c.isElem := by
  cases c <;> rfl

theorem tSplitNode_len (c : DNode) (hel : c.isElem = true) :
    tSplitNode c c.childList.length = (textOfN c, "") := by
  cases c with
  | elem a t cb cc cd cs =>
    show (textOfF (cs.take cs.length), textOfF (cs.drop cs.length)) = (textOfF cs, "")
    rw [List.take_length, List.drop_length]
    rfl
  | text a d => simp [DNode.isElem] at hel
  | comment a d => simp [DNode.isElem] at hel

theorem tSplitNode_fst_elem (c : DNode) (hel : c.isElem = true) (off : Nat) :
    (tSplitNode c off).1 = textOfF (c.childList.take off) := by
  cases c with
  | elem a t cb cc cd cs => rfl
  | text a d => simp [DNode.isElem] at hel
  | comment a d => simp [DNode.isElem] at hel

theorem tSplitNode_zero_elem (c : DNode) (hel : c.isElem = true) :
    tSplitNode c 0 = ("", textOfN c) := by
  cases c with
  | elem a t cb cc cd cs => rfl
  | text a d => simp [DNode.isElem] at hel
  | comment a d => simp [DNode.isElem] at hel

theorem phase1_text (fuel : Nat)
    (tIH : ∀ (f : Forest) (nid : Nat) (r : BRange) (er : ExtractRes) (ps pe : List Nat),
      extractHyps f r ps pe → extractFuel fuel f nid r = some er →
      textExtractConc f r ps pe er)
    (f : Forest) (nid : Nat) (r : BRange) (ca : List Nat) (k : Nat) (rest ps : List Nat)
    (c sNode : DNode) (frag1 f1 : Forest) (nid1 : Nat)
    (hnd : (idsF f).Nodup) (hpos : ∀ i ∈ idsF f, 0 < i)
    (hdec : ps = ca ++ k :: rest)
    (hgc : getAt f (ca ++ [k]) = some c)
    (hgs : getAt f ps = some sNode)
    (hps : pathOfC f r.sN = some ps)
    (hsb : r.sO ≤ containerLen f ps)
    (heq1 : extractPhase1 (extractFuel fuel) f nid r ca (some k) = some (frag1, f1, nid1)) :
    ∃ X1, f1 = setAt f (ca ++ [k]) X1 ∧ shellOf X1 = shellOf c ∧
      textOfN c = (tSplitInner c rest r.sO).1 ++ (tSplitInner c rest r.sO).2 ∧
      textOfF frag1 = (tSplitInner c rest r.sO).2 ∧
      textOfN X1 = (tSplitInner c rest r.sO).1 := by
  have hcane : ca ++ [k] ≠ [] := by cases ca <;> simp
  have hpsne : ps ≠ [] := by rw [hdec]; cases ca <;> simp
  simp only [extractPhase1, hgc] at heq1
  split at heq1
  case isTrue hcdc =>
    have hccl : c.childList = [] := by
      cases c with
      | elem a t c2 b d cs => simp [DNode.isCharData] at hcdc
      | text a d => rfl
      | comment a d => rfl
    have hrest : rest = [] := by
      cases rest with
      | nil => rfl
      | cons x xs =>
        exfalso
        rw [hdec, show ca ++ k :: x :: xs = (ca ++ [k]) ++ x :: xs by simp,
          getAt_append_cons, childrenAtPos_of_getAt f (ca ++ [k]) c hcane hgc, hccl,
          getAt_nil_forest] at hgs
        cases hgs
    subst hrest
    injection heq1 with heq1
    simp only [Prod.mk.injEq] at heq1
    obtain ⟨hfr, hf1, hn1⟩ := heq1
    subst hf1
    subst hfr
    refine ⟨setCharData c (strTake c.charData r.sO),
      modifyAt_as_setAt (ca ++ [k]) f c _ hgc, setCharData_shell c _,
      (tSplitInner_conserve c [] r.sO (Or.inl rfl)).symm, ?_, ?_⟩
    · cases c with
      | elem a t c2 b d cs => simp [DNode.isCharData] at hcdc
      | text a d =>
        show strDrop d r.sO ++ "" = strDrop d r.sO
        exact str_append_empty _
      | comment a d =>
        show ("" : String) ++ "" = ""
        exact str_append_empty _
    · cases c with
      | elem a t c2 b d cs => simp [DNode.isCharData] at hcdc
      | text a d => rfl
      | comment a d => rfl
  case isFalse hcdc =>
    split at heq1
    case h_1 heqr => cases heq1
    case h_2 er1 heqr =>
      injection heq1 with heq1
      simp only [Prod.mk.injEq] at heq1
      obtain ⟨hfr, hf1, hn1⟩ := heq1
      subst hf1
      subst hfr
      have hcnid : c.nid ≠ 0 := by
        have := hpos c.nid (getAt_nid_mem f (ca ++ [k]) c hgc)
        omega
      have hcelem : c.isElem = true := by
        cases c with
        | elem a t c2 b d cs => rfl
        | text a d => simp [DNode.isCharData] at hcdc
        | comment a d => simp [DNode.isCharData] at hcdc
      have hdomc : c.domLen = c.childList.length := by
        cases c with
        | elem a t c2 b d cs => rfl
        | text a d => simp [DNode.isElem] at hcelem
        | comment a d => simp [DNode.isElem] at hcelem
      have hyps1 : extractHyps f ⟨r.sN, r.sO, c.nid, c.childList.length⟩ ps (ca ++ [k]) := by
        refine ⟨hnd, hpos, hps, ?_, ?_, hsb, ?_⟩
        · show pathOfC f c.nid = some (ca ++ [k])
          unfold pathOfC
          rw [if_neg hcnid]
          exact findPathF_of_getAt f _ c hnd hgc
        · show posLeB (ps ++ [r.sO]) ((ca ++ [k]) ++ [c.childList.length]) = true
          cases rest with
          | nil =>
            rw [hdec]
            rw [show (ca ++ k :: []) ++ [r.sO] = (ca ++ [k]) ++ [r.sO] from rfl,
              posLeB_append_common]
            refine posLeB_single r.sO c.childList.length ?_
            rw [hdec] at hsb
            rw [containerLen_at f (ca ++ [k]) c hcane hgc, hdomc] at hsb
            exact hsb
          | cons x xs =>
            rw [hdec]
            rw [show (ca ++ k :: x :: xs) ++ [r.sO] = (ca ++ [k]) ++ ((x :: xs) ++ [r.sO])
              by simp, posLeB_append_common]
            refine posLeB_of_lt ?_
            rw [List.cons_append]
            refine posLtB_cons_single x c.childList.length (xs ++ [r.sO]) ?_
            rw [hdec, show ca ++ k :: x :: xs = (ca ++ [k]) ++ x :: xs by simp,
              getAt_append_cons, childrenAtPos_of_getAt f (ca ++ [k]) c hcane hgc,
              getAt_cons_bind] at hgs
            cases hcx : c.childList[x]? with
            | none => rw [hcx] at hgs; cases hgs
            | some mm => exact getElem?_some_lt hcx
        · show c.childList.length ≤ containerLen f (ca ++ [k])
          rw [containerLen_at f (ca ++ [k]) c hcane hgc, hdomc]
      have hstruct := extract_struct fuel f (nid + 1) _ er1 ps (ca ++ [k]) hyps1 heqr
      have htext := tIH f (nid + 1) _ er1 ps (ca ++ [k]) hyps1 heqr
      obtain ⟨lo1, subl1, sA1, -⟩ := hstruct
      have hcp1 : commonPrefix ps (ca ++ [k]) = ca ++ [k] :=
        commonPrefix_of_pref_right ps (ca ++ [k]) ⟨rest, by rw [hdec]; simp⟩
      obtain ⟨X1, m1, hm1, hroots1, hshell1⟩ := by
        rw [hcp1] at sA1
        exact sA1 hcane
      rw [hgc] at hm1
      injection hm1 with hm1
      subst hm1
      obtain ⟨A', M', C', hA1, hA2, hfr', hpt'⟩ := htext
      rw [hcp1] at hpt'
      -- the around/children environment at the common ancestor
      have hXcav : ca = [] ∨ (getAt f ca).isSome = true := by
        cases hcaq : ca with
        | nil => exact Or.inl rfl
        | cons a0 b0 =>
          have hgc2 : getAt f ((a0 :: b0) ++ [k]) = some c := by rw [← hcaq]; exact hgc
          obtain ⟨mq, hmq⟩ := getAt_pref_some f (a0 :: b0) k [] c (by simp) hgc2
          exact Or.inr (by rw [hmq]; rfl)
      have hck : (childrenAtPos f ca)[k]? = some c := by
        rw [← getAt_append_one]
        exact hgc
      have hsp := tSplitF_append_cons ca f k rest r.sO hXcav
      rw [← hdec] at hsp
      rw [hsp, tSplit_cons_node (childrenAtPos f ca) k rest r.sO c hck] at hA1
      simp only [Prod.mk.injEq] at hA1
      obtain ⟨hA1a, hA1b⟩ := hA1
      have hard := tAroundF_append_cons ca f k [] hXcav
      rw [tAroundF_one] at hard
      rw [tSplit_at_node (ca ++ [k]) f c _ hgc, hard, tSplitNode_len c hcelem] at hA2
      simp only [Prod.mk.injEq] at hA2
      obtain ⟨hA2a, hA2b⟩ := hA2
      -- conservation within the start child
      have hvinner : rest = [] ∨ (c.isElem = true ∧
          (getAt c.childList rest).isSome = true) := by
        cases hrq : rest with
        | nil => exact Or.inl rfl
        | cons x xs =>
          refine Or.inr ⟨hcelem, ?_⟩
          rw [hdec, hrq, show ca ++ k :: x :: xs = (ca ++ [k]) ++ x :: xs by simp,
            getAt_append_cons, childrenAtPos_of_getAt f (ca ++ [k]) c hcane hgc] at hgs
          rw [hgs]
          rfl
      have hconsv : textOfN c = (tSplitInner c rest r.sO).1 ++ (tSplitInner c rest r.sO).2 :=
        (tSplitInner_conserve c rest r.sO hvinner).symm
      -- γ2 = M'
      have hM : M' = (tSplitInner c rest r.sO).2 := by
        rw [← hA1a, hconsv] at hA2a
        apply str_ext
        have h9 := congrArg String.data hA2a
        simp only [str_data_append, List.append_assoc, List.append_cancel_left_eq] at h9
        exact h9.symm
      -- the repositioned-point split pins the kept part of the start child
      have hgx1 : getAt er1.roots (ca ++ [k]) = some X1 := by
        rw [hroots1]
        exact getAt_modifyAt_self (ca ++ [k]) f c _ hgc
      have har1 : tAroundF er1.roots (ca ++ [k]) = tAroundF f (ca ++ [k]) := by
        rw [hroots1]
        exact tAround_modifyAt_self (ca ++ [k]) f c _ hgc
      have hoff : ∃ offP, tSplitF er1.roots (ca ++ [k]) offP = (A', C') := by
        split at hpt'
        case isTrue h => exact ⟨r.sO, by rw [h]; exact hpt'⟩
        case isFalse h => exact ⟨_, hpt'⟩
      obtain ⟨offP, hsp3⟩ := hoff
      rw [tSplit_at_node (ca ++ [k]) er1.roots X1 offP hgx1, har1, hard] at hsp3
      simp only [Prod.mk.injEq] at hsp3
      obtain ⟨hsp3a, hsp3b⟩ := hsp3
      have hX1a : (tSplitNode X1 offP).1 = (tSplitInner c rest r.sO).1 := by
        rw [← hA1a] at hsp3a
        apply str_ext
        have h9 := congrArg String.data hsp3a
        simp only [str_data_append, List.append_assoc, List.append_cancel_left_eq] at h9
        exact h9
      have hX1b : (tSplitNode X1 offP).2 = "" := by
        rw [← hA2b] at hsp3b
        have h9 := congrArg String.data hsp3b
        simp only [str_data_append, List.append_assoc, str_data_empty,
          List.nil_append] at h9
        have hlen := congrArg List.length h9
        simp only [List.length_append] at hlen
        apply str_ext
        exact List.eq_nil_of_length_eq_zero (by omega)
      refine ⟨X1, hroots1, hshell1, hconsv, ?_, ?_⟩
      · show textOfN ((shallowClone c nid).withChildList er1.frag) ++ "" = _
        rw [str_append_empty,
          textOfN_withChildList _ _ (by rw [shallowClone_isElem]; exact hcelem),
          hfr', hM]
      · rw [← tSplitNode_conserve X1 offP, hX1a, hX1b, str_append_empty]

theorem tSplit_node_path (f : Forest) (p tail : List Nat) (off : Nat) (n : DNode)
    (h : getAt f p = some n) :
    tSplitF f (p ++ tail) off = ((tAroundF f p).1 ++ (tSplitInner n tail off).1,
      (tSplitInner n tail off).2 ++ (tAroundF f p).2) := by
  cases tail with
  | nil =>
    rw [List.append_nil]
    exact tSplit_at_node p f n off h
  | cons x xs =>
    have hpne : p ≠ [] := by
      intro hh
      subst hh
      cases h
    rw [tSplitF_append_cons p f x xs off (Or.inr (by rw [h]; rfl)),
      childrenAtPos_of_getAt f p n hpne h]
    rfl

theorem phase3_text (fuel : Nat)
    (tIH : ∀ (f : Forest) (nid : Nat) (r : BRange) (er : ExtractRes) (ps pe : List Nat),
      extractHyps f r ps pe → extractFuel fuel f nid r = some er →
      textExtractConc f r ps pe er)
    (f2 : Forest) (nid1 : Nat) (r : BRange) (ca : List Nat) (k2 : Nat) (q' : List Nat)
    (lNode eNode : DNode) (frag3 f3 : Forest) (nid3 : Nat)
    (hnd2 : (idsF f2).Nodup) (hpos2 : ∀ i ∈ idsF f2, 0 < i)
    (hgAt : getAt f2 (ca ++ [k2]) = some lNode)
    (hsub : getSub lNode q' = some eNode)
    (heN : eNode.nid = r.eN) (heN0 : r.eN ≠ 0)
    (heb2 : r.eO ≤ eNode.domLen)
    (heq3 : extractPhase3 (extractFuel fuel) f2 nid1 r (some lNode.nid) =
      some (frag3, f3, nid3)) :
    ∃ X3, f3 = setAt f2 (ca ++ [k2]) X3 ∧ shellOf X3 = shellOf lNode ∧
      textOfN lNode = (tSplitInner lNode q' r.eO).1 ++ (tSplitInner lNode q' r.eO).2 ∧
      textOfF frag3 = (tSplitInner lNode q' r.eO).1 ∧
      textOfN X3 = (tSplitInner lNode q' r.eO).2 := by
  have hcane : ca ++ [k2] ≠ [] := by cases ca <;> simp
  have hfp : findPathF f2 lNode.nid = some (ca ++ [k2]) :=
    findPathF_of_getAt f2 _ lNode hnd2 hgAt
  simp only [extractPhase3, hfp, hgAt] at heq3
  split at heq3
  case isTrue hlc =>
    have hccl : lNode.childList = [] := by
      cases lNode with
      | elem a t c2 b d cs => simp [DNode.isCharData] at hlc
      | text a d => rfl
      | comment a d => rfl
    have hq' : q' = [] := by
      cases q' with
      | nil => rfl
      | cons x xs =>
        exfalso
        rw [show getSub lNode (x :: xs) = getAt lNode.childList (x :: xs) from rfl, hccl,
          getAt_nil_forest] at hsub
        cases hsub
    subst hq'
    injection heq3 with heq3
    simp only [Prod.mk.injEq] at heq3
    obtain ⟨hfr, hf3, hn3⟩ := heq3
    subst hf3
    subst hfr
    refine ⟨setCharData lNode (strDrop lNode.charData r.eO),
      modifyAt_as_setAt (ca ++ [k2]) f2 lNode _ hgAt, setCharData_shell lNode _,
      (tSplitInner_conserve lNode [] r.eO (Or.inl rfl)).symm, ?_, ?_⟩
    · cases lNode with
      | elem a t c2 b d cs => simp [DNode.isCharData] at hlc
      | text a d =>
        show strTake d r.eO ++ "" = strTake d r.eO
        exact str_append_empty _
      | comment a d =>
        show ("" : String) ++ "" = ""
        exact str_append_empty _
    · cases lNode with
      | elem a t c2 b d cs => simp [DNode.isCharData] at hlc
      | text a d => rfl
      | comment a d => rfl
  case isFalse hlc =>
    split at heq3
    case h_1 heqr => cases heq3
    case h_2 er3 heqr =>
      injection heq3 with heq3
      simp only [Prod.mk.injEq] at heq3
      obtain ⟨hfr, hf3, hn3⟩ := heq3
      subst hf3
      subst hfr
      have hl0 : lNode.nid ≠ 0 := by
        have := hpos2 lNode.nid (getAt_nid_mem f2 (ca ++ [k2]) lNode hgAt)
        omega
      have hlelem : lNode.isElem = true := by
        cases lNode with
        | elem a t c2 b d cs => rfl
        | text a d => simp [DNode.isCharData] at hlc
        | comment a d => simp [DNode.isCharData] at hlc
      have hgetE : getAt f2 ((ca ++ [k2]) ++ q') = some eNode := by
        cases q' with
        | nil =>
          rw [List.append_nil]
          cases hsub
          exact hgAt
        | cons x xs =>
          rw [getAt_append_cons, childrenAtPos_of_getAt f2 (ca ++ [k2]) lNode hcane hgAt]
          exact hsub
      have hyps3 : extractHyps f2 ⟨lNode.nid, 0, r.eN, r.eO⟩ (ca ++ [k2])
          ((ca ++ [k2]) ++ q') := by
        refine ⟨hnd2, hpos2, ?_, ?_, ?_, ?_, ?_⟩
        · show pathOfC f2 lNode.nid = some (ca ++ [k2])
          unfold pathOfC
          rw [if_neg hl0]
          exact hfp
        · show pathOfC f2 r.eN = some ((ca ++ [k2]) ++ q')
          unfold pathOfC
          rw [if_neg heN0]
          rw [← heN]
          exact findPathF_of_getAt f2 _ eNode hnd2 hgetE
        · show posLeB ((ca ++ [k2]) ++ [0]) (((ca ++ [k2]) ++ q') ++ [r.eO]) = true
          rw [List.append_assoc (ca ++ [k2]) q' [r.eO], posLeB_append_common]
          cases q' with
          | nil => exact posLeB_single 0 r.eO (Nat.zero_le _)
          | cons x xs => rw [List.cons_append]; exact posLeB_zero_cons x (xs ++ [r.eO])
        · exact Nat.zero_le _
        · show r.eO ≤ containerLen f2 ((ca ++ [k2]) ++ q')
          rw [containerLen_at f2 _ eNode (by cases ca <;> simp) hgetE]
          exact heb2
      have hstruct := extract_struct fuel f2 (nid1 + 1) _ er3 (ca ++ [k2])
        ((ca ++ [k2]) ++ q') hyps3 heqr
      have htext := tIH f2 (nid1 + 1) _ er3 (ca ++ [k2]) ((ca ++ [k2]) ++ q') hyps3 heqr
      obtain ⟨-, -, sA3, -⟩ := hstruct
      have hcp3 : commonPrefix (ca ++ [k2]) ((ca ++ [k2]) ++ q') = ca ++ [k2] :=
        commonPrefix_of_pref _ _ ⟨q', rfl⟩
      obtain ⟨X3, m3, hm3, hroots3, hshell3⟩ := by
        rw [hcp3] at sA3
        exact sA3 hcane
      rw [hgAt] at hm3
      injection hm3 with hm3
      subst hm3
      obtain ⟨A2, M2, C2, hB1, hB2, hfr2, hpt2⟩ := htext
      rw [hcp3, if_pos rfl] at hpt2
      have hXca2v : ca = [] ∨ (getAt f2 ca).isSome = true := by
        cases hcaq : ca with
        | nil => exact Or.inl rfl
        | cons a0 b0 =>
          have hgc2 : getAt f2 ((a0 :: b0) ++ [k2]) = some lNode := by
            rw [← hcaq]; exact hgAt
          obtain ⟨mq, hmq⟩ := getAt_pref_some f2 (a0 :: b0) k2 [] lNode (by simp) hgc2
          exact Or.inr (by rw [hmq]; rfl)
      have hard := tAroundF_append_cons ca f2 k2 [] hXca2v
      rw [tAroundF_one] at hard
      rw [tSplit_at_node (ca ++ [k2]) f2 lNode 0 hgAt, hard,
        tSplitNode_zero_elem lNode hlelem] at hB1
      simp only [Prod.mk.injEq] at hB1
      obtain ⟨hB1a, hB1b⟩ := hB1
      rw [tSplit_node_path f2 (ca ++ [k2]) q' r.eO lNode hgAt, hard] at hB2
      simp only [Prod.mk.injEq] at hB2
      obtain ⟨hB2a, hB2b⟩ := hB2
      have hvinner : q' = [] ∨ (lNode.isElem = true ∧
          (getAt lNode.childList q').isSome = true) := by
        cases hq : q' with
        | nil => exact Or.inl rfl
        | cons x xs =>
          refine Or.inr ⟨hlelem, ?_⟩
          rw [hq, show getSub lNode (x :: xs) = getAt lNode.childList (x :: xs) from rfl] at hsub
          rw [hsub]
          rfl
      have hconsv : textOfN lNode
          = (tSplitInner lNode q' r.eO).1 ++ (tSplitInner lNode q' r.eO).2 :=
        (tSplitInner_conserve lNode q' r.eO hvinner).symm
      -- δ1 = M2
      have hM : M2 = (tSplitInner lNode q' r.eO).1 := by
        rw [← hB1a] at hB2a
        apply str_ext
        have h9 := congrArg String.data hB2a
        simp only [str_data_append, List.append_assoc, str_data_empty, List.nil_append,
          List.append_nil, List.append_cancel_left_eq] at h9
        exact h9.symm
      have hgx3 : getAt er3.roots (ca ++ [k2]) = some X3 := by
        rw [hroots3]
        exact getAt_modifyAt_self (ca ++ [k2]) f2 lNode _ hgAt
      have har3 : tAroundF er3.roots (ca ++ [k2]) = tAroundF f2 (ca ++ [k2]) := by
        rw [hroots3]
        exact tAround_modifyAt_self (ca ++ [k2]) f2 lNode _ hgAt
      have hX3el : X3.isElem = true := by
        rw [shell_isElem X3 lNode hshell3]
        exact hlelem
      rw [tSplit_at_node (ca ++ [k2]) er3.roots X3 0 hgx3, har3, hard,
        tSplitNode_zero_elem X3 hX3el] at hpt2
      simp only [Prod.mk.injEq] at hpt2
      obtain ⟨hpt2a, hpt2b⟩ := hpt2
      have hX3t : textOfN X3 = (tSplitInner lNode q' r.eO).2 := by
        rw [← hB2b] at hpt2b
        apply str_ext
        have h9 := congrArg String.data hpt2b
        simp only [str_data_append, List.append_assoc, str_data_empty, List.nil_append,
          List.append_cancel_right_eq] at h9
        exact h9
      refine ⟨X3, hroots3, hshell3, hconsv, ?_, hX3t⟩
      · show textOfN ((shallowClone lNode nid1).withChildList er3.frag) ++ "" = _
        rw [str_append_empty,
          textOfN_withChildList _ _ (by rw [shallowClone_isElem]; exact hlelem),
          hfr2, hM]

end HLN
namespace HLN

theorem take_append_at : ∀ (a : Forest) (x : DNode) (b : Forest) (i : Nat),
    i = a.length → (a ++ x :: b).take i = a
  | [], x, b, i, hi => by subst hi; rfl
  | y :: a, x, b, i, hi => by
    subst hi
    show y :: (a ++ x :: b).take a.length = y :: a
    rw [take_append_at a x b a.length rfl]

theorem take_append_at1 : ∀ (a : Forest) (x : DNode) (b : Forest) (i : Nat),
    i = a.length → (a ++ x :: b).take (i + 1) = a ++ [x]
  | [], x, b, i, hi => by subst hi; rfl
  | y :: a, x, b, i, hi => by
    subst hi
    show y :: (a ++ x :: b).take (a.length + 1) = y :: (a ++ [x])
    rw [take_append_at1 a x b a.length rfl]

theorem drop_append_at : ∀ (a : Forest) (x : DNode) (b : Forest) (i : Nat),
    i = a.length → (a ++ x :: b).drop i = x :: b
  | [], x, b, i, hi => by subst hi; rfl
  | y :: a, x, b, i, hi => by
    subst hi
    show (a ++ x :: b).drop a.length = x :: b
    exact drop_append_at a x b a.length rfl

theorem drop_append_at1 : ∀ (a : Forest) (x : DNode) (b : Forest) (i : Nat),
    i = a.length → (a ++ x :: b).drop (i + 1) = b
  | [], x, b, i, hi => by subst hi; rfl
  | y :: a, x, b, i, hi => by
    subst hi
    show (a ++ x :: b).drop (a.length + 1) = b
    exact drop_append_at1 a x b a.length rfl

theorem getElem?_append_at (a : Forest) (x : DNode) (b : Forest) (i : Nat)
    (hi : i = a.length) : (a ++ x :: b)[i]? = some x := by
  subst hi
  exact getElem?_append_len' a x b

theorem updIdx_append_at : ∀ (a : Forest) (x : DNode) (b : Forest) (g : DNode → DNode)
    (i : Nat), i = a.length → updIdx (a ++ x :: b) i g = a ++ g x :: b
  | [], x, b, g, i, hi => by subst hi; rfl
  | y :: a, x, b, g, i, hi => by
    subst hi
    show y :: updIdx (a ++ x :: b) a.length g = y :: (a ++ g x :: b)
    rw [updIdx_append_at a x b g a.length rfl]

theorem drop_updIdx_lt : ∀ (l : Forest) (i j : Nat) (g : DNode → DNode), i < j →
    (updIdx l i g).drop j = l.drop j
  | [], _, _, _, _ => rfl
  | a :: l, 0, j + 1, g, _ => rfl
  | a :: l, i + 1, j + 1, g, h => by
    show (updIdx l i g).drop j = l.drop j
    exact drop_updIdx_lt l i j g (by omega)

theorem take_succ_of_getElem (f : Forest) (k : Nat) (c : DNode) (h : f[k]? = some c) :
    f.take (k + 1) = f.take k ++ [c] := by
  conv_lhs => rw [show f = f.take k ++ c :: f.drop (k + 1) from by
    rw [← drop_eq_cons_of_getElem? h, List.take_append_drop]]
  exact take_append_at1 (f.take k) c (f.drop (k + 1)) (k + 1 - 1)
    (by rw [List.length_take, Nat.min_eq_left (Nat.le_of_lt (getElem?_some_lt h))]; omega)

theorem containerLen_children (f : Forest) (p : List Nat)
    (hv : p = [] ∨ ∃ m, getAt f p = some m ∧ m.isElem = true) :
    containerLen f p = (childrenAtPos f p).length := by
  rcases hv with rfl | ⟨m, hm, hel⟩
  · rfl
  · have hpne : p ≠ [] := by intro hh; subst hh; cases hm
    rw [containerLen_at f p m hpne hm, childrenAtPos_of_getAt f p m hpne hm]
    cases m with
    | elem a t c b d cs => rfl
    | text a d => simp [DNode.isElem] at hel
    | comment a d => simp [DNode.isElem] at hel

theorem textOfF_drop_split (f : Forest) (lo hi : Nat) (h : lo ≤ hi) :
    textOfF (f.drop lo) = textOfF ((f.drop lo).take (hi - lo)) ++ textOfF (f.drop hi) := by
  conv_lhs => rw [textOfF_take_drop (f.drop lo) (hi - lo)]
  rw [List.drop_drop, show lo + (hi - lo) = hi from by omega]

theorem textOfF_take_split (f : Forest) (lo hi : Nat) (h : lo ≤ hi) :
    textOfF (f.take hi) = textOfF (f.take lo) ++ textOfF ((f.drop lo).take (hi - lo)) := by
  conv_lhs => rw [show hi = lo + (hi - lo) from by omega, List.take_add, textOfF_append]

theorem val_elem_modifyChildren (q : List Nat) (f : Forest) (φ : Forest → Forest)
    (hv : q = [] ∨ ∃ m, getAt f q = some m ∧ m.isElem = true) :
    q = [] ∨ ∃ m, getAt (modifyChildrenAt f q φ) q = some m ∧ m.isElem = true := by
  rcases hv with rfl | ⟨m, hm, hel⟩
  · exact Or.inl rfl
  · have hq : q ≠ [] := by intro hh; subst hh; cases hm
    refine Or.inr ⟨m.withChildList (φ m.childList), ?_, by
      rw [isElem_withChildList]; exact hel⟩
    rw [modifyChildrenAt_as_setAt q f m φ hq hm]
    exact getAt_modifyAt_self q f m _ hm

theorem val_weak (q : List Nat) (f : Forest)
    (hv : q = [] ∨ ∃ m, getAt f q = some m ∧ m.isElem = true) :
    q = [] ∨ ∃ m, getAt f q = some m := by
  rcases hv with rfl | ⟨m, hm, _⟩
  · exact Or.inl rfl
  · exact Or.inr ⟨m, hm⟩

theorem textOfF_cons (n : DNode) (l : Forest) : textOfF (n :: l) = textOfN n ++ textOfF l :=
  rfl

theorem textOfF_single (n : DNode) : textOfF [n] = textOfN n ++ "" := rfl

theorem val_isSome (q : List Nat) (f : Forest)
    (hv : q = [] ∨ ∃ m, getAt f q = some m ∧ m.isElem = true) :
    q = [] ∨ (getAt f q).isSome = true := by
  rcases hv with rfl | ⟨m, hm, _⟩
  · exact Or.inl rfl
  · exact Or.inr (by rw [hm]; rfl)

end HLN
namespace HLN

set_option maxHeartbeats 2000000 in
theorem extract_text : ∀ (fuel : Nat) (f : Forest) (nid : Nat) (r : BRange)
    (er : ExtractRes) (ps pe : List Nat),
    extractHyps f r ps pe →
    extractFuel fuel f nid r = some er →
    textExtractConc f r ps pe er := by
  intro fuel
  induction fuel with
  | zero => intro f nid r er ps pe _ h; cases h
  | succ fuel IH =>
    intro f nid r er ps pe hyps h
    obtain ⟨hnd, hpos, hps, hpe, hord, hsb, heb⟩ := hyps
    simp only [extractFuel] at h
    have hpsv : ps = [] ∨ ∃ sNode, getAt f ps = some sNode ∧ sNode.nid = r.sN := by
      rcases pathOfC_cases f r.sN ps hps with ⟨_, hp⟩ | ⟨_, m, hm, hnid2⟩
      · exact Or.inl hp
      · exact Or.inr ⟨m, hm, hnid2⟩
    have hpev : pe = [] ∨ ∃ eNode, getAt f pe = some eNode ∧ eNode.nid = r.eN := by
      rcases pathOfC_cases f r.eN pe hpe with ⟨_, hp⟩ | ⟨_, m, hm, hnid2⟩
      · exact Or.inl hp
      · exact Or.inr ⟨m, hm, hnid2⟩
    split at h
    case isTrue hcol =>
      unfold collapsedB at hcol
      rw [Bool.and_eq_true, decide_eq_true_eq, decide_eq_true_eq] at hcol
      obtain ⟨hse, hso⟩ := hcol
      rw [← hse] at hpe
      rw [hps] at hpe
      injection hpe with hpe2
      subst hpe2
      injection h with h
      subst h
      refine ⟨(tSplitF f ps r.sO).1, "", (tSplitF f ps r.sO).2, ?_, ?_, rfl, ?_⟩
      · rw [str_empty_append]
      · rw [← hso, str_append_empty]
      · rw [if_pos (commonPrefix_self ps)]
    case isFalse hncol =>
      rw [hps, hpe] at h
      split at h
      case h_2 o1 o2 hfalse => exact (hfalse ps pe rfl rfl).elim
      case h_1 o1 o2 ps2 pe2 heqp1 heqp2 =>
        injection heqp1 with heqp1
        injection heqp2 with heqp2
        subst heqp1
        subst heqp2
        split at h
        case isTrue hcd =>
          rw [Bool.and_eq_true, decide_eq_true_eq] at hcd
          obtain ⟨hse, hic⟩ := hcd
          rw [← hse] at hpe
          rw [hps] at hpe
          injection hpe with hpe2
          subst hpe2
          unfold isCharDataPos at hic
          cases hget : getAt f ps with
          | none => rw [hget] at hic; cases hic
          | some m =>
            rw [hget] at hic
            have hpsne : ps ≠ [] := by
              intro hnil
              subst hnil
              cases hget
            injection h with h
            subst h
            rw [hget]
            rw [show (Option.getD (some m) (DNode.text 0 "")) = m from rfl]
            have hsoeo : r.sO ≤ r.eO := by
              have h1 := hord
              rw [posLeB_append_common, posLeB_single_iff] at h1
              exact h1
            have hdlen : r.eO ≤ m.charData.data.length := by
              have h1 := heb
              rw [containerLen_at f ps m hpsne hget] at h1
              cases m with
              | elem a t c b d cs => simp [DNode.isCharData] at hic
              | text a d => exact h1
              | comment a d => exact h1
            have hAr := tAround_modifyAt_self ps f m
              (fun n => setCharData n (delSlice m.charData r.sO r.eO)) hget
            have hgm2 : getAt (modifyAt f ps
                (fun n => setCharData n (delSlice m.charData r.sO r.eO))) ps =
                some (setCharData m (delSlice m.charData r.sO r.eO)) :=
              getAt_modifyAt_self ps f m _ hget
            cases m with
            | elem a t c b d cs => simp [DNode.isCharData] at hic
            | text i d =>
              have helen : r.eO ≤ d.data.length := hdlen
              have hslen : r.sO ≤ d.data.length := by omega
              refine ⟨(tAroundF f ps).1 ++ strTake d r.sO, substringMk d r.sO r.eO,
                strDrop d r.eO ++ (tAroundF f ps).2, ?_, ?_, ?_, ?_⟩
              · rw [tSplit_at_node ps f (.text i d) r.sO hget]
                show ((tAroundF f ps).1 ++ strTake d r.sO, strDrop d r.sO ++ (tAroundF f ps).2)
                  = _
                rw [strDrop_split d r.sO r.eO hsoeo hslen]
                simp only [Prod.mk.injEq, true_and, and_true]
                apply str_ext
                simp only [str_data_append, List.append_assoc]
              · rw [tSplit_at_node ps f (.text i d) r.eO hget]
                show ((tAroundF f ps).1 ++ strTake d r.eO, strDrop d r.eO ++ (tAroundF f ps).2)
                  = _
                rw [strTake_split d r.sO r.eO hsoeo]
                simp only [Prod.mk.injEq, true_and, and_true]
                apply str_ext
                simp only [str_data_append, List.append_assoc]
              · show substringMk d r.sO r.eO ++ "" = substringMk d r.sO r.eO
                exact str_append_empty _
              · rw [if_pos (commonPrefix_self ps)]
                show tSplitF (modifyAt f ps _) ps r.sO = _
                rw [tSplit_at_node ps _ (setCharData (.text i d) (delSlice d r.sO r.eO))
                  r.sO hgm2, hAr]
                show ((tAroundF f ps).1 ++ strTake (delSlice d r.sO r.eO) r.sO,
                  strDrop (delSlice d r.sO r.eO) r.sO ++ (tAroundF f ps).2) = _
                rw [strTake_delSlice d r.sO r.eO hslen,
                  strDrop_delSlice d r.sO r.eO hsoeo helen]
            | comment i d =>
              refine ⟨(tAroundF f ps).1, "", (tAroundF f ps).2, ?_, ?_, ?_, ?_⟩
              · rw [tSplit_at_node ps f (.comment i d) r.sO hget]
                show ((tAroundF f ps).1 ++ "", "" ++ (tAroundF f ps).2) = _
                rw [str_append_empty, str_empty_append]
              · rw [tSplit_at_node ps f (.comment i d) r.eO hget]
                show ((tAroundF f ps).1 ++ "", "" ++ (tAroundF f ps).2) = _
                rw [str_append_empty, str_empty_append]
              · show ("" : String) ++ "" = ""
                exact str_append_empty _
              · rw [if_pos (commonPrefix_self ps)]
                show tSplitF (modifyAt f ps _) ps r.sO = _
                rw [tSplit_at_node ps _ (setCharData (.comment i d) (delSlice d r.sO r.eO))
                  r.sO hgm2, hAr]
                show ((tAroundF f ps).1 ++ "", "" ++ (tAroundF f ps).2) = _
                rw [str_append_empty, str_empty_append]
        case isFalse hcd =>
          split at h
          case h_1 o3 heq1 => cases h
          case h_2 o3 frag1 f1 nid1 heq1 =>
            split at h
            case h_1 o4 heq3 => cases h
            case h_2 o4 frag3 f3 nid3 heq3 =>
              injection h with h
              subst h
              split at heq1
              case isTrue hsd =>
                have hsInc : commonPrefix ps pe = ps := of_decide_eq_true hsd
                rw [show extractPhase1 (extractFuel fuel) f nid r (commonPrefix ps pe) none =
                  some ([], f, nid) from rfl] at heq1
                injection heq1 with heq1
                simp only [Prod.mk.injEq] at heq1
                obtain ⟨hfr1, hf1, hn1⟩ := heq1
                subst hf1
                subst hfr1
                rw [hsInc] at heq3 ⊢
                split at heq3
                case isTrue hed =>
                  have heInc : ps = pe := of_decide_eq_true hed
                  subst heInc
                  simp only [extractPhase3] at heq3
                  injection heq3 with heq3
                  simp only [Prod.mk.injEq] at heq3
                  obtain ⟨hfr3, hf3, hn3⟩ := heq3
                  subst hf3
                  subst hfr3
                  have hsoeo : r.sO ≤ r.eO := by
                    have h1 := hord
                    rw [posLeB_append_common] at h1
                    exact (posLeB_single_iff _ _).mp h1
                  have hvalCA : ps = [] ∨ ∃ m, getAt f ps = some m ∧ m.isElem = true := by
                    rcases hpsv with hnil | ⟨sNode, hgs, hsnid⟩
                    · exact Or.inl hnil
                    · refine Or.inr ⟨sNode, hgs, ?_⟩
                      obtain ⟨eNode, hge, henid⟩ := hpev.resolve_left
                        (by intro hh; rw [hh] at hgs; cases hgs)
                      rw [hgs] at hge
                      injection hge with hge
                      have hseq : r.sN = r.eN := by rw [← hsnid, ← henid, hge]
                      have hicf : isCharDataPos f ps = false := by
                        cases hicq : isCharDataPos f ps
                        · rfl
                        · exact absurd (by rw [decide_eq_true hseq, hicq]; rfl) hcd
                      unfold isCharDataPos at hicf
                      rw [hgs] at hicf
                      cases sNode with
                      | elem a t c b d cs => rfl
                      | text a d => simp [DNode.isCharData] at hicf
                      | comment a d => simp [DNode.isCharData] at hicf
                  have hkl : containerLen f ps = (childrenAtPos f ps).length :=
                    containerLen_children f ps hvalCA
                  have hsOlen : r.sO ≤ (childrenAtPos f ps).length := by rw [← hkl]; exact hsb
                  have heOlen : r.eO ≤ (childrenAtPos f ps).length := by rw [← hkl]; exact heb
                  have hndK : (idsF (childrenAtPos f ps)).Nodup :=
                    nodup_children_at f ps hnd (val_isSome ps f hvalCA)
                  have hchar := contained_iff_interval ps ps ps r.sO r.eO r.sO r.eO
                    (Or.inl ⟨rfl, rfl⟩) (Or.inl ⟨rfl, rfl⟩)
                  have hkeep := keep_pred_iff (childrenAtPos f ps) (childrenAtPos f ps)
                    ps ps ps r.sO r.eO r.sO r.eO hndK (fun m x hx => ⟨x, hx, rfl⟩) hchar
                  have hfil := filter_interval (childrenAtPos f ps)
                    (fun n => (((childrenAtPos f ps).enum.filter
                      (fun x => containedPos ps r.sO ps r.eO (ps ++ [x.1]))).map
                      (fun x => x.2.nid)).contains n.nid) r.sO r.eO hsoeo hkeep
                  have hchF2 : childrenAtPos (modifyChildrenAt f ps
                      (fun cs => cs.filter (fun n => !((((childrenAtPos f ps).enum.filter
                        (fun x => containedPos ps r.sO ps r.eO (ps ++ [x.1]))).map
                        (fun x => x.2.nid)).contains n.nid)))) ps =
                      (childrenAtPos f ps).take r.sO ++ (childrenAtPos f ps).drop r.eO := by
                    rw [childrenAt_modifyChildren_self ps f _ hvalCA]
                    exact hfil.1
                  have hvalF2 := val_elem_modifyChildren ps f
                    (fun cs => cs.filter (fun n => !((((childrenAtPos f ps).enum.filter
                      (fun x => containedPos ps r.sO ps r.eO (ps ++ [x.1]))).map
                      (fun x => x.2.nid)).contains n.nid))) hvalCA
                  have hAr2 := tAround_modifyChildren_self ps f
                    (fun cs => cs.filter (fun n => !((((childrenAtPos f ps).enum.filter
                      (fun x => containedPos ps r.sO ps r.eO (ps ++ [x.1]))).map
                      (fun x => x.2.nid)).contains n.nid))) (val_weak ps f hvalCA)
                  refine ⟨(tAroundF f ps).1 ++ textOfF ((childrenAtPos f ps).take r.sO),
                    textOfF (((childrenAtPos f ps).drop r.sO).take (r.eO - r.sO)),
                    textOfF ((childrenAtPos f ps).drop r.eO) ++ (tAroundF f ps).2,
                    ?_, ?_, ?_, ?_⟩
                  · rw [tSplit_container f ps r.sO hvalCA,
                      textOfF_drop_split (childrenAtPos f ps) r.sO r.eO hsoeo]
                    simp only [Prod.mk.injEq, true_and, and_true]
                    apply str_ext
                    simp only [str_data_append, List.append_assoc]
                  · rw [tSplit_container f ps r.eO hvalCA,
                      textOfF_take_split (childrenAtPos f ps) r.sO r.eO hsoeo]
                    simp only [Prod.mk.injEq, true_and, and_true]
                    apply str_ext
                    simp only [str_data_append, List.append_assoc]
                  · show textOfF ([] ++ (childrenAtPos f ps).filter _ ++ []) = _
                    rw [textOfF_append, textOfF_append, hfil.2,
                      show textOfF ([] : Forest) = "" from rfl]
                    apply str_ext
                    simp only [str_data_append, str_data_empty, List.append_assoc,
                      List.append_nil, List.nil_append]
                  · rw [if_pos (commonPrefix_self ps)]
                    show tSplitF (modifyChildrenAt f ps _) ps r.sO = _
                    rw [tSplit_container _ ps r.sO hvalF2, hAr2, hchF2,
                      List.take_append_of_le_length (by
                        rw [List.length_take]; exact Nat.le_min.mpr ⟨Nat.le_refl _, hsOlen⟩),
                      List.take_take, Nat.min_self,
                      List.drop_append_of_le_length (by
                        rw [List.length_take]; exact Nat.le_min.mpr ⟨Nat.le_refl _, hsOlen⟩),
                      List.drop_eq_nil_of_le (by
                        rw [List.length_take]; exact Nat.min_le_left _ _),
                      List.nil_append]
                case isFalse hed =>
                  have heNot : ps ≠ pe := fun hh => hed (decide_eq_true hh)
                  have hprefE : isPref ps pe := by
                    have h0 := commonPrefix_pref_right ps pe
                    rw [hsInc] at h0
                    exact h0
                  obtain ⟨b, q', hdecE⟩ := isPref_decompose ps pe hprefE heNot
                  have hpene : pe ≠ [] := by rw [hdecE]; cases ps <;> simp
                  obtain ⟨eNode, hge, heNid⟩ := hpev.resolve_left hpene
                  have hpeidx : pe[ps.length]? = some b := by
                    have h0 := getElem?_append_len ps b q'
                    rw [← hdecE] at h0
                    exact h0
                  have hgeE : getAt f (ps ++ b :: q') = some eNode := by
                    rw [← hdecE]
                    exact hge
                  rw [getAt_append_cons, getAt_cons_bind] at hgeE
                  cases hlb : (childrenAtPos f ps)[b]? with
                  | none => rw [hlb] at hgeE; cases hgeE
                  | some lNode =>
                    rw [hlb] at hgeE
                    simp only [Option.some_bind] at hgeE
                    simp only [hpeidx, hlb] at heq3
                    have hvalCA : ps = [] ∨ ∃ m, getAt f ps = some m ∧ m.isElem = true := by
                      rcases hpsv with hnil | ⟨sNode, hgs, _⟩
                      · exact Or.inl hnil
                      · have hpsne : ps ≠ [] := by
                          intro hh
                          rw [hh] at hgs
                          cases hgs
                        exact Or.inr ⟨sNode, hgs,
                          elem_of_child f ps sNode b lNode hpsne hgs hlb⟩
                    have hkl : containerLen f ps = (childrenAtPos f ps).length :=
                      containerLen_children f ps hvalCA
                    have hsOlen : r.sO ≤ (childrenAtPos f ps).length := by
                      rw [← hkl]; exact hsb
                    have hndK : (idsF (childrenAtPos f ps)).Nodup :=
                      nodup_children_at f ps hnd (val_isSome ps f hvalCA)
                    have hsoB : r.sO ≤ b := by
                      have h1 := hord
                      rw [hdecE, show (ps ++ b :: q') ++ [r.eO] =
                        ps ++ (b :: (q' ++ [r.eO])) from by simp,
                        posLeB_append_common] at h1
                      exact (posLeB_single_consz_iff r.sO b (q' ++ [r.eO])
                        (by cases q' <;> simp)).mp h1
                    set cIds : List Nat := ((childrenAtPos f ps).enum.filter
                      (fun x => containedPos ps r.sO pe r.eO (ps ++ [x.1]))).map
                      (fun x => x.2.nid) with hcIds
                    set kp : DNode → Bool := fun n => !(cIds.contains n.nid) with hkp
                    set F2 : Forest := modifyChildrenAt f ps
                      (fun cs => List.filter kp cs) with hF2
                    have hchar := contained_iff_interval ps ps pe r.sO r.eO r.sO b
                      (Or.inl ⟨rfl, rfl⟩) (Or.inr ⟨b, q', hdecE, rfl⟩)
                    have hkeep := keep_pred_iff (childrenAtPos f ps) (childrenAtPos f ps)
                      ps ps pe r.sO r.eO r.sO b hndK (fun m x hx => ⟨x, hx, rfl⟩) hchar
                    have hfil := filter_interval (childrenAtPos f ps)
                      (fun n => cIds.contains n.nid) r.sO b hsoB hkeep
                    have hchF2 : childrenAtPos F2 ps =
                        (childrenAtPos f ps).take r.sO ++ (childrenAtPos f ps).drop b := by
                      rw [hF2, childrenAt_modifyChildren_self ps f _ hvalCA]
                      exact hfil.1
                    have hkids2 : childrenAtPos F2 ps =
                        (childrenAtPos f ps).take r.sO ++
                          lNode :: (childrenAtPos f ps).drop (b + 1) := by
                      rw [hchF2, drop_eq_cons_of_getElem? hlb]
                    have hvalF2 : ps = [] ∨ ∃ m, getAt F2 ps = some m ∧ m.isElem = true := by
                      rw [hF2]
                      exact val_elem_modifyChildren ps f _ hvalCA
                    have hArF2 : tAroundF F2 ps = tAroundF f ps := by
                      rw [hF2]
                      exact tAround_modifyChildren_self ps f _ (val_weak ps f hvalCA)
                    have hgAt : getAt F2 (ps ++ [r.sO]) = some lNode := by
                      rw [getAt_append_one, hkids2]
                      exact getElem?_append_at _ lNode _ r.sO
                        (by rw [List.length_take, Nat.min_eq_left hsOlen])
                    have hsubF2 : (idsF F2).Sublist (idsF f) := by
                      rw [hF2]
                      exact subl_idsF_modifyChildrenAt _ (fun cs => subl_idsF_filter _ cs) ps f
                    have hnd2 : (idsF F2).Nodup := List.Nodup.sublist hsubF2 hnd
                    have hpos2 : ∀ i ∈ idsF F2, 0 < i := fun i hi => hpos i (hsubF2.subset hi)
                    have heN0 : r.eN ≠ 0 := by
                      have := hpos eNode.nid (getAt_nid_mem f pe eNode hge)
                      rw [heNid] at this
                      omega
                    have heb2 : r.eO ≤ eNode.domLen := by
                      rw [← containerLen_at f pe eNode hpene hge]
                      exact heb
                    obtain ⟨X3, hf3s, hsh3, hconsvL, hfr3, hX3⟩ := phase3_text fuel IH
                      F2 nid1 r ps r.sO q' lNode eNode frag3 f3 nid3
                      hnd2 hpos2 hgAt hgeE heNid heN0 heb2 heq3
                    refine ⟨(tAroundF f ps).1 ++ textOfF ((childrenAtPos f ps).take r.sO),
                      textOfF (((childrenAtPos f ps).drop r.sO).take (b - r.sO)) ++
                        (tSplitInner lNode q' r.eO).1,
                      (tSplitInner lNode q' r.eO).2 ++
                        (textOfF ((childrenAtPos f ps).drop (b + 1)) ++ (tAroundF f ps).2),
                      ?_, ?_, ?_, ?_⟩
                    · rw [tSplit_container f ps r.sO hvalCA,
                        textOfF_drop_split (childrenAtPos f ps) r.sO b hsoB,
                        drop_eq_cons_of_getElem? hlb, textOfF_cons, hconsvL]
                      simp only [Prod.mk.injEq, true_and, and_true]
                      apply str_ext
                      simp only [str_data_append, List.append_assoc]
                    · rw [hdecE, tSplitF_append_cons ps f b q' r.eO (val_isSome ps f hvalCA),
                        tSplit_cons_node (childrenAtPos f ps) b q' r.eO lNode hlb,
                        textOfF_take_split (childrenAtPos f ps) r.sO b hsoB]
                      simp only [Prod.mk.injEq]
                      constructor
                      · apply str_ext
                        simp only [str_data_append, List.append_assoc]
                      · apply str_ext
                        simp only [str_data_append, List.append_assoc]
                    · show textOfF ([] ++ (childrenAtPos f ps).filter _ ++ frag3) = _
                      rw [textOfF_append, textOfF_append, hfil.2, hfr3,
                        show textOfF ([] : Forest) = "" from rfl]
                      apply str_ext
                      simp only [str_data_append, str_data_empty, List.append_assoc,
                        List.append_nil, List.nil_append]
                    · rw [if_pos hsInc]
                      show tSplitF f3 ps r.sO = _
                      rw [hf3s, show setAt F2 (ps ++ [r.sO]) X3 =
                        modifyChildrenAt F2 ps (fun cs => updIdx cs r.sO (fun _ => X3)) from
                        modifyAt_append_one ps r.sO F2 _]
                      have hvalF3 := val_elem_modifyChildren ps F2
                        (fun cs => updIdx cs r.sO (fun _ => X3)) hvalF2
                      rw [tSplit_container _ ps r.sO hvalF3,
                        tAround_modifyChildren_self ps F2 _ (val_weak ps F2 hvalF2), hArF2,
                        childrenAt_modifyChildren_self ps F2 _ hvalF2, hkids2,
                        updIdx_append_at _ lNode _ _ r.sO
                          (by rw [List.length_take, Nat.min_eq_left hsOlen]),
                        take_append_at _ _ _ r.sO
                          (by rw [List.length_take, Nat.min_eq_left hsOlen]),
                        drop_append_at _ _ _ r.sO
                          (by rw [List.length_take, Nat.min_eq_left hsOlen]),
                        textOfF_cons, hX3]
                      simp only [Prod.mk.injEq, true_and, and_true]
                      apply str_ext
                      simp only [str_data_append, List.append_assoc]
              case isFalse hsd =>
                set CA : List Nat := commonPrefix ps pe with hCA
                have hsNot : CA ≠ ps := fun hh => hsd (decide_eq_true (hCA ▸ hh))
                obtain ⟨k, rest, hdecS⟩ :=
                  isPref_decompose CA ps (hCA ▸ commonPrefix_pref_left ps pe) hsNot
                have hpsne : ps ≠ [] := by rw [hdecS]; cases CA <;> simp
                obtain ⟨sNode, hgs, hsNid⟩ := hpsv.resolve_left hpsne
                have hpsidx : ps[CA.length]? = some k := by
                  have h0 := getElem?_append_len CA k rest
                  rw [← hdecS] at h0
                  exact h0
                rw [hpsidx] at heq1
                have hgsS : getAt f (CA ++ k :: rest) = some sNode := by
                  rw [← hdecS]; exact hgs
                have hgc : ∃ c, getAt f (CA ++ [k]) = some c := by
                  cases rest with
                  | nil => exact ⟨sNode, hgsS⟩
                  | cons x xs =>
                    rw [show CA ++ k :: x :: xs = (CA ++ [k]) ++ x :: xs by simp] at hgsS
                    exact getAt_pref_some f (CA ++ [k]) x xs sNode (by cases CA <;> simp) hgsS
                obtain ⟨c, hgc⟩ := hgc
                have IHs : ∀ (f : Forest) (nid : Nat) (r : BRange) (er : ExtractRes)
                    (ps pe : List Nat), extractHyps f r ps pe →
                    extractFuel fuel f nid r = some er → extractConc f r ps pe er :=
                  fun f2 nid2 r2 er2 ps2 pe2 hy he =>
                    extract_struct fuel f2 nid2 r2 er2 ps2 pe2 hy he
                obtain ⟨X1o, hf1so, hsh1o, hsub1, hlo1⟩ := phase1_out fuel IHs f nid r
                  CA k rest ps c sNode frag1 f1 nid1 hnd hpos hdecS hgc hgs hps hsb heq1
                obtain ⟨X1, hf1s, hsh1, hconsvC, hfr1, hX1⟩ := phase1_text fuel IH f nid r
                  CA k rest ps c sNode frag1 f1 nid1 hnd hpos hdecS hgc hgs hps hsb heq1
                have hbK : (childrenAtPos f CA)[k]? = some c := by
                  rw [← getAt_append_one]
                  exact hgc
                have hkLen : k < (childrenAtPos f CA).length := getElem?_some_lt hbK
                have hvalCA : CA = [] ∨ ∃ m, getAt f CA = some m ∧ m.isElem = true := by
                  cases hq : CA with
                  | nil => exact Or.inl rfl
                  | cons a bq =>
                    rw [hq] at hgsS hbK
                    obtain ⟨caN, hcaN⟩ :=
                      getAt_pref_some f (a :: bq) k rest sNode (by simp) hgsS
                    exact Or.inr ⟨caN, hcaN,
                      elem_of_child f (a :: bq) caN k c (by simp) hcaN hbK⟩
                have hf1mc : f1 = modifyChildrenAt f CA
                    (fun cs => updIdx cs k (fun _ => X1)) := by
                  rw [hf1s]
                  exact modifyAt_append_one CA k f _
                have hchF1 : childrenAtPos f1 CA =
                    updIdx (childrenAtPos f CA) k (fun _ => X1) := by
                  rw [hf1mc]
                  exact childrenAt_modifyChildren_self CA f _ hvalCA
                have hvalCA1 : CA = [] ∨ ∃ m, getAt f1 CA = some m ∧ m.isElem = true := by
                  rw [hf1mc]
                  exact val_elem_modifyChildren CA f _ hvalCA
                have hArF1 : tAroundF f1 CA = tAroundF f CA := by
                  rw [hf1mc]
                  exact tAround_modifyChildren_self CA f _ (val_weak CA f hvalCA)
                have hndK : (idsF (childrenAtPos f CA)).Nodup :=
                  nodup_children_at f CA hnd (val_isSome CA f hvalCA)
                have hnidmap : ∀ (m : Nat) (x : DNode),
                    (childrenAtPos f1 CA)[m]? = some x →
                    ∃ y, (childrenAtPos f CA)[m]? = some y ∧ x.nid = y.nid := by
                  intro m x hx
                  rw [hchF1] at hx
                  by_cases hmk : m = k
                  · subst hmk
                    rw [updIdx_get_eq, hbK] at hx
                    simp only [Option.map_some'] at hx
                    injection hx with hx
                    exact ⟨c, hbK, by rw [← hx]; exact shellOf_nid X1 c hsh1⟩
                  · rw [updIdx_get_ne _ k m _ (fun hh => hmk hh.symm)] at hx
                    exact ⟨x, hx, rfl⟩
                split at heq3
                case isTrue hed =>
                  have heInc : CA = pe := of_decide_eq_true hed
                  have hkeO : k < r.eO := by
                    have h1 := hord
                    rw [hdecS, ← heInc,
                      show (CA ++ k :: rest) ++ [r.sO] = CA ++ (k :: (rest ++ [r.sO]))
                        from by simp,
                      posLeB_append_common] at h1
                    exact (posLeB_consz_single_iff k (rest ++ [r.sO]) r.eO
                      (by cases rest <;> simp)).mp h1
                  have heOlen : r.eO ≤ (childrenAtPos f CA).length := by
                    rw [← containerLen_children f CA hvalCA, heInc]
                    exact heb
                  set cIds : List Nat := ((childrenAtPos f CA).enum.filter
                    (fun x => containedPos ps r.sO pe r.eO (CA ++ [x.1]))).map
                    (fun x => x.2.nid) with hcIds
                  set kp : DNode → Bool := fun n => !(cIds.contains n.nid) with hkp
                  set F2 : Forest := modifyChildrenAt f1 CA
                    (fun cs => List.filter kp cs) with hF2
                  simp only [extractPhase3] at heq3
                  injection heq3 with heq3
                  simp only [Prod.mk.injEq] at heq3
                  obtain ⟨hfr3, hf3, hn3⟩ := heq3
                  subst hf3
                  subst hfr3
                  have hchar := contained_iff_interval CA ps pe r.sO r.eO (k + 1) r.eO
                    (Or.inr ⟨k, rest, hdecS, rfl⟩) (Or.inl ⟨heInc.symm, rfl⟩)
                  have hkeep := keep_pred_iff (childrenAtPos f CA) (childrenAtPos f1 CA)
                    CA ps pe r.sO r.eO (k + 1) r.eO hndK hnidmap hchar
                  have hfil := filter_interval (childrenAtPos f1 CA)
                    (fun n => cIds.contains n.nid) (k + 1) r.eO (by omega) hkeep
                  have hchF2 : childrenAtPos F2 CA =
                      (childrenAtPos f1 CA).take (k + 1) ++
                        (childrenAtPos f1 CA).drop r.eO := by
                    rw [hF2, childrenAt_modifyChildren_self CA f1 _ hvalCA1]
                    exact hfil.1
                  have hk1take : (childrenAtPos f1 CA).take (k + 1) =
                      (childrenAtPos f CA).take k ++ [X1] := by
                    rw [hchF1, updIdx_eq_append _ k _ c hbK]
                    exact take_append_at1 _ _ _ k
                      (by rw [List.length_take, Nat.min_eq_left (Nat.le_of_lt hkLen)])
                  have hk1drop : (childrenAtPos f1 CA).drop r.eO =
                      (childrenAtPos f CA).drop r.eO := by
                    rw [hchF1]
                    exact drop_updIdx_lt _ k r.eO _ hkeO
                  have hmoved := hfil.2
                  rw [show (childrenAtPos f1 CA).drop (k + 1) =
                    (childrenAtPos f CA).drop (k + 1) from by
                      rw [hchF1]; exact drop_updIdx_eq _ k _] at hmoved
                  have hvalF2 : CA = [] ∨ ∃ m, getAt F2 CA = some m ∧ m.isElem = true := by
                    rw [hF2]
                    exact val_elem_modifyChildren CA f1 _ hvalCA1
                  have hArF2 : tAroundF F2 CA = tAroundF f CA := by
                    rw [hF2, tAround_modifyChildren_self CA f1 _ (val_weak CA f1 hvalCA1)]
                    exact hArF1
                  refine ⟨(tAroundF f CA).1 ++
                      (textOfF ((childrenAtPos f CA).take k) ++ (tSplitInner c rest r.sO).1),
                    (tSplitInner c rest r.sO).2 ++
                      textOfF (((childrenAtPos f CA).drop (k + 1)).take (r.eO - (k + 1))),
                    textOfF ((childrenAtPos f CA).drop r.eO) ++ (tAroundF f CA).2,
                    ?_, ?_, ?_, ?_⟩
                  · rw [hdecS, tSplitF_append_cons CA f k rest r.sO (val_isSome CA f hvalCA),
                      tSplit_cons_node (childrenAtPos f CA) k rest r.sO c hbK,
                      textOfF_drop_split (childrenAtPos f CA) (k + 1) r.eO (by omega)]
                    simp only [Prod.mk.injEq, true_and, and_true]
                    apply str_ext
                    simp only [str_data_append, List.append_assoc]
                  · rw [← heInc, tSplit_container f CA r.eO hvalCA,
                      textOfF_take_split (childrenAtPos f CA) (k + 1) r.eO (by omega),
                      take_succ_of_getElem (childrenAtPos f CA) k c hbK,
                      textOfF_append, textOfF_single, hconsvC]
                    simp only [Prod.mk.injEq, true_and, and_true]
                    apply str_ext
                    simp only [str_data_append, str_data_empty, List.append_assoc,
                      List.append_nil, List.nil_append]
                  · show textOfF (frag1 ++ (childrenAtPos f1 CA).filter _ ++ []) = _
                    rw [textOfF_append, textOfF_append, hmoved, hfr1,
                      show textOfF ([] : Forest) = "" from rfl]
                    apply str_ext
                    simp only [str_data_append, str_data_empty, List.append_assoc,
                      List.append_nil, List.nil_append]
                  · rw [if_neg hsNot]
                    show tSplitF F2 CA (ps.getD CA.length 0 + 1) = _
                    rw [hdecS, getD_append_len CA k rest,
                      tSplit_container F2 CA (k + 1) hvalF2, hArF2, hchF2, hk1take, hk1drop]
                    rw [show ((childrenAtPos f CA).take k ++ [X1]) ++
                        (childrenAtPos f CA).drop r.eO =
                        (childrenAtPos f CA).take k ++
                          X1 :: (childrenAtPos f CA).drop r.eO from by
                      simp only [List.append_assoc, List.cons_append, List.nil_append]]
                    rw [take_append_at1 _ _ _ k
                        (by rw [List.length_take, Nat.min_eq_left (Nat.le_of_lt hkLen)]),
                      drop_append_at1 _ _ _ k
                        (by rw [List.length_take, Nat.min_eq_left (Nat.le_of_lt hkLen)]),
                      textOfF_append, textOfF_single, hX1]
                    simp only [Prod.mk.injEq, true_and, and_true]
                    apply str_ext
                    simp only [str_data_append, str_data_empty, List.append_assoc,
                      List.append_nil, List.nil_append]
                case isFalse hed =>
                  have heNot : CA ≠ pe := fun hh => hed (decide_eq_true hh)
                  obtain ⟨b, q', hdecE⟩ :=
                    isPref_decompose CA pe (hCA ▸ commonPrefix_pref_right ps pe) heNot
                  have hpene : pe ≠ [] := by rw [hdecE]; cases CA <;> simp
                  obtain ⟨eNode, hge, heNid⟩ := hpev.resolve_left hpene
                  have hpeidx : pe[CA.length]? = some b := by
                    have h0 := getElem?_append_len CA b q'
                    rw [← hdecE] at h0
                    exact h0
                  have hgeE : getAt f (CA ++ b :: q') = some eNode := by
                    rw [← hdecE]
                    exact hge
                  rw [getAt_append_cons, getAt_cons_bind] at hgeE
                  cases hlb : (childrenAtPos f CA)[b]? with
                  | none => rw [hlb] at hgeE; cases hgeE
                  | some lNode =>
                    rw [hlb] at hgeE
                    simp only [Option.some_bind] at hgeE
                    simp only [hpeidx, hlb] at heq3
                    have hkb : k < b := by
                      have hne : k ≠ b := commonPrefix_head_ne ps pe k b rest q'
                        (by rw [← hCA]; exact hdecS) (by rw [← hCA]; exact hdecE)
                      have h0 : posLeB (k :: (rest ++ [r.sO]))
                          (b :: (q' ++ [r.eO])) = true := by
                        have h1 := hord
                        rw [hdecS, hdecE,
                          show (CA ++ k :: rest) ++ [r.sO] = CA ++ (k :: (rest ++ [r.sO]))
                            from by simp,
                          show (CA ++ b :: q') ++ [r.eO] = CA ++ (b :: (q' ++ [r.eO]))
                            from by simp,
                          posLeB_append_common] at h1
                        exact h1
                      exact posLeB_cons_ne h0 hne
                    set cIds : List Nat := ((childrenAtPos f CA).enum.filter
                      (fun x => containedPos ps r.sO pe r.eO (CA ++ [x.1]))).map
                      (fun x => x.2.nid) with hcIds
                    set kp : DNode → Bool := fun n => !(cIds.contains n.nid) with hkp
                    set F2 : Forest := modifyChildrenAt f1 CA
                      (fun cs => List.filter kp cs) with hF2
                    have hchar := contained_iff_interval CA ps pe r.sO r.eO (k + 1) b
                      (Or.inr ⟨k, rest, hdecS, rfl⟩) (Or.inr ⟨b, q', hdecE, rfl⟩)
                    have hkeep := keep_pred_iff (childrenAtPos f CA) (childrenAtPos f1 CA)
                      CA ps pe r.sO r.eO (k + 1) b hndK hnidmap hchar
                    have hfil := filter_interval (childrenAtPos f1 CA)
                      (fun n => cIds.contains n.nid) (k + 1) b (by omega) hkeep
                    have hchF2 : childrenAtPos F2 CA =
                        (childrenAtPos f1 CA).take (k + 1) ++
                          (childrenAtPos f1 CA).drop b := by
                      rw [hF2, childrenAt_modifyChildren_self CA f1 _ hvalCA1]
                      exact hfil.1
                    have hk1take : (childrenAtPos f1 CA).take (k + 1) =
                        (childrenAtPos f CA).take k ++ [X1] := by
                      rw [hchF1, updIdx_eq_append _ k _ c hbK]
                      exact take_append_at1 _ _ _ k
                        (by rw [List.length_take, Nat.min_eq_left (Nat.le_of_lt hkLen)])
                    have hk1drop : (childrenAtPos f1 CA).drop b =
                        lNode :: (childrenAtPos f CA).drop (b + 1) := by
                      rw [hchF1, drop_updIdx_lt _ k b _ hkb]
                      exact drop_eq_cons_of_getElem? hlb
                    have hkids2 : childrenAtPos F2 CA =
                        ((childrenAtPos f CA).take k ++ [X1]) ++
                          lNode :: (childrenAtPos f CA).drop (b + 1) := by
                      rw [hchF2, hk1take, hk1drop]
                    have hlen1 : k + 1 = ((childrenAtPos f CA).take k ++ [X1]).length := by
                      rw [List.length_append, List.length_take,
                        Nat.min_eq_left (Nat.le_of_lt hkLen)]
                      rfl
                    have hmoved := hfil.2
                    rw [show (childrenAtPos f1 CA).drop (k + 1) =
                      (childrenAtPos f CA).drop (k + 1) from by
                        rw [hchF1]; exact drop_updIdx_eq _ k _] at hmoved
                    have hvalF2 : CA = [] ∨ ∃ m, getAt F2 CA = some m ∧ m.isElem = true := by
                      rw [hF2]
                      exact val_elem_modifyChildren CA f1 _ hvalCA1
                    have hArF2 : tAroundF F2 CA = tAroundF f CA := by
                      rw [hF2, tAround_modifyChildren_self CA f1 _ (val_weak CA f1 hvalCA1)]
                      exact hArF1
                    have hgAt : getAt F2 (CA ++ [k + 1]) = some lNode := by
                      rw [getAt_append_one, hkids2]
                      exact getElem?_append_at _ lNode _ (k + 1) hlen1
                    have hsubF2 : (idsF F2).Sublist (idsF f) := by
                      rw [hF2]
                      exact (subl_idsF_modifyChildrenAt _
                        (fun cs => subl_idsF_filter _ cs) CA f1).trans hsub1
                    have hnd2 : (idsF F2).Nodup := List.Nodup.sublist hsubF2 hnd
                    have hpos2 : ∀ i ∈ idsF F2, 0 < i := fun i hi =>
                      hpos i (hsubF2.subset hi)
                    have heN0 : r.eN ≠ 0 := by
                      have := hpos eNode.nid (getAt_nid_mem f pe eNode hge)
                      rw [heNid] at this
                      omega
                    have heb2 : r.eO ≤ eNode.domLen := by
                      rw [← containerLen_at f pe eNode hpene hge]
                      exact heb
                    obtain ⟨X3, hf3s, hsh3, hconsvL, hfr3, hX3⟩ := phase3_text fuel IH
                      F2 nid1 r CA (k + 1) q' lNode eNode frag3 f3 nid3
                      hnd2 hpos2 hgAt hgeE heNid heN0 heb2 heq3
                    refine ⟨(tAroundF f CA).1 ++
                        (textOfF ((childrenAtPos f CA).take k) ++
                          (tSplitInner c rest r.sO).1),
                      (tSplitInner c rest r.sO).2 ++
                        (textOfF (((childrenAtPos f CA).drop (k + 1)).take (b - (k + 1))) ++
                          (tSplitInner lNode q' r.eO).1),
                      (tSplitInner lNode q' r.eO).2 ++
                        (textOfF ((childrenAtPos f CA).drop (b + 1)) ++ (tAroundF f CA).2),
                      ?_, ?_, ?_, ?_⟩
                    · rw [hdecS,
                        tSplitF_append_cons CA f k rest r.sO (val_isSome CA f hvalCA),
                        tSplit_cons_node (childrenAtPos f CA) k rest r.sO c hbK,
                        textOfF_drop_split (childrenAtPos f CA) (k + 1) b (by omega),
                        drop_eq_cons_of_getElem? hlb, textOfF_cons, hconsvL]
                      simp only [Prod.mk.injEq, true_and, and_true]
                      apply str_ext
                      simp only [str_data_append, List.append_assoc]
                    · rw [hdecE,
                        tSplitF_append_cons CA f b q' r.eO (val_isSome CA f hvalCA),
                        tSplit_cons_node (childrenAtPos f CA) b q' r.eO lNode hlb,
                        textOfF_take_split (childrenAtPos f CA) (k + 1) b (by omega),
                        take_succ_of_getElem (childrenAtPos f CA) k c hbK,
                        textOfF_append, textOfF_single, hconsvC]
                      simp only [Prod.mk.injEq]
                      constructor
                      · apply str_ext
                        simp only [str_data_append, str_data_empty, List.append_assoc,
                          List.append_nil, List.nil_append]
                      · apply str_ext
                        simp only [str_data_append, List.append_assoc]
                    · show textOfF (frag1 ++ (childrenAtPos f1 CA).filter _ ++ frag3) = _
                      rw [textOfF_append, textOfF_append, hmoved, hfr1, hfr3]
                      apply str_ext
                      simp only [str_data_append, List.append_assoc]
                    · rw [if_neg hsNot]
                      show tSplitF f3 CA (ps.getD CA.length 0 + 1) = _
                      rw [hdecS, getD_append_len CA k rest, hf3s,
                        show setAt F2 (CA ++ [k + 1]) X3 =
                          modifyChildrenAt F2 CA
                            (fun cs => updIdx cs (k + 1) (fun _ => X3)) from
                          modifyAt_append_one CA (k + 1) F2 _]
                      have hvalF3 := val_elem_modifyChildren CA F2
                        (fun cs => updIdx cs (k + 1) (fun _ => X3)) hvalF2
                      rw [tSplit_container _ CA (k + 1) hvalF3,
                        tAround_modifyChildren_self CA F2 _ (val_weak CA F2 hvalF2), hArF2,
                        childrenAt_modifyChildren_self CA F2 _ hvalF2, hkids2,
                        updIdx_append_at _ lNode _ _ (k + 1) hlen1,
                        take_append_at _ _ _ (k + 1) hlen1,
                        drop_append_at _ _ _ (k + 1) hlen1,
                        textOfF_append, textOfF_single, hX1, textOfF_cons, hX3]
                      simp only [Prod.mk.injEq]
                      constructor
                      · apply str_ext
                        simp only [str_data_append, str_data_empty, List.append_assoc,
                          List.append_nil, List.nil_append]
                      · apply str_ext
                        simp only [str_data_append, List.append_assoc]

end HLN
namespace HLN

/-- A successful `insertNode` places the node exactly at the split point: the
node sits at a position whose surrounding text is the two halves of the
pre-insertion split at the point (so the document text becomes
`A ++ textOfN w ++ C`). -/
theorem insertPoint_text (g : Forest) (nid pN pO : Nat) (w : DNode) (f2 : Forest)
    (nid2 : Nat) (P : List Nat) (A C : String)
    (hrel : (pN = 0 ∧ P = []) ∨ (pN ≠ 0 ∧ findPathF g pN = some P))
    (hsplit : tSplitF g P pO = (A, C))
    (hok : insertPoint g nid pN pO w = Except.ok (f2, nid2)) :
    ∃ wq, getAt f2 wq = some w ∧ tAroundF f2 wq = (A, C) := by
  unfold insertPoint at hok
  by_cases h1 : pN = w.nid
  · rw [if_pos h1] at hok; cases hok
  rw [if_neg h1] at hok
  by_cases h2 : pN = 0
  · rw [if_pos h2] at hok
    have hP : P = [] := by
      rcases hrel with ⟨-, hP⟩ | ⟨hne, -⟩
      · exact hP
      · exact absurd h2 hne
    subst hP
    split at hok
    · split at hok
      · cases hok
      · injection hok with hpair
        injection hpair with hf hn
        subst hf
        refine ⟨[(g.take pO).length], ?_, ?_⟩
        · rw [getAt_one, List.append_assoc, List.singleton_append]
          exact getElem?_append_len' _ _ _
        · have hsh : g.take pO ++ [w] ++ g.drop pO = g.take pO ++ w :: g.drop pO := by
            rw [List.append_assoc, List.singleton_append]
          rw [tAroundF_one, hsh, take_append_at _ _ _ _ rfl, drop_append_at1 _ _ _ _ rfl]
          exact hsplit
    · cases hok
  · rw [if_neg h2] at hok
    have hfind : findPathF g pN = some P := by
      rcases hrel with ⟨hz, -⟩ | ⟨-, hfind⟩
      · exact absurd hz h2
      · exact hfind
    simp only [hfind] at hok
    obtain ⟨m, hgp, hmid⟩ := findPathF_some g pN P hfind
    have hpne : P ≠ [] := by
      intro hh
      subst hh
      cases hgp
    rw [hgp] at hok
    cases m with
    | comment a d => cases hok
    | elem a t cc bb dd cs =>
      injection hok with hpair
      injection hpair with hf hn
      subst hf
      have hcseq : childrenAtPos g P = cs := childrenAtPos_of_getAt g P _ hpne hgp
      rw [tSplit_container g P pO (Or.inr ⟨_, hgp, rfl⟩), hcseq] at hsplit
      simp only [Prod.mk.injEq] at hsplit
      obtain ⟨hA, hC⟩ := hsplit
      have hgp2 : getAt (modifyChildrenAt g P
          (fun cs2 => cs2.take pO ++ [w] ++ cs2.drop pO)) P =
          some ((DNode.elem a t cc bb dd cs).withChildList
            ((fun cs2 => cs2.take pO ++ [w] ++ cs2.drop pO)
              (DNode.elem a t cc bb dd cs).childList)) := by
        rw [modifyChildrenAt_as_setAt P g _ _ hpne hgp]
        exact getAt_modifyAt_self P g _ _ hgp
      have hch2 : childrenAtPos (modifyChildrenAt g P
          (fun cs2 => cs2.take pO ++ [w] ++ cs2.drop pO)) P =
          cs.take pO ++ [w] ++ cs.drop pO := by
        rw [childrenAt_modifyChildren_self P g _ (Or.inr ⟨_, hgp, rfl⟩), hcseq]
      have hAr2 : tAroundF (modifyChildrenAt g P
          (fun cs2 => cs2.take pO ++ [w] ++ cs2.drop pO)) P = tAroundF g P :=
        tAround_modifyChildren_self P g _ (Or.inr ⟨_, hgp⟩)
      refine ⟨P ++ [(cs.take pO).length], ?_, ?_⟩
      · rw [getAt_append_one, hch2, List.append_assoc, List.singleton_append]
        exact getElem?_append_len' _ _ _
      · rw [tAroundF_append_cons P _ _ [] (Or.inr (by rw [hgp2]; rfl)),
          tAroundF_one, hAr2, hch2,
          show cs.take pO ++ [w] ++ cs.drop pO = cs.take pO ++ w :: cs.drop pO from by
            rw [List.append_assoc, List.singleton_append],
          take_append_at _ _ _ _ rfl, drop_append_at1 _ _ _ _ rfl]
        simp only [Prod.mk.injEq]
        constructor
        · rw [← hA]
        · rw [← hC]
    | text a d =>
      rcases list_concat_cases P with hp0 | ⟨q0, last, hdec⟩
      · exact absurd hp0 hpne
      subst hdec
      simp only [dropLast_concat2, getLast?_concat2, Option.getD_some] at hok
      split at hok
      next hq0 =>
        subst hq0
        simp only [List.nil_append] at hok hgp hsplit ⊢
        split at hok
        next hcond =>
          injection hok with hpair
          injection hpair with hf hn
          subst hf
          have hgl : g[last]? = some (.text a d) := by
            rw [← getAt_one]
            exact hgp
          have hlast_lt : last < g.length := getElem?_some_lt hgl
          simp only [tSplitF_one, hgl] at hsplit
          simp only [Prod.mk.injEq] at hsplit
          obtain ⟨hA, hC⟩ := hsplit
          have hf1eq : modifyAt g [last] (fun n => setCharData n (strTake d pO)) =
              g.take last ++ setCharData (.text a d) (strTake d pO) :: g.drop (last + 1) :=
            updIdx_eq_append g last _ _ hgl
          have htk : (modifyAt g [last] (fun n => setCharData n (strTake d pO))).take
              (last + 1) = g.take last ++ [setCharData (.text a d) (strTake d pO)] := by
            rw [hf1eq]
            exact take_append_at1 _ _ _ last
              (by rw [List.length_take, Nat.min_eq_left (Nat.le_of_lt hlast_lt)])
          have hdr : (modifyAt g [last] (fun n => setCharData n (strTake d pO))).drop
              (last + 1) = g.drop (last + 1) := by
            rw [hf1eq]
            exact drop_append_at1 _ _ _ last
              (by rw [List.length_take, Nat.min_eq_left (Nat.le_of_lt hlast_lt)])
          have hlen1 : last + 1 =
              (g.take last ++ [setCharData (.text a d) (strTake d pO)]).length := by
            rw [List.length_append, List.length_take,
              Nat.min_eq_left (Nat.le_of_lt hlast_lt)]
            rfl
          refine ⟨[last + 1], ?_, ?_⟩
          · rw [getAt_one, htk, hdr, List.append_assoc]
            exact getElem?_append_at _ w _ (last + 1) hlen1
          · rw [tAroundF_one, htk, hdr, List.append_assoc]
            rw [show [w, DNode.text nid (strDrop d pO)] ++ g.drop (last + 1) =
              w :: DNode.text nid (strDrop d pO) :: g.drop (last + 1) from rfl]
            rw [take_append_at _ _ _ (last + 1) hlen1,
              drop_append_at1 _ _ _ (last + 1) hlen1]
            simp only [Prod.mk.injEq]
            constructor
            · rw [← hA, textOfF_append, textOfF_single,
                show textOfN (setCharData (.text a d) (strTake d pO)) = strTake d pO
                  from rfl,
                show (tSplitNode (DNode.text a d) pO).1 = strTake d pO from rfl]
              apply str_ext
              simp only [str_data_append, str_data_empty, List.append_assoc,
                List.append_nil, List.nil_append]
            · rw [← hC, textOfF_cons,
                show textOfN (DNode.text nid (strDrop d pO)) = strDrop d pO from rfl,
                show (tSplitNode (DNode.text a d) pO).2 = strDrop d pO from rfl]
        next hcond => cases hok
      next hq0 =>
        injection hok with hpair
        injection hpair with hf hn
        subst hf
        obtain ⟨par, hpar⟩ := getAt_pref_some g q0 last [] _ hq0 hgp
        have hparel : par.isElem = true :=
          elem_of_child g q0 par last (.text a d) hq0 hpar
            (by rw [← getAt_append_one]; exact hgp)
        have hcs0k : (childrenAtPos g q0)[last]? = some (.text a d) := by
          rw [← getAt_append_one]
          exact hgp
        have hlast_lt : last < (childrenAtPos g q0).length := getElem?_some_lt hcs0k
        rw [tSplitF_append_cons q0 g last [] pO (Or.inr (by rw [hpar]; rfl))] at hsplit
        simp only [tSplitF_one, hcs0k] at hsplit
        simp only [Prod.mk.injEq] at hsplit
        obtain ⟨hA, hC⟩ := hsplit
        have hf1eq : modifyAt g (q0 ++ [last]) (fun n => setCharData n (strTake d pO))
            = modifyChildrenAt g q0
              (fun cs => updIdx cs last (fun n => setCharData n (strTake d pO))) :=
          modifyAt_append_one q0 last g _
        have hcf1 : childrenAtPos
            (modifyAt g (q0 ++ [last]) (fun n => setCharData n (strTake d pO))) q0
            = updIdx (childrenAtPos g q0) last (fun n => setCharData n (strTake d pO)) := by
          rw [hf1eq]
          exact childrenAt_modifyChildren_self q0 g _ (Or.inr ⟨par, hpar, hparel⟩)
        have hpar1 : getAt (modifyAt g (q0 ++ [last])
            (fun n => setCharData n (strTake d pO))) q0 =
            some (par.withChildList
              ((fun cs => updIdx cs last (fun n => setCharData n (strTake d pO)))
                par.childList)) := by
          rw [hf1eq, modifyChildrenAt_as_setAt q0 g par _ hq0 hpar]
          exact getAt_modifyAt_self q0 g par _ hpar
        have hpar1el : (par.withChildList
            ((fun cs => updIdx cs last (fun n => setCharData n (strTake d pO)))
              par.childList)).isElem = true := by
          rw [isElem_withChildList]
          exact hparel
        have hAr1 : tAroundF (modifyAt g (q0 ++ [last])
            (fun n => setCharData n (strTake d pO))) q0 = tAroundF g q0 := by
          rw [hf1eq]
          exact tAround_modifyChildren_self q0 g _ (Or.inr ⟨par, hpar⟩)
        have hch2 : childrenAtPos (modifyChildrenAt
            (modifyAt g (q0 ++ [last]) (fun n => setCharData n (strTake d pO))) q0
            (fun cs => cs.take (last + 1) ++
              [w, .text nid (strDrop d pO)] ++ cs.drop (last + 1))) q0 =
            ((childrenAtPos g q0).take last ++
              [setCharData (.text a d) (strTake d pO)]) ++
              [w, .text nid (strDrop d pO)] ++ (childrenAtPos g q0).drop (last + 1) := by
          rw [childrenAt_modifyChildren_self q0 _ _ (Or.inr ⟨_, hpar1, hpar1el⟩), hcf1,
            updIdx_eq_append _ last _ _ hcs0k,
            take_append_at1 _ _ _ last
              (by rw [List.length_take, Nat.min_eq_left (Nat.le_of_lt hlast_lt)]),
            drop_append_at1 _ _ _ last
              (by rw [List.length_take, Nat.min_eq_left (Nat.le_of_lt hlast_lt)])]
        have hAr2 : tAroundF (modifyChildrenAt
            (modifyAt g (q0 ++ [last]) (fun n => setCharData n (strTake d pO))) q0
            (fun cs => cs.take (last + 1) ++
              [w, .text nid (strDrop d pO)] ++ cs.drop (last + 1))) q0 =
            tAroundF g q0 := by
          rw [tAround_modifyChildren_self q0 _ _ (Or.inr ⟨_, hpar1⟩)]
          exact hAr1
        have hg2q0 : getAt (modifyChildrenAt
            (modifyAt g (q0 ++ [last]) (fun n => setCharData n (strTake d pO))) q0
            (fun cs => cs.take (last + 1) ++
              [w, .text nid (strDrop d pO)] ++ cs.drop (last + 1))) q0 =
            some ((par.withChildList
              ((fun cs => updIdx cs last (fun n => setCharData n (strTake d pO)))
                par.childList)).withChildList
              ((fun cs => cs.take (last + 1) ++
                [w, .text nid (strDrop d pO)] ++ cs.drop (last + 1))
                (par.withChildList
                  ((fun cs => updIdx cs last (fun n => setCharData n (strTake d pO)))
                    par.childList)).childList)) := by
          rw [modifyChildrenAt_as_setAt q0 _ _ _ hq0 hpar1]
          exact getAt_modifyAt_self q0 _ _ _ hpar1
        have hlen1 : last + 1 =
            ((childrenAtPos g q0).take last ++
              [setCharData (.text a d) (strTake d pO)]).length := by
          rw [List.length_append, List.length_take,
            Nat.min_eq_left (Nat.le_of_lt hlast_lt)]
          rfl
        refine ⟨q0 ++ [last + 1], ?_, ?_⟩
        · rw [getAt_append_one, hch2, List.append_assoc]
          exact getElem?_append_at _ w _ (last + 1) hlen1
        · rw [tAroundF_append_cons q0 _ (last + 1) [] (Or.inr (by rw [hg2q0]; rfl)),
            tAroundF_one, hAr2, hch2, List.append_assoc]
          rw [show [w, DNode.text nid (strDrop d pO)] ++
            (childrenAtPos g q0).drop (last + 1) =
            w :: DNode.text nid (strDrop d pO) ::
              (childrenAtPos g q0).drop (last + 1) from rfl]
          rw [take_append_at _ _ _ (last + 1) hlen1,
            drop_append_at1 _ _ _ (last + 1) hlen1]
          simp only [Prod.mk.injEq]
          constructor
          · rw [← hA, textOfF_append, textOfF_single,
              show textOfN (setCharData (.text a d) (strTake d pO)) = strTake d pO
                from rfl,
              show (tSplitNode (DNode.text a d) pO).1 = strTake d pO from rfl]
            apply str_ext
            simp only [str_data_append, str_data_empty, List.append_assoc,
              List.append_nil, List.nil_append]
          · rw [← hC, textOfF_cons,
              show textOfN (DNode.text nid (strDrop d pO)) = strDrop d pO from rfl,
              show (tSplitNode (DNode.text a d) pO).2 = strDrop d pO from rfl]

end HLN
namespace HLN

/-- Which point an extraction repositions the live range to, read off the top
level of `extractFuel`: the untouched start point when the start container is
the common ancestor, the slot after the start chain otherwise. -/
theorem extract_point_loc (fuel : Nat) (f : Forest) (nid : Nat) (r : BRange)
    (er : ExtractRes) (ps pe : List Nat)
    (hps : pathOfC f r.sN = some ps) (hpe : pathOfC f r.eN = some pe)
    (h : extractFuel fuel f nid r = some er) :
    (commonPrefix ps pe = ps ∧ er.rN = r.sN ∧ er.rO = r.sO) ∨
    (commonPrefix ps pe ≠ ps ∧ er.rN = idAtPos f (commonPrefix ps pe) ∧
      er.rO = ps.getD (commonPrefix ps pe).length 0 + 1) := by
  cases fuel with
  | zero => cases h
  | succ fuel =>
    simp only [extractFuel] at h
    split at h
    case isTrue hcol =>
      unfold collapsedB at hcol
      rw [Bool.and_eq_true, decide_eq_true_eq, decide_eq_true_eq] at hcol
      obtain ⟨hse, hso⟩ := hcol
      rw [← hse] at hpe
      rw [hps] at hpe
      injection hpe with hpe2
      subst hpe2
      injection h with h
      subst h
      exact Or.inl ⟨commonPrefix_self ps, rfl, rfl⟩
    case isFalse hncol =>
      rw [hps, hpe] at h
      split at h
      case h_2 o1 o2 hfalse => exact (hfalse ps pe rfl rfl).elim
      case h_1 o1 o2 ps2 pe2 heqp1 heqp2 =>
        injection heqp1 with heqp1
        injection heqp2 with heqp2
        subst heqp1
        subst heqp2
        split at h
        case isTrue hcd =>
          rw [Bool.and_eq_true, decide_eq_true_eq] at hcd
          obtain ⟨hse, hic⟩ := hcd
          rw [← hse] at hpe
          rw [hps] at hpe
          injection hpe with hpe2
          subst hpe2
          injection h with h
          subst h
          exact Or.inl ⟨commonPrefix_self ps, rfl, rfl⟩
        case isFalse hcd =>
          split at h
          case h_1 o3 heq1 => cases h
          case h_2 o3 frag1 f1 nid1 heq1 =>
            split at h
            case h_1 o4 heq3 => cases h
            case h_2 o4 frag3 f3 nid3 heq3 =>
              injection h with h
              subst h
              split at heq1
              case isTrue hsd =>
                exact Or.inl ⟨of_decide_eq_true hsd,
                  by rw [if_pos hsd], by rw [if_pos hsd]⟩
              case isFalse hsd =>
                exact Or.inr ⟨fun hh => hsd (decide_eq_true hh),
                  by rw [if_neg hsd], by rw [if_neg hsd]⟩

/-- The full text bookkeeping of a successful extraction, located at the
repositioned point: the document text was `A ++ M ++ C`, the fragment carries
`M`, and the mutated document splits as `A`/`C` exactly at the point the
range was repositioned to (given by container id and offset). -/
theorem extract_text_full (fuel : Nat) (f : Forest) (nid : Nat) (r : BRange)
    (er : ExtractRes) (ps pe : List Nat)
    (hyps : extractHyps f r ps pe)
    (hex : extractFuel fuel f nid r = some er) :
    ∃ A C, textOfF f = A ++ (textOfF er.frag ++ C) ∧
      ∃ P, ((er.rN = 0 ∧ P = []) ∨ (er.rN ≠ 0 ∧ findPathF er.roots er.rN = some P)) ∧
        tSplitF er.roots P er.rO = (A, C) := by
  obtain ⟨hnd, hpos, hps, hpe, hord, hsb, heb⟩ := hyps
  obtain ⟨A, M, C, hs1, hs2, hfr, hpt⟩ :=
    extract_text fuel f nid r er ps pe ⟨hnd, hpos, hps, hpe, hord, hsb, heb⟩ hex
  obtain ⟨hlo, hsub, hca, -⟩ :=
    extract_struct fuel f nid r er ps pe ⟨hnd, hpos, hps, hpe, hord, hsb, heb⟩ hex
  have hpsvalid : ps = [] ∨ (getAt f ps).isSome = true := by
    rcases pathOfC_cases f r.sN ps hps with ⟨_, hp⟩ | ⟨_, m, hm, _⟩
    · exact Or.inl hp
    · exact Or.inr (by rw [hm]; rfl)
  have htot : textOfF f = A ++ (M ++ C) := by
    have h0 := tSplit_conserveF ps f r.sO hpsvalid
    rw [hs1] at h0
    exact h0.symm
  refine ⟨A, C, by rw [hfr]; exact htot, ?_⟩
  rcases extract_point_loc fuel f nid r er ps pe hps hpe hex with
    ⟨hcaps, hrN, hrO⟩ | ⟨hcaps, hrN, hrO⟩
  · rw [if_pos hcaps] at hpt
    refine ⟨ps, ?_, by rw [hrO]; exact hpt⟩
    rcases pathOfC_cases f r.sN ps hps with ⟨h0, hpnil⟩ | ⟨hne0, m, hgm, hmid⟩
    · exact Or.inl ⟨by rw [hrN]; exact h0, hpnil⟩
    · refine Or.inr ⟨by rw [hrN]; exact hne0, ?_⟩
      rw [hrN]
      have hfps : findPathF f r.sN = some ps := by
        unfold pathOfC at hps
        rw [if_neg hne0] at hps
        exact hps
      exact findPathF_stable f er.roots r.sN ps hlo hfps
  · rw [if_neg hcaps] at hpt
    refine ⟨commonPrefix ps pe, ?_, by rw [hrO]; exact hpt⟩
    obtain ⟨k, rest, hdec⟩ :=
      isPref_decompose _ ps (commonPrefix_pref_left ps pe) hcaps
    cases hca0 : commonPrefix ps pe with
    | nil =>
      refine Or.inl ⟨?_, rfl⟩
      rw [hrN, hca0]
      rfl
    | cons c0 ctl =>
      obtain ⟨X, mca, hgca, hroots, hshX⟩ := hca (by rw [hca0]; simp)
      rw [hca0] at hgca hdec
      have hrn2 : er.rN = mca.nid := by
        rw [hrN, hca0, idAtPos_at f _ mca (by simp) hgca]
      refine Or.inr ⟨?_, ?_⟩
      · rw [hrn2]
        have := hpos mca.nid (getAt_nid_mem f _ mca hgca)
        omega
      · rw [hrn2]
        have hfca : findPathF f mca.nid = some (c0 :: ctl) :=
          findPathF_of_getAt f _ mca hnd hgca
        refine findPathF_stable f er.roots mca.nid _ ?_ hfca
        exact laterOnly_pref (c0 :: ctl) (k :: rest) f er.roots (by rw [← hdec]; exact hlo)

end HLN
namespace HLN

/-- A successful `surroundContents` preserves the document's whole text
content: the extracted fragment is re-attached under the wrapper, which sits
exactly at the extraction point. -/
theorem surround_text (f : Forest) (nid0 : Nat) (r : BRange) (w : DNode) (ps pe : List Nat)
    (hh : extractHyps f r ps pe)
    (hwel : w.isElem = true)
    (hwnd : (idsN w).Nodup) (hwdisj : ∀ j ∈ idsN w, j ∉ idsF f)
    (hlt : ∀ j ∈ idsF f, j < nid0) (hwlt : ∀ j ∈ idsN w, j < nid0)
    (hok : (surroundSteps f nid0 r w).ok = true) :
    textOfF (surroundSteps f nid0 r w).roots = textOfF f := by
  rcases heq : surroundSteps f nid0 r w with ⟨ok1, roots1, nid1, rng1⟩
  rw [heq] at hok
  simp only at hok ⊢
  subst hok
  obtain ⟨hnd, hpos, hps, hpe, hord, hsb, heb⟩ := hh
  unfold surroundSteps at heq
  rw [hps, hpe] at heq
  simp only at heq
  split at heq
  · cases heq
  · split at heq
    · cases heq
    case _ er hext =>
      obtain ⟨A, C, htot, P, hprel, hsplit⟩ :=
        extract_text_full (2 * sizeF f + 2) f nid0 r er ps pe
          ⟨hnd, hpos, hps, hpe, hord, hsb, heb⟩ hext
      obtain ⟨-, hsub, -, -⟩ :=
        extract_struct (2 * sizeF f + 2) f nid0 r er ps pe
          ⟨hnd, hpos, hps, hpe, hord, hsb, heb⟩ hext
      split at heq
      · cases heq
      case _ f2' nid2' hins =>
        obtain ⟨wq, hwq, hAr⟩ := insertPoint_text er.roots er.nid er.rN er.rO w f2' nid2'
          P A C hprel hsplit hins
        have hnd2 : (idsF f2').Nodup := by
          refine insertPoint_ids er.roots er.nid er.rN er.rO w f2' nid2' hins
            (hsub.nodup hnd) hwnd (fun j hj hcon => hwdisj j hj (hsub.mem hcon)) ?_ ?_
          · intro hcon
            have h8 := hlt er.nid (hsub.mem hcon)
            have h9 := extract_nid_mono (2 * sizeF f + 2) f nid0 r er hext
            omega
          · intro hcon
            have h8 := hwlt er.nid hcon
            have h9 := extract_nid_mono (2 * sizeF f + 2) f nid0 r er hext
            omega
        have hfw : findPathF f2' w.nid = some wq :=
          findPathF_of_getAt f2' wq w hnd2 hwq
        rw [hfw] at heq
        simp only at heq
        injection heq with he1 he2 he3 he4
        subst he2
        calc textOfF (modifyAt f2' wq (fun n => n.withChildList er.frag))
            = (tAroundF f2' wq).1 ++
              (textOfN (w.withChildList er.frag) ++ (tAroundF f2' wq).2) :=
              textOf_modifyAt_around wq f2' w _ hwq
          _ = A ++ (textOfF er.frag ++ C) := by
              rw [hAr, textOfN_withChildList w er.frag hwel]
          _ = textOfF f := htot.symm

end HLN
namespace HLN

/-- A successful `highlightRange` preserves the document's whole text content
(on both success paths: `surroundContents`, and the extract-and-reinsert
fallback). -/
theorem highlight_text (st : HState) (r : BRange) (color : String) (now : Nat)
    (rec : StoredHighlight) (st1 : HState)
    (hWF : WF st) (hvr : validRangeB st.roots r = true)
    (hhl : highlightRange st r color now = (some rec, st1)) :
    textOfF st1.roots = textOfF st.roots := by
  obtain ⟨hnd, hbnd, hnotext⟩ := hWF
  unfold validRangeB at hvr
  cases hps0 : pathOfC st.roots r.sN with
  | none => rw [hps0] at hvr; cases hvr
  | some ps =>
  cases hpe0 : pathOfC st.roots r.eN with
  | none => rw [hps0, hpe0] at hvr; cases hvr
  | some pe =>
  rw [hps0, hpe0] at hvr
  simp only [Bool.and_eq_true, decide_eq_true_eq] at hvr
  obtain ⟨⟨hsb, heb⟩, hord⟩ := hvr
  have hh : extractHyps st.roots r ps pe :=
    ⟨hnd, fun i hi => (hbnd i hi).1, hps0, hpe0, hord, hsb, heb⟩
  have hwnd : (idsN (mkWrapper st.nextId st.counter color)).Nodup := by
    simp [mkWrapper, idsN, idsF]
  have hwdisj : ∀ j ∈ idsN (mkWrapper st.nextId st.counter color), j ∉ idsF st.roots := by
    intro j hj
    simp only [mkWrapper, idsN, idsF, List.append_nil, List.mem_singleton] at hj
    subst hj
    intro hcon
    have := (hbnd _ hcon).2
    omega
  have hlt : ∀ j ∈ idsF st.roots, j < st.nextId + 1 := by
    intro j hj
    have := (hbnd j hj).2
    omega
  have hwlt : ∀ j ∈ idsN (mkWrapper st.nextId st.counter color), j < st.nextId + 1 := by
    intro j hj
    simp only [mkWrapper, idsN, idsF, List.append_nil, List.mem_singleton] at hj
    omega
  simp only [highlightRange] at hhl
  by_cases hcol : collapsedB r = true
  · rw [if_pos hcol] at hhl
    injection hhl with h1 h2
    cases h1
  rw [if_neg hcol] at hhl
  cases hok : (surroundSteps st.roots (st.nextId + 1) r
      (mkWrapper st.nextId st.counter color)).ok with
  | true =>
    rw [hok, if_pos rfl] at hhl
    injection hhl with h1 h2
    subst h2
    exact surround_text st.roots (st.nextId + 1) r
      (mkWrapper st.nextId st.counter color) ps pe hh rfl hwnd hwdisj hlt hwlt hok
  | false =>
    rw [hok, if_neg (by simp)] at hhl
    rcases surround_fail_cases st.roots (st.nextId + 1) r
        (mkWrapper st.nextId st.counter color) with hT | hP | ⟨er, hext, hinsE, hS⟩
    · rw [hok] at hT
      cases hT
    · simp only [hP] at hhl
      cases hext2 : extractFuel (2 * sizeF st.roots + 2) st.roots (st.nextId + 1) r with
      | none =>
        rw [hext2] at hhl
        injection hhl with h1 h2
        cases h1
      | some er =>
        simp only [hext2] at hhl
        obtain ⟨A, C, htot, P, hprel, hsplit⟩ :=
          extract_text_full (2 * sizeF st.roots + 2) st.roots (st.nextId + 1) r
            er ps pe hh hext2
        cases hins2 : insertPoint er.roots er.nid er.rN er.rO
            ((mkWrapper st.nextId st.counter color).withChildList er.frag) with
        | error e =>
          rw [hins2] at hhl
          injection hhl with h1 h2
          cases h1
        | ok fp =>
          rcases fp with ⟨F, nidF⟩
          rw [hins2] at hhl
          injection hhl with h1 h2
          subst h2
          obtain ⟨wq, hwq, hAr⟩ := insertPoint_text er.roots er.nid er.rN er.rO
            ((mkWrapper st.nextId st.counter color).withChildList er.frag) F nidF
            P A C hprel hsplit hins2
          calc textOfF F
              = (tAroundF F wq).1 ++
                (textOfN ((mkWrapper st.nextId st.counter color).withChildList er.frag) ++
                  (tAroundF F wq).2) := tAround_at wq F _ hwq
            _ = A ++ (textOfF er.frag ++ C) := by
                rw [hAr, textOfN_withChildList (mkWrapper st.nextId st.counter color)
                  er.frag rfl]
            _ = textOfF st.roots := htot.symm
    · simp only [hS] at hhl
      have h22 : ∀ (fl : Nat) (f0 : Forest) (n0 : Nat),
          extractFuel (fl + 1) f0 n0 ⟨er.rN, er.rO, er.rN, er.rO⟩
            = some ⟨[], f0, n0, er.rN, er.rO⟩ := by
        intro fl f0 n0
        rw [extractFuel]
        rw [if_pos (by simp [collapsedB])]
      rw [show extractFuel (2 * sizeF er.roots + 2) er.roots er.nid
          ⟨er.rN, er.rO, er.rN, er.rO⟩ = some ⟨[], er.roots, er.nid, er.rN, er.rO⟩ from
          h22 (2 * sizeF er.roots + 1) er.roots er.nid] at hhl
      simp only [show ((mkWrapper st.nextId st.counter color).withChildList ([] : Forest))
          = mkWrapper st.nextId st.counter color from rfl, hinsE] at hhl
      injection hhl with h1 h2
      cases h1

/-- `removeHighlightElement` preserves the document's whole text content
whenever it returns: the marker is replaced by a text node carrying its text
content, and normalization does not change text content. -/
theorem remove_text (st : HState) (elId : Nat) (st2 : HState)
    (hok : removeHighlightElement st elId = Except.ok st2) :
    textOfF st2.roots = textOfF st.roots := by
  unfold removeHighlightElement at hok
  split at hok
  case h_1 =>
    injection hok with hok
    subst hok
    rfl
  case h_2 p hfp =>
    split at hok
    case h_2 =>
      injection hok with hok
      subst hok
      rfl
    case h_1 el hgel =>
      split at hok
      · injection hok with hok
        subst hok
        rfl
      next hmk =>
        split at hok
        · cases hok
        next hplen =>
          injection hok with hok
          subst hok
          show textOfF (modifyAt (setAt st.roots p (DNode.text st.nextId (textOfN el)))
            p.dropLast normalizeN) = textOfF st.roots
          have hpne : p ≠ [] := by
            intro hh
            subst hh
            cases hgel
          rcases list_concat_cases p with hp0 | ⟨q0, last, hdec⟩
          · exact absurd hp0 hpne
          subst hdec
          have hq0ne : q0 ≠ [] := by
            intro hh
            subst hh
            simp at hplen
          obtain ⟨par, hpar⟩ := getAt_pref_some st.roots q0 last [] el hq0ne hgel
          have htf1 : textOfF (setAt st.roots (q0 ++ [last])
              (DNode.text st.nextId (textOfN el))) = textOfF st.roots := by
            rw [show setAt st.roots (q0 ++ [last]) (DNode.text st.nextId (textOfN el)) =
              modifyAt st.roots (q0 ++ [last])
                (fun _ => DNode.text st.nextId (textOfN el)) from rfl,
              textOf_modifyAt_around (q0 ++ [last]) st.roots el _ hgel,
              show textOfN (DNode.text st.nextId (textOfN el)) = textOfN el from rfl,
              tAround_at (q0 ++ [last]) st.roots el hgel]
          have hgq0 : getAt (setAt st.roots (q0 ++ [last])
              (DNode.text st.nextId (textOfN el))) q0 =
              some (par.withChildList
                ((fun cs => updIdx cs last (fun _ => DNode.text st.nextId (textOfN el)))
                  par.childList)) := by
            rw [show setAt st.roots (q0 ++ [last]) (DNode.text st.nextId (textOfN el)) =
              modifyChildrenAt st.roots q0
                (fun cs => updIdx cs last (fun _ => DNode.text st.nextId (textOfN el)))
              from modifyAt_append_one q0 last st.roots _,
              modifyChildrenAt_as_setAt q0 st.roots par _ hq0ne hpar]
            exact getAt_modifyAt_self q0 st.roots par _ hpar
          rw [dropLast_concat2,
            textOf_modifyAt_around q0 _ _ normalizeN hgq0, normalizeN_text,
            ← tAround_at q0 _ _ hgq0]
          exact htf1

end HLN
namespace HLN

/-- C7: for any sequence of a successful `highlightRange` followed by
`removeHighlightElement` applied to the marker that call created (the element
given the id `st.nextId`), the concatenated text content of the document —
and so of the marker's parent, the only node whose subtree either call
touches — equals its pre-highlight content; the removal renormalizes the
parent's adjacent text nodes, which leaves the concatenated text unchanged. -/
theorem C7_text_preserved (st : HState) (r : BRange) (color : String) (now : Nat)
    (rec : StoredHighlight) (st1 st2 : HState)
    (hWF : WF st) (hvr : validRangeB st.roots r = true)
    (hhl : highlightRange st r color now = (some rec, st1))
    (hrm : removeHighlightElement st1 st.nextId = Except.ok st2) :
    textOfF st2.roots = textOfF st.roots := by
  rw [remove_text st1 st.nextId st2 hrm]
  exact highlight_text st r color now rec st1 hWF hvr hhl

theorem C7_text_preserved_witness :
    WF bodyState ∧ validRangeB bodyState.roots bodyRange = true ∧
    highlightRange bodyState bodyRange "yellow" 5 =
      (some ⟨"art of writing", "yellow", "//html[1]/body[1]/text()[1]", 4, 14, 5⟩,
        ⟨[.elem 1 "html" "" "" none [.elem 2 "body" "" "" none
          [.text 3 "The ",
           .elem 10 "span" "st-highlight" "yellow" (some "0") [.text 11 "art of writing"],
           .text 12 " is the art of discovering what you believe."]]], 13, 1⟩) ∧
    removeHighlightElement
      ⟨[.elem 1 "html" "" "" none [.elem 2 "body" "" "" none
        [.text 3 "The ",
         .elem 10 "span" "st-highlight" "yellow" (some "0") [.text 11 "art of writing"],
         .text 12 " is the art of discovering what you believe."]]], 13, 1⟩ 10 =
      Except.ok ⟨[.elem 1 "html" "" "" none [.elem 2 "body" "" "" none
        [.text 3 "The art of writing is the art of discovering what you believe."]]],
        14, 1⟩ ∧
    textOfF ([.elem 1 "html" "" "" none [.elem 2 "body" "" "" none
      [.text 3 "The art of writing is the art of discovering what you believe."]]]
        : Forest) = textOfF bodyState.roots :=
  ⟨by decide, by decide, rfl, rfl,
    C7_text_preserved bodyState bodyRange "yellow" 5
      ⟨"art of writing", "yellow", "//html[1]/body[1]/text()[1]", 4, 14, 5⟩
      ⟨[.elem 1 "html" "" "" none [.elem 2 "body" "" "" none
        [.text 3 "The ",
         .elem 10 "span" "st-highlight" "yellow" (some "0") [.text 11 "art of writing"],
         .text 12 " is the art of discovering what you believe."]]], 13, 1⟩
      ⟨[.elem 1 "html" "" "" none [.elem 2 "body" "" "" none
        [.text 3 "The art of writing is the art of discovering what you believe."]]],
        14, 1⟩
      (by decide) (by decide) rfl rfl⟩

end HLN
